import Mathlib

/-!
# secp256k1 point arithmetic (`Point.cpp`, `SECP256K1.cpp`)

A shallow embedding of the curve layer of the repository.  An `Int` of the source (five 64-bit
limbs) is embedded as the natural number it holds; a `Point` is a triple of such numbers.  The
bodies of the curve functions are transcribed statement by statement from `Point.cpp` and
`SECP256K1.cpp`; a loop is a recursive function on the number of iterations left, passing the
loop state.  The modular primitives they call (`Int::ModAdd`, `Int::ModMulK1`, ...) are only
declared in `Int.h`; they are modelled from the specification and from the comments in `Int.h`.

Layout: the definitions of the program come first (the curve arithmetic, then the key parsers
and printers, then the self-tests, the hash input buffers and the address functions, then the
inline routines of `Int.h` that work on the limbs themselves, on arrays of limbs), then the
predicates of the statements and the curve `y² = x³ + 7` over `ZMod prime` with Mathlib's group
law on its points.  The field prime and the group order are proved prime by Pocklington
certificates; the definitions that need the field structure follow that proof.  Then come the
algebra of the addition formulas, their agreement with the group law, the order of the generator,
the loops of `MulDirect`, `Init` and `ComputePublicKey`, the number of points of the curve, the
square root and the hexadecimal strings, the degenerate cases of the addition, the calls of
`Init`, the hash input buffers, the limb routines, and the claims.
-/

/-! ## Modular exponentiation and primality certificates (proof tools) -/

namespace PrimeCert

/-- Square-and-multiply loop computing `acc * a ^ e` modulo `m`; `fuel` bounds the bit length
of `e`. -/
def powModAux (m : Nat) : Nat → Nat → Nat → Nat → Nat
  | 0, _, _, acc => acc
  | fuel + 1, a, e, acc =>
    if e = 0 then acc
    else powModAux m fuel ((a * a) % m) (e / 2) (if e % 2 = 1 then (acc * a) % m else acc)

/-- Modular exponentiation `a ^ e mod m`. -/
def powMod (a e m : Nat) : Nat := powModAux m e a e 1 % m

/-- An entry `(q, e, a)` of a Pocklington certificate for `N`: `q` is prime, `q ^ e` divides
`N - 1`, and `a` is a witness for `q`. -/
def CertEntry (N : ℕ) (t : ℕ × ℕ × ℕ) : Prop :=
  t.1.Prime ∧ t.1 ^ t.2.1 ∣ N - 1 ∧ powMod t.2.2 (N - 1) N = 1 ∧
    Nat.gcd (powMod t.2.2 ((N - 1) / t.1) N + (N - 1)) N = 1

/-- The fully factored part of `N - 1` described by a certificate. -/
def certF (l : List (ℕ × ℕ × ℕ)) : ℕ := (l.map (fun t => t.1 ^ t.2.1)).prod

end PrimeCert

/-! ## Constants of `SECP256K1.cpp` -/

namespace Secp256K1

/-- The literal `Secp256K1::prime` (prime for the finite field). -/
def prime : Nat := 0xFFFFFFFFFFFFFFFFFFFFFFFFFFFFFFFFFFFFFFFFFFFFFFFFFFFFFFFEFFFFFC2F

/-- The literal `Secp256K1::order`. -/
def order : Nat := 0xFFFFFFFFFFFFFFFFFFFFFFFFFFFFFFFEBAAEDCE6AF48A03BBFD25E8CD0364141

end Secp256K1

/-! ## `Int` primitives (declared in `Int.h`, bodies not in the repository excerpt)

`Secp256K1::Init` calls `Int::SetupField(prime)`, so the process-wide modulus of every modular
operation below is `Secp256K1::prime`. -/

namespace BigInt

open Secp256K1 (prime)

/-- Modelled from the spec: `Int::ModAdd(a, b)` and `Int::ModAdd(a)` ("adds then conditionally
subtracts p; inputs must already be in [0, p)"; `Int.h`: "this <- a+b (mod n)"). -/
def ModAdd (a b : Nat) : Nat := if prime ≤ a + b then a + b - prime else a + b

/-- Modelled from the spec: `Int::ModSub(a, b)` and `Int::ModSub(a)` ("subtracts and conditionally
adds p"; `Int.h`: "this <- a-b (mod n)"). -/
def ModSub (a b : Nat) : Nat := if a < b then a + prime - b else a - b

/-- Modelled from the spec: `Int::ModDouble` (`Int.h`: "this <- 2*this (mod n)"). -/
def ModDouble (a : Nat) : Nat := (2 * a) % prime

/-- Modelled from the spec: `Int::ModNeg` (`Int.h`: "this <- -this (mod n)"; the spec keeps every
field value in the reduced range `[0, p)`). -/
def ModNeg (a : Nat) : Nat := (prime - a % prime) % prime

/-- Modelled from the spec: `Int::ModMulK1(a, b)` and `Int::ModMulK1(a)`, the product reduced
modulo the secp256k1 prime ("t mod p = t_lo + t_hi * (2^32 + 977) with carry propagation and a
final conditional subtract"). -/
def ModMulK1 (a b : Nat) : Nat := (a * b) % prime

/-- Modelled from the spec: `Int::ModSquareK1(a)`, the square reduced modulo the secp256k1 prime. -/
def ModSquareK1 (a : Nat) : Nat := (a * a) % prime

/-- Modelled from the spec: the generic `Int::ModMul(a, b)` (`Int.h`: "this <- a*b (mod n)"). -/
def ModMul (a b : Nat) : Nat := (a * b) % prime

/-- The loop of the modular inverse on `(u, v)` with the running coefficients `(r, s)`: it stops
when `v` reaches zero and returns the final `u` and its coefficient.  `fuel` bounds the number of
steps (`v` decreases at every step). -/
def ModInvLoop : Nat → Nat → Nat → Int → Int → Nat × Int
  | 0, u, _, r, _ => (u, r)
  | fuel + 1, u, v, r, s =>
    if v = 0 then (u, r) else ModInvLoop fuel v (u % v) s (r - ((u / v : Nat) : Int) * s)

/-- Modelled from the spec: `Int::ModInv` ("Terminates when v reaches zero; the final u carries
the gcd and the accompanying coefficient is the inverse (adjusted into [0, p) if negative)"), for
the process-wide field modulus `p`.  The spec describes the safegcd divstep iteration; the model
runs the Euclidean iteration, which ends with the same gcd and the same coefficient modulo `p`. -/
def ModInv (a : Nat) : Nat :=
  ((ModInvLoop (a + 1) prime a 0 1).2 % (prime : Int)).toNat

/-- Modelled from the spec: `Int::GetByte(n)` ("Byte index 0 is the least significant byte"). -/
def GetByte (a : Nat) (n : Nat) : Nat := (a / 256 ^ n) % 256

/-- Modelled from the spec: `Int::GetBit(n)`, bit `n` of the value (bit 0 least significant). -/
def GetBit (a : Nat) (n : Nat) : Nat := (a / 2 ^ n) % 2

/-- Bit length by repeated halving; `fuel` bounds the number of halvings. -/
def bitLengthAux : Nat → Nat → Nat
  | 0, _ => 0
  | fuel + 1, a => if a = 0 then 0 else bitLengthAux fuel (a / 2) + 1

/-- Modelled from the spec: `Int::GetBitLength` ("returns the position of the highest set bit
plus one (zero for value 0)"). -/
def GetBitLength (a : Nat) : Nat := bitLengthAux a a

end BigInt

/-! ## `Point` (`Point.h`, `Point.cpp`) -/

/-- The class `Point`: the three `Int` members `x`, `y`, `z`. -/
structure Point where
  x : Nat
  y : Nat
  z : Nat
deriving DecidableEq, Repr

namespace Point

open BigInt

/-- `Point::Clear`. -/
def Clear : Point := ⟨0, 0, 0⟩

/-- `Point::isZero`. -/
def isZero (p : Point) : Bool := p.x == 0 && p.y == 0

/-- `Point::equals`. -/
def equals (t p : Point) : Bool := t.x == p.x && t.y == p.y && t.z == p.z

/-- `Point::Reduce`. -/
def Reduce (t : Point) : Point :=
  let i := ModInv t.z
  let x := ModMul t.x i
  let y := ModMul t.y i
  ⟨x, y, 1⟩

/-- `Point::Double` (the receiver is `t`, the result is its new value). -/
def Double (t : Point) : Point :=
  let z2 := ModSquareK1 t.z
  let z2 := (fun _ => 0) z2 -- a=0
  let x2 := ModSquareK1 t.x
  let _3x2 := ModAdd x2 x2
  let _3x2 := ModAdd _3x2 x2
  let w := ModAdd z2 _3x2
  let s := ModMulK1 t.y t.z
  let b := ModMulK1 t.y s
  let b := ModMulK1 b t.x
  let h := ModSquareK1 w
  let _8b := ModAdd b b
  let _8b := ModDouble _8b
  let _8b := ModDouble _8b
  let h := ModSub h _8b
  let rx := ModMulK1 h s
  let rx := ModAdd rx rx
  let s2 := ModSquareK1 s
  let y2 := ModSquareK1 t.y
  let _8y2s2 := ModMulK1 y2 s2
  let _8y2s2 := ModDouble _8y2s2
  let _8y2s2 := ModDouble _8y2s2
  let _8y2s2 := ModDouble _8y2s2
  let ry := ModAdd b b
  let ry := ModAdd ry ry
  let ry := ModSub ry h
  let ry := ModMulK1 ry w
  let ry := ModSub ry _8y2s2
  let rz := ModMulK1 s2 s
  let rz := ModDouble rz
  let rz := ModDouble rz
  let rz := ModDouble rz
  ⟨rx, ry, rz⟩

/-- `Point::Add` (the receiver is `t`, the result is its new value). -/
def Add (t p : Point) : Point :=
  if t.equals p then t.Double
  else
    let u1 := ModMulK1 p.y t.z
    let u2 := ModMulK1 t.y p.z
    let v1 := ModMulK1 p.x t.z
    let v2 := ModMulK1 t.x p.z
    let u := ModSub u1 u2
    let v := ModSub v1 v2
    let w := ModMulK1 t.z p.z
    let us2 := ModSquareK1 u
    let vs2 := ModSquareK1 v
    let vs3 := ModMulK1 vs2 v
    let us2w := ModMulK1 us2 w
    let vs2v2 := ModMulK1 vs2 v2
    let _2vs2v2 := ModAdd vs2v2 vs2v2
    let a := ModSub us2w vs3
    let a := ModSub a _2vs2v2
    let rx := ModMulK1 v a
    let vs3u2 := ModMulK1 vs3 u2
    let ry := ModSub vs2v2 a
    let ry := ModMulK1 ry u
    let ry := ModSub ry vs3u2
    let rz := ModMulK1 vs3 w
    ⟨rx, ry, rz⟩

/-- `Point::DoubleDirect` (the receiver is `t`, the result is its new value). -/
def DoubleDirect (t : Point) : Point :=
  let _s := ModMulK1 t.x t.x
  let _p := ModAdd _s _s
  let _p := ModAdd _p _s
  let a := ModAdd t.y t.y
  let a := ModInv a
  let _s := ModMulK1 _p a
  let _p := ModMulK1 _s _s
  let a := ModAdd t.x t.x
  let a := ModNeg a
  let rx := ModAdd a _p
  let a := ModSub rx t.x
  let _p := ModMulK1 a _s
  let ry := ModAdd _p t.y
  let ry := ModNeg ry
  ⟨rx, ry, 1⟩

/-- `Point::AddDirect` (the receiver is `t`, the result is its new value). -/
def AddDirect (t p : Point) : Point :=
  if t.equals p then t.DoubleDirect
  else
    let dy := ModSub p.y t.y
    let dx := ModSub p.x t.x
    let dx := ModInv dx
    let _s := ModMulK1 dy dx
    let _p := ModSquareK1 _s
    let rx := ModSub _p t.x
    let rx := ModSub rx p.x
    let ry := ModSub p.x rx
    let ry := ModMulK1 ry _s
    let ry := ModSub ry p.y
    ⟨rx, ry, 1⟩

/-- The loop of `Point::MulDirect`: state `(r, assigned, p2)` together with the list of the
pairs `(r, p2)` on which `r.Add(p2)` has been called so far; `cnt` iterations left, bit
index `i`. -/
def MulDirectLoop (s : Nat) :
    Nat → Nat → Point × Bool × Point × List (Point × Point) →
      Point × Bool × Point × List (Point × Point)
  | 0, _, st => st
  | cnt + 1, i, (r, assigned, p2, calls) =>
    let st :=
      if GetBit s i = 1 then
        if !assigned then (p2, true, calls) else (r.Add p2, assigned, calls ++ [(r, p2)])
      else (r, assigned, calls)
    MulDirectLoop s cnt (i + 1) (st.1, st.2.1, p2.Double, st.2.2)

/-- `Point::MulDirect` (also `operator*`).  The local `Point r` is not initialised by its
constructor; `r0` stands for its indeterminate initial contents. -/
def MulDirect (r0 : Point) (t : Point) (s : Nat) : Point :=
  let bits := GetBitLength s
  (MulDirectLoop s bits 0 (r0, false, t, [])).1.Reduce

/-- The pairs `(r, p2)` on which `Point::MulDirect` calls `r.Add(p2)`. -/
def MulDirectCalls (r0 : Point) (t : Point) (s : Nat) : List (Point × Point) :=
  (MulDirectLoop s (GetBitLength s) 0 (r0, false, t, [])).2.2.2

end Point

/-! ## `Secp256K1` (`SECP256k1.h`, `SECP256K1.cpp`) -/

namespace Secp256K1

open BigInt

/-- The literal `Secp256K1::G` (uncompressed form `04 x y`; parsing sets `z = 1`). -/
def G : Point :=
  ⟨0x79BE667EF9DCBBAC55A06295CE870B07029BFCDB2DCE28D959F2815B16F81798,
   0x483ADA7726A3C4655DA4FBFC0E1108A8FD17B448A68554199C47D08FFB10D4B8, 1⟩

/-- `Secp256K1::Add2`. -/
def Add2 (p1 p2 : Point) : Point :=
  let u1 := ModMulK1 p2.y p1.z
  let v1 := ModMulK1 p2.x p1.z
  let u := ModSub u1 p1.y
  let v := ModSub v1 p1.x
  let us2 := ModSquareK1 u
  let vs2 := ModSquareK1 v
  let vs3 := ModMulK1 vs2 v
  let us2w := ModMulK1 us2 p1.z
  let vs2v2 := ModMulK1 vs2 p1.x
  let _2vs2v2 := ModAdd vs2v2 vs2v2
  let a := ModSub us2w vs3
  let a := ModSub a _2vs2v2
  let rx := ModMulK1 v a
  let vs3u2 := ModMulK1 vs3 p1.y
  let ry := ModSub vs2v2 a
  let ry := ModMulK1 ry u
  let ry := ModSub ry vs3u2
  let rz := ModMulK1 vs3 p1.z
  ⟨rx, ry, rz⟩

/-- `Secp256K1::Add`. -/
def Add (p1 p2 : Point) : Point :=
  let u1 := ModMulK1 p2.y p1.z
  let u2 := ModMulK1 p1.y p2.z
  let v1 := ModMulK1 p2.x p1.z
  let v2 := ModMulK1 p1.x p2.z
  let u := ModSub u1 u2
  let v := ModSub v1 v2
  let w := ModMulK1 p1.z p2.z
  let us2 := ModSquareK1 u
  let vs2 := ModSquareK1 v
  let vs3 := ModMulK1 vs2 v
  let us2w := ModMulK1 us2 w
  let vs2v2 := ModMulK1 vs2 v2
  let _2vs2v2 := ModAdd vs2v2 vs2v2
  let a := ModSub us2w vs3
  let a := ModSub a _2vs2v2
  let rx := ModMulK1 v a
  let vs3u2 := ModMulK1 vs3 u2
  let ry := ModSub vs2v2 a
  let ry := ModMulK1 ry u
  let ry := ModSub ry vs3u2
  let rz := ModMulK1 vs3 w
  ⟨rx, ry, rz⟩

/-- `Secp256K1::Double`. -/
def Double (p : Point) : Point :=
  let z2 := ModSquareK1 p.z
  let z2 := (fun _ => 0) z2 -- a=0
  let x2 := ModSquareK1 p.x
  let _3x2 := ModAdd x2 x2
  let _3x2 := ModAdd _3x2 x2
  let w := ModAdd z2 _3x2
  let s := ModMulK1 p.y p.z
  let b := ModMulK1 p.y s
  let b := ModMulK1 b p.x
  let h := ModSquareK1 w
  let _8b := ModAdd b b
  let _8b := ModDouble _8b
  let _8b := ModDouble _8b
  let h := ModSub h _8b
  let rx := ModMulK1 h s
  let rx := ModAdd rx rx
  let s2 := ModSquareK1 s
  let y2 := ModSquareK1 p.y
  let _8y2s2 := ModMulK1 y2 s2
  let _8y2s2 := ModDouble _8y2s2
  let _8y2s2 := ModDouble _8y2s2
  let _8y2s2 := ModDouble _8y2s2
  let ry := ModAdd b b
  let ry := ModAdd ry ry
  let ry := ModSub ry h
  let ry := ModMulK1 ry w
  let ry := ModSub ry _8y2s2
  let rz := ModMulK1 s2 s
  let rz := ModDouble rz
  let rz := ModDouble rz
  let rz := ModDouble rz
  ⟨rx, ry, rz⟩

/-- `Secp256K1::AddDirect`. -/
def AddDirect (p1 p2 : Point) : Point :=
  let dy := ModSub p2.y p1.y
  let dx := ModSub p2.x p1.x
  let dx := ModInv dx
  let _s := ModMulK1 dy dx
  let _p := ModSquareK1 _s
  let rx := ModSub _p p1.x
  let rx := ModSub rx p2.x
  let ry := ModSub p2.x rx
  let ry := ModMulK1 ry _s
  let ry := ModSub ry p2.y
  ⟨rx, ry, 1⟩

/-- `Secp256K1::DoubleDirect`. -/
def DoubleDirect (p : Point) : Point :=
  let _s := ModMulK1 p.x p.x
  let _p := ModAdd _s _s
  let _p := ModAdd _p _s
  let a := ModAdd p.y p.y
  let a := ModInv a
  let _s := ModMulK1 _p a
  let _p := ModMulK1 _s _s
  let a := ModAdd p.x p.x
  let a := ModNeg a
  let rx := ModAdd a _p
  let a := ModSub rx p.x
  let _p := ModMulK1 a _s
  let ry := ModAdd _p p.y
  let ry := ModNeg ry
  ⟨rx, ry, 1⟩

/-- The loop of `Secp256K1::MulDirect`: state `(r, assigned, p2)` together with the list of
the argument pairs of the calls `Add(r, p2)` made so far; `cnt` iterations left, bit index `i`. -/
def MulDirectLoop (s : Nat) :
    Nat → Nat → Point × Bool × Point × List (Point × Point) →
      Point × Bool × Point × List (Point × Point)
  | 0, _, st => st
  | cnt + 1, i, (r, assigned, p2, calls) =>
    let st :=
      if GetBit s i = 1 then
        if !assigned then (p2, true, calls) else (Add r p2, assigned, calls ++ [(r, p2)])
      else (r, assigned, calls)
    MulDirectLoop s cnt (i + 1) (st.1, st.2.1, Double p2, st.2.2)

/-- `Secp256K1::MulDirect`.  The local `Point r` is not initialised by its constructor; `r0`
stands for its indeterminate initial contents. -/
def MulDirect (r0 : Point) (p : Point) (s : Nat) : Point :=
  let bits := GetBitLength s
  (MulDirectLoop s bits 0 (r0, false, p, [])).1.Reduce

/-- The argument pairs `(r, p2)` of the calls `Add(r, p2)` that `Secp256K1::MulDirect` makes. -/
def MulDirectCalls (r0 : Point) (p : Point) (s : Nat) : List (Point × Point) :=
  (MulDirectLoop s (GetBitLength s) 0 (r0, false, p, [])).2.2.2

/-- `Secp256K1::EC`. -/
def EC (p : Point) : Bool :=
  let _s := ModSquareK1 p.x
  let _p := ModMulK1 _s p.x
  let _p := ModAdd _p 7
  let _s := ModMulK1 p.y p.y
  let _s := ModSub _s _p
  _s == 0

/-- The static array `Secp256K1::GTable`, as a function of the index. -/
abbrev Table := Nat → Point

/-- The assignment `GTable[idx] = v`. -/
def Table.write (t : Table) (idx : Nat) (v : Point) : Table :=
  fun k => if k = idx then v else t k

/-- The inner loop `for (int j = 1; j < 255; j++)` of `Secp256K1::Init` for row `i`: state
`(GTable, N)`, `cnt` iterations left. -/
def InitInner (i : Nat) : Nat → Nat → Table × Point → Table × Point
  | 0, _, st => st
  | cnt + 1, j, (t, N) =>
    let t := t.write (i * 256 + j) N
    let N := AddDirect N (t (i * 256))
    InitInner i cnt (j + 1) (t, N)

/-- The outer loop `for (int i = 0; i < 32; i++)` of `Secp256K1::Init`: state `(GTable, N)`,
`cnt` iterations left. -/
def InitOuter : Nat → Nat → Table × Point → Table × Point
  | 0, _, st => st
  | cnt + 1, i, (t, N) =>
    let t := t.write (i * 256) N
    let N := DoubleDirect N
    let st := InitInner i 254 1 (t, N)
    let t := st.1.write (i * 256 + 255) st.2 -- Dummy point for check function
    InitOuter cnt (i + 1) (t, st.2)

/-- The generator table after `Secp256K1::Init`, started from the zero-initialised static
array. -/
def GTable : Table := (InitOuter 32 0 (fun _ => ⟨0, 0, 0⟩, G)).1

/-- The array index `256 * i + (b - 1)` of `ComputePublicKey`; `b` is a `uint8_t` promoted to
`int`, so `b - 1` is `-1` when `b = 0`. -/
def tableIndex (i b : Nat) : Nat := (256 * (i : Int) + ((b : Int) - 1)).toNat

/-- The loop "Search first significant byte" of `ComputePublicKey`: state `(i, b)` at the exit,
`cnt` iterations left. -/
def searchFirstByte (privKey : Nat) : Nat → Nat × Nat → Nat × Nat
  | 0, st => st
  | cnt + 1, (i, _) =>
    let b := GetByte privKey i
    if b ≠ 0 then (i, b) else searchFirstByte privKey cnt (i + 1, b)

/-- The second loop of `ComputePublicKey` over the table `gt`: state `Q` together with the
list of the argument pairs of the `Add2` calls made so far, `cnt` iterations left. -/
def addLoop (gt : Table) (privKey : Nat) :
    Nat → Nat → Point × List (Point × Point) → Point × List (Point × Point)
  | 0, _, st => st
  | cnt + 1, i, (Q, calls) =>
    let b := GetByte privKey i
    if b ≠ 0 then
      addLoop gt privKey cnt (i + 1)
        (Add2 Q (gt (tableIndex i b)), calls ++ [(Q, gt (tableIndex i b))])
    else addLoop gt privKey cnt (i + 1) (Q, calls)

/-- The body of `Secp256K1::ComputePublicKey` before the final `Reduce`, over the table `gt`:
the accumulator `Q` and the argument pairs of all `Add2` calls. -/
def ComputePublicKeyRun (gt : Table) (privKey : Nat) : Point × List (Point × Point) :=
  let st := searchFirstByte privKey 32 (0, 0)
  let i := st.1
  let b := st.2
  let Q := gt (tableIndex i b)
  let i := i + 1
  addLoop gt privKey (32 - i) i (Q, [])

/-- `Secp256K1::ComputePublicKey` after `Init`. -/
def ComputePublicKey (privKey : Nat) : Point :=
  (ComputePublicKeyRun GTable privKey).1.Reduce

/-- The argument pairs `(Q, T)` of the calls `Add2(Q, T)` that `ComputePublicKey` makes. -/
def ComputePublicKeyCalls (privKey : Nat) : List (Point × Point) :=
  (ComputePublicKeyRun GTable privKey).2

end Secp256K1
/-! ## `Int` primitives of the key parsers (declared in `Int.h`) -/

namespace BigInt

open Secp256K1 (prime)

/-- Modelled from the spec: `Int::ModExp(e)` (`Int.h`: "this <- this^e (mod n)"), computed by
square and multiply. -/
def ModExp (a e : Nat) : Nat := PrimeCert.powMod a e prime

/-- Modelled from the spec: `Int::ModSqrt` ("`ModSqrt` returns `a^((p+1)/4) mod p`"). -/
def ModSqrt (a : Nat) : Nat := ModExp a ((prime + 1) / 4)

/-- Modelled from the spec: `Int::HasSqrt` ("tests by Euler's criterion
(`a^((p−1)/2) == 1`)"). -/
def HasSqrt (a : Nat) : Bool := ModExp a ((prime - 1) / 2) == 1

/-- Modelled from the spec: `Int::IsEven`, the parity of the (non-negative) value. -/
def IsEven (a : Nat) : Bool := a % 2 == 0

/-- Modelled from the spec: `Int::SetByte(n, byte)` stores the `unsigned char` `byte` as byte `n`
of the value ("Byte index 0 is the least significant byte") and leaves the other bytes. -/
def SetByte (a n byte : Nat) : Nat := a - GetByte a n * 256 ^ n + (byte % 256) * 256 ^ n

/-- Modelled from the spec: `Int::Get32Bytes(buff)` writes the low 256 bits as 32 bytes, most
significant byte first (the serialisation of a coordinate in a public key is big-endian). -/
def Get32Bytes (a : Nat) : List Nat := (List.range 32).map (fun i => GetByte a (31 - i))

/-- Modelled from the spec: `Int::SetInt32(uint32_t value)`; the argument of the source is
converted to `uint32_t`, so `SetInt32(-1)` stores `0xFFFFFFFF`. -/
def SetInt32 (value : Int) : Nat := (value % 4294967296).toNat

end BigInt

/-! ## C library conversions used by `GetByte` and `GetPublicKeyHex`

`sscanf_s(tmp, "%X", &val)` and `sprintf_s(tmp, 3, "%02X", b)` on the three-character buffer
`tmp`, after ISO C (7.21.6.2 and 7.21.6.1). -/

namespace CLib

/-- The C library `isspace` in the "C" locale: space and the controls `\t \n \v \f \r`. -/
def isspace (c : Char) : Bool := c.toNat == 32 || (9 ≤ c.toNat && c.toNat ≤ 13)

/-- The value of a hexadecimal digit, `none` for any other character. -/
def xdigit (c : Char) : Option Nat :=
  let n := c.toNat
  if 48 ≤ n ∧ n ≤ 57 then some (n - 48)
  else if 65 ≤ n ∧ n ≤ 70 then some (n - 55)
  else if 97 ≤ n ∧ n ≤ 102 then some (n - 87)
  else none

/-- The conversion `sscanf(tmp, "%X", &val)` on a short buffer: `some val` (as `unsigned int`)
when the call returns `1`, `none` when it returns `0` or `EOF`.  The C string ends at the first
NUL; leading white space is skipped; an optional sign and an optional `0x`/`0X` are accepted;
then the longest run of hexadecimal digits is converted, and the conversion fails when that run
is empty.  A leading `-` negates the value in `unsigned int`. -/
def sscanfX (tmp : List Char) : Option Nat :=
  let s := tmp.takeWhile (fun c => c.toNat != 0)
  let s := s.dropWhile isspace
  let neg := s.head? == some '-'
  let s := if s.head? == some '-' || s.head? == some '+' then s.tail else s
  let s :=
    if s.head? == some '0' && (s.tail.head? == some 'x' || s.tail.head? == some 'X') then
      s.tail.tail
    else s
  let ds := s.takeWhile (fun c => (xdigit c).isSome)
  if ds.isEmpty then none
  else
    let v := ds.foldl (fun acc c => 16 * acc + (xdigit c).getD 0) 0 % 4294967296
    some (if neg then (4294967296 - v) % 4294967296 else v)

/-- The upper-case hexadecimal digit of a value below 16. -/
def upperDigit (d : Nat) : Char := if d < 10 then Char.ofNat (48 + d) else Char.ofNat (55 + d)

/-- The two characters `sprintf(tmp, "%02X", b)` writes for a byte `b`. -/
def sprintf02X (b : Nat) : List Char := [upperDigit (b / 16 % 16), upperDigit (b % 16)]

end CLib

/-! ## Key parsing and printing (`SECP256K1.cpp`)

A `std::string` is the list of its characters; `str.data()[k]` is the character at index `k`,
and the terminating NUL at index `length`.  A call of `exit(-1)` ends the process: the functions
that can reach one return an `Option`, and `none` stands for the terminated process. -/

namespace Secp256K1

open BigInt

/-- `Secp256K1::GetY`. -/
def GetY (x : Nat) (isEven : Bool) : Nat :=
  let _s := ModSquareK1 x
  let _p := ModMulK1 _s x
  let _p := ModAdd _p 7
  let _p := ModSqrt _p
  if !IsEven _p && isEven then ModNeg _p
  else if IsEven _p && !isEven then ModNeg _p
  else _p

/-- `Secp256K1::GetByte(str, idx)`: the byte `(uint8_t)val`, or `none` when the conversion fails
and the function calls `exit(-1)`. -/
def GetByte (str : List Char) (idx : Nat) : Option Nat :=
  let tmp := [str.getD (2 * idx) (Char.ofNat 0), str.getD (2 * idx + 1) (Char.ofNat 0)]
  match CLib.sscanfX tmp with
  | none => none
  | some val => some (val % 256)

/-- The loops `for (int i = 0; i < 32; i++) v.SetByte(31 - i, GetByte(str, i + off))` of the
parsers: the value of `v` at the exit, `none` when a `GetByte` ends the process; `cnt`
iterations left, index `i`. -/
def readBytes (str : List Char) (off : Nat) : Nat → Nat → Nat → Option Nat
  | 0, _, v => some v
  | cnt + 1, i, v =>
    match GetByte str (i + off) with
    | none => none
    | some b => readBytes str off cnt (i + 1) (SetByte v (31 - i) b)

/-- The end of `ParsePublicKeyHex` (boolean overload) after the `switch`: `pt.z.SetInt32(1)`
and the test `EC(pt)`.  The result is the returned flag with the final values of the
out-parameters `pt` and `isCompressed`. -/
def ParsePublicKeyHexEnd (pt : Point) (isCompressed : Bool) : Option (Bool × Point × Bool) :=
  let pt : Point := ⟨pt.x, pt.y, 1⟩
  if !EC pt then some (false, pt, isCompressed)
  else some (true, pt, isCompressed)

/-- `Secp256K1::ParsePublicKeyHex(str, pt, isCompressed)`, the boolean overload: the returned
flag with the final values of the out-parameters `pt` and `isCompressed`, or `none` when a
`GetByte` ends the process. -/
def ParsePublicKeyHex (str : List Char) (pt : Point) (isCompressed : Bool) :
    Option (Bool × Point × Bool) :=
  let pt := (fun _ => Point.Clear) pt
  if str.length = 0 then some (false, pt, isCompressed)
  else if str.length < 2 then some (false, pt, isCompressed)
  else
    match GetByte str 0 with
    | none => none
    | some type =>
      if type = 0x02 then
        if str.length ≠ 66 then some (false, pt, isCompressed)
        else
          match readBytes str 1 32 0 pt.x with
          | none => none
          | some x => ParsePublicKeyHexEnd ⟨x, GetY x true, pt.z⟩ true
      else if type = 0x03 then
        if str.length ≠ 66 then some (false, pt, isCompressed)
        else
          match readBytes str 1 32 0 pt.x with
          | none => none
          | some x => ParsePublicKeyHexEnd ⟨x, GetY x false, pt.z⟩ true
      else if type = 0x04 then
        if str.length ≠ 130 then some (false, pt, isCompressed)
        else
          match readBytes str 1 32 0 pt.x with
          | none => none
          | some x =>
            match readBytes str 33 32 0 pt.y with
            | none => none
            | some y => ParsePublicKeyHexEnd ⟨x, y, pt.z⟩ false
      else some (false, pt, isCompressed)

/-- `Secp256K1::GetPublicKeyHex`. -/
def GetPublicKeyHex (compressed : Bool) (pubKey : Point) : List Char :=
  if !compressed then
    let publicKeyBytes := [0x4] ++ Get32Bytes pubKey.x ++ Get32Bytes pubKey.y
    ((List.range 65).map (fun i => CLib.sprintf02X (publicKeyBytes.getD i 0))).flatten
  else
    let publicKeyBytes := [if IsEven pubKey.y then 0x2 else 0x3] ++ Get32Bytes pubKey.x
    ((List.range 33).map (fun i => CLib.sprintf02X (publicKeyBytes.getD i 0))).flatten

/-- The messages `Secp256K1::DecodePrivateKey` prints. -/
inductive DecodeMessage where
  | sizeNot37
  | wrongVersion
  | invalidChecksum
  | sizeNot38
  | notWIF
deriving DecidableEq, Repr

/-- The loops `for (int i = 1; i < 33; i++) ret.SetByte(count--, privKey[i])` of
`DecodePrivateKey`: the value of `ret` at the exit; `cnt` iterations left, index `i`, byte
position `count`. -/
def setKeyBytes (privKey : List Nat) : Nat → Nat → Nat → Nat → Nat
  | 0, _, _, ret => ret
  | cnt + 1, i, count, ret =>
    setKeyBytes privKey cnt (i + 1) (count - 1) (SetByte ret count (privKey.getD i 0))

/-- `Secp256K1::DecodePrivateKey(key, compressed)` over the two services it consumes:
`DecodeBase58 key` is the byte vector `privKey` after the call `DecodeBase58(key, privKey)`, and
`sha256_checksum bytes` the four bytes the hash service writes for the range `bytes`.  The
result is the returned `Int`, the final value of `*compressed`, and the messages printed. -/
def DecodePrivateKey (DecodeBase58 : List Char → List Nat)
    (sha256_checksum : List Nat → List Nat) (key : List Char) (compressed : Bool) :
    Nat × Bool × List DecodeMessage :=
  let ret := SetInt32 0
  if key.getD 0 (Char.ofNat 0) = '5' then
    let privKey := DecodeBase58 key
    if privKey.length ≠ 37 then (SetInt32 (-1), compressed, [DecodeMessage.sizeNot37])
    else if privKey.getD 0 0 ≠ 0x80 then (ret, compressed, [DecodeMessage.wrongVersion])
    else
      let ret := setKeyBytes privKey 32 1 31 ret
      let c := sha256_checksum (privKey.take 33)
      let msgs :=
        if c.getD 0 0 ≠ privKey.getD 33 0 ∨ c.getD 1 0 ≠ privKey.getD 34 0 ∨
            c.getD 2 0 ≠ privKey.getD 35 0 ∨ c.getD 3 0 ≠ privKey.getD 36 0 then
          [DecodeMessage.invalidChecksum]
        else []
      (ret, false, msgs)
  else if key.getD 0 (Char.ofNat 0) = 'K' ∨ key.getD 0 (Char.ofNat 0) = 'L' then
    let privKey := DecodeBase58 key
    if privKey.length ≠ 38 then (SetInt32 (-1), compressed, [DecodeMessage.sizeNot38])
    else
      let ret := setKeyBytes privKey 32 1 31 ret
      let c := sha256_checksum (privKey.take 34)
      let msgs :=
        if c.getD 0 0 ≠ privKey.getD 34 0 ∨ c.getD 1 0 ≠ privKey.getD 35 0 ∨
            c.getD 2 0 ≠ privKey.getD 36 0 ∨ c.getD 3 0 ≠ privKey.getD 37 0 then
          [DecodeMessage.invalidChecksum]
        else []
      (ret, true, msgs)
  else (SetInt32 (-1), compressed, [DecodeMessage.notWIF])

end Secp256K1
/-! ## Self-tests, hash input buffers and addresses (`SECP256K1.cpp`) -/

namespace BigInt

/-- Modelled from the spec: the view `bits32[k]` of an `Int` ("aliased views as ten 32-bit ...
words"; word 0 is the least significant). -/
def bits32 (a k : Nat) : Nat := (a / 2 ^ (32 * k)) % 2 ^ 32

/-- Modelled from the spec: `Int::IsOdd`, the parity of the (non-negative) value. -/
def IsOdd (a : Nat) : Bool := a % 2 == 1

end BigInt

/-! ## The operators of C on `uint32_t` values -/

namespace U32

/-- The shift `a << n` of a `uint32_t`: the bits shifted past bit 31 are lost. -/
def shl (a n : Nat) : Nat := (a <<< n) % 2 ^ 32

/-- The shift `a >> n` of a `uint32_t`. -/
def shr (a n : Nat) : Nat := a >>> n

end U32

namespace Secp256K1

open BigInt

/-- The literal `Secp256K1::halfG` (uncompressed form `04 x y`; parsing sets `z = 1`). -/
def halfG : Point :=
  ⟨0x00000000000000000000003B78CE563F89A0ED9414F5AA28AD0D96D6795F9C63,
   0xC0C686408D517DFD67C2367651380D00D126E4229631FD03F8FF35EEF1A61E3C, 1⟩

/-- The loop `while (i < 256 * 32 && EC(GTable[i])) i++` of `Secp256K1::CheckGTable` over the
table `gt`: the value of `i` at the exit; `fuel` bounds the number of iterations. -/
def CheckGTableLoop (gt : Table) : Nat → Nat → Nat
  | 0, i => i
  | fuel + 1, i => if i < 256 * 32 && EC (gt i) then CheckGTableLoop gt fuel (i + 1) else i

/-- `Secp256K1::CheckGTable` after `Init` (the loop runs at most `256 * 32` times before its
condition fails). -/
def CheckGTable : Bool := CheckGTableLoop GTable (256 * 32 + 1) 0 == 256 * 32

/-- `Secp256K1::CheckDouble`. -/
def CheckDouble : Bool :=
  let R1 := Double G
  let R1 := R1.Reduce
  EC R1

/-- `Secp256K1::CheckAdd`. -/
def CheckAdd : Bool :=
  let R1 := Double G
  let R2 := Add G R1
  let R3 := Add R1 R2
  let R3 := R3.Reduce
  EC R3

/-- The inner loop of `Secp256K1::Init` for row `i` (as `InitInner`), with the list of the
argument pairs `(N, GTable[i * 256])` of the calls of `AddDirect` made so far. -/
def InitInnerTrace (i : Nat) :
    Nat → Nat → Table × Point × List (Point × Point) → Table × Point × List (Point × Point)
  | 0, _, st => st
  | cnt + 1, j, (t, N, adds) =>
    let t := t.write (i * 256 + j) N
    let adds := adds ++ [(N, t (i * 256))]
    let N := AddDirect N (t (i * 256))
    InitInnerTrace i cnt (j + 1) (t, N, adds)

/-- The outer loop of `Secp256K1::Init` (as `InitOuter`), with the list of the argument pairs
of the calls of `AddDirect` and the list of the arguments of the calls of `DoubleDirect` made so
far. -/
def InitOuterTrace :
    Nat → Nat → Table × Point × List (Point × Point) × List Point →
      Table × Point × List (Point × Point) × List Point
  | 0, _, st => st
  | cnt + 1, i, (t, N, adds, dbls) =>
    let t := t.write (i * 256) N
    let dbls := dbls ++ [N]
    let N := DoubleDirect N
    let st := InitInnerTrace i 254 1 (t, N, adds)
    let t := st.1.write (i * 256 + 255) st.2.1 -- Dummy point for check function
    InitOuterTrace cnt (i + 1) (t, st.2.1, st.2.2, dbls)

/-- The argument pairs `(p1, p2)` of the calls `AddDirect(p1, p2)` that `Init` makes. -/
def InitAddDirectCalls : List (Point × Point) :=
  (InitOuterTrace 32 0 (fun _ => ⟨0, 0, 0⟩, G, [], [])).2.2.1

/-- The arguments of the calls `DoubleDirect(p)` that `Init` makes. -/
def InitDoubleDirectCalls : List Point :=
  (InitOuterTrace 32 0 (fun _ => ⟨0, 0, 0⟩, G, [], [])).2.2.2

/-- `Secp256K1::GetPublicKey(compressed, pubKey, dst)`: the bytes written to `dst`. -/
def GetPublicKey (compressed : Bool) (pubKey : Point) : List Nat :=
  if !compressed then
    [0x4] ++ Get32Bytes pubKey.x ++ Get32Bytes pubKey.y
  else
    [if IsEven pubKey.y then 0x2 else 0x3] ++ Get32Bytes pubKey.x

/-- The macro `KEYBUFFCOMP(buff, p)`: the words `buff[0..15]`. -/
def KEYBUFFCOMP (p : Point) : List Nat :=
  [U32.shr (bits32 p.x 7) 8 ||| U32.shl (0x2 + (if IsOdd p.y then 1 else 0)) 24,
   U32.shr (bits32 p.x 6) 8 ||| U32.shl (bits32 p.x 7) 24,
   U32.shr (bits32 p.x 5) 8 ||| U32.shl (bits32 p.x 6) 24,
   U32.shr (bits32 p.x 4) 8 ||| U32.shl (bits32 p.x 5) 24,
   U32.shr (bits32 p.x 3) 8 ||| U32.shl (bits32 p.x 4) 24,
   U32.shr (bits32 p.x 2) 8 ||| U32.shl (bits32 p.x 3) 24,
   U32.shr (bits32 p.x 1) 8 ||| U32.shl (bits32 p.x 2) 24,
   U32.shr (bits32 p.x 0) 8 ||| U32.shl (bits32 p.x 1) 24,
   0x00800000 ||| U32.shl (bits32 p.x 0) 24,
   0, 0, 0, 0, 0, 0,
   0x108]

/-- The macro `KEYBUFFUNCOMP(buff, p)`: the words `buff[0..31]`. -/
def KEYBUFFUNCOMP (p : Point) : List Nat :=
  [U32.shr (bits32 p.x 7) 8 ||| 0x04000000,
   U32.shr (bits32 p.x 6) 8 ||| U32.shl (bits32 p.x 7) 24,
   U32.shr (bits32 p.x 5) 8 ||| U32.shl (bits32 p.x 6) 24,
   U32.shr (bits32 p.x 4) 8 ||| U32.shl (bits32 p.x 5) 24,
   U32.shr (bits32 p.x 3) 8 ||| U32.shl (bits32 p.x 4) 24,
   U32.shr (bits32 p.x 2) 8 ||| U32.shl (bits32 p.x 3) 24,
   U32.shr (bits32 p.x 1) 8 ||| U32.shl (bits32 p.x 2) 24,
   U32.shr (bits32 p.x 0) 8 ||| U32.shl (bits32 p.x 1) 24,
   U32.shr (bits32 p.y 7) 8 ||| U32.shl (bits32 p.x 0) 24,
   U32.shr (bits32 p.y 6) 8 ||| U32.shl (bits32 p.y 7) 24,
   U32.shr (bits32 p.y 5) 8 ||| U32.shl (bits32 p.y 6) 24,
   U32.shr (bits32 p.y 4) 8 ||| U32.shl (bits32 p.y 5) 24,
   U32.shr (bits32 p.y 3) 8 ||| U32.shl (bits32 p.y 4) 24,
   U32.shr (bits32 p.y 2) 8 ||| U32.shl (bits32 p.y 3) 24,
   U32.shr (bits32 p.y 1) 8 ||| U32.shl (bits32 p.y 2) 24,
   U32.shr (bits32 p.y 0) 8 ||| U32.shl (bits32 p.y 1) 24,
   0x00800000 ||| U32.shl (bits32 p.y 0) 24,
   0, 0, 0, 0, 0, 0, 0, 0, 0, 0, 0, 0, 0, 0,
   0x208]

/-- The hash and encoding services consumed by the address functions, as functions on byte
lists: `sha256(msg, len)`, `sha256_33`, `sha256_65`, `sha256_checksum(begin, end)` (its four
output bytes), `ripemd160_32` (its twenty output bytes), `EncodeBase58(begin, end)` and
`segwit_addr_encode(output, hrp, witver, witprog, len)` (the string written to `output`). -/
structure Services where
  sha256 : List Nat → List Nat
  sha256_33 : List Nat → List Nat
  sha256_65 : List Nat → List Nat
  sha256_checksum : List Nat → List Nat
  ripemd160_32 : List Nat → List Nat
  EncodeBase58 : List Nat → List Char
  segwit_addr_encode : List Char → Nat → List Nat → List Char

/-- The constants `P2PKH`, `P2SH`, `BECH32` of `SECP256k1.h`. -/
def P2PKH : Nat := 0

/-- The constant `P2SH`. -/
def P2SH : Nat := 1

/-- The constant `BECH32`. -/
def BECH32 : Nat := 2

/-- A byte buffer on the stack, as a function of the index. -/
abbrev Buffer := Nat → Nat

/-- The bytes `buf[0..n)` of a buffer. -/
def Buffer.bytes (buf : Buffer) (n : Nat) : List Nat := (List.range n).map buf

/-- Writing the first `n` bytes of `src` into the buffer from offset `off` (a `memcpy`, or a
service writing its output through a pointer into the buffer). -/
def Buffer.copy (buf : Buffer) (off : Nat) (src : List Nat) (n : Nat) : Buffer :=
  fun k => if off ≤ k ∧ k < off + n then src.getD (k - off) 0 else buf k

/-- `Secp256K1::GetHash160(type, compressed, pubKey, hash)`, the single-key overload: the twenty
bytes written to `hash`; `hash0` is the previous content of `hash`, kept for a `type` outside the
`switch`. -/
def GetHash160 (S : Services) (type : Nat) (compressed : Bool) (pubKey : Point)
    (hash0 : List Nat) : List Nat :=
  if type = P2PKH ∨ type = BECH32 then
    let shapk :=
      if !compressed then
        S.sha256_65 ([0x4] ++ Get32Bytes pubKey.x ++ Get32Bytes pubKey.y)
      else
        S.sha256_33 ([if IsEven pubKey.y then 0x2 else 0x3] ++ Get32Bytes pubKey.x)
    S.ripemd160_32 shapk
  else if type = P2SH then
    let hash :=
      let shapk :=
        if !compressed then
          S.sha256_65 ([0x4] ++ Get32Bytes pubKey.x ++ Get32Bytes pubKey.y)
        else
          S.sha256_33 ([if IsEven pubKey.y then 0x2 else 0x3] ++ Get32Bytes pubKey.x)
      S.ripemd160_32 shapk
    let script : Buffer := fun _ => 0
    let script := Buffer.copy script 0 [0x00] 1 -- OP_0
    let script := Buffer.copy script 1 [0x14] 1 -- PUSH 20 bytes
    let script := Buffer.copy script 2 hash 20
    let shapk := S.sha256 (script.bytes 22)
    S.ripemd160_32 shapk
  else hash0

/-- `Secp256K1::GetAddress(type, compressed, hash160)`, the overload on a hash (its parameter
`compressed` is not used); `address0` is the indeterminate initial content of the local buffer
`address`. -/
def GetAddress (S : Services) (type : Nat) (_compressed : Bool) (hash160 : List Nat)
    (address0 : Buffer) : List Char :=
  if type = BECH32 then S.segwit_addr_encode "bc".toList 0 (hash160.take 20)
  else
    let address :=
      if type = P2PKH then Buffer.copy address0 0 [0x00] 1
      else if type = P2SH then Buffer.copy address0 0 [0x05] 1
      else address0
    let address := Buffer.copy address 1 hash160 20
    let address := Buffer.copy address 21 (S.sha256_checksum (address.bytes 21)) 4
    S.EncodeBase58 (address.bytes 25)

/-- `Secp256K1::GetAddress(type, compressed, pubKey)`, the overload on a point; `address0` is
the indeterminate initial content of the local buffer `address`. -/
def GetAddressPoint (S : Services) (type : Nat) (compressed : Bool) (pubKey : Point)
    (address0 : Buffer) : List Char :=
  if type = BECH32 then
    if !compressed then " BECH32: Only compressed key ".toList
    else
      let h160 := GetHash160 S type compressed pubKey []
      S.segwit_addr_encode "bc".toList 0 (h160.take 20)
  else if type = P2SH ∧ !compressed then " P2SH: Only compressed key ".toList
  else
    let address :=
      if type = P2PKH then Buffer.copy address0 0 [0x00] 1
      else if type = P2SH then Buffer.copy address0 0 [0x05] 1
      else address0
    let address :=
      Buffer.copy address 1 (GetHash160 S type compressed pubKey (address.bytes 21).tail) 20
    let address := Buffer.copy address 21 (S.sha256_checksum (address.bytes 21)) 4
    S.EncodeBase58 (address.bytes 25)

end Secp256K1
/-! ## Inline routines of `Int.h` on 64-bit limbs

A limb (`uint64_t`) is a natural number below `2 ^ 64`; an argument of type `uint64_t*` is the
array it points to, as a function of the index.  The source and the destination of a routine are
taken to be different arrays. -/

namespace U64

/-- The operator `a >> n` of C on `uint64_t`, for a shift count below 64 (C defines no other). -/
def shr (a n : Nat) : Nat := a >>> n

/-- The operator `a << n` of C on `uint64_t`, for a shift count below 64: the bits shifted out
are lost. -/
def shl (a n : Nat) : Nat := (a <<< n) % 2 ^ 64

/-- The conversion `(int64_t)a` of a `uint64_t`. -/
def toInt64 (a : Nat) : Int := if a < 2 ^ 63 then (a : Int) else (a : Int) - 2 ^ 64

/-- The conversion of an `int64_t` to `uint64_t` (the assignment to a limb). -/
def ofInt64 (a : Int) : Nat := (a % 2 ^ 64).toNat

/-- The operator `a >> n` on `int64_t`: the arithmetic shift of the compilers the source is
written for. -/
def sar (a : Int) (n : Nat) : Int := a >>> n

end U64

/-- An array of limbs behind a pointer `uint64_t*`. -/
abbrev Limbs := Nat → Nat

/-- The assignment `d[idx] = v`. -/
def Limbs.write (d : Limbs) (idx : Nat) (v : Nat) : Limbs :=
  fun k => if k = idx then v else d k

namespace BigInt

/-- `_umul128(a, b, &h)`: the returned low word and the high word stored in `h`. -/
def _umul128 (a b : Nat) : Nat × Nat := ((a * b) % 2 ^ 64, (a * b) / 2 ^ 64)

/-- `_addcarry_u64(c, a, b, d)`: the returned carry and the sum word stored in `*d`; the
carry-in is taken when `c` is not zero. -/
def _addcarry_u64 (c a b : Nat) : Nat × Nat :=
  let cin := if c = 0 then 0 else 1
  ((cin + a + b) / 2 ^ 64, (cin + a + b) % 2 ^ 64)

/-- The macro `__shiftright128(a,b,n)`: `((a)>>(n))|((b)<<(64-(n)))`. -/
def __shiftright128 (a b n : Nat) : Nat := U64.shr a n ||| U64.shl b (64 - n)

/-- The body of `imm_mul(x, y, dst, carryH)` with `NB64BLOCK = 5`: the final values of `dst`, of
the local `carry` and of the local `c`. -/
def imm_mulRun (x : Limbs) (y : Nat) (dst : Limbs) : Limbs × Nat × Nat :=
  let c := 0
  let m := _umul128 (x 0) y
  let dst := dst.write 0 m.1
  let carry := m.2
  let m := _umul128 (x 1) y
  let a := _addcarry_u64 c m.1 carry
  let c := a.1
  let dst := dst.write 1 a.2
  let carry := m.2
  let m := _umul128 (x 2) y
  let a := _addcarry_u64 c m.1 carry
  let c := a.1
  let dst := dst.write 2 a.2
  let carry := m.2
  let m := _umul128 (x 3) y
  let a := _addcarry_u64 c m.1 carry
  let c := a.1
  let dst := dst.write 3 a.2
  let carry := m.2
  let m := _umul128 (x 4) y
  let a := _addcarry_u64 c m.1 carry
  let c := a.1
  let dst := dst.write 4 a.2
  let carry := m.2
  (dst, carry, c)

/-- `imm_mul(x, y, dst, carryH)`: the final value of `dst` and the word stored in `*carryH`
(`*carryH = carry`). -/
def imm_mul (x : Limbs) (y : Nat) (dst : Limbs) : Limbs × Nat :=
  ((imm_mulRun x y dst).1, (imm_mulRun x y dst).2.1)

/-- The body of `imm_umul(x, y, dst)` with `NB64BLOCK = 5`: the final value of `dst` and the
carry returned by the last `_addcarry_u64`, which the source drops. -/
def imm_umulRun (x : Limbs) (y : Nat) (dst : Limbs) : Limbs × Nat :=
  let c := 0
  let m := _umul128 (x 0) y
  let dst := dst.write 0 m.1
  let carry := m.2
  let m := _umul128 (x 1) y
  let a := _addcarry_u64 c m.1 carry
  let c := a.1
  let dst := dst.write 1 a.2
  let carry := m.2
  let m := _umul128 (x 2) y
  let a := _addcarry_u64 c m.1 carry
  let c := a.1
  let dst := dst.write 2 a.2
  let carry := m.2
  let m := _umul128 (x 3) y
  let a := _addcarry_u64 c m.1 carry
  let c := a.1
  let dst := dst.write 3 a.2
  let carry := m.2
  let a := _addcarry_u64 c 0 carry
  (dst.write 4 a.2, a.1)

/-- `imm_umul(x, y, dst)`: the final value of `dst`. -/
def imm_umul (x : Limbs) (y : Nat) (dst : Limbs) : Limbs := (imm_umulRun x y dst).1

/-- `shiftR(n, d)` with `NB64BLOCK = 5`, the overload without a high word: the final value of
`d`. -/
def shiftR (n : Nat) (d : Limbs) : Limbs :=
  let d := d.write 0 (__shiftright128 (d 0) (d 1) n)
  let d := d.write 1 (__shiftright128 (d 1) (d 2) n)
  let d := d.write 2 (__shiftright128 (d 2) (d 3) n)
  let d := d.write 3 (__shiftright128 (d 3) (d 4) n)
  d.write 4 (U64.ofInt64 (U64.sar (U64.toInt64 (d 4)) n))

end BigInt

/-! ## Copies of a `Point` (`Point.cpp`) -/

/-- `Point::Set(const Point& p)` (the receiver is `t`, the result is its new value): the two
statements `x.Set(p.x); y.Set(p.y);`. -/
def Point.Set (t p : Point) : Point := { t with x := p.x, y := p.y }

/-- `Point::Set(const Int& cx, const Int& cy, const Int& cz)`. -/
def Point.SetCoords (_t : Point) (cx cy cz : Nat) : Point := ⟨cx, cy, cz⟩

/-- The copy constructor `Point::Point(const Point& p)`. -/
def Point.Copy (p : Point) : Point := ⟨p.x, p.y, p.z⟩

/-! ## Neighbouring keys, the table reads of `ComputePublicKey` and the service calls of
`GetAddress` (`SECP256K1.cpp`) -/

namespace Secp256K1

open BigInt

/-- `Secp256K1::SubDirect`. -/
def SubDirect (p1 p2 : Point) : Point :=
  let p2neg := Point.Copy p2
  let p2neg : Point := { p2neg with y := ModNeg p2neg.y }
  AddDirect p1 p2neg

/-- `Secp256K1::NextKey`. -/
def NextKey (key : Point) : Point := AddDirect key G

/-- `Secp256K1::PrevKey`. -/
def PrevKey (key : Point) : Point := SubDirect key G

/-- The subscript `256 * i + (b - 1)` of `ComputePublicKey`, as the `int` the source computes
(`b` is a `uint8_t` promoted to `int`). -/
def tableSubscript (i b : Nat) : Int := 256 * (i : Int) + ((b : Int) - 1)

/-- The second loop of `ComputePublicKey`, keeping the list of the subscripts of `GTable` read
so far instead of the accumulator; `cnt` iterations left. -/
def addLoopReads (privKey : Nat) : Nat → Nat → List Int → List Int
  | 0, _, reads => reads
  | cnt + 1, i, reads =>
    let b := BigInt.GetByte privKey i
    if b ≠ 0 then addLoopReads privKey cnt (i + 1) (reads ++ [tableSubscript i b])
    else addLoopReads privKey cnt (i + 1) reads

/-- The subscripts of `GTable` that `Secp256K1::ComputePublicKey` reads, in the order of the
reads. -/
def ComputePublicKeyReads (privKey : Nat) : List Int :=
  let st := searchFirstByte privKey 32 (0, 0)
  let i := st.1
  let b := st.2
  let reads := [tableSubscript i b]
  let i := i + 1
  addLoopReads privKey (32 - i) i reads

/-- The services of `Services`, by name. -/
inductive ServiceCall where
  | sha256
  | sha256_33
  | sha256_65
  | sha256_checksum
  | ripemd160_32
  | EncodeBase58
  | segwit_addr_encode
deriving DecidableEq, Repr

/-- A computation with the list of the service calls made so far as its state. -/
abbrev Logged (α : Type) := StateM (List ServiceCall) α

namespace Services

/-- A call of `sha256`: its result, and the call added to the list. -/
def sha256Call (S : Services) (m : List Nat) : Logged (List Nat) :=
  fun log => (S.sha256 m, log ++ [ServiceCall.sha256])

/-- A call of `sha256_33`: its result, and the call added to the list. -/
def sha256_33Call (S : Services) (m : List Nat) : Logged (List Nat) :=
  fun log => (S.sha256_33 m, log ++ [ServiceCall.sha256_33])

/-- A call of `sha256_65`: its result, and the call added to the list. -/
def sha256_65Call (S : Services) (m : List Nat) : Logged (List Nat) :=
  fun log => (S.sha256_65 m, log ++ [ServiceCall.sha256_65])

/-- A call of `sha256_checksum`: its result, and the call added to the list. -/
def sha256_checksumCall (S : Services) (m : List Nat) : Logged (List Nat) :=
  fun log => (S.sha256_checksum m, log ++ [ServiceCall.sha256_checksum])

/-- A call of `ripemd160_32`: its result, and the call added to the list. -/
def ripemd160_32Call (S : Services) (m : List Nat) : Logged (List Nat) :=
  fun log => (S.ripemd160_32 m, log ++ [ServiceCall.ripemd160_32])

/-- A call of `EncodeBase58`: its result, and the call added to the list. -/
def EncodeBase58Call (S : Services) (m : List Nat) : Logged (List Char) :=
  fun log => (S.EncodeBase58 m, log ++ [ServiceCall.EncodeBase58])

/-- A call of `segwit_addr_encode`: its result, and the call added to the list. -/
def segwit_addr_encodeCall (S : Services) (hrp : List Char) (witver : Nat)
    (witprog : List Nat) : Logged (List Char) :=
  fun log => (S.segwit_addr_encode hrp witver witprog, log ++ [ServiceCall.segwit_addr_encode])

end Services

/-- The cases `P2PKH` and `BECH32` of `Secp256K1::GetHash160` as a computation that records the
service calls; the services are reached through the recording calls only. -/
def GetHash160KeyRun (S : Services) (compressed : Bool) (pubKey : Point) :
    Logged (List Nat) := do
  let shapk ←
    if !compressed then
      S.sha256_65Call ([0x4] ++ Get32Bytes pubKey.x ++ Get32Bytes pubKey.y)
    else
      S.sha256_33Call ([if IsEven pubKey.y then 0x2 else 0x3] ++ Get32Bytes pubKey.x)
  S.ripemd160_32Call shapk

/-- `Secp256K1::GetHash160(type, compressed, pubKey, hash)`, the single-key overload, as a
computation that records the service calls: the twenty bytes written to `hash`.  The case `P2SH`
runs the call `GetHash160(P2PKH, compressed, pubKey, script + 2)`. -/
def GetHash160Run (S : Services) (type : Nat) (compressed : Bool) (pubKey : Point)
    (hash0 : List Nat) : Logged (List Nat) := do
  if type = P2PKH ∨ type = BECH32 then GetHash160KeyRun S compressed pubKey
  else if type = P2SH then
    let script : Buffer := fun _ => 0
    let script := Buffer.copy script 0 [0x00] 1 -- OP_0
    let script := Buffer.copy script 1 [0x14] 1 -- PUSH 20 bytes
    let hash ← GetHash160KeyRun S compressed pubKey
    let script := Buffer.copy script 2 hash 20
    let shapk ← S.sha256Call (script.bytes 22)
    S.ripemd160_32Call shapk
  else pure hash0

/-- `Secp256K1::GetAddress(type, compressed, pubKey)`, the overload on a point, as a computation
that records the service calls: the string returned.  Every statement of the body is here, and
the services are reached through the recording calls only. -/
def GetAddressPointRun (S : Services) (type : Nat) (compressed : Bool) (pubKey : Point)
    (address0 : Buffer) : Logged (List Char) := do
  if type = BECH32 then
    if !compressed then pure " BECH32: Only compressed key ".toList
    else
      let h160 ← GetHash160Run S type compressed pubKey []
      S.segwit_addr_encodeCall "bc".toList 0 (h160.take 20)
  else if type = P2SH ∧ !compressed then pure " P2SH: Only compressed key ".toList
  else
    let address :=
      if type = P2PKH then Buffer.copy address0 0 [0x00] 1
      else if type = P2SH then Buffer.copy address0 0 [0x05] 1
      else address0
    let hash ← GetHash160Run S type compressed pubKey (address.bytes 21).tail
    let address := Buffer.copy address 1 hash 20
    let c ← S.sha256_checksumCall (address.bytes 21)
    let address := Buffer.copy address 21 c 4
    S.EncodeBase58Call (address.bytes 25)

end Secp256K1

/-! ## Predicates used in the statements -/

/-- All three coordinates are field values in the reduced range `[0, p)`. -/
def Point.InField (P : Point) : Prop :=
  P.x < Secp256K1.prime ∧ P.y < Secp256K1.prime ∧ P.z < Secp256K1.prime

instance (P : Point) : Decidable P.InField := by
  unfold Point.InField; infer_instance

/-- An affine point of the curve as `Secp256K1::EC` tests it: `z = 1`, `x` and `y` in `[0, p)`,
and `EC` returns true. -/
def Secp256K1.OnCurve (P : Point) : Prop :=
  P.z = 1 ∧ P.x < Secp256K1.prime ∧ P.y < Secp256K1.prime ∧ Secp256K1.EC P = true

instance (P : Point) : Decidable (Secp256K1.OnCurve P) := by
  unfold Secp256K1.OnCurve; infer_instance

/-- A value in the reduced range `[0, p)`. -/
class BigInt.Reduced (a : ℕ) : Prop where
  lt : a < Secp256K1.prime

/-- The point `-G`: the generator with its ordinate negated. -/
def Secp256K1.negG : Point := ⟨Secp256K1.G.x, Secp256K1.prime - Secp256K1.G.y, 1⟩

/-! ## The group of points of the curve (specification side) -/

namespace Secp256K1

open WeierstrassCurve

/-- The curve `y² = x³ + 7` over `ZMod prime`, as a Weierstrass curve. -/
def curve : WeierstrassCurve (ZMod prime) := ⟨0, 0, 0, 0, 7⟩

/-- The affine point `R` of the program (`z = 1`, reduced coordinates) is the element `A` of
the group of points of the curve. -/
def IsAffineOf (R : Point) (A : curve.toAffine.Point) : Prop :=
  R.z = 1 ∧ R.x < prime ∧ R.y < prime ∧
    ∃ h : curve.toAffine.Nonsingular (R.x : ZMod prime) (R.y : ZMod prime),
      A = Affine.Point.some h

/-- The projective point `Q` of the program (reduced coordinates, `z ≠ 0`) represents the
element `A` of the group: its reduction is the affine point of `A`. -/
def Represents (Q : Point) (A : curve.toAffine.Point) : Prop :=
  Q.InField ∧ Q.z ≠ 0 ∧ IsAffineOf Q.Reduce A

/-- Checked affine double-and-add (a proof tool, not part of the program): adds `s` times the
point `p2` to the accumulator `acc` (`none` is the neutral element), and gives up with `none`
when a chord addition would meet two points with the same abscissa. -/
def mulAffLoop : Nat → Nat → Point → Option Point → Option (Option Point)
  | 0, _, _, acc => some acc
  | fuel + 1, s, p2, acc =>
    if s = 0 then some acc
    else
      let acc' : Option (Option Point) :=
        if s % 2 = 1 then
          match acc with
          | none => some (some p2)
          | some r => if r.x = p2.x then none else some (some (AddDirect r p2))
        else some acc
      match acc' with
      | none => none
      | some a => mulAffLoop fuel (s / 2) (DoubleDirect p2) a

/-- The accumulator `acc` of `mulAffLoop` holds the group element `C`. -/
def AccOf (acc : Option Point) (C : curve.toAffine.Point) : Prop :=
  match acc with
  | none => C = 0
  | some r => IsAffineOf r C

/-- A key that separates the points of the curve: the abscissa and the half of the field in
which the ordinate lies (used to bound the number of points). -/
def pointKey : curve.toAffine.Point → Option (ZMod prime × Bool)
  | Affine.Point.zero => none
  | @Affine.Point.some _ _ _ x y _ => some (x, decide (y.val ≤ (prime - 1) / 2))

end Secp256K1

/-- A call `Add2(Q, T)` avoids the degenerate case of the mixed addition: the accumulator `Q`
has `z ≠ 0`, its affine abscissa `X/Z` differs from the abscissa of `T`, and the value
`V = T.x * Q.z - Q.x` computed by `Add2` is not zero. -/
def Secp256K1.Add2Safe (c : Point × Point) : Prop :=
  c.1.z ≠ 0 ∧ c.1.Reduce.x ≠ c.2.x ∧
    BigInt.ModSub (BigInt.ModMulK1 c.2.x c.1.z) c.1.x ≠ 0

instance (c : Point × Point) : Decidable (Secp256K1.Add2Safe c) := by
  unfold Secp256K1.Add2Safe; infer_instance

/-! ## Specification side of the key parsers -/

namespace Secp256K1
/-- The hexadecimal digits. -/
def hexDigits : List Char := "0123456789abcdefABCDEF".toList

/-- The number written by a list of hexadecimal digits, most significant digit first. -/
def hexValue (cs : List Char) : Nat :=
  cs.foldl (fun acc c => 16 * acc + (CLib.xdigit c).getD 0) 0

/-- The number whose bytes, most significant first, are `f 0, ..., f (k - 1)`. -/
def beValue (f : Nat → Nat) : Nat → Nat
  | 0 => 0
  | k + 1 => beValue f k * 256 + f k

/-- The string printed with `%02X` from the first `n` bytes of a buffer `g`. -/
def hexString (g : Nat → Nat) (n : Nat) : List Char :=
  ((List.range n).map (fun i => CLib.sprintf02X (g i))).flatten
end Secp256K1


/-! ## Specification side of the hash input buffers -/

namespace Secp256K1

/-- The padded message of SHA-256 (FIPS 180-4, 5.1.1) for a message of bytes: the byte `0x80`,
zero bytes up to 56 modulo 64, and the bit length as 8 bytes, most significant first. -/
def sha256Pad (msg : List Nat) : List Nat :=
  msg ++ [0x80] ++ List.replicate ((64 - (msg.length + 9) % 64) % 64) 0 ++
    (List.range 8).map (fun i => (8 * msg.length / 256 ^ (7 - i)) % 256)

/-- The big-endian 32-bit words of a list of bytes. -/
def beWords : List Nat → List Nat
  | b0 :: b1 :: b2 :: b3 :: rest =>
    (b0 * 2 ^ 24 + b1 * 2 ^ 16 + b2 * 2 ^ 8 + b3) :: beWords rest
  | _ => []

/-- The projective curve equation `Y² Z = X³ + 7 Z³` modulo `p`. -/
def OnCurveProj (P : Point) : Prop :=
  (P.y * P.y * P.z) % prime = (P.x ^ 3 + 7 * P.z ^ 3) % prime

instance (P : Point) : Decidable (OnCurveProj P) := by
  unfold OnCurveProj; infer_instance

end Secp256K1
/-! ## Values of limb arrays (statements about `Int.h`) -/

/-- Every one of the first five limbs is below `2 ^ 64`. -/
def Limbs.IsU64 (d : Limbs) : Prop := ∀ k, k < 5 → d k < 2 ^ 64

/-- The natural number held by the first five limbs, least significant first. -/
def Limbs.value (d : Limbs) : Nat :=
  d 0 + d 1 * 2 ^ 64 + d 2 * 2 ^ 128 + d 3 * 2 ^ 192 + d 4 * 2 ^ 256

/-- The integer held by the first five limbs read as a 320-bit number in two's complement. -/
def Limbs.signedValue (d : Limbs) : Int :=
  if d.value < 2 ^ 319 then (d.value : Int) else (d.value : Int) - 2 ^ 320

/-- The array of the five limbs `a0 .. a4`. -/
def Limbs.mk5 (a0 a1 a2 a3 a4 : Nat) : Limbs :=
  fun k => [a0, a1, a2, a3, a4].getD k 0

instance (d : Limbs) : Decidable d.IsU64 := by
  unfold Limbs.IsU64
  infer_instance

/-! ## Primality of the field prime and of the group order -/

namespace PrimeCert

theorem powModAux_mod (m : Nat) : ∀ (fuel a e acc : Nat), e < 2 ^ fuel →
    powModAux m fuel a e acc % m = (acc * a ^ e) % m := by
  intro fuel
  induction fuel with
  | zero =>
    intro a e acc he
    have h0 : e = 0 := by simpa using he
    subst h0
    simp [powModAux]
  | succ k ih =>
    intro a e acc he
    unfold powModAux
    by_cases h0 : e = 0
    · subst h0; simp
    · rw [if_neg h0]
      have hk : e / 2 < 2 ^ k := by
        rw [Nat.div_lt_iff_lt_mul (by norm_num)]
        calc e < 2 ^ (k + 1) := he
          _ = 2 ^ k * 2 := by ring
      rw [ih _ _ _ hk]
      have hsplit : a ^ e = (a * a) ^ (e / 2) * a ^ (e % 2) := by
        rw [← pow_two, ← pow_mul, ← pow_add, Nat.div_add_mod]
      have hsq : (a * a % m) ^ (e / 2) ≡ (a * a) ^ (e / 2) [MOD m] :=
        (Nat.mod_modEq _ _).pow _
      change _ ≡ _ [MOD m]
      rw [hsplit]
      rcases Nat.mod_two_eq_zero_or_one e with h2 | h2
      · rw [h2, if_neg (by norm_num), pow_zero, mul_one]
        exact Nat.ModEq.mul_left _ hsq
      · rw [h2, if_pos rfl, pow_one]
        calc acc * a % m * (a * a % m) ^ (e / 2)
            ≡ acc * a * (a * a) ^ (e / 2) [MOD m] := (Nat.mod_modEq _ _).mul hsq
          _ = acc * ((a * a) ^ (e / 2) * a) := by ring

theorem powMod_eq (a e m : Nat) : powMod a e m = a ^ e % m := by
  unfold powMod
  rw [powModAux_mod m _ a e 1 (Nat.lt_two_pow e), one_mul]


/-- If `a ^ m = 1` but `a ^ (m / q) ≠ 1` for a prime `q` with `q ^ e ∣ m`, then `q ^ e` divides
the order of `a`. -/
theorem prime_pow_dvd_orderOf {G : Type*} [Monoid G] (a : G) {m q e : ℕ} (hq : q.Prime)
    (hqe : q ^ e ∣ m) (h1 : a ^ m = 1) (h2 : a ^ (m / q) ≠ 1) : q ^ e ∣ orderOf a := by
  obtain ⟨k, hk⟩ := orderOf_dvd_of_pow_eq_one h1
  by_cases hqk : q ∣ k
  · exfalso
    obtain ⟨k', rfl⟩ := hqk
    apply h2
    have hm : m / q = orderOf a * k' := by
      rw [hk, show orderOf a * (q * k') = q * (orderOf a * k') by ring,
        Nat.mul_div_cancel_left _ hq.pos]
    rw [hm, pow_mul, pow_orderOf_eq_one, one_pow]
  · have hcop : Nat.Coprime (q ^ e) k := Nat.Coprime.pow_left _ ((Nat.Prime.coprime_iff_not_dvd hq).2 hqk)
    rw [hk] at hqe
    exact hcop.dvd_of_dvd_mul_right hqe

/-- One prime-power factor of a Pocklington certificate: every prime divisor `r` of `N`
is congruent to `1` modulo `q ^ e`. -/
theorem pocklington_step {N q e a r : ℕ} (hN : 1 < N) (hq : q.Prime) (hqe : q ^ e ∣ N - 1)
    (h1 : powMod a (N - 1) N = 1) (h2 : Nat.gcd (powMod a ((N - 1) / q) N + (N - 1)) N = 1)
    (hr : r.Prime) (hrN : r ∣ N) : q ^ e ∣ r - 1 := by
  haveI : Fact r.Prime := ⟨hr⟩
  rw [powMod_eq] at h1 h2
  have hcast : ∀ x : ℕ, ((x % N : ℕ) : ZMod r) = (x : ZMod r) := by
    intro x
    rw [ZMod.natCast_eq_natCast_iff]
    exact (Nat.mod_modEq x N).of_dvd hrN
  have e1 : ((a : ZMod r)) ^ (N - 1) = 1 := by
    have := congrArg (fun x : ℕ => (x : ZMod r)) h1
    simp only [hcast] at this
    simpa using this
  have e2 : ((a : ZMod r)) ^ ((N - 1) / q) ≠ 1 := by
    intro h
    have hdvd : r ∣ a ^ ((N - 1) / q) % N + (N - 1) := by
      rw [← ZMod.natCast_zmod_eq_zero_iff_dvd]
      have hN0 : ((N : ℕ) : ZMod r) = 0 := (ZMod.natCast_zmod_eq_zero_iff_dvd _ _).2 hrN
      have hN1 : ((N - 1 : ℕ) : ZMod r) = -1 := by
        rw [Nat.cast_sub hN.le, hN0]; simp
      rw [Nat.cast_add, hcast, hN1, Nat.cast_pow, h]; simp
    have := Nat.dvd_gcd hdvd hrN
    rw [h2] at this
    exact hr.one_lt.ne' (Nat.dvd_one.1 this)
  have ha0 : (a : ZMod r) ≠ 0 := by
    intro h0
    rw [h0, zero_pow (by omega)] at e1
    exact zero_ne_one e1
  exact (prime_pow_dvd_orderOf _ hq hqe e1 e2).trans (ZMod.orderOf_dvd_card_sub_one ha0)

/-- Pocklington's criterion: if every prime divisor of `N` is `1` modulo `F` and `N ≤ F * F`,
then `N` is prime. -/
theorem pocklington_of_forall {N F : ℕ} (hN : 1 < N) (hF : N ≤ F * F)
    (h : ∀ r : ℕ, r.Prime → r ∣ N → F ∣ r - 1) : N.Prime := by
  by_contra hnp
  have hr := Nat.minFac_prime hN.ne'
  have hle : N.minFac ^ 2 ≤ N := Nat.minFac_sq_le_self (by omega) hnp
  have hd := h _ hr (Nat.minFac_dvd N)
  have hlt : F < N.minFac := by
    have := Nat.le_of_dvd (by have := hr.one_lt; omega) hd
    have := hr.one_lt
    omega
  have : F * F < N.minFac ^ 2 := by
    rw [pow_two]; exact Nat.mul_self_lt_mul_self hlt
  omega

theorem certF_dvd {N : ℕ} (hN : 1 < N) {r : ℕ} (hr : r.Prime) (hrN : r ∣ N) :
    ∀ l : List (ℕ × ℕ × ℕ), (l.map Prod.fst).Nodup → (∀ t ∈ l, CertEntry N t) →
      certF l ∣ r - 1 := by
  intro l
  induction l with
  | nil => intro _ _; simp [certF]
  | cons t l ih =>
    intro hnd hl
    rw [List.map_cons, List.nodup_cons] at hnd
    have ht := hl t (List.mem_cons_self _ _)
    have hrest := ih hnd.2 (fun s hs => hl s (List.mem_cons_of_mem _ hs))
    have hstep := pocklington_step hN ht.1 ht.2.1 ht.2.2.1 ht.2.2.2 hr hrN
    have hcop : Nat.Coprime (t.1 ^ t.2.1) (certF l) := by
      unfold certF
      rw [Nat.coprime_list_prod_right_iff]
      intro x hx
      rw [List.mem_map] at hx
      obtain ⟨s, hs, rfl⟩ := hx
      apply Nat.Coprime.pow
      rw [Nat.coprime_primes ht.1 (hl s (List.mem_cons_of_mem _ hs)).1]
      intro heq
      exact hnd.1 (List.mem_map.2 ⟨s, hs, heq.symm⟩)
    have : certF (t :: l) = t.1 ^ t.2.1 * certF l := by simp [certF]
    rw [this]
    exact hcop.mul_dvd_of_dvd_of_dvd hstep hrest

/-- Pocklington's criterion from a certificate list. -/
theorem pocklington {N : ℕ} (l : List (ℕ × ℕ × ℕ)) (hN : 1 < N)
    (hnd : (l.map Prod.fst).Nodup) (hl : ∀ t ∈ l, CertEntry N t)
    (hF : N ≤ certF l * certF l) : N.Prime :=
  pocklington_of_forall hN hF (fun _ hr hrN => certF_dvd hN hr hrN l hnd hl)


theorem prime_fieldCert2 : Nat.Prime 255515944373312847190720520512484175977 := by
  apply pocklington [(2, 3, 3), (7, 2, 2), (11, 1, 2), (1627, 1, 2), (2657, 1, 2), (4423, 1, 2), (41201, 1, 2), (96557, 1, 2)] (by norm_num) (by decide)
  · simp only [List.forall_mem_cons, List.not_mem_nil, false_imp_iff, implies_true, and_true,
      CertEntry]
    exact ⟨⟨by norm_num, by decide!, by decide!, by decide!⟩,
      ⟨by norm_num, by decide!, by decide!, by decide!⟩,
      ⟨by norm_num, by decide!, by decide!, by decide!⟩,
      ⟨by norm_num, by decide!, by decide!, by decide!⟩,
      ⟨by norm_num, by decide!, by decide!, by decide!⟩,
      ⟨by norm_num, by decide!, by decide!, by decide!⟩,
      ⟨by norm_num, by decide!, by decide!, by decide!⟩,
      ⟨by norm_num, by decide!, by decide!, by decide!⟩⟩
  · decide!

theorem prime_fieldCert1 : Nat.Prime 205115282021455665897114700593932402728804164701536103180137503955397371 := by
  apply pocklington [(255515944373312847190720520512484175977, 1, 2)] (by norm_num) (by decide)
  · simp only [List.forall_mem_cons, List.not_mem_nil, false_imp_iff, implies_true, and_true,
      CertEntry]
    exact ⟨prime_fieldCert2, by decide!, by decide!, by decide!⟩
  · decide!

theorem prime_fieldPrime : Nat.Prime 115792089237316195423570985008687907853269984665640564039457584007908834671663 := by
  apply pocklington [(205115282021455665897114700593932402728804164701536103180137503955397371, 1, 2)] (by norm_num) (by decide)
  · simp only [List.forall_mem_cons, List.not_mem_nil, false_imp_iff, implies_true, and_true,
      CertEntry]
    exact ⟨prime_fieldCert1, by decide!, by decide!, by decide!⟩
  · decide!

theorem prime_orderCert1 : Nat.Prime 107361793816595537 := by
  apply pocklington [(2, 4, 3), (16699, 1, 2), (85831, 1, 2)] (by norm_num) (by decide)
  · simp only [List.forall_mem_cons, List.not_mem_nil, false_imp_iff, implies_true, and_true,
      CertEntry]
    exact ⟨⟨by norm_num, by decide!, by decide!, by decide!⟩,
      ⟨by norm_num, by decide!, by decide!, by decide!⟩,
      ⟨by norm_num, by decide!, by decide!, by decide!⟩⟩
  · decide!

theorem prime_orderCert2 : Nat.Prime 174723607534414371449 := by
  apply pocklington [(2, 3, 3), (17, 1, 2), (59, 1, 2), (4051, 1, 2), (120233, 1, 2)] (by norm_num) (by decide)
  · simp only [List.forall_mem_cons, List.not_mem_nil, false_imp_iff, implies_true, and_true,
      CertEntry]
    exact ⟨⟨by norm_num, by decide!, by decide!, by decide!⟩,
      ⟨by norm_num, by decide!, by decide!, by decide!⟩,
      ⟨by norm_num, by decide!, by decide!, by decide!⟩,
      ⟨by norm_num, by decide!, by decide!, by decide!⟩,
      ⟨by norm_num, by decide!, by decide!, by decide!⟩⟩
  · decide!

theorem prime_curveOrder : Nat.Prime 115792089237316195423570985008687907852837564279074904382605163141518161494337 := by
  apply pocklington [(2, 6, 5), (107361793816595537, 1, 2), (174723607534414371449, 1, 2)] (by norm_num) (by decide)
  · simp only [List.forall_mem_cons, List.not_mem_nil, false_imp_iff, implies_true, and_true,
      CertEntry]
    exact ⟨⟨by norm_num, by decide!, by decide!, by decide!⟩,
      ⟨prime_orderCert1, by decide!, by decide!, by decide!⟩,
      ⟨prime_orderCert2, by decide!, by decide!, by decide!⟩⟩
  · decide!

end PrimeCert

/-! ## The field `ZMod prime` and the modular primitives -/

namespace Secp256K1

theorem prime_eq : prime = 2 ^ 256 - 2 ^ 32 - 977 := by decide

theorem prime_is_prime : Nat.Prime prime := PrimeCert.prime_fieldPrime

theorem order_is_prime : Nat.Prime order := PrimeCert.prime_curveOrder

instance factPrime : Fact (Nat.Prime prime) := ⟨prime_is_prime⟩

end Secp256K1

namespace BigInt

open Secp256K1

theorem prime_pos : 0 < prime := prime_is_prime.pos

theorem cast_prime : ((prime : ℕ) : ZMod prime) = 0 := ZMod.natCast_self _

/-- Two reduced values with the same image in the field are equal. -/
theorem eq_of_cast_eq {a b : ℕ} (ha : a < prime) (hb : b < prime)
    (h : (a : ZMod prime) = (b : ZMod prime)) : a = b := by
  rw [ZMod.natCast_eq_natCast_iff'] at h
  rwa [Nat.mod_eq_of_lt ha, Nat.mod_eq_of_lt hb] at h

theorem cast_eq_zero_iff {a : ℕ} (ha : a < prime) : (a : ZMod prime) = 0 ↔ a = 0 := by
  constructor
  · intro h
    exact eq_of_cast_eq ha prime_pos (by simpa using h)
  · rintro rfl; simp

theorem ModMulK1_lt (a b : ℕ) : ModMulK1 a b < prime := Nat.mod_lt _ prime_pos

theorem ModSquareK1_lt (a : ℕ) : ModSquareK1 a < prime := Nat.mod_lt _ prime_pos

theorem ModMul_lt (a b : ℕ) : ModMul a b < prime := Nat.mod_lt _ prime_pos

theorem ModDouble_lt (a : ℕ) : ModDouble a < prime := Nat.mod_lt _ prime_pos

theorem ModNeg_lt (a : ℕ) : ModNeg a < prime := Nat.mod_lt _ prime_pos

theorem ModAdd_lt {a b : ℕ} (ha : a < prime) (hb : b < prime) : ModAdd a b < prime := by
  unfold ModAdd; split_ifs <;> omega

theorem ModSub_lt {a b : ℕ} (ha : a < prime) (hb : b < prime) : ModSub a b < prime := by
  unfold ModSub; split_ifs <;> omega

theorem ModInv_lt (a : ℕ) : ModInv a < prime := by
  unfold ModInv
  have hp : (0 : ℤ) < (prime : ℤ) := by exact_mod_cast prime_pos
  have h1 := Int.emod_lt_of_pos (ModInvLoop (a + 1) prime a 0 1).2 hp
  have h2 := Int.emod_nonneg (ModInvLoop (a + 1) prime a 0 1).2 hp.ne'
  omega

theorem cast_ModMulK1 (a b : ℕ) : ((ModMulK1 a b : ℕ) : ZMod prime) = a * b := by
  simp [ModMulK1]

theorem cast_ModSquareK1 (a : ℕ) : ((ModSquareK1 a : ℕ) : ZMod prime) = a * a := by
  simp [ModSquareK1]

theorem cast_ModMul (a b : ℕ) : ((ModMul a b : ℕ) : ZMod prime) = a * b := by
  simp [ModMul]

theorem cast_ModDouble (a : ℕ) : ((ModDouble a : ℕ) : ZMod prime) = 2 * a := by
  simp [ModDouble]

theorem cast_ModNeg (a : ℕ) : ((ModNeg a : ℕ) : ZMod prime) = -a := by
  unfold ModNeg
  rw [ZMod.natCast_mod, Nat.cast_sub (Nat.mod_lt _ prime_pos).le, cast_prime, ZMod.natCast_mod]
  simp

theorem cast_ModAdd (a b : ℕ) : ((ModAdd a b : ℕ) : ZMod prime) = a + b := by
  unfold ModAdd
  split_ifs with h
  · rw [Nat.cast_sub h, cast_prime]; simp
  · simp

theorem cast_ModSub {a b : ℕ} (hb : b < prime) : ((ModSub a b : ℕ) : ZMod prime) = a - b := by
  unfold ModSub
  split_ifs with h
  · rw [Nat.cast_sub (by omega), Nat.cast_add, cast_prime]; simp
  · rw [Nat.cast_sub (by omega)]

/-- Invariant of the inverse loop: the coefficient of the final `u` times `a` is that `u`, and
the final `u` is the gcd. -/
theorem ModInvLoop_spec (a : ℕ) : ∀ (fuel u v : ℕ) (r s : ℤ), v < fuel →
    (r : ZMod prime) * a = u → (s : ZMod prime) * a = v →
    (((ModInvLoop fuel u v r s).2 : ℤ) : ZMod prime) * a = ((ModInvLoop fuel u v r s).1 : ℕ) ∧
      (ModInvLoop fuel u v r s).1 = Nat.gcd u v := by
  intro fuel
  induction fuel with
  | zero => intro u v r s h; omega
  | succ k ih =>
    intro u v r s hv hr hs
    unfold ModInvLoop
    by_cases h0 : v = 0
    · subst h0; simp [hr]
    · rw [if_neg h0]
      have hlt : u % v < k := by
        have := Nat.mod_lt u (Nat.pos_of_ne_zero h0); omega
      have hs' : ((r - ((u / v : ℕ) : ℤ) * s : ℤ) : ZMod prime) * a = ((u % v : ℕ) : ZMod prime) := by
        have hdm : ((u % v : ℕ) : ZMod prime) = (u : ZMod prime) - ((u / v : ℕ) : ZMod prime) * v := by
          have := congrArg (fun n : ℕ => (n : ZMod prime)) (Nat.div_add_mod u v)
          simp only [Nat.cast_add, Nat.cast_mul] at this
          rw [← this]; ring
        rw [hdm, ← hr, ← hs, Int.cast_sub, Int.cast_mul, Int.cast_natCast]
        ring
      obtain ⟨h1, h2⟩ := ih v (u % v) s (r - ((u / v : ℕ) : ℤ) * s) hlt hs hs'
      refine ⟨h1, ?_⟩
      rw [h2, Nat.gcd_comm u v, Nat.gcd_rec v u, Nat.gcd_comm]

theorem ModInv_zero : ModInv 0 = 0 := by decide

/-- The modelled `ModInv` is the field inverse (and maps `0` to `0`). -/
theorem cast_ModInv {a : ℕ} (ha : a < prime) : ((ModInv a : ℕ) : ZMod prime) = (a : ZMod prime)⁻¹ := by
  by_cases h0 : a = 0
  · subst h0; rw [ModInv_zero]; simp
  · have hne : (a : ZMod prime) ≠ 0 := fun h => h0 ((cast_eq_zero_iff ha).1 h)
    have hspec := ModInvLoop_spec a (a + 1) prime a 0 1 (Nat.lt_succ_self a)
      (by simp) (by simp)
    have hgcd : Nat.gcd prime a = 1 := by
      rw [← Nat.coprime_iff_gcd_eq_one, Nat.Prime.coprime_iff_not_dvd prime_is_prime]
      intro hd
      have := Nat.le_of_dvd (Nat.pos_of_ne_zero h0) hd
      omega
    rw [hspec.2, hgcd] at hspec
    have hcast : ((ModInv a : ℕ) : ZMod prime) = (((ModInvLoop (a + 1) prime a 0 1).2 : ℤ) : ZMod prime) := by
      unfold ModInv
      have hp : (0 : ℤ) < (prime : ℤ) := by exact_mod_cast prime_pos
      have h2 := Int.emod_nonneg (ModInvLoop (a + 1) prime a 0 1).2 hp.ne'
      rw [← Int.cast_natCast, Int.toNat_of_nonneg h2, ZMod.intCast_mod]
    rw [hcast]
    have := hspec.1
    rw [Nat.cast_one] at this
    exact eq_inv_of_mul_eq_one_left this

end BigInt

/-! ## Predicates on group elements (they need the field structure of `ZMod prime`) -/

/-- The group element `A` is a nonzero element killed by `Secp256K1::order` (so, the order being
prime, an element of order exactly `order`). -/
def Secp256K1.HasOrderN (A : Secp256K1.curve.toAffine.Point) : Prop :=
  A ≠ 0 ∧ Secp256K1.order • A = 0

/-- Loop invariant of `MulDirect` after the bits below `i` of `s`: `p2` represents `2 ^ i • A`,
an assigned accumulator represents the nonzero multiple `(s mod 2 ^ i) • A`, an unassigned one
stands for `s mod 2 ^ i = 0`, and every recorded call of `Add` met different abscissas. -/
def Secp256K1.MulInv (s : ℕ) (A : Secp256K1.curve.toAffine.Point) (i : ℕ)
    (st : Point × Bool × Point × List (Point × Point)) : Prop :=
  Secp256K1.Represents st.2.2.1 (2 ^ i • A) ∧
    (st.2.1 = true → Secp256K1.Represents st.1 ((s % 2 ^ i) • A) ∧ 0 < s % 2 ^ i) ∧
    (st.2.1 = false → s % 2 ^ i = 0) ∧
    ∀ c ∈ st.2.2.2, c.1.Reduce.x ≠ c.2.Reduce.x

/-! ## Reduced values -/

namespace BigInt

open Secp256K1

instance (a b : ℕ) : Reduced (ModMulK1 a b) := ⟨ModMulK1_lt a b⟩
instance (a : ℕ) : Reduced (ModSquareK1 a) := ⟨ModSquareK1_lt a⟩
instance (a b : ℕ) : Reduced (ModMul a b) := ⟨ModMul_lt a b⟩
instance (a : ℕ) : Reduced (ModDouble a) := ⟨ModDouble_lt a⟩
instance (a : ℕ) : Reduced (ModNeg a) := ⟨ModNeg_lt a⟩
instance (a : ℕ) : Reduced (ModInv a) := ⟨ModInv_lt a⟩
instance (a b : ℕ) [ha : Reduced a] [hb : Reduced b] : Reduced (ModAdd a b) :=
  ⟨ModAdd_lt ha.lt hb.lt⟩
instance (a b : ℕ) [ha : Reduced a] [hb : Reduced b] : Reduced (ModSub a b) :=
  ⟨ModSub_lt ha.lt hb.lt⟩
instance : Reduced 0 := ⟨prime_pos⟩
instance : Reduced 1 := ⟨by decide⟩
instance : Reduced 7 := ⟨by decide⟩

theorem natCast_inj_of_reduced (a b : ℕ) [ha : Reduced a] [hb : Reduced b]
    (h : (a : ZMod prime) = (b : ZMod prime)) : a = b := eq_of_cast_eq ha.lt hb.lt h

theorem cast_ModSub_red (a b : ℕ) [hb : Reduced b] :
    ((ModSub a b : ℕ) : ZMod prime) = a - b := cast_ModSub hb.lt

theorem cast_ModInv_red (a : ℕ) [ha : Reduced a] :
    ((ModInv a : ℕ) : ZMod prime) = (a : ZMod prime)⁻¹ := cast_ModInv ha.lt

theorem cast_ne_zero_of_reduced (a : ℕ) [ha : Reduced a] (h : a ≠ 0) : (a : ZMod prime) ≠ 0 :=
  fun h0 => h ((cast_eq_zero_iff ha.lt).1 h0)

theorem two_ne_zero_field : (2 : ZMod prime) ≠ 0 := by
  have h := @cast_ne_zero_of_reduced 2 ⟨by decide⟩ (by decide)
  simpa using h

theorem ModMul_one {a : ℕ} (ha : a < prime) : ModMul a 1 = a := by
  unfold ModMul; rw [mul_one, Nat.mod_eq_of_lt ha]

theorem ModMulK1_one {a : ℕ} (ha : a < prime) : ModMulK1 a 1 = a := by
  unfold ModMulK1; rw [mul_one, Nat.mod_eq_of_lt ha]

theorem ModInv_one : ModInv 1 = 1 := by decide

end BigInt

/-! ## Algebra of the projective and affine formulas -/

namespace Secp256K1

open BigInt

theorem Reduce_of_affine {P : Point} (hz : P.z = 1) (hx : P.x < prime) (hy : P.y < prime) :
    P.Reduce = P := by
  obtain ⟨x, y, z⟩ := P
  simp only at hz hx hy
  subst hz
  simp only [Point.Reduce, ModInv_one, ModMul_one hx, ModMul_one hy]

theorem Reduce_z (P : Point) : P.Reduce.z = 1 := rfl

theorem Reduce_InField (P : Point) : P.Reduce.InField :=
  ⟨ModMul_lt _ _, ModMul_lt _ _, (by decide : 1 < prime)⟩

theorem Double_eq_PointDouble (P : Point) : Double P = P.Double := rfl

theorem DoubleDirect_eq_PointDoubleDirect (P : Point) : DoubleDirect P = P.DoubleDirect := rfl

/-- With `p2.z = 1` the mixed addition computes the same triple as the general addition. -/
theorem Add2_eq_Add {p1 p2 : Point} (h1 : p1.InField) (hz : p2.z = 1) :
    Add2 p1 p2 = Secp256K1.Add p1 p2 := by
  obtain ⟨h1x, h1y, h1z⟩ := h1
  simp only [Add2, Secp256K1.Add, hz, ModMulK1_one h1x, ModMulK1_one h1y, ModMulK1_one h1z]

/-- The projective sum of two points with different affine abscissas reduces to the affine
chord sum of the reduced points. -/
theorem Reduce_Add_eq_AddDirect {P1 P2 : Point} (h1 : P1.InField) (h2 : P2.InField)
    (hz1 : P1.z ≠ 0) (hz2 : P2.z ≠ 0) (hx : P1.Reduce.x ≠ P2.Reduce.x) :
    (Secp256K1.Add P1 P2).Reduce = AddDirect P1.Reduce P2.Reduce := by
  obtain ⟨x1, y1, z1⟩ := P1
  obtain ⟨x2, y2, z2⟩ := P2
  obtain ⟨h1x, h1y, h1z⟩ := h1
  obtain ⟨h2x, h2y, h2z⟩ := h2
  simp only at h1x h1y h1z h2x h2y h2z hz1 hz2
  haveI : Reduced x1 := ⟨h1x⟩
  haveI : Reduced y1 := ⟨h1y⟩
  haveI : Reduced z1 := ⟨h1z⟩
  haveI : Reduced x2 := ⟨h2x⟩
  haveI : Reduced y2 := ⟨h2y⟩
  haveI : Reduced z2 := ⟨h2z⟩
  have hz1' : (z1 : ZMod prime) ≠ 0 := cast_ne_zero_of_reduced z1 hz1
  have hz2' : (z2 : ZMod prime) ≠ 0 := cast_ne_zero_of_reduced z2 hz2
  obtain ⟨a1, ha1⟩ : ∃ a : ZMod prime, (x1 : ZMod prime) = a * z1 := ⟨x1 / z1, by field_simp⟩
  obtain ⟨b1, hb1⟩ : ∃ b : ZMod prime, (y1 : ZMod prime) = b * z1 := ⟨y1 / z1, by field_simp⟩
  obtain ⟨d, hd⟩ : ∃ d : ZMod prime, (x2 : ZMod prime) = (a1 + d) * z2 :=
    ⟨x2 / z2 - a1, by field_simp; ring⟩
  obtain ⟨b2, hb2⟩ : ∃ b : ZMod prime, (y2 : ZMod prime) = b * z2 := ⟨y2 / z2, by field_simp⟩
  have hv : (x2 : ZMod prime) * z1 - x1 * z2 = d * z1 * z2 := by rw [ha1, hd]; ring
  have hdiff : (x2 : ZMod prime) * (z2 : ZMod prime)⁻¹ - x1 * (z1 : ZMod prime)⁻¹ = d := by
    rw [ha1, hd]; field_simp
  have hd0 : d ≠ 0 := by
    intro h
    apply hx
    simp only [Point.Reduce]
    apply natCast_inj_of_reduced
    simp only [cast_ModMul, cast_ModInv_red]
    rw [ha1, hd, h]
    field_simp
  simp only [Point.Reduce, Secp256K1.Add, AddDirect, Point.mk.injEq, and_true]
  constructor
  · apply natCast_inj_of_reduced
    simp only [cast_ModMul, cast_ModInv_red, cast_ModMulK1, cast_ModSquareK1, cast_ModAdd,
      cast_ModSub_red]
    rw [hdiff]
    simp only [hv]
    rw [ha1, hb1, hd, hb2]
    simp only [mul_inv_cancel_right₀ hz1', mul_inv_cancel_right₀ hz2']
    rw [mul_inv_eq_iff_eq_mul₀ (by simp [hd0, hz1', hz2'])]
    field_simp
    ring
  · apply natCast_inj_of_reduced
    simp only [cast_ModMul, cast_ModInv_red, cast_ModMulK1, cast_ModSquareK1, cast_ModAdd,
      cast_ModSub_red]
    rw [hdiff]
    simp only [hv]
    rw [ha1, hb1, hd, hb2]
    simp only [mul_inv_cancel_right₀ hz1', mul_inv_cancel_right₀ hz2']
    rw [mul_inv_eq_iff_eq_mul₀ (by simp [hd0, hz1', hz2'])]
    field_simp
    ring

/-- The projective double of a point with `y ≠ 0` reduces to the affine tangent double of the
reduced point. -/
theorem Reduce_Double_eq_DoubleDirect {P : Point} (h : P.InField) (hz : P.z ≠ 0)
    (hy : P.y ≠ 0) : (Double P).Reduce = DoubleDirect P.Reduce := by
  obtain ⟨x, y, z⟩ := P
  obtain ⟨hx1, hy1, hz1⟩ := h
  simp only at hx1 hy1 hz1 hz hy
  haveI : Reduced x := ⟨hx1⟩
  haveI : Reduced y := ⟨hy1⟩
  haveI : Reduced z := ⟨hz1⟩
  have hz' : (z : ZMod prime) ≠ 0 := cast_ne_zero_of_reduced z hz
  have hy' : (y : ZMod prime) ≠ 0 := cast_ne_zero_of_reduced y hy
  have h2 := two_ne_zero_field
  obtain ⟨a, ha⟩ : ∃ a : ZMod prime, (x : ZMod prime) = a * z := ⟨x / z, by field_simp⟩
  obtain ⟨b, hb⟩ : ∃ b : ZMod prime, (y : ZMod prime) = b * z := ⟨y / z, by field_simp⟩
  have hb0 : b ≠ 0 := by
    intro h0; apply hy'; rw [hb, h0, zero_mul]
  have hbb : b + b ≠ 0 := by
    intro h0; apply hb0
    have : (2 : ZMod prime) * b = 0 := by rw [two_mul]; exact h0
    rcases mul_eq_zero.1 this with h | h
    · exact absurd h h2
    · exact h
  simp only [Point.Reduce, Double, DoubleDirect, Point.mk.injEq, and_true]
  constructor
  · apply natCast_inj_of_reduced
    simp only [cast_ModMul, cast_ModInv_red, cast_ModMulK1, cast_ModSquareK1, cast_ModAdd,
      cast_ModSub_red, cast_ModDouble, cast_ModNeg, Nat.cast_zero]
    rw [ha, hb]
    simp only [mul_inv_cancel_right₀ hz']
    rw [mul_inv_eq_iff_eq_mul₀ (by simp [hb0, hz', h2])]
    field_simp
    ring
  · apply natCast_inj_of_reduced
    simp only [cast_ModMul, cast_ModInv_red, cast_ModMulK1, cast_ModSquareK1, cast_ModAdd,
      cast_ModSub_red, cast_ModDouble, cast_ModNeg, Nat.cast_zero]
    rw [ha, hb]
    simp only [mul_inv_cancel_right₀ hz']
    rw [mul_inv_eq_iff_eq_mul₀ (by simp [hb0, hz', h2])]
    field_simp
    ring

/-- The projective sum does not depend on the order of its arguments once reduced. -/
theorem Reduce_Add_comm (P Q : Point) :
    (Secp256K1.Add P Q).Reduce = (Secp256K1.Add Q P).Reduce := by
  obtain ⟨x1, y1, z1⟩ := P
  obtain ⟨x2, y2, z2⟩ := Q
  have hX : (((Secp256K1.Add ⟨x2, y2, z2⟩ ⟨x1, y1, z1⟩).x : ℕ) : ZMod prime)
      = -(((Secp256K1.Add ⟨x1, y1, z1⟩ ⟨x2, y2, z2⟩).x : ℕ) : ZMod prime) := by
    simp only [Secp256K1.Add, cast_ModMulK1, cast_ModSquareK1, cast_ModAdd, cast_ModSub_red]
    ring
  have hY : (((Secp256K1.Add ⟨x2, y2, z2⟩ ⟨x1, y1, z1⟩).y : ℕ) : ZMod prime)
      = -(((Secp256K1.Add ⟨x1, y1, z1⟩ ⟨x2, y2, z2⟩).y : ℕ) : ZMod prime) := by
    simp only [Secp256K1.Add, cast_ModMulK1, cast_ModSquareK1, cast_ModAdd, cast_ModSub_red]
    ring
  have hZ : (((Secp256K1.Add ⟨x2, y2, z2⟩ ⟨x1, y1, z1⟩).z : ℕ) : ZMod prime)
      = -(((Secp256K1.Add ⟨x1, y1, z1⟩ ⟨x2, y2, z2⟩).z : ℕ) : ZMod prime) := by
    simp only [Secp256K1.Add, cast_ModMulK1, cast_ModSquareK1, cast_ModAdd, cast_ModSub_red]
    ring
  have hz1 : (Secp256K1.Add ⟨x1, y1, z1⟩ ⟨x2, y2, z2⟩).z < prime := ModMulK1_lt _ _
  have hz2 : (Secp256K1.Add ⟨x2, y2, z2⟩ ⟨x1, y1, z1⟩).z < prime := ModMulK1_lt _ _
  simp only [Point.Reduce, Point.mk.injEq, and_true]
  constructor
  · apply natCast_inj_of_reduced
    rw [cast_ModMul, cast_ModMul, cast_ModInv hz1, cast_ModInv hz2, hX, hZ, inv_neg, neg_mul_neg]
  · apply natCast_inj_of_reduced
    rw [cast_ModMul, cast_ModMul, cast_ModInv hz1, cast_ModInv hz2, hY, hZ, inv_neg, neg_mul_neg]

/-- The affine chord sum of two points with different abscissas does not depend on the order
of its arguments. -/
theorem AddDirect_comm {P Q : Point} (hP : P.InField) (hQ : Q.InField) (hx : P.x ≠ Q.x) :
    AddDirect P Q = AddDirect Q P := by
  obtain ⟨x1, y1, z1⟩ := P
  obtain ⟨x2, y2, z2⟩ := Q
  obtain ⟨h1x, h1y, -⟩ := hP
  obtain ⟨h2x, h2y, -⟩ := hQ
  simp only at h1x h1y h2x h2y hx
  haveI : Reduced x1 := ⟨h1x⟩
  haveI : Reduced y1 := ⟨h1y⟩
  haveI : Reduced x2 := ⟨h2x⟩
  haveI : Reduced y2 := ⟨h2y⟩
  have hd : (x2 : ZMod prime) - x1 ≠ 0 := by
    intro h
    exact hx (natCast_inj_of_reduced x1 x2 (sub_eq_zero.1 h).symm)
  have hd' : (x1 : ZMod prime) - x2 ≠ 0 := by
    intro h
    exact hx (natCast_inj_of_reduced x1 x2 (sub_eq_zero.1 h))
  simp only [AddDirect, Point.mk.injEq, and_true]
  constructor
  · apply natCast_inj_of_reduced
    simp only [cast_ModInv_red, cast_ModMulK1, cast_ModSquareK1, cast_ModSub_red]
    field_simp
    ring
  · apply natCast_inj_of_reduced
    simp only [cast_ModInv_red, cast_ModMulK1, cast_ModSquareK1, cast_ModSub_red]
    field_simp
    ring

end Secp256K1

/-! ## The program's point operations and the group law of the curve -/

namespace Secp256K1

open BigInt WeierstrassCurve

theorem curve_equation_iff (x y : ZMod prime) :
    curve.toAffine.Equation x y ↔ y ^ 2 = x ^ 3 + 7 := by
  rw [Affine.equation_iff]
  simp [curve]

/-- `-7` is not a cube modulo `p`. -/
theorem cube_ne_neg_seven (x : ZMod prime) : x ^ 3 ≠ -7 := by
  intro hcube
  have hx0 : x ≠ 0 := by
    intro h0
    rw [h0] at hcube
    have h7 : ((7 : ℕ) : ZMod prime) = 0 := by
      have : (7 : ZMod prime) = 0 := by linear_combination hcube
      exact_mod_cast this
    exact absurd ((cast_eq_zero_iff (by decide)).1 h7) (by decide)
  have hpow : x ^ (prime - 1) = 1 := ZMod.pow_card_sub_one_eq_one hx0
  have h3 : prime - 1 = 3 * ((prime - 1) / 3) := by decide
  rw [h3, pow_mul, hcube] at hpow
  have hc : (((prime - 7 : ℕ)) : ZMod prime) = -7 := by
    rw [Nat.cast_sub (by decide), cast_prime]; simp
  rw [← hc, ← Nat.cast_pow] at hpow
  have hval : ((prime - 7) ^ ((prime - 1) / 3)) % prime = 1 := by
    have h1 : (((prime - 7) ^ ((prime - 1) / 3) % prime : ℕ) : ZMod prime)
        = ((1 : ℕ) : ZMod prime) := by
      rw [ZMod.natCast_mod, hpow, Nat.cast_one]
    exact eq_of_cast_eq (Nat.mod_lt _ prime_pos) (by decide) h1
  rw [← PrimeCert.powMod_eq] at hval
  revert hval
  decide!

theorem y_ne_zero_of_equation {x y : ZMod prime} (h : curve.toAffine.Equation x y) : y ≠ 0 := by
  intro hy
  rw [curve_equation_iff, hy] at h
  exact cube_ne_neg_seven x (by linear_combination -h)

theorem y_ne_neg_of_equation {x y : ZMod prime} (h : curve.toAffine.Equation x y) :
    y ≠ curve.toAffine.negY x y := by
  intro hy
  have h2 : (2 : ZMod prime) * y = 0 := by
    simp only [Affine.negY, curve, zero_mul, sub_zero] at hy
    linear_combination hy
  rcases mul_eq_zero.1 h2 with h | h
  · exact two_ne_zero_field h
  · exact y_ne_zero_of_equation ‹_› h

theorem nonsingular_of_equation {x y : ZMod prime} (h : curve.toAffine.Equation x y) :
    curve.toAffine.Nonsingular x y := by
  rw [Affine.nonsingular_iff]
  refine ⟨h, Or.inr ?_⟩
  exact y_ne_neg_of_equation h

/-- `EC` tests the curve equation in the field. -/
theorem EC_iff {P : Point} (hx : P.x < prime) (hy : P.y < prime) :
    EC P = true ↔ curve.toAffine.Equation (P.x : ZMod prime) (P.y : ZMod prime) := by
  obtain ⟨x, y, z⟩ := P
  simp only at hx hy
  haveI : Reduced x := ⟨hx⟩
  haveI : Reduced y := ⟨hy⟩
  rw [curve_equation_iff]
  simp only [EC, beq_iff_eq]
  rw [← cast_eq_zero_iff (ModSub_lt (ModMulK1_lt _ _) (ModAdd_lt (ModMulK1_lt _ _) (by decide)))]
  simp only [cast_ModMulK1, cast_ModSquareK1, cast_ModAdd, cast_ModSub_red, Nat.cast_ofNat]
  constructor
  · intro h; linear_combination h
  · intro h; linear_combination h

/-- No point of the curve has `y = 0`. -/
theorem y_ne_zero_of_EC {P : Point} (hx : P.x < prime) (hy : P.y < prime) (h : EC P = true) :
    P.y ≠ 0 := by
  intro hy0
  apply y_ne_zero_of_equation ((EC_iff hx hy).1 h)
  rw [hy0]; simp

theorem IsAffineOf.onCurve {R : Point} {A : curve.toAffine.Point} (h : IsAffineOf R A) :
    OnCurve R := by
  obtain ⟨hz, hx, hy, hn, -⟩ := h
  exact ⟨hz, hx, hy, (EC_iff hx hy).2 hn.1⟩

theorem exists_isAffineOf {R : Point} (h : OnCurve R) : ∃ A, IsAffineOf R A := by
  obtain ⟨hz, hx, hy, hE⟩ := h
  exact ⟨_, hz, hx, hy, nonsingular_of_equation ((EC_iff hx hy).1 hE), rfl⟩

theorem IsAffineOf.ne_zero {R : Point} {A : curve.toAffine.Point} (h : IsAffineOf R A) :
    A ≠ 0 := by
  obtain ⟨-, -, -, hn, rfl⟩ := h
  exact Affine.Point.some_ne_zero hn

theorem IsAffineOf.unique {R : Point} {A B : curve.toAffine.Point} (hA : IsAffineOf R A)
    (hB : IsAffineOf R B) : A = B := by
  obtain ⟨-, -, -, hn, rfl⟩ := hA
  obtain ⟨-, -, -, hn', rfl⟩ := hB
  rfl

theorem IsAffineOf.point_eq {R R' : Point} {A : curve.toAffine.Point} (h : IsAffineOf R A)
    (h' : IsAffineOf R' A) : R = R' := by
  obtain ⟨hz, hx, hy, hn, rfl⟩ := h
  obtain ⟨hz', hx', hy', hn', he⟩ := h'
  obtain ⟨x, y, z⟩ := R
  obtain ⟨x', y', z'⟩ := R'
  simp only at hz hx hy hn hz' hx' hy' hn' he
  simp only [Affine.Point.some.injEq] at he
  simp only [Point.mk.injEq]
  exact ⟨eq_of_cast_eq hx hx' he.1, eq_of_cast_eq hy hy' he.2, hz.trans hz'.symm⟩

/-- Two affine points with the same abscissa are equal or opposite. -/
theorem IsAffineOf.eq_or_eq_neg {R R' : Point} {A B : curve.toAffine.Point}
    (h : IsAffineOf R A) (h' : IsAffineOf R' B) (hx : R.x = R'.x) : A = B ∨ A = -B := by
  obtain ⟨hz, hx1, hy1, hn, rfl⟩ := h
  obtain ⟨hz', hx', hy', hn', rfl⟩ := h'
  have hxc : (R.x : ZMod prime) = (R'.x : ZMod prime) := by rw [hx]
  rcases Affine.Y_eq_of_X_eq hn.1 hn'.1 hxc with hy | hy
  · left
    simp only [Affine.Point.some.injEq]
    exact ⟨hxc, hy⟩
  · right
    rw [Affine.Point.neg_some]
    simp only [Affine.Point.some.injEq]
    exact ⟨hxc, hy⟩

theorem some_eq_some_of_eq {x y x' y' : ZMod prime} (h : curve.toAffine.Nonsingular x y)
    (hx : x = x') (hy : y = y') :
    ∃ h' : curve.toAffine.Nonsingular x' y', Affine.Point.some h = Affine.Point.some h' := by
  subst hx hy
  exact ⟨h, rfl⟩

/-- The affine chord addition of the program is the group addition, for points with different
abscissas. -/
theorem AddDirect_spec {R1 R2 : Point} {A B : curve.toAffine.Point} (h1 : IsAffineOf R1 A)
    (h2 : IsAffineOf R2 B) (hx : R1.x ≠ R2.x) : IsAffineOf (AddDirect R1 R2) (A + B) := by
  obtain ⟨hz1, hx1, hy1, hn1, rfl⟩ := h1
  obtain ⟨hz2, hx2, hy2, hn2, rfl⟩ := h2
  obtain ⟨x1, y1, z1⟩ := R1
  obtain ⟨x2, y2, z2⟩ := R2
  simp only at hz1 hx1 hy1 hn1 hz2 hx2 hy2 hn2 hx
  haveI : Reduced x1 := ⟨hx1⟩
  haveI : Reduced y1 := ⟨hy1⟩
  haveI : Reduced x2 := ⟨hx2⟩
  haveI : Reduced y2 := ⟨hy2⟩
  have hxc : (x1 : ZMod prime) ≠ (x2 : ZMod prime) :=
    fun h => hx (natCast_inj_of_reduced x1 x2 h)
  have hd : (x1 : ZMod prime) - x2 ≠ 0 := sub_ne_zero.2 hxc
  have hd' : (x2 : ZMod prime) - x1 ≠ 0 := sub_ne_zero.2 (Ne.symm hxc)
  rw [Affine.Point.add_of_X_ne hxc]
  have hX : curve.toAffine.addX (x1 : ZMod prime) x2 (curve.toAffine.slope (x1 : ZMod prime) x2 y1 y2)
      = ((AddDirect ⟨x1, y1, z1⟩ ⟨x2, y2, z2⟩).x : ZMod prime) := by
    rw [Affine.slope_of_X_ne hxc]
    simp only [AddDirect, Affine.addX, curve, cast_ModInv_red, cast_ModMulK1, cast_ModSquareK1,
      cast_ModSub_red]
    field_simp
    ring
  have hY : curve.toAffine.addY (x1 : ZMod prime) x2 y1 (curve.toAffine.slope (x1 : ZMod prime) x2 y1 y2)
      = ((AddDirect ⟨x1, y1, z1⟩ ⟨x2, y2, z2⟩).y : ZMod prime) := by
    rw [Affine.slope_of_X_ne hxc]
    simp only [AddDirect, Affine.addY, Affine.negAddY, Affine.negY, Affine.addX, curve,
      cast_ModInv_red, cast_ModMulK1, cast_ModSquareK1, cast_ModSub_red]
    field_simp
    ring
  obtain ⟨h', he⟩ := some_eq_some_of_eq
    (Affine.nonsingular_add hn1 hn2 (fun h => (hxc h).elim)) hX hY
  exact ⟨rfl, ModSub_lt (ModSub_lt (ModSquareK1_lt _) hx1) hx2,
    ModSub_lt (ModMulK1_lt _ _) hy2, h', he⟩

/-- The affine tangent doubling of the program is the group doubling. -/
theorem DoubleDirect_spec {R : Point} {A : curve.toAffine.Point} (h : IsAffineOf R A) :
    IsAffineOf (DoubleDirect R) (A + A) := by
  obtain ⟨hz, hx, hy, hn, rfl⟩ := h
  obtain ⟨x, y, z⟩ := R
  simp only at hz hx hy hn
  haveI : Reduced x := ⟨hx⟩
  haveI : Reduced y := ⟨hy⟩
  have hyn := y_ne_neg_of_equation hn.1
  have hy0 := y_ne_zero_of_equation hn.1
  have h2 := two_ne_zero_field
  have hyy : (y : ZMod prime) + y ≠ 0 := by
    rw [← two_mul]; exact mul_ne_zero h2 hy0
  rw [Affine.Point.add_self_of_Y_ne hyn]
  have hX : curve.toAffine.addX (x : ZMod prime) x (curve.toAffine.slope (x : ZMod prime) x y y)
      = ((DoubleDirect ⟨x, y, z⟩).x : ZMod prime) := by
    rw [Affine.slope_of_Y_ne rfl hyn]
    simp only [DoubleDirect, Affine.addX, Affine.negY, curve, cast_ModInv_red, cast_ModMulK1,
      cast_ModAdd, cast_ModNeg, cast_ModSub_red]
    field_simp
    ring
  have hY : curve.toAffine.addY (x : ZMod prime) x y (curve.toAffine.slope (x : ZMod prime) x y y)
      = ((DoubleDirect ⟨x, y, z⟩).y : ZMod prime) := by
    rw [Affine.slope_of_Y_ne rfl hyn]
    simp only [DoubleDirect, Affine.addY, Affine.negAddY, Affine.negY, Affine.addX, curve,
      cast_ModInv_red, cast_ModMulK1, cast_ModAdd, cast_ModNeg, cast_ModSub_red]
    field_simp
    ring
  obtain ⟨h', he⟩ := some_eq_some_of_eq (Affine.nonsingular_add hn hn (fun _ => hyn)) hX hY
  exact ⟨rfl, ModAdd_lt (ModNeg_lt _) (ModMulK1_lt _ _), ModNeg_lt _, h', he⟩

theorem Add_InField (P1 P2 : Point) : (Secp256K1.Add P1 P2).InField :=
  ⟨ModMulK1_lt _ _, ModSub_lt (ModMulK1_lt _ _) (ModMulK1_lt _ _), ModMulK1_lt _ _⟩

theorem Double_InField (P : Point) : (Double P).InField :=
  ⟨ModAdd_lt (ModMulK1_lt _ _) (ModMulK1_lt _ _),
    ModSub_lt (ModMulK1_lt _ _) (ModDouble_lt _), ModDouble_lt _⟩

/-- The projective sum of two points with different affine abscissas has `z ≠ 0`. -/
theorem Add_z_ne_zero {P1 P2 : Point} (h1 : P1.InField) (h2 : P2.InField)
    (hz1 : P1.z ≠ 0) (hz2 : P2.z ≠ 0) (hx : P1.Reduce.x ≠ P2.Reduce.x) :
    (Secp256K1.Add P1 P2).z ≠ 0 := by
  obtain ⟨x1, y1, z1⟩ := P1
  obtain ⟨x2, y2, z2⟩ := P2
  obtain ⟨h1x, h1y, h1z⟩ := h1
  obtain ⟨h2x, h2y, h2z⟩ := h2
  simp only at h1x h1y h1z h2x h2y h2z hz1 hz2
  haveI : Reduced x1 := ⟨h1x⟩
  haveI : Reduced z1 := ⟨h1z⟩
  haveI : Reduced x2 := ⟨h2x⟩
  haveI : Reduced z2 := ⟨h2z⟩
  have hz1' : (z1 : ZMod prime) ≠ 0 := cast_ne_zero_of_reduced z1 hz1
  have hz2' : (z2 : ZMod prime) ≠ 0 := cast_ne_zero_of_reduced z2 hz2
  have hv : (x2 : ZMod prime) * z1 - x1 * z2 ≠ 0 := by
    intro h
    apply hx
    simp only [Point.Reduce]
    apply natCast_inj_of_reduced
    simp only [cast_ModMul, cast_ModInv_red]
    field_simp
    linear_combination -h
  intro h0
  have hc : (((Secp256K1.Add ⟨x1, y1, z1⟩ ⟨x2, y2, z2⟩).z : ℕ) : ZMod prime) = 0 := by
    rw [h0]; simp
  simp only [Secp256K1.Add, cast_ModMulK1, cast_ModSquareK1, cast_ModSub_red] at hc
  simp only [mul_eq_zero] at hc
  tauto

/-- The projective double of a point with `y ≠ 0` and `z ≠ 0` has `z ≠ 0`. -/
theorem Double_z_ne_zero {P : Point} (h : P.InField) (hz : P.z ≠ 0) (hy : P.y ≠ 0) :
    (Double P).z ≠ 0 := by
  obtain ⟨x, y, z⟩ := P
  obtain ⟨hx1, hy1, hz1⟩ := h
  simp only at hx1 hy1 hz1 hz hy
  haveI : Reduced y := ⟨hy1⟩
  haveI : Reduced z := ⟨hz1⟩
  have hz' : (z : ZMod prime) ≠ 0 := cast_ne_zero_of_reduced z hz
  have hy' : (y : ZMod prime) ≠ 0 := cast_ne_zero_of_reduced y hy
  have h2 := two_ne_zero_field
  intro h0
  have hc : (((Double ⟨x, y, z⟩).z : ℕ) : ZMod prime) = 0 := by
    rw [h0]; simp
  simp only [Double, cast_ModMulK1, cast_ModSquareK1, cast_ModDouble] at hc
  simp only [mul_eq_zero] at hc
  tauto

theorem Represents.of_affine {R : Point} {A : curve.toAffine.Point} (h : IsAffineOf R A) :
    Represents R A := by
  have hz : R.z = 1 := h.1
  refine ⟨⟨h.2.1, h.2.2.1, by rw [hz]; decide⟩, by rw [hz]; decide, ?_⟩
  rw [Reduce_of_affine hz h.2.1 h.2.2.1]
  exact h

theorem Represents.x_ne {Q T : Point} {A B : curve.toAffine.Point} (hQ : Represents Q A)
    (hT : Represents T B) (hne : A ≠ B) (hneg : A ≠ -B) : Q.Reduce.x ≠ T.Reduce.x := by
  intro hx
  rcases hQ.2.2.eq_or_eq_neg hT.2.2 hx with h | h
  · exact hne h
  · exact hneg h

/-- The projective addition of the program is the group addition, for operands that are
neither equal nor opposite. -/
theorem Add_spec {Q T : Point} {A B : curve.toAffine.Point} (hQ : Represents Q A)
    (hT : Represents T B) (hne : A ≠ B) (hneg : A ≠ -B) :
    Represents (Secp256K1.Add Q T) (A + B) := by
  have hx := hQ.x_ne hT hne hneg
  refine ⟨Add_InField Q T, Add_z_ne_zero hQ.1 hT.1 hQ.2.1 hT.2.1 hx, ?_⟩
  rw [Reduce_Add_eq_AddDirect hQ.1 hT.1 hQ.2.1 hT.2.1 hx]
  exact AddDirect_spec hQ.2.2 hT.2.2 hx

/-- The mixed addition of the program is the group addition, for operands that are neither
equal nor opposite. -/
theorem Add2_spec {Q T : Point} {A B : curve.toAffine.Point} (hQ : Represents Q A)
    (hT : IsAffineOf T B) (hne : A ≠ B) (hneg : A ≠ -B) :
    Represents (Add2 Q T) (A + B) := by
  rw [Add2_eq_Add hQ.1 hT.1]
  exact Add_spec hQ (Represents.of_affine hT) hne hneg

theorem Represents.y_ne_zero {Q : Point} {A : curve.toAffine.Point} (hQ : Represents Q A) :
    Q.y ≠ 0 := by
  intro hy
  obtain ⟨-, -, -, -, -, hn, -⟩ := hQ
  apply y_ne_zero_of_equation hn.1
  show ((ModMul Q.y (ModInv Q.z) : ℕ) : ZMod prime) = 0
  rw [cast_ModMul, hy]
  simp

/-- The projective doubling of the program is the group doubling. -/
theorem Double_spec {Q : Point} {A : curve.toAffine.Point} (hQ : Represents Q A) :
    Represents (Double Q) (A + A) := by
  refine ⟨Double_InField Q, Double_z_ne_zero hQ.1 hQ.2.1 hQ.y_ne_zero, ?_⟩
  rw [Reduce_Double_eq_DoubleDirect hQ.1 hQ.2.1 hQ.y_ne_zero]
  exact DoubleDirect_spec hQ.2.2

theorem mulAffLoop_spec : ∀ (fuel s : ℕ) (p2 : Point) (acc res : Option Point)
    (B C : curve.toAffine.Point), s < 2 ^ fuel → IsAffineOf p2 B → AccOf acc C →
    mulAffLoop fuel s p2 acc = some res → AccOf res (C + s • B) := by
  intro fuel
  induction fuel with
  | zero =>
    intro s p2 acc res B C hs _ hC h
    have h0 : s = 0 := by simpa using hs
    subst h0
    simp only [mulAffLoop, Option.some.injEq] at h
    subst h
    rw [zero_nsmul, add_zero]
    exact hC
  | succ k ih =>
    intro s p2 acc res B C hs hB hC h
    unfold mulAffLoop at h
    by_cases h0 : s = 0
    · subst h0
      simp only [if_true, Option.some.injEq] at h
      subst h
      rw [zero_nsmul, add_zero]
      exact hC
    · rw [if_neg h0] at h
      have hk : s / 2 < 2 ^ k := by
        rw [Nat.div_lt_iff_lt_mul (by norm_num)]
        calc s < 2 ^ (k + 1) := hs
          _ = 2 ^ k * 2 := by ring
      have hBB := DoubleDirect_spec hB
      have hsplit : ∀ D : curve.toAffine.Point, D + (s / 2) • (B + B) = D + (2 * (s / 2)) • B := by
        intro D
        rw [mul_nsmul B 2 (s / 2), two_nsmul]
      rcases Nat.mod_two_eq_zero_or_one s with h2 | h2
      · simp only [h2, if_neg (by norm_num : ¬ (0 = 1))] at h
        have := ih (s / 2) (DoubleDirect p2) acc res (B + B) C hk hBB hC h
        rw [hsplit] at this
        have hs2 : 2 * (s / 2) = s := by omega
        rwa [hs2] at this
      · simp only [h2, if_true] at h
        have hs2 : 2 * (s / 2) + 1 = s := by omega
        cases acc with
        | none =>
          simp only at h
          have hC0 : C = 0 := hC
          have := ih (s / 2) (DoubleDirect p2) (some p2) res (B + B) B hk hBB hB h
          rw [hsplit] at this
          rw [hC0, zero_add, ← hs2, add_comm (2 * (s / 2)) 1, add_nsmul, one_nsmul]
          exact this
        | some r =>
          simp only at h
          by_cases hx : r.x = p2.x
          · simp [hx] at h
          · rw [if_neg hx] at h
            have hC' : IsAffineOf r C := hC
            have hsum := AddDirect_spec hC' hB hx
            have := ih (s / 2) (DoubleDirect p2) (some (AddDirect r p2)) res (B + B) (C + B)
              hk hBB hsum h
            rw [hsplit] at this
            rw [← hs2, add_comm (2 * (s / 2)) 1, add_nsmul, one_nsmul, ← add_assoc]
            exact this

theorem G_onCurve : OnCurve G := by decide!

theorem G_nonsingular : curve.toAffine.Nonsingular (G.x : ZMod prime) (G.y : ZMod prime) :=
  nonsingular_of_equation ((EC_iff G_onCurve.2.1 G_onCurve.2.2.1).1 G_onCurve.2.2.2)

/-- The generator as an element of the group of points of the curve. -/
def Gpoint : curve.toAffine.Point := Affine.Point.some G_nonsingular

theorem G_isAffineOf : IsAffineOf G Gpoint :=
  ⟨rfl, G_onCurve.2.1, G_onCurve.2.2.1, G_nonsingular, rfl⟩

theorem negG_isAffineOf : IsAffineOf negG (-Gpoint) := by
  have hx : ((negG.x : ℕ) : ZMod prime) = (G.x : ZMod prime) := rfl
  have hy : curve.toAffine.negY (G.x : ZMod prime) (G.y : ZMod prime)
      = ((negG.y : ℕ) : ZMod prime) := by
    show _ = (((prime - G.y : ℕ)) : ZMod prime)
    rw [Nat.cast_sub (by decide), cast_prime]
    simp [Affine.negY, curve]
  obtain ⟨h', he⟩ := some_eq_some_of_eq (Affine.nonsingular_neg G_nonsingular) hx.symm hy
  refine ⟨rfl, by decide, by decide, h', ?_⟩
  rw [← he]
  rfl

/-- The generator has order `Secp256K1::order`. -/
theorem order_nsmul_Gpoint : order • Gpoint = 0 := by
  have hrun : mulAffLoop 256 (order - 1) G none = some (some negG) := by decide!
  have h := mulAffLoop_spec 256 (order - 1) G none (some negG) Gpoint 0 (by decide)
    G_isAffineOf rfl hrun
  have h1 : (order - 1) • Gpoint = -Gpoint := by
    have h' : IsAffineOf negG (0 + (order - 1) • Gpoint) := h
    rw [zero_add] at h'
    exact h'.unique negG_isAffineOf
  have h2 : order = (order - 1) + 1 := by decide
  rw [h2, add_nsmul, one_nsmul, h1, neg_add_cancel]

end Secp256K1

/-! ## Elements of prime order and the double-and-add loops -/

namespace Secp256K1

open BigInt WeierstrassCurve

theorem HasOrderN.addOrderOf_eq {A : curve.toAffine.Point} (h : HasOrderN A) :
    addOrderOf A = order := by
  haveI : Fact order.Prime := ⟨order_is_prime⟩
  exact addOrderOf_eq_prime h.2 h.1

theorem HasOrderN.nsmul_eq_zero_iff {A : curve.toAffine.Point} (h : HasOrderN A) (k : ℕ) :
    k • A = 0 ↔ order ∣ k := by
  rw [← h.addOrderOf_eq, addOrderOf_dvd_iff_nsmul_eq_zero]

theorem HasOrderN.nsmul_ne_zero {A : curve.toAffine.Point} (h : HasOrderN A) {k : ℕ}
    (hk : 0 < k) (hlt : k < order) : k • A ≠ 0 := by
  rw [Ne, h.nsmul_eq_zero_iff]
  intro hd
  have := Nat.le_of_dvd hk hd
  omega

theorem HasOrderN.nsmul_ne_nsmul {A : curve.toAffine.Point} (h : HasOrderN A) {a b : ℕ}
    (hab : a < b) (hlt : b - a < order) : a • A ≠ b • A := by
  intro he
  apply h.nsmul_ne_zero (Nat.sub_pos_of_lt hab) hlt
  have hb : b = (b - a) + a := by omega
  rw [hb, add_nsmul] at he
  exact (self_eq_add_left.1 he)

theorem HasOrderN.nsmul_ne_neg_nsmul {A : curve.toAffine.Point} (h : HasOrderN A) {a b : ℕ}
    (h0 : 0 < a + b) (hlt : a + b < order) : a • A ≠ -(b • A) := by
  intro he
  apply h.nsmul_ne_zero h0 hlt
  rw [add_nsmul, he, neg_add_cancel]

theorem HasOrderN.nsmul {A : curve.toAffine.Point} (h : HasOrderN A) {k : ℕ}
    (hk : ¬ order ∣ k) : HasOrderN (k • A) := by
  refine ⟨fun h0 => hk ((h.nsmul_eq_zero_iff k).1 h0), ?_⟩
  rw [← mul_nsmul, mul_comm, mul_nsmul, h.2, nsmul_zero]

theorem Gpoint_hasOrderN : HasOrderN Gpoint :=
  ⟨G_isAffineOf.ne_zero, order_nsmul_Gpoint⟩

theorem lt_two_pow_bitLengthAux : ∀ (fuel a : ℕ), a < 2 ^ fuel →
    a < 2 ^ bitLengthAux fuel a := by
  intro fuel
  induction fuel with
  | zero => intro a h; simpa [bitLengthAux] using h
  | succ k ih =>
    intro a h
    unfold bitLengthAux
    by_cases h0 : a = 0
    · subst h0; simp
    · rw [if_neg h0]
      have hk : a / 2 < 2 ^ k := by
        rw [Nat.div_lt_iff_lt_mul (by norm_num)]
        calc a < 2 ^ (k + 1) := h
          _ = 2 ^ k * 2 := by ring
      have := ih (a / 2) hk
      rw [pow_succ]
      omega

theorem lt_two_pow_GetBitLength (s : ℕ) : s < 2 ^ GetBitLength s :=
  lt_two_pow_bitLengthAux s s (Nat.lt_two_pow s)

theorem Point.Add_eq_of_x_ne {r p2 : Point} (h : r.Reduce.x ≠ p2.Reduce.x) :
    r.Add p2 = Secp256K1.Add r p2 := by
  have hne : r.equals p2 = false := by
    by_contra hc
    simp only [Bool.not_eq_false] at hc
    apply h
    simp only [Point.equals, Bool.and_eq_true, beq_iff_eq] at hc
    simp only [Point.Reduce, hc.1.1, hc.2]
  simp only [Point.Add, hne, Secp256K1.Add]
  rfl

/-- One run of the `MulDirect` loops from a state satisfying the invariant: the invariant holds
at the end, and `Point::MulDirect` goes through the same states as `Secp256K1::MulDirect`. -/
theorem MulDirectLoop_spec {A : curve.toAffine.Point} (hA : HasOrderN A) {s : ℕ}
    (hs : s < order) : ∀ (cnt i : ℕ) (st : Point × Bool × Point × List (Point × Point)),
    MulInv s A i st →
      MulInv s A (i + cnt) (MulDirectLoop s cnt i st) ∧
        Point.MulDirectLoop s cnt i st = MulDirectLoop s cnt i st := by
  intro cnt
  induction cnt with
  | zero => intro i st h; exact ⟨h, rfl⟩
  | succ k ih =>
    intro i st h
    obtain ⟨r, assigned, p2, calls⟩ := st
    obtain ⟨hp2, hasg, hnasg, hcalls⟩ := h
    simp only at hp2 hasg hnasg hcalls
    have hmod : s % 2 ^ (i + 1) = s % 2 ^ i + 2 ^ i * GetBit s i := by
      rw [Nat.mod_pow_succ]; rfl
    have hdbl : Represents (Double p2) (2 ^ (i + 1) • A) := by
      have := Double_spec hp2
      rwa [← two_nsmul, ← mul_nsmul', ← pow_succ'] at this
    have hmodle : s % 2 ^ (i + 1) ≤ s := Nat.mod_le _ _
    rw [show i + (k + 1) = (i + 1) + k by omega]
    unfold MulDirectLoop Point.MulDirectLoop
    by_cases hbit : GetBit s i = 1
    · rw [hbit, mul_one] at hmod
      simp only [hbit, if_true]
      cases assigned with
      | false =>
        have hm0 := hnasg rfl
        have hinv : MulInv s A (i + 1) (p2, true, Double p2, calls) := by
          refine ⟨hdbl, fun _ => ?_, fun hf => by simp at hf, hcalls⟩
          rw [hmod, hm0, zero_add]
          exact ⟨hp2, by positivity⟩
        simpa using ih (i + 1) _ hinv
      | true =>
        obtain ⟨hr, hpos⟩ := hasg rfl
        have hlt : s % 2 ^ i < 2 ^ i := Nat.mod_lt _ (by positivity)
        have hne : (s % 2 ^ i) • A ≠ 2 ^ i • A :=
          hA.nsmul_ne_nsmul hlt (by omega)
        have hneg : (s % 2 ^ i) • A ≠ -(2 ^ i • A) :=
          hA.nsmul_ne_neg_nsmul (by omega) (by omega)
        have hx := hr.x_ne hp2 hne hneg
        have hadd := Add_spec hr hp2 hne hneg
        rw [← add_nsmul, ← hmod] at hadd
        have hinv : MulInv s A (i + 1)
            (Secp256K1.Add r p2, true, Double p2, calls ++ [(r, p2)]) := by
          refine ⟨hdbl, fun _ => ⟨hadd, by omega⟩, fun hf => by simp at hf, ?_⟩
          intro c hc
          rcases List.mem_append.1 hc with hc | hc
          · exact hcalls c hc
          · rw [List.mem_singleton] at hc
            subst hc
            exact hx
        have := ih (i + 1) _ hinv
        simp only [Bool.not_true, Bool.false_eq_true, if_false, Point.Add_eq_of_x_ne hx]
        exact this
    · have hb0 : GetBit s i = 0 := by
        have : GetBit s i < 2 := Nat.mod_lt _ (by norm_num)
        omega
      rw [hb0, mul_zero, add_zero] at hmod
      simp only [hbit, if_false]
      have hinv : MulInv s A (i + 1) (r, assigned, Double p2, calls) := by
        refine ⟨hdbl, fun ha => ?_, fun ha => ?_, hcalls⟩
        · rw [hmod]; exact hasg ha
        · rw [hmod]; exact hnasg ha
      exact ih (i + 1) _ hinv

/-- `MulDirect` computes the group multiple `s • A` of a point of order `order`, for
`1 ≤ s < order`; `Point::MulDirect` returns the same point and makes the same calls. -/
theorem MulDirect_spec {P : Point} {A : curve.toAffine.Point} (hP : IsAffineOf P A)
    (hA : order • A = 0) {s : ℕ} (h1 : 1 ≤ s) (hs : s < order) (r0 : Point) :
    IsAffineOf (MulDirect r0 P s) (s • A) ∧ Point.MulDirect r0 P s = MulDirect r0 P s ∧
      (∀ c ∈ MulDirectCalls r0 P s, c.1.Reduce.x ≠ c.2.Reduce.x) ∧
      Point.MulDirectCalls r0 P s = MulDirectCalls r0 P s := by
  have hAo : HasOrderN A := ⟨hP.ne_zero, hA⟩
  have hinit : MulInv s A 0 (r0, false, P, []) := by
    refine ⟨?_, fun hf => by simp at hf, fun _ => by simp [Nat.mod_one], by simp⟩
    simpa using Represents.of_affine hP
  obtain ⟨hinv, heq⟩ := MulDirectLoop_spec hAo hs (GetBitLength s) 0 _ hinit
  obtain ⟨-, hasg, hnasg, hcalls⟩ := hinv
  have hmod : s % 2 ^ (0 + GetBitLength s) = s := by
    rw [zero_add]; exact Nat.mod_eq_of_lt (lt_two_pow_GetBitLength s)
  rw [hmod] at hasg hnasg
  have hassigned : (MulDirectLoop s (GetBitLength s) 0 (r0, false, P, [])).2.1 = true := by
    by_contra hc
    simp only [Bool.not_eq_true] at hc
    have := hnasg hc
    omega
  refine ⟨(hasg hassigned).1.2.2, ?_, hcalls, ?_⟩
  · simp only [Point.MulDirect, MulDirect, heq]
  · simp only [Point.MulDirectCalls, MulDirectCalls, heq]

end Secp256K1

/-! ## The generator table built by `Init` -/

namespace Secp256K1

open BigInt WeierstrassCurve

theorem order_not_dvd_pow (i : ℕ) : ¬ order ∣ 256 ^ i := by
  intro h
  have h1 := Nat.Prime.dvd_of_dvd_pow order_is_prime h
  have h2 := Nat.le_of_dvd (by norm_num) h1
  revert h2
  decide

theorem Table.write_same (t : Table) (idx : ℕ) (v : Point) : t.write idx v idx = v := by
  simp [Table.write]

theorem Table.write_other (t : Table) {idx k : ℕ} (v : Point) (h : k ≠ idx) :
    t.write idx v k = t k := by
  simp [Table.write, h]

/-- The inner loop of `Init` on row `i`, whose base point `GTable[256 i]` is the affine point
of an element `B` of order `order`: it fills the slots `256 i + j` with `(j + 1) • B`, leaves
the earlier rows alone, and ends with `N = (j + cnt + 1) • B`. -/
theorem InitInner_spec {B : curve.toAffine.Point} (hB : HasOrderN B) (i : ℕ) :
    ∀ (cnt j : ℕ) (t : Table) (N : Point), 1 ≤ j → j + cnt ≤ 255 →
      IsAffineOf (t (i * 256)) B → IsAffineOf N ((j + 1) • B) →
      (∀ k, i * 256 ≤ k → k < i * 256 + j → IsAffineOf (t k) ((k - i * 256 + 1) • B)) →
      IsAffineOf (InitInner i cnt j (t, N)).2 ((j + cnt + 1) • B) ∧
        (∀ k, i * 256 ≤ k → k < i * 256 + (j + cnt) →
          IsAffineOf ((InitInner i cnt j (t, N)).1 k) ((k - i * 256 + 1) • B)) ∧
        (∀ k, k < i * 256 → (InitInner i cnt j (t, N)).1 k = t k) := by
  intro cnt
  induction cnt with
  | zero =>
    intro j t N _ _ _ hN ht
    exact ⟨hN, ht, fun _ _ => rfl⟩
  | succ c ih =>
    intro j t N hj hjc hbase hN ht
    unfold InitInner
    have hbase' : (t.write (i * 256 + j) N) (i * 256) = t (i * 256) :=
      Table.write_other t N (by omega)
    simp only [hbase']
    have hord : order > 257 := by decide
    have hne : (j + 1) • B ≠ B := by
      have := hB.nsmul_ne_nsmul (a := 1) (b := j + 1) (by omega) (by omega)
      rw [one_nsmul] at this
      exact Ne.symm this
    have hneg : (j + 1) • B ≠ -B := by
      have := hB.nsmul_ne_neg_nsmul (a := j + 1) (b := 1) (by omega) (by omega)
      rwa [one_nsmul] at this
    have hx : N.x ≠ (t (i * 256)).x := by
      intro hx
      rcases hN.eq_or_eq_neg hbase hx with h | h
      · exact hne h
      · exact hneg h
    have hN' : IsAffineOf (AddDirect N (t (i * 256))) ((j + 1 + 1) • B) := by
      have := AddDirect_spec hN hbase hx
      rwa [← succ_nsmul] at this
    have ht' : ∀ k, i * 256 ≤ k → k < i * 256 + (j + 1) →
        IsAffineOf ((t.write (i * 256 + j) N) k) ((k - i * 256 + 1) • B) := by
      intro k hk1 hk2
      by_cases hk : k = i * 256 + j
      · subst hk
        rw [Table.write_same]
        have : i * 256 + j - i * 256 + 1 = j + 1 := by omega
        rw [this]; exact hN
      · rw [Table.write_other t N hk]
        exact ht k hk1 (by omega)
    have hb2 : IsAffineOf ((t.write (i * 256 + j) N) (i * 256)) B := by
      rw [hbase']; exact hbase
    obtain ⟨r1, r2, r3⟩ := ih (j + 1) (t.write (i * 256 + j) N) (AddDirect N (t (i * 256)))
      (by omega) (by omega) hb2 hN' ht'
    refine ⟨?_, ?_, ?_⟩
    · have : j + (c + 1) + 1 = j + 1 + c + 1 := by omega
      rw [this]; exact r1
    · intro k hk1 hk2
      exact r2 k hk1 (by omega)
    · intro k hk
      rw [r3 k hk, Table.write_other t N (by omega)]

/-- The outer loop of `Init`: started at row `i` with `N = 256 ^ i • G` and the rows below `i`
filled, it fills the remaining rows. -/
theorem InitOuter_spec : ∀ (cnt i : ℕ) (t : Table) (N : Point),
    IsAffineOf N (256 ^ i • Gpoint) →
    (∀ k, k < i * 256 → IsAffineOf (t k) (((k % 256 + 1) * 256 ^ (k / 256)) • Gpoint)) →
    ∀ k, k < (i + cnt) * 256 →
      IsAffineOf ((InitOuter cnt i (t, N)).1 k) (((k % 256 + 1) * 256 ^ (k / 256)) • Gpoint) := by
  intro cnt
  induction cnt with
  | zero =>
    intro i t N _ ht k hk
    exact ht k (by simpa using hk)
  | succ c ih =>
    intro i t N hN ht k hk
    unfold InitOuter
    have hB : HasOrderN (256 ^ i • Gpoint) := Gpoint_hasOrderN.nsmul (order_not_dvd_pow i)
    have hbase : IsAffineOf ((t.write (i * 256) N) (i * 256)) (256 ^ i • Gpoint) := by
      rw [Table.write_same]; exact hN
    have hN2 : IsAffineOf (DoubleDirect N) ((1 + 1) • (256 ^ i • Gpoint)) := by
      have := DoubleDirect_spec hN
      rwa [← two_nsmul] at this
    have hrow0 : ∀ k, i * 256 ≤ k → k < i * 256 + 1 →
        IsAffineOf ((t.write (i * 256) N) k) ((k - i * 256 + 1) • (256 ^ i • Gpoint)) := by
      intro k hk1 hk2
      have hk : k = i * 256 := by omega
      subst hk
      rw [Table.write_same, Nat.sub_self, zero_add, one_nsmul]
      exact hN
    obtain ⟨r1, r2, r3⟩ := InitInner_spec hB i 254 1 (t.write (i * 256) N) (DoubleDirect N)
      le_rfl (by norm_num) hbase hN2 hrow0
    simp only
    have hN' : IsAffineOf (InitInner i 254 1 (t.write (i * 256) N, DoubleDirect N)).2
        (256 ^ (i + 1) • Gpoint) := by
      have e : 256 ^ (i + 1) • Gpoint = (1 + 254 + 1) • (256 ^ i • Gpoint) := by
        rw [pow_succ, mul_nsmul]
      rw [e]
      exact r1
    have ht' : ∀ k, k < (i + 1) * 256 →
        IsAffineOf (((InitInner i 254 1 (t.write (i * 256) N, DoubleDirect N)).1.write
          (i * 256 + 255) (InitInner i 254 1 (t.write (i * 256) N, DoubleDirect N)).2) k)
          (((k % 256 + 1) * 256 ^ (k / 256)) • Gpoint) := by
      intro k hk
      by_cases hk255 : k = i * 256 + 255
      · subst hk255
        rw [Table.write_same]
        have h1 : (i * 256 + 255) % 256 = 255 := by omega
        have h2 : (i * 256 + 255) / 256 = i := by omega
        have e : ((255 + 1) * 256 ^ i) • Gpoint = (1 + 254 + 1) • (256 ^ i • Gpoint) := by
          rw [mul_comm, mul_nsmul]
        rw [h1, h2, e]
        exact r1
      · rw [Table.write_other _ _ hk255]
        by_cases hlow : k < i * 256
        · rw [r3 k hlow, Table.write_other t N (by omega)]
          exact ht k hlow
        · have h1 : k % 256 = k - i * 256 := by omega
          have h2 : k / 256 = i := by omega
          have e : ((k - i * 256 + 1) * 256 ^ i) • Gpoint
              = (k - i * 256 + 1) • (256 ^ i • Gpoint) := by
            rw [mul_comm, mul_nsmul]
          rw [h1, h2, e]
          exact r2 k (by omega) (by omega)
    have := ih (i + 1) _ _ hN' ht' k (by omega)
    exact this

/-- The generator table after `Init`: every slot `k < 8192` holds the affine point of
`(k mod 256 + 1) * 256 ^ (k / 256) • G`. -/
theorem GTable_spec (k : ℕ) (hk : k < 8192) :
    IsAffineOf (GTable k) (((k % 256 + 1) * 256 ^ (k / 256)) • Gpoint) := by
  have h0 : IsAffineOf G (256 ^ 0 • Gpoint) := by
    rw [pow_zero, one_nsmul]; exact G_isAffineOf
  exact InitOuter_spec 32 0 (fun _ => ⟨0, 0, 0⟩) G h0 (fun k hk => by omega) k (by omega)

theorem GTable_entry {i j : ℕ} (hi : i < 32) (hj : j < 256) :
    IsAffineOf (GTable (256 * i + j)) (((j + 1) * 256 ^ i) • Gpoint) := by
  have := GTable_spec (256 * i + j) (by omega)
  have h1 : (256 * i + j) % 256 = j := by omega
  have h2 : (256 * i + j) / 256 = i := by omega
  rwa [h1, h2] at this

end Secp256K1

/-! ## `ComputePublicKey` -/

namespace Secp256K1

open BigInt WeierstrassCurve

theorem tableIndex_of_pos (i : ℕ) {b : ℕ} (hb : b ≠ 0) : tableIndex i b = 256 * i + (b - 1) := by
  unfold tableIndex
  omega

theorem GetByte_lt (s i : ℕ) : BigInt.GetByte s i < 256 := Nat.mod_lt _ (by norm_num)

theorem mod_pow_succ_byte (s i : ℕ) :
    s % 256 ^ (i + 1) = s % 256 ^ i + BigInt.GetByte s i * 256 ^ i := by
  rw [Nat.mod_pow_succ, mul_comm]; rfl

/-- The search for the first significant byte: it stops at the least index `i'` with a nonzero
byte, or it runs out with every byte below `i + cnt` zero. -/
theorem searchFirstByte_spec (s : ℕ) : ∀ (cnt i b0 : ℕ), s % 256 ^ i = 0 →
    ((searchFirstByte s cnt (i, b0)).2 ≠ 0 ∧ (searchFirstByte s cnt (i, b0)).1 < i + cnt ∧
        (searchFirstByte s cnt (i, b0)).2 = BigInt.GetByte s (searchFirstByte s cnt (i, b0)).1 ∧
        s % 256 ^ (searchFirstByte s cnt (i, b0)).1 = 0) ∨
      (s % 256 ^ (i + cnt) = 0 ∧ (searchFirstByte s cnt (i, b0)).1 = i + cnt ∧
        (0 < cnt → (searchFirstByte s cnt (i, b0)).2 = 0)) := by
  intro cnt
  induction cnt with
  | zero =>
    intro i b0 h
    right
    exact ⟨h, rfl, fun h => absurd h (lt_irrefl 0)⟩
  | succ c ih =>
    intro i b0 h
    unfold searchFirstByte
    by_cases hb : BigInt.GetByte s i ≠ 0
    · left
      rw [if_pos hb]
      exact ⟨hb, by simp only; omega, rfl, h⟩
    · rw [if_neg hb]
      have hb0 : BigInt.GetByte s i = 0 := by simpa using hb
      have hnext : s % 256 ^ (i + 1) = 0 := by
        rw [mod_pow_succ_byte, h, hb0]; simp
      rcases ih (i + 1) (BigInt.GetByte s i) hnext with ⟨h1, h2, h3, h4⟩ | ⟨h1, h2, h3⟩
      · left
        exact ⟨h1, by omega, h3, h4⟩
      · right
        refine ⟨by rw [show i + (c + 1) = i + 1 + c by omega]; exact h1,
          by omega, fun _ => ?_⟩
        by_cases hc : 0 < c
        · exact h3 hc
        · have hc0 : c = 0 := by omega
          subst hc0
          simp only [searchFirstByte]
          exact hb0

/-- The value `V` computed by `Add2` is nonzero when the abscissas differ. -/
theorem V_ne_zero_of_x_ne {Q T : Point} (hQ : Q.InField) (hz : Q.z ≠ 0) (hT : T.x < prime)
    (hx : Q.Reduce.x ≠ T.x) : ModSub (ModMulK1 T.x Q.z) Q.x ≠ 0 := by
  obtain ⟨x, y, z⟩ := Q
  obtain ⟨hx1, hy1, hz1⟩ := hQ
  simp only at hx1 hy1 hz1 hz hx ⊢
  haveI : Reduced x := ⟨hx1⟩
  haveI : Reduced z := ⟨hz1⟩
  haveI : Reduced T.x := ⟨hT⟩
  have hz' : (z : ZMod prime) ≠ 0 := cast_ne_zero_of_reduced z hz
  intro h0
  apply hx
  have hc : ((ModSub (ModMulK1 T.x z) x : ℕ) : ZMod prime) = 0 := by rw [h0]; simp
  simp only [cast_ModSub_red, cast_ModMulK1] at hc
  simp only [Point.Reduce]
  apply natCast_inj_of_reduced
  simp only [cast_ModMul, cast_ModInv_red]
  field_simp
  linear_combination -hc

/-- The second loop of `ComputePublicKey` over the generator table: started at byte `i` with
an accumulator representing the nonzero multiple `(s mod 256 ^ i) • G`, it ends with an
accumulator representing `(s mod 256 ^ (i + cnt)) • G`, and every call of `Add2` is safe. -/
theorem addLoop_spec {s : ℕ} (hs : s < order) : ∀ (cnt i : ℕ) (Q : Point)
    (calls : List (Point × Point)), i + cnt ≤ 32 →
    Represents Q ((s % 256 ^ i) • Gpoint) → 0 < s % 256 ^ i → (∀ c ∈ calls, Add2Safe c) →
    Represents (addLoop GTable s cnt i (Q, calls)).1 ((s % 256 ^ (i + cnt)) • Gpoint) ∧
      (∀ c ∈ (addLoop GTable s cnt i (Q, calls)).2, Add2Safe c) := by
  intro cnt
  induction cnt with
  | zero => intro i Q calls _ hQ _ hc; exact ⟨hQ, hc⟩
  | succ k ih =>
    intro i Q calls hik hQ hpos hc
    unfold addLoop
    have hmod := mod_pow_succ_byte s i
    have hle : s % 256 ^ (i + 1) ≤ s := Nat.mod_le _ _
    rw [show i + (k + 1) = (i + 1) + k by omega]
    by_cases hb : BigInt.GetByte s i ≠ 0
    · rw [if_pos hb]
      have hblt := GetByte_lt s i
      have hT : IsAffineOf (GTable (tableIndex i (BigInt.GetByte s i)))
          ((BigInt.GetByte s i * 256 ^ i) • Gpoint) := by
        rw [tableIndex_of_pos i hb]
        have := GTable_entry (i := i) (j := BigInt.GetByte s i - 1) (by omega) (by omega)
        rwa [show BigInt.GetByte s i - 1 + 1 = BigInt.GetByte s i by omega] at this
      have hlt : s % 256 ^ i < 256 ^ i := Nat.mod_lt _ (by positivity)
      have hge : 256 ^ i ≤ BigInt.GetByte s i * 256 ^ i :=
        Nat.le_mul_of_pos_left _ (Nat.pos_of_ne_zero hb)
      have hne : (s % 256 ^ i) • Gpoint ≠ (BigInt.GetByte s i * 256 ^ i) • Gpoint :=
        Gpoint_hasOrderN.nsmul_ne_nsmul (by omega) (by omega)
      have hneg : (s % 256 ^ i) • Gpoint ≠ -((BigInt.GetByte s i * 256 ^ i) • Gpoint) :=
        Gpoint_hasOrderN.nsmul_ne_neg_nsmul (by omega) (by omega)
      have hx := hQ.x_ne (Represents.of_affine hT) hne hneg
      rw [Reduce_of_affine hT.1 hT.2.1 hT.2.2.1] at hx
      have hadd := Add2_spec hQ hT hne hneg
      rw [← add_nsmul, ← hmod] at hadd
      have hsafe : Add2Safe (Q, GTable (tableIndex i (BigInt.GetByte s i))) :=
        ⟨hQ.2.1, hx, V_ne_zero_of_x_ne hQ.1 hQ.2.1 hT.2.1 hx⟩
      apply ih (i + 1) _ _ (by omega) hadd (by omega)
      intro c hcm
      rcases List.mem_append.1 hcm with hcm | hcm
      · exact hc c hcm
      · rw [List.mem_singleton] at hcm
        subst hcm
        exact hsafe
    · rw [if_neg hb]
      have hb0 : BigInt.GetByte s i = 0 := by simpa using hb
      rw [hb0, zero_mul, add_zero] at hmod
      apply ih (i + 1) _ _ (by omega) (by rw [hmod]; exact hQ) (by omega) hc

theorem order_lt : order < 256 ^ 32 := by decide

/-- `ComputePublicKey` returns the affine point of `s • G` for `1 ≤ s < order`, and all its
calls of `Add2` are safe. -/
theorem ComputePublicKey_spec {s : ℕ} (h1 : 1 ≤ s) (hs : s < order) :
    IsAffineOf (ComputePublicKey s) (s • Gpoint) ∧ ∀ c ∈ ComputePublicKeyCalls s, Add2Safe c := by
  have hs32 : s % 256 ^ 32 = s := Nat.mod_eq_of_lt (lt_trans hs order_lt)
  have h0 : s % 256 ^ 0 = 0 := by simp [Nat.mod_one]
  rcases searchFirstByte_spec s 32 0 0 h0 with ⟨hb, hi, hbe, hz⟩ | ⟨hz, -, -⟩
  · have hi' : (searchFirstByte s 32 (0, 0)).1 < 32 := by omega
    have hblt := GetByte_lt s (searchFirstByte s 32 (0, 0)).1
    rw [← hbe] at hblt
    have hmod := mod_pow_succ_byte s (searchFirstByte s 32 (0, 0)).1
    rw [hz, zero_add, ← hbe] at hmod
    have hQ0 : IsAffineOf
        (GTable (tableIndex (searchFirstByte s 32 (0, 0)).1 (searchFirstByte s 32 (0, 0)).2))
        ((s % 256 ^ ((searchFirstByte s 32 (0, 0)).1 + 1)) • Gpoint) := by
      rw [tableIndex_of_pos _ hb, hmod]
      have := GTable_entry (i := (searchFirstByte s 32 (0, 0)).1)
        (j := (searchFirstByte s 32 (0, 0)).2 - 1) hi' (by omega)
      rwa [show (searchFirstByte s 32 (0, 0)).2 - 1 + 1 = (searchFirstByte s 32 (0, 0)).2
        by omega] at this
    have hpos : 0 < s % 256 ^ ((searchFirstByte s 32 (0, 0)).1 + 1) := by
      rw [hmod]
      exact Nat.mul_pos (Nat.pos_of_ne_zero hb) (by positivity)
    obtain ⟨r1, r2⟩ := addLoop_spec hs (32 - ((searchFirstByte s 32 (0, 0)).1 + 1))
      ((searchFirstByte s 32 (0, 0)).1 + 1) _ [] (by omega) (Represents.of_affine hQ0) hpos
      (by simp)
    rw [show (searchFirstByte s 32 (0, 0)).1 + 1 + (32 - ((searchFirstByte s 32 (0, 0)).1 + 1))
      = 32 by omega, hs32] at r1
    exact ⟨r1.2.2, r2⟩
  · rw [zero_add, hs32] at hz
    omega

end Secp256K1

/-! ## The number of points of the curve -/

namespace Secp256K1

open BigInt WeierstrassCurve

theorem pointKey_injective : Function.Injective pointKey := by
  intro P Q h
  cases P with
  | zero =>
    cases Q with
    | zero => rfl
    | some hq => simp [pointKey] at h
  | some hp =>
    cases Q with
    | zero => simp [pointKey] at h
    | @some x' y' hq =>
      rename_i x y
      simp only [pointKey, Option.some.injEq, Prod.mk.injEq, decide_eq_decide] at h
      obtain ⟨hx, hs⟩ := h
      rcases Affine.Y_eq_of_X_eq hp.1 hq.1 hx with hy | hy
      · subst hx hy; rfl
      · exfalso
        have hy' : y = -y' := by
          simpa [Affine.negY, curve] using hy
        have hy0 : y' ≠ 0 := y_ne_zero_of_equation hq.1
        haveI : NeZero prime := ⟨prime_pos.ne'⟩
        have hval : y.val = prime - y'.val := by
          rw [hy', ZMod.neg_val, if_neg hy0]
        have hlt : y'.val < prime := ZMod.val_lt y'
        have hpos : 0 < y'.val := by
          rcases Nat.eq_zero_or_pos y'.val with h0 | h0
          · exact absurd ((ZMod.val_eq_zero y').1 h0) hy0
          · exact h0
        have hodd : 2 * ((prime - 1) / 2) = prime - 1 := by decide
        have hp1 : 1 ≤ prime := prime_pos
        rw [hval] at hs
        by_cases hc : y'.val ≤ (prime - 1) / 2
        · have := hs.2 hc
          omega
        · have : ¬ (prime - y'.val ≤ (prime - 1) / 2) := fun h' => hc (hs.1 h')
          omega

instance pointFinite : Finite curve.toAffine.Point :=
  Finite.of_injective pointKey pointKey_injective

theorem card_point_le : Nat.card curve.toAffine.Point ≤ 2 * prime + 1 := by
  haveI : NeZero prime := ⟨prime_pos.ne'⟩
  have h := Nat.card_le_card_of_injective pointKey pointKey_injective
  have hc : Nat.card (Option (ZMod prime × Bool)) = 2 * prime + 1 := by
    rw [Nat.card_eq_fintype_card, Fintype.card_option, Fintype.card_prod, ZMod.card,
      Fintype.card_bool]
    ring
  rwa [hc] at h

/-- No point of the curve has order two. -/
theorem two_nsmul_ne_zero {A : curve.toAffine.Point} (hA : A ≠ 0) : 2 • A ≠ 0 := by
  cases A with
  | zero => exact absurd rfl hA
  | some h =>
    rw [two_nsmul, Affine.Point.add_self_of_Y_ne (y_ne_neg_of_equation h.1)]
    exact Affine.Point.some_ne_zero _

/-- The curve has exactly `order` points. -/
theorem card_point : Nat.card curve.toAffine.Point = order := by
  have hdvd : order ∣ Nat.card curve.toAffine.Point := by
    rw [← Gpoint_hasOrderN.addOrderOf_eq]
    exact addOrderOf_dvd_natCard Gpoint
  obtain ⟨k, hk⟩ := hdvd
  have hle := card_point_le
  have hpos : 0 < Nat.card curve.toAffine.Point := Nat.card_pos
  have h3 : 2 * prime + 1 < order * 3 := by decide
  have hk1 : k = 1 ∨ k = 2 := by
    rcases Nat.lt_or_ge k 3 with h | h
    · rcases Nat.eq_zero_or_pos k with h0 | h0
      · rw [h0, mul_zero] at hk; omega
      · omega
    · have : order * 3 ≤ order * k := Nat.mul_le_mul_left _ h
      omega
  rcases hk1 with h | h
  · rw [hk, h, mul_one]
  · exfalso
    haveI : Fintype curve.toAffine.Point := Fintype.ofFinite _
    haveI : Fact (Nat.Prime 2) := ⟨Nat.prime_two⟩
    have h2 : 2 ∣ Fintype.card curve.toAffine.Point := by
      rw [← Nat.card_eq_fintype_card, hk, h]
      exact Dvd.intro_left _ rfl
    obtain ⟨x, hx⟩ := exists_prime_addOrderOf_dvd_card 2 h2
    have hx0 : x ≠ 0 := by
      intro h0
      rw [h0, addOrderOf_zero] at hx
      omega
    apply two_nsmul_ne_zero hx0
    rw [← hx]
    exact addOrderOf_nsmul_eq_zero x

/-- Every point of the curve is killed by `order`. -/
theorem order_nsmul_eq_zero (A : curve.toAffine.Point) : order • A = 0 := by
  rw [← card_point]
  exact card_nsmul_eq_zero'

theorem hasOrderN_of_ne_zero {A : curve.toAffine.Point} (hA : A ≠ 0) : HasOrderN A :=
  ⟨hA, order_nsmul_eq_zero A⟩

end Secp256K1

/-! ## Square roots in the field (`Int::ModSqrt`, `Secp256K1::GetY`) -/

namespace BigInt

open Secp256K1 (prime)

theorem ModExp_eq (a e : ℕ) : ModExp a e = a ^ e % prime := PrimeCert.powMod_eq a e prime

theorem ModExp_lt (a e : ℕ) : ModExp a e < prime := by
  rw [ModExp_eq]; exact Nat.mod_lt _ prime_pos

theorem ModSqrt_lt (a : ℕ) : ModSqrt a < prime := ModExp_lt _ _

instance (a : ℕ) : Reduced (ModSqrt a) := ⟨ModSqrt_lt a⟩

theorem cast_ModExp (a e : ℕ) : ((ModExp a e : ℕ) : ZMod prime) = (a : ZMod prime) ^ e := by
  rw [ModExp_eq, ZMod.natCast_mod, Nat.cast_pow]

theorem HasSqrt_iff (a : ℕ) : HasSqrt a = true ↔ a ^ ((prime - 1) / 2) % prime = 1 := by
  unfold HasSqrt
  rw [beq_iff_eq, ModExp_eq]

/-- The square of `a ^ ((p + 1) / 4)` is `a * a ^ ((p - 1) / 2)`. -/
theorem cast_ModSqrt_sq (a : ℕ) :
    ((ModSqrt a : ℕ) : ZMod prime) ^ 2 = (a : ZMod prime) * (a : ZMod prime) ^ ((prime - 1) / 2) := by
  unfold ModSqrt
  rw [cast_ModExp, ← pow_mul, ← pow_succ']
  congr 1

/-- Under Euler's criterion the value of `ModSqrt` is a square root. -/
theorem ModSqrt_sq {a : ℕ} (ha : a < prime) (h : HasSqrt a = true) :
    (ModSqrt a * ModSqrt a) % prime = a := by
  have h1 : ((a ^ ((prime - 1) / 2) % prime : ℕ) : ZMod prime) = ((1 : ℕ) : ZMod prime) := by
    rw [(HasSqrt_iff a).1 h]
  rw [ZMod.natCast_mod, Nat.cast_pow, Nat.cast_one] at h1
  have h2 := cast_ModSqrt_sq a
  rw [h1, mul_one] at h2
  have h3 : (((ModSqrt a * ModSqrt a) % prime : ℕ) : ZMod prime) = (a : ZMod prime) := by
    rw [ZMod.natCast_mod, Nat.cast_mul, ← h2, pow_two]
  exact eq_of_cast_eq (Nat.mod_lt _ prime_pos) ha h3

/-- A nonzero square of the field passes Euler's criterion. -/
theorem pow_half_of_sq {y : ZMod prime} (hy : y ≠ 0) : (y ^ 2) ^ ((prime - 1) / 2) = 1 := by
  rw [← pow_mul]
  have h : 2 * ((prime - 1) / 2) = prime - 1 := by decide
  rw [h]
  exact ZMod.pow_card_sub_one_eq_one hy

/-- The value of `ModSqrt` on a nonzero square of the field is one of its square roots. -/
theorem cast_ModSqrt_of_sq {a : ℕ} {y : ZMod prime} (hy : y ≠ 0) (h : (a : ZMod prime) = y ^ 2) :
    ((ModSqrt a : ℕ) : ZMod prime) ^ 2 = (a : ZMod prime) := by
  rw [cast_ModSqrt_sq, h, pow_half_of_sq hy, mul_one]

/-- Negation changes the parity of a nonzero reduced value (the modulus is odd). -/
theorem IsEven_ModNeg {a : ℕ} (ha : a < prime) (h0 : a ≠ 0) : IsEven (ModNeg a) = !IsEven a := by
  have hp : prime % 2 = 1 := by decide
  have e : ModNeg a = prime - a := by
    unfold ModNeg
    rw [Nat.mod_eq_of_lt ha, Nat.mod_eq_of_lt (by omega)]
  rw [e]
  unfold IsEven
  rcases Nat.mod_two_eq_zero_or_one a with h | h
  · have : (prime - a) % 2 = 1 := by omega
    simp [h, this]
  · have : (prime - a) % 2 = 0 := by omega
    simp [h, this]

end BigInt

namespace Secp256K1

open BigInt WeierstrassCurve

/-- The value `x³ + 7` that `GetY` and `EC` compute, in the field. -/
theorem cast_cube_add_seven (x : ℕ) :
    ((ModAdd (ModMulK1 (ModSquareK1 x) x) 7 : ℕ) : ZMod prime) = (x : ZMod prime) ^ 3 + 7 := by
  simp only [cast_ModMulK1, cast_ModSquareK1, cast_ModAdd, Nat.cast_ofNat]
  ring

theorem cube_add_seven_lt (x : ℕ) : ModAdd (ModMulK1 (ModSquareK1 x) x) 7 < prime :=
  ModAdd_lt (ModMulK1_lt _ _) (by decide)

/-- `EC` tests the congruence `y² = x³ + 7` modulo `p`, for all values of `x` and `y`. -/
theorem EC_iff_mod (P : Point) :
    EC P = true ↔ (P.y * P.y) % prime = (P.x ^ 3 + 7) % prime := by
  obtain ⟨x, y, z⟩ := P
  simp only [EC, beq_iff_eq]
  rw [← cast_eq_zero_iff (ModSub_lt (ModMulK1_lt _ _) (cube_add_seven_lt x))]
  haveI : Reduced (ModAdd (ModMulK1 (ModSquareK1 x) x) 7) := ⟨cube_add_seven_lt x⟩
  rw [cast_ModSub_red, cast_cube_add_seven, cast_ModMulK1, sub_eq_zero]
  rw [← ZMod.natCast_eq_natCast_iff']
  push_cast
  rfl

/-- `GetY` returns `ModSqrt (x³ + 7)` or its negation. -/
theorem GetY_eq_or (x : ℕ) (e : Bool) :
    GetY x e = ModSqrt (ModAdd (ModMulK1 (ModSquareK1 x) x) 7) ∨
      GetY x e = ModNeg (ModSqrt (ModAdd (ModMulK1 (ModSquareK1 x) x) 7)) := by
  unfold GetY
  simp only
  split_ifs <;> simp

theorem GetY_lt (x : ℕ) (e : Bool) : GetY x e < prime := by
  rcases GetY_eq_or x e with h | h <;> rw [h]
  · exact ModSqrt_lt _
  · exact ModNeg_lt _

/-- The parity of the value of `GetY` is the requested one when the root is not zero. -/
theorem GetY_parity (x : ℕ) (e : Bool)
    (h0 : ModSqrt (ModAdd (ModMulK1 (ModSquareK1 x) x) 7) ≠ 0) : IsEven (GetY x e) = e := by
  have hn := IsEven_ModNeg (ModSqrt_lt (ModAdd (ModMulK1 (ModSquareK1 x) x) 7)) h0
  unfold GetY
  simp only
  cases hr : IsEven (ModSqrt (ModAdd (ModMulK1 (ModSquareK1 x) x) 7)) <;> cases e <;>
    simp [hr, hn]

/-- When `x³ + 7` is a square of the field, `GetY` returns a square root of it with the requested
parity. -/
theorem GetY_spec (x : ℕ) (e : Bool) {y : ZMod prime} (h : (x : ZMod prime) ^ 3 + 7 = y ^ 2) :
    ((GetY x e : ℕ) : ZMod prime) ^ 2 = (x : ZMod prime) ^ 3 + 7 ∧ IsEven (GetY x e) = e := by
  have hy : y ≠ 0 := by
    intro hy0
    rw [hy0] at h
    exact cube_ne_neg_seven (x : ZMod prime) (by linear_combination h)
  have hs := cast_ModSqrt_of_sq (a := ModAdd (ModMulK1 (ModSquareK1 x) x) 7) hy
    (by rw [cast_cube_add_seven, h])
  rw [cast_cube_add_seven] at hs
  have h0 : ModSqrt (ModAdd (ModMulK1 (ModSquareK1 x) x) 7) ≠ 0 := by
    intro h0
    rw [h0] at hs
    rw [← hs] at h
    apply hy
    have : y ^ 2 = 0 := by rw [← h]; simp
    exact pow_eq_zero_iff (two_ne_zero) |>.1 this
  refine ⟨?_, GetY_parity x e h0⟩
  rcases GetY_eq_or x e with hg | hg <;> rw [hg]
  · exact hs
  · rw [cast_ModNeg, neg_sq]; exact hs

/-- On a point of the curve `GetY` with the parity of `y` gives back `y`. -/
theorem GetY_of_onCurve {P : Point} (h : OnCurve P) : GetY P.x (IsEven P.y) = P.y := by
  obtain ⟨hz, hx, hy, hE⟩ := h
  have heq := (curve_equation_iff _ _).1 ((EC_iff hx hy).1 hE)
  have hy0 : P.y ≠ 0 := y_ne_zero_of_EC hx hy hE
  obtain ⟨hsq, hpar⟩ := GetY_spec P.x (IsEven P.y) heq.symm
  have hlt := GetY_lt P.x (IsEven P.y)
  have h2 : ((GetY P.x (IsEven P.y) : ℕ) : ZMod prime) ^ 2 = (P.y : ZMod prime) ^ 2 := by
    rw [hsq, heq]
  rcases sq_eq_sq_iff_eq_or_eq_neg.1 h2 with h3 | h3
  · exact eq_of_cast_eq hlt hy h3
  · exfalso
    rw [← cast_ModNeg] at h3
    have h4 := eq_of_cast_eq hlt (ModNeg_lt _) h3
    rw [h4, IsEven_ModNeg hy hy0] at hpar
    cases hb : IsEven P.y <;> simp [hb] at hpar

end Secp256K1

/-! ## The affine addition on the cleared point -/

namespace Secp256K1

open BigInt WeierstrassCurve

/-- The chord formula of `AddDirect` applied to a point of the curve and the cleared point
`(0, 0, 0)` returns a point whose ordinate is not the ordinate of the first operand. -/
theorem AddDirect_Clear_y_ne {P : Point} (h : OnCurve P) :
    (AddDirect P Point.Clear).y ≠ P.y := by
  obtain ⟨hz, hx, hy, hE⟩ := h
  have hy0 : (P.y : ZMod prime) ≠ 0 :=
    y_ne_zero_of_equation ((EC_iff hx hy).1 hE)
  obtain ⟨x, y, z⟩ := P
  simp only at hz hx hy hy0
  haveI : Reduced x := ⟨hx⟩
  haveI : Reduced y := ⟨hy⟩
  intro hc
  have hc' := congrArg (Nat.cast : ℕ → ZMod prime) hc
  simp only [AddDirect, Point.Clear, cast_ModInv_red, cast_ModMulK1, cast_ModSquareK1,
    cast_ModSub_red, Nat.cast_zero, zero_sub, sub_zero] at hc'
  by_cases hx0 : (x : ZMod prime) = 0
  · rw [hx0] at hc'
    simp only [neg_zero, inv_zero, mul_zero, sub_zero, neg_zero] at hc'
    exact hy0 hc'.symm
  · have hnx : -(x : ZMod prime) ≠ 0 := neg_ne_zero.2 hx0
    have hs : -(y : ZMod prime) * (-(x : ZMod prime))⁻¹ = (y : ZMod prime) * (x : ZMod prime)⁻¹ := by
      field_simp
    rw [hs] at hc'
    have hsx : (y : ZMod prime) * (x : ZMod prime)⁻¹ * x = y := by field_simp
    have h1 : ((y : ZMod prime) * (x : ZMod prime)⁻¹) ^ 2 * (y : ZMod prime) = 0 := by
      linear_combination (-(x : ZMod prime)) * hc' +
        ((x : ZMod prime) - ((y : ZMod prime) * (x : ZMod prime)⁻¹) ^ 2) * hsx
    rcases mul_eq_zero.1 h1 with h2 | h2
    · have h3 := pow_eq_zero_iff (two_ne_zero) |>.1 h2
      rcases mul_eq_zero.1 h3 with h4 | h4
      · exact hy0 h4
      · exact hx0 (inv_eq_zero.1 h4)
    · exact hy0 h2

/-- `Point::AddDirect` takes the chord branch on a point with `z = 1` and the cleared point. -/
theorem PointAddDirect_Clear {P : Point} (hz : P.z = 1) :
    P.AddDirect Point.Clear = AddDirect P Point.Clear := by
  have : P.equals Point.Clear = false := by
    simp [Point.equals, Point.Clear, hz]
  unfold Point.AddDirect
  rw [this]
  rfl

end Secp256K1

/-! ## Hexadecimal strings: `GetByte`, `ParsePublicKeyHex`, `GetPublicKeyHex` -/

namespace CLib

theorem sscanfX_hexDigits : ∀ c1 ∈ Secp256K1.hexDigits, ∀ c2 ∈ Secp256K1.hexDigits,
    sscanfX [c1, c2] = some (16 * (xdigit c1).getD 0 + (xdigit c2).getD 0) := by
  decide!

theorem xdigit_lt : ∀ c ∈ Secp256K1.hexDigits, (xdigit c).getD 0 < 16 := by
  decide!

theorem sscanfX_sprintf02X : ∀ b ∈ List.range 256, sscanfX (sprintf02X b) = some b := by
  decide!

end CLib

namespace Secp256K1

open BigInt

theorem GetByte_lt_of_some {str : List Char} {idx b : ℕ} (h : GetByte str idx = some b) :
    b < 256 := by
  unfold GetByte at h
  simp only at h
  split at h
  · cases h
  · cases h; exact Nat.mod_lt _ (by norm_num)

/-- Storing a byte below a multiple of `256 ^ (n + 1)`. -/
theorem SetByte_shift (A n b : ℕ) (hb : b < 256) :
    SetByte (A * 256 ^ (n + 1)) n b = (A * 256 + b) * 256 ^ n := by
  have hpos : 0 < 256 ^ n := pow_pos (by norm_num) n
  have h0 : BigInt.GetByte (A * 256 ^ (n + 1)) n = 0 := by
    unfold BigInt.GetByte
    rw [pow_succ', ← mul_assoc, Nat.mul_div_cancel _ hpos, Nat.mul_mod_left]
  unfold SetByte
  rw [h0, Nat.mod_eq_of_lt hb, zero_mul, Nat.sub_zero, pow_succ]
  ring

theorem readBytes_zero (str : List Char) (off i v : ℕ) : readBytes str off 0 i v = some v := rfl

theorem readBytes_succ (str : List Char) (off cnt i v : ℕ) :
    readBytes str off (cnt + 1) i v =
      (GetByte str (i + off)).bind
        (fun b => readBytes str off cnt (i + 1) (SetByte v (31 - i) b)) := by
  cases h : GetByte str (i + off) with
  | none => show (match GetByte str (i + off) with
      | none => none
      | some b => readBytes str off cnt (i + 1) (SetByte v (31 - i) b)) = _
            rw [h]; rfl
  | some b => show (match GetByte str (i + off) with
      | none => none
      | some b => readBytes str off cnt (i + 1) (SetByte v (31 - i) b)) = _
              rw [h]; rfl

/-- The byte loop of the parsers assembles the bytes it reads, most significant first. -/
theorem readBytes_spec (str : List Char) (off : ℕ) (f : ℕ → ℕ) : ∀ cnt i v : ℕ, i + cnt = 32 →
    v = beValue f i * 256 ^ (32 - i) →
    (∀ j, i ≤ j → j < 32 → GetByte str (j + off) = some (f j)) →
    readBytes str off cnt i v = some (beValue f 32) := by
  intro cnt
  induction cnt with
  | zero =>
    intro i v hi hv _
    have : i = 32 := by omega
    subst this
    rw [readBytes_zero, hv, Nat.sub_self, pow_zero, mul_one]
  | succ cnt ih =>
    intro i v hi hv hf
    have hfi := hf i le_rfl (by omega)
    have hlt := GetByte_lt_of_some hfi
    rw [readBytes_succ, hfi, Option.some_bind]
    apply ih (i + 1) _ (by omega) _ (fun j hj hj2 => hf j (by omega) hj2)
    have e : 32 - i = (31 - i) + 1 := by omega
    rw [hv, e, SetByte_shift _ _ _ hlt]
    have e2 : 31 - i = 32 - (i + 1) := by omega
    rw [e2]
    rfl

/-- The byte loop started on the cleared value. -/
theorem readBytes_spec_zero (str : List Char) (off : ℕ) (f : ℕ → ℕ)
    (h : ∀ j, j < 32 → GetByte str (j + off) = some (f j)) :
    readBytes str off 32 0 0 = some (beValue f 32) := by
  apply readBytes_spec str off f 32 0 0 rfl _ (fun j _ hj => h j hj)
  show 0 = 0 * 256 ^ (32 - 0)
  rw [zero_mul]

/-- The byte loop ends the process when the first pair it reads does not convert. -/
theorem readBytes_none (str : List Char) (off cnt i v : ℕ) (h : GetByte str (i + off) = none) :
    readBytes str off (cnt + 1) i v = none := by
  rw [readBytes_succ, h]; rfl

/-- The bytes of a value, most significant first, assemble to the value. -/
theorem beValue_GetByte (x : ℕ) : ∀ k, k ≤ 32 →
    beValue (fun j => BigInt.GetByte x (31 - j)) k = x / 256 ^ (32 - k) % 256 ^ k := by
  intro k
  induction k with
  | zero => intro _; simp [beValue, Nat.mod_one]
  | succ k ih =>
    intro hk
    have e1 : 32 - k = (31 - k) + 1 := by omega
    have e2 : 32 - (k + 1) = 31 - k := by omega
    unfold beValue
    rw [ih (by omega), e1, e2]
    simp only [BigInt.GetByte]
    rw [pow_succ 256 (31 - k), ← Nat.div_div_eq_div_mul, pow_succ' 256 k, Nat.mod_mul]
    ring

theorem beValue_GetByte_32 {x : ℕ} (hx : x < 2 ^ 256) :
    beValue (fun j => BigInt.GetByte x (31 - j)) 32 = x := by
  rw [beValue_GetByte x 32 le_rfl]
  simp only [Nat.sub_self, pow_zero, Nat.div_one]
  exact Nat.mod_eq_of_lt (by norm_num at hx ⊢; exact hx)

end Secp256K1

namespace Secp256K1

open BigInt

theorem hexString_length (g : ℕ → ℕ) : ∀ n, (hexString g n).length = 2 * n := by
  intro n
  unfold hexString
  induction n with
  | zero => rfl
  | succ n ih =>
    rw [List.range_succ, List.map_append, List.flatten_append, List.length_append, ih]
    simp [CLib.sprintf02X]
    omega

theorem hexString_getD (g : ℕ → ℕ) (d : Char) : ∀ n idx, idx < n →
    (hexString g n).getD (2 * idx) d = CLib.upperDigit (g idx / 16 % 16) ∧
      (hexString g n).getD (2 * idx + 1) d = CLib.upperDigit (g idx % 16) := by
  intro n
  induction n with
  | zero => intro idx h; omega
  | succ n ih =>
    intro idx hidx
    have hlen := hexString_length g n
    unfold hexString at hlen ih ⊢
    rw [List.range_succ, List.map_append, List.flatten_append]
    by_cases h : idx < n
    · rw [List.getD_append _ _ _ _ (by omega), List.getD_append _ _ _ _ (by omega)]
      exact ih idx h
    · have e : idx = n := by omega
      subst e
      rw [List.getD_append_right _ _ _ _ (by omega), List.getD_append_right _ _ _ _ (by omega),
        hlen]
      simp [CLib.sprintf02X]

/-- Reading back a byte that `GetPublicKeyHex` printed. -/
theorem GetByte_hexString (g : ℕ → ℕ) {n idx : ℕ} (hidx : idx < n) (hg : g idx < 256) :
    GetByte (hexString g n) idx = some (g idx) := by
  obtain ⟨h1, h2⟩ := hexString_getD g (Char.ofNat 0) n idx hidx
  unfold GetByte
  simp only
  rw [h1, h2]
  have h3 := CLib.sscanfX_sprintf02X (g idx) (List.mem_range.2 hg)
  unfold CLib.sprintf02X at h3
  rw [h3]
  simp only
  rw [Nat.mod_eq_of_lt hg]

theorem Get32Bytes_length (a : ℕ) : (Get32Bytes a).length = 32 := by
  simp [Get32Bytes]

theorem Get32Bytes_getD (a : ℕ) {j : ℕ} (hj : j < 32) :
    (Get32Bytes a).getD j 0 = BigInt.GetByte a (31 - j) := by
  unfold Get32Bytes
  rw [List.getD_eq_getElem _ _ (by simpa using hj)]
  simp

end Secp256K1

namespace Secp256K1

open BigInt

theorem ParsePublicKeyHexEnd_eq (pt : Point) (c : Bool) :
    ParsePublicKeyHexEnd pt c = some (EC ⟨pt.x, pt.y, 1⟩, ⟨pt.x, pt.y, 1⟩, c) := by
  unfold ParsePublicKeyHexEnd
  cases h : EC ⟨pt.x, pt.y, 1⟩ <;> simp [h]

/-- The boolean overload on a string of length 130 whose first byte converts to `4`. -/
theorem ParsePublicKeyHex_04 {str : List Char} (pt : Point) (ic : Bool)
    (hlen : str.length = 130) (ht : GetByte str 0 = some 4) :
    ParsePublicKeyHex str pt ic =
      (readBytes str 1 32 0 0).bind (fun x =>
        (readBytes str 33 32 0 0).bind (fun y => ParsePublicKeyHexEnd ⟨x, y, 0⟩ false)) := by
  unfold ParsePublicKeyHex
  simp only [hlen, ht, Point.Clear]
  cases hx : readBytes str 1 32 0 0 with
  | none => simp
  | some x =>
    cases hy : readBytes str 33 32 0 0 with
    | none => simp
    | some y => simp

/-- The boolean overload on a string of length 66 whose first byte converts to `2` or `3`. -/
theorem ParsePublicKeyHex_02_03 {str : List Char} (pt : Point) (ic : Bool) {t : ℕ}
    (hlen : str.length = 66) (ht : GetByte str 0 = some t) (h23 : t = 2 ∨ t = 3) :
    ParsePublicKeyHex str pt ic =
      (readBytes str 1 32 0 0).bind (fun x =>
        ParsePublicKeyHexEnd ⟨x, GetY x (decide (t = 2)), 0⟩ true) := by
  unfold ParsePublicKeyHex
  rcases h23 with h | h <;> subst h <;> simp only [hlen, ht, Point.Clear] <;>
    cases hx : readBytes str 1 32 0 0 <;> simp

/-- The shapes of the result of the boolean overload: the process ends, or the call fails on the
length or on the first byte with `pt` cleared, or the result is that of the final `EC` test on the
coordinates read. -/
theorem ParsePublicKeyHex_cases (str : List Char) (pt : Point) (ic : Bool) :
    ParsePublicKeyHex str pt ic = none ∨
      ParsePublicKeyHex str pt ic = some (false, Point.Clear, ic) ∨
      ∃ t x y, GetByte str 0 = some t ∧ (t = 2 ∨ t = 3 ∨ t = 4) ∧
        ParsePublicKeyHex str pt ic = ParsePublicKeyHexEnd ⟨x, y, 0⟩ (decide (t ≠ 4)) := by
  by_cases h0 : str.length = 0
  · right; left; unfold ParsePublicKeyHex; simp [h0]
  by_cases h2 : str.length < 2
  · right; left; unfold ParsePublicKeyHex; simp [h0, h2]
  cases ht : GetByte str 0 with
  | none => left; unfold ParsePublicKeyHex; simp [h0, h2, ht]
  | some t =>
    by_cases t2 : t = 2
    · subst t2
      by_cases hl : str.length = 66
      · rw [ParsePublicKeyHex_02_03 pt ic hl ht (Or.inl rfl)]
        cases hx : readBytes str 1 32 0 0 with
        | none => left; rfl
        | some x => right; right; exact ⟨2, x, _, rfl, Or.inl rfl, rfl⟩
      · right; left; unfold ParsePublicKeyHex; simp [h0, h2, ht, hl]
    by_cases t3 : t = 3
    · subst t3
      by_cases hl : str.length = 66
      · rw [ParsePublicKeyHex_02_03 pt ic hl ht (Or.inr rfl)]
        cases hx : readBytes str 1 32 0 0 with
        | none => left; rfl
        | some x => right; right; exact ⟨3, x, _, rfl, Or.inr (Or.inl rfl), rfl⟩
      · right; left; unfold ParsePublicKeyHex; simp [h0, h2, ht, hl]
    by_cases t4 : t = 4
    · subst t4
      by_cases hl : str.length = 130
      · rw [ParsePublicKeyHex_04 pt ic hl ht]
        cases hx : readBytes str 1 32 0 0 with
        | none => left; rfl
        | some x =>
          cases hy : readBytes str 33 32 0 0 with
          | none => left; rfl
          | some y => right; right; exact ⟨4, x, y, rfl, Or.inr (Or.inr rfl), rfl⟩
      · right; left; unfold ParsePublicKeyHex; simp [h0, h2, ht, hl]
    right; left; unfold ParsePublicKeyHex; simp [h0, h2, ht, t2, t3, t4]

end Secp256K1

namespace Secp256K1

open BigInt

theorem lt_two_pow_of_lt_prime {a : ℕ} (h : a < prime) : a < 2 ^ 256 :=
  lt_trans h (by decide)

/-- Reading back the 32 bytes of a value printed from offset `off` of the buffer. -/
theorem readBytes_hexString (g : ℕ → ℕ) (n off x : ℕ) (hn : off + 32 ≤ n) (hx : x < 2 ^ 256)
    (hg : ∀ j, j < 32 → g (j + off) = BigInt.GetByte x (31 - j)) :
    readBytes (hexString g n) off 32 0 0 = some x := by
  have h := readBytes_spec_zero (hexString g n) off (fun j => BigInt.GetByte x (31 - j))
    (fun j hj => by
      rw [GetByte_hexString g (by omega) (by rw [hg j hj]; exact GetByte_lt _ _), hg j hj])
  rwa [beValue_GetByte_32 hx] at h

/-- Parsing the string printed from a buffer `04 x y`. -/
theorem Parse_hexString_full (g : ℕ → ℕ) (x y : ℕ) (hx : x < 2 ^ 256) (hy : y < 2 ^ 256)
    (h0 : g 0 = 4) (hgx : ∀ j, j < 32 → g (j + 1) = BigInt.GetByte x (31 - j))
    (hgy : ∀ j, j < 32 → g (j + 33) = BigInt.GetByte y (31 - j)) (pt : Point) (ic : Bool) :
    ParsePublicKeyHex (hexString g 65) pt ic = ParsePublicKeyHexEnd ⟨x, y, 0⟩ false := by
  have hlen : (hexString g 65).length = 130 := hexString_length g 65
  have ht : GetByte (hexString g 65) 0 = some 4 := by
    rw [GetByte_hexString g (by norm_num) (by rw [h0]; norm_num), h0]
  rw [ParsePublicKeyHex_04 pt ic hlen ht, readBytes_hexString g 65 1 x (by norm_num) hx hgx,
    readBytes_hexString g 65 33 y (by norm_num) hy hgy]
  rfl

/-- Parsing the string printed from a buffer `02 x` or `03 x`. -/
theorem Parse_hexString_comp (g : ℕ → ℕ) (x : ℕ) (hx : x < 2 ^ 256)
    (h0 : g 0 = 2 ∨ g 0 = 3) (hgx : ∀ j, j < 32 → g (j + 1) = BigInt.GetByte x (31 - j))
    (pt : Point) (ic : Bool) :
    ParsePublicKeyHex (hexString g 33) pt ic =
      ParsePublicKeyHexEnd ⟨x, GetY x (decide (g 0 = 2)), 0⟩ true := by
  have hlen : (hexString g 33).length = 66 := hexString_length g 33
  have ht : GetByte (hexString g 33) 0 = some (g 0) :=
    GetByte_hexString g (by norm_num) (by rcases h0 with h | h <;> rw [h] <;> norm_num)
  rw [ParsePublicKeyHex_02_03 pt ic hlen ht h0,
    readBytes_hexString g 33 1 x (by norm_num) hx hgx]
  rfl

/-- The bytes of the buffer of `GetPublicKeyHex` for an uncompressed key. -/
theorem fullKeyBytes_getD (x y : ℕ) :
    (([0x4] ++ Get32Bytes x ++ Get32Bytes y).getD 0 0 = 4) ∧
      (∀ j, j < 32 → ([0x4] ++ Get32Bytes x ++ Get32Bytes y).getD (j + 1) 0 =
        BigInt.GetByte x (31 - j)) ∧
      (∀ j, j < 32 → ([0x4] ++ Get32Bytes x ++ Get32Bytes y).getD (j + 33) 0 =
        BigInt.GetByte y (31 - j)) := by
  have hl := Get32Bytes_length x
  refine ⟨rfl, ?_, ?_⟩
  · intro j hj
    rw [List.append_assoc, List.singleton_append, List.getD_cons_succ,
      List.getD_append _ _ _ _ (by omega)]
    exact Get32Bytes_getD x hj
  · intro j hj
    rw [List.append_assoc, List.singleton_append, show j + 33 = (j + 32) + 1 by omega,
      List.getD_cons_succ, List.getD_append_right _ _ _ _ (by omega), hl, Nat.add_sub_cancel]
    exact Get32Bytes_getD y hj

/-- The bytes of the buffer of `GetPublicKeyHex` for a compressed key. -/
theorem compKeyBytes_getD (b x : ℕ) :
    (([b] ++ Get32Bytes x).getD 0 0 = b) ∧
      (∀ j, j < 32 → ([b] ++ Get32Bytes x).getD (j + 1) 0 = BigInt.GetByte x (31 - j)) := by
  refine ⟨rfl, ?_⟩
  intro j hj
  rw [List.singleton_append, List.getD_cons_succ]
  exact Get32Bytes_getD x hj

theorem GetPublicKeyHex_full (P : Point) : GetPublicKeyHex false P =
    hexString (fun i => ([0x4] ++ Get32Bytes P.x ++ Get32Bytes P.y).getD i 0) 65 := rfl

theorem GetPublicKeyHex_comp (P : Point) : GetPublicKeyHex true P =
    hexString (fun i => ([if IsEven P.y then 0x2 else 0x3] ++ Get32Bytes P.x).getD i 0) 33 := rfl

/-- Parsing the uncompressed string of a point of the curve gives the point back. -/
theorem Parse_GetPublicKeyHex_full {P : Point} (h : OnCurve P) (pt : Point) (ic : Bool) :
    ParsePublicKeyHex (GetPublicKeyHex false P) pt ic = some (true, P, false) := by
  obtain ⟨hz, hx, hy, hE⟩ := h
  obtain ⟨g0, gx, gy⟩ := fullKeyBytes_getD P.x P.y
  have key := Parse_hexString_full
    (fun i => ([0x4] ++ Get32Bytes P.x ++ Get32Bytes P.y).getD i 0) P.x P.y
    (lt_two_pow_of_lt_prime hx) (lt_two_pow_of_lt_prime hy) g0 gx gy pt ic
  rw [GetPublicKeyHex_full, key, ParsePublicKeyHexEnd_eq]
  obtain ⟨x, y, z⟩ := P
  simp only at hz hE ⊢
  subst hz
  rw [hE]

/-- Parsing the compressed string of a point of the curve gives the point back. -/
theorem Parse_GetPublicKeyHex_comp {P : Point} (h : OnCurve P) (pt : Point) (ic : Bool) :
    ParsePublicKeyHex (GetPublicKeyHex true P) pt ic = some (true, P, true) := by
  have hY := GetY_of_onCurve h
  obtain ⟨hz, hx, hy, hE⟩ := h
  obtain ⟨g0, gx⟩ := compKeyBytes_getD (if IsEven P.y then 0x2 else 0x3) P.x
  have h23 : (if IsEven P.y then 0x2 else 0x3) = 2 ∨ (if IsEven P.y then 0x2 else 0x3) = 3 := by
    split_ifs <;> simp
  have hdec : decide ((if IsEven P.y then 0x2 else 0x3 : ℕ) = 2) = IsEven P.y := by
    cases IsEven P.y <;> simp
  have key := Parse_hexString_comp
    (fun i => ([if IsEven P.y then 0x2 else 0x3] ++ Get32Bytes P.x).getD i 0) P.x
    (lt_two_pow_of_lt_prime hx) (by simp only [g0]; exact h23) gx pt ic
  rw [GetPublicKeyHex_comp, key, ParsePublicKeyHexEnd_eq]
  simp only [g0, hdec, hY]
  obtain ⟨x, y, z⟩ := P
  simp only at hz hE ⊢
  subst hz
  rw [hE]

end Secp256K1

namespace Secp256K1

open BigInt

/-- On a string of hexadecimal digits `GetByte` converts the two digits of a pair. -/
theorem GetByte_hex {str : List Char} (hs : ∀ c ∈ str, c ∈ hexDigits) {idx : ℕ}
    (h : 2 * idx + 1 < str.length) :
    GetByte str idx = some (16 * (CLib.xdigit (str.getD (2 * idx) (Char.ofNat 0))).getD 0 +
      (CLib.xdigit (str.getD (2 * idx + 1) (Char.ofNat 0))).getD 0) := by
  have m1 : str.getD (2 * idx) (Char.ofNat 0) ∈ hexDigits := by
    rw [List.getD_eq_getElem _ _ (by omega)]
    exact hs _ (List.getElem_mem _)
  have m2 : str.getD (2 * idx + 1) (Char.ofNat 0) ∈ hexDigits := by
    rw [List.getD_eq_getElem _ _ h]
    exact hs _ (List.getElem_mem _)
  have l1 := CLib.xdigit_lt _ m1
  have l2 := CLib.xdigit_lt _ m2
  unfold GetByte
  simp only
  rw [CLib.sscanfX_hexDigits _ m1 _ m2]
  simp only
  rw [Nat.mod_eq_of_lt (by omega)]

theorem hexValue_append_pair (cs : List Char) (a b : Char) :
    hexValue (cs ++ [a] ++ [b]) =
      hexValue cs * 256 + (16 * (CLib.xdigit a).getD 0 + (CLib.xdigit b).getD 0) := by
  unfold hexValue
  rw [List.foldl_append, List.foldl_append]
  simp only [List.foldl_cons, List.foldl_nil]
  ring

/-- The digits of `2 * k` characters from the offset `2 * off`, read as a number, are the bytes
of the pairs, most significant first. -/
theorem hexValue_take (str : List Char) (off : ℕ) : ∀ k, 2 * off + 2 * k ≤ str.length →
    hexValue ((str.drop (2 * off)).take (2 * k)) =
      beValue (fun j => 16 * (CLib.xdigit (str.getD (2 * (j + off)) (Char.ofNat 0))).getD 0 +
        (CLib.xdigit (str.getD (2 * (j + off) + 1) (Char.ofNat 0))).getD 0) k := by
  intro k
  induction k with
  | zero => intro _; rfl
  | succ k ih =>
    intro hk
    have e : 2 * (k + 1) = 2 * k + 1 + 1 := by ring
    have i1 : 2 * off + 2 * k < str.length := by omega
    have i2 : 2 * off + (2 * k + 1) < str.length := by omega
    rw [e, List.take_succ, List.take_succ, List.getElem?_drop, List.getElem?_drop,
      List.getElem?_eq_getElem i1, List.getElem?_eq_getElem i2]
    simp only [Option.toList_some]
    rw [hexValue_append_pair, ih (by omega)]
    show _ = beValue _ k * 256 + (16 * _ + _)
    rw [List.getD_eq_getElem _ _ (show 2 * (k + off) < str.length by omega),
      List.getD_eq_getElem _ _ (show 2 * (k + off) + 1 < str.length by omega)]
    have e1 : 2 * (k + off) = 2 * off + 2 * k := by ring
    simp only [e1, Nat.add_assoc]

/-- On a string of hexadecimal digits the byte loop reads the number written by the 64 digits
from the offset `2 * off`. -/
theorem readBytes_hex {str : List Char} (hs : ∀ c ∈ str, c ∈ hexDigits) (off : ℕ)
    (h : 2 * off + 64 ≤ str.length) :
    readBytes str off 32 0 0 = some (hexValue ((str.drop (2 * off)).take 64)) := by
  rw [show (64 : ℕ) = 2 * 32 from rfl, hexValue_take str off 32 (by omega)]
  exact readBytes_spec_zero str off _ (fun j hj => GetByte_hex hs (by omega))

end Secp256K1

namespace Secp256K1

open BigInt

/-- The byte loop ends the process exactly when one of the pairs it reads does not convert. -/
theorem readBytes_eq_none_iff (str : List Char) (off : ℕ) : ∀ cnt i v : ℕ,
    readBytes str off cnt i v = none ↔
      ∃ j, i ≤ j ∧ j < i + cnt ∧ GetByte str (j + off) = none := by
  intro cnt
  induction cnt with
  | zero =>
    intro i v
    rw [readBytes_zero]
    constructor
    · intro h; cases h
    · rintro ⟨j, h1, h2, -⟩; omega
  | succ cnt ih =>
    intro i v
    rw [readBytes_succ]
    cases hb : GetByte str (i + off) with
    | none =>
      constructor
      · intro _; exact ⟨i, le_rfl, by omega, hb⟩
      · intro _; rfl
    | some b =>
      rw [Option.some_bind, ih]
      constructor
      · rintro ⟨j, h1, h2, h3⟩; exact ⟨j, by omega, by omega, h3⟩
      · rintro ⟨j, h1, h2, h3⟩
        have hne : j ≠ i := by
          intro e; subst e; rw [hb] at h3; cases h3
        exact ⟨j, by omega, by omega, h3⟩

theorem ParsePublicKeyHexEnd_ne_none (pt : Point) (c : Bool) :
    ParsePublicKeyHexEnd pt c ≠ none := by
  rw [ParsePublicKeyHexEnd_eq]; exact Option.some_ne_none _

/-- The boolean overload ends the process exactly when one of the pairs of characters it reads
does not convert. -/
theorem ParsePublicKeyHex_eq_none_iff (str : List Char) (pt : Point) (ic : Bool) :
    ParsePublicKeyHex str pt ic = none ↔
      2 ≤ str.length ∧ (GetByte str 0 = none ∨
        ((GetByte str 0 = some 2 ∨ GetByte str 0 = some 3) ∧ str.length = 66 ∧
          ∃ j, 1 ≤ j ∧ j < 33 ∧ GetByte str j = none) ∨
        (GetByte str 0 = some 4 ∧ str.length = 130 ∧
          ∃ j, 1 ≤ j ∧ j < 65 ∧ GetByte str j = none)) := by
  by_cases h2 : str.length < 2
  · have : ParsePublicKeyHex str pt ic = some (false, Point.Clear, ic) := by
      unfold ParsePublicKeyHex
      by_cases h0 : str.length = 0 <;> simp [h0, h2]
    rw [this]
    constructor
    · intro h; cases h
    · rintro ⟨h, -⟩; omega
  have h0 : str.length ≠ 0 := by omega
  have hx : ∀ v, readBytes str 1 32 0 v = none ↔ ∃ j, 1 ≤ j ∧ j < 33 ∧ GetByte str j = none := by
    intro v
    rw [readBytes_eq_none_iff]
    constructor
    · rintro ⟨j, -, h2, h3⟩; exact ⟨j + 1, by omega, by omega, h3⟩
    · rintro ⟨j, h1, h2, h3⟩
      exact ⟨j - 1, by omega, by omega, by rwa [show j - 1 + 1 = j by omega]⟩
  have hy : ∀ v, readBytes str 33 32 0 v = none ↔
      ∃ j, 33 ≤ j ∧ j < 65 ∧ GetByte str j = none := by
    intro v
    rw [readBytes_eq_none_iff]
    constructor
    · rintro ⟨j, -, h2, h3⟩; exact ⟨j + 33, by omega, by omega, h3⟩
    · rintro ⟨j, h1, h2, h3⟩
      exact ⟨j - 33, by omega, by omega, by rwa [show j - 33 + 33 = j by omega]⟩
  cases ht : GetByte str 0 with
  | none =>
    have : ParsePublicKeyHex str pt ic = none := by
      unfold ParsePublicKeyHex; simp [h0, h2, ht]
    rw [this]
    exact ⟨fun _ => ⟨by omega, Or.inl rfl⟩, fun _ => rfl⟩
  | some t =>
    have hfalse : ParsePublicKeyHex str pt ic = some (false, Point.Clear, ic) →
        (ParsePublicKeyHex str pt ic = none ↔ False) := by
      intro h; rw [h]; exact Iff.intro (fun h => Option.noConfusion h) False.elim
    by_cases t23 : t = 2 ∨ t = 3
    · by_cases hl : str.length = 66
      · rw [ParsePublicKeyHex_02_03 pt ic hl ht t23]
        have hsome : (some t = some 2 ∨ some t = some 3) := by
          rcases t23 with h | h <;> subst h <;> simp
        have hn4 : some t ≠ some 4 := by
          rcases t23 with h | h <;> subst h <;> simp
        cases hr : readBytes str 1 32 0 0 with
        | none =>
          have := (hx 0).1 hr
          exact ⟨fun _ => ⟨by omega, Or.inr (Or.inl ⟨hsome, hl, this⟩)⟩, fun _ => rfl⟩
        | some x =>
          rw [Option.some_bind]
          constructor
          · intro h; exact absurd h (ParsePublicKeyHexEnd_ne_none _ _)
          · rintro ⟨-, h | ⟨-, -, h⟩ | ⟨h, -⟩⟩
            · cases h
            · rw [(hx 0).2 h] at hr; cases hr
            · exact absurd h hn4
      · have : ParsePublicKeyHex str pt ic = some (false, Point.Clear, ic) := by
          unfold ParsePublicKeyHex
          rcases t23 with h | h <;> subst h <;> simp [h0, h2, ht, hl]
        rw [hfalse this]
        constructor
        · exact False.elim
        · rintro ⟨-, h | ⟨-, h, -⟩ | ⟨h, -⟩⟩
          · cases h
          · exact hl h
          · rcases t23 with e | e <;> subst e <;> simp at h
    by_cases t4 : t = 4
    · subst t4
      by_cases hl : str.length = 130
      · rw [ParsePublicKeyHex_04 pt ic hl ht]
        cases hr : readBytes str 1 32 0 0 with
        | none =>
          obtain ⟨j, h1, h2, h3⟩ := (hx 0).1 hr
          exact ⟨fun _ => ⟨by omega, Or.inr (Or.inr ⟨rfl, hl, j, h1, by omega, h3⟩)⟩,
            fun _ => rfl⟩
        | some x =>
          rw [Option.some_bind]
          cases hr2 : readBytes str 33 32 0 0 with
          | none =>
            obtain ⟨j, h1, h2, h3⟩ := (hy 0).1 hr2
            exact ⟨fun _ => ⟨by omega, Or.inr (Or.inr ⟨rfl, hl, j, by omega, h2, h3⟩)⟩,
              fun _ => rfl⟩
          | some y =>
            rw [Option.some_bind]
            constructor
            · intro h; exact absurd h (ParsePublicKeyHexEnd_ne_none _ _)
            · rintro ⟨-, h | ⟨h, -⟩ | ⟨-, -, j, h1, h2, h3⟩⟩
              · cases h
              · rcases h with h | h <;> simp at h
              · by_cases hj : j < 33
                · rw [(hx 0).2 ⟨j, h1, hj, h3⟩] at hr; cases hr
                · rw [(hy 0).2 ⟨j, by omega, h2, h3⟩] at hr2; cases hr2
      · have : ParsePublicKeyHex str pt ic = some (false, Point.Clear, ic) := by
          unfold ParsePublicKeyHex; simp [h0, h2, ht, hl]
        rw [hfalse this]
        constructor
        · exact False.elim
        · rintro ⟨-, h | ⟨h, -⟩ | ⟨-, h, -⟩⟩
          · cases h
          · rcases h with h | h <;> simp at h
          · exact hl h
    · have t2 : t ≠ 2 := fun h => t23 (Or.inl h)
      have t3 : t ≠ 3 := fun h => t23 (Or.inr h)
      have : ParsePublicKeyHex str pt ic = some (false, Point.Clear, ic) := by
        unfold ParsePublicKeyHex; simp [h0, h2, ht, t2, t3, t4]
      rw [hfalse this]
      constructor
      · exact False.elim
      · rintro ⟨-, h | ⟨h, -⟩ | ⟨h, -⟩⟩
        · cases h
        · rcases h with h | h
          · exact t2 (Option.some.inj h)
          · exact t3 (Option.some.inj h)
        · exact t4 (Option.some.inj h)

end Secp256K1

/-! ## `DecodePrivateKey` -/

namespace Secp256K1

open BigInt

theorem SetByte_shift_mod (A n b : ℕ) :
    SetByte (A * 256 ^ (n + 1)) n b = (A * 256 + b % 256) * 256 ^ n := by
  have h : SetByte (A * 256 ^ (n + 1)) n b = SetByte (A * 256 ^ (n + 1)) n (b % 256) := by
    unfold SetByte; rw [Nat.mod_mod]
  rw [h, SetByte_shift _ _ _ (Nat.mod_lt _ (by norm_num))]

/-- The byte loop of `DecodePrivateKey` assembles the bytes `privKey[1..32]`, most significant
first. -/
theorem setKeyBytes_spec (privKey : List ℕ) : ∀ cnt m ret : ℕ, m + cnt = 32 →
    ret = beValue (fun j => privKey.getD (j + 1) 0 % 256) m * 256 ^ (32 - m) →
    setKeyBytes privKey cnt (m + 1) (31 - m) ret =
      beValue (fun j => privKey.getD (j + 1) 0 % 256) 32 := by
  intro cnt
  induction cnt with
  | zero =>
    intro m ret hm hret
    have : m = 32 := by omega
    subst this
    rw [setKeyBytes, hret, Nat.sub_self, pow_zero, mul_one]
  | succ cnt ih =>
    intro m ret hm hret
    rw [setKeyBytes]
    have e3 : 31 - m - 1 = 31 - (m + 1) := by omega
    rw [e3]
    apply ih (m + 1) _ (by omega)
    have e : 32 - m = (31 - m) + 1 := by omega
    rw [hret, e, SetByte_shift_mod]
    have e2 : 31 - m = 32 - (m + 1) := by omega
    rw [e2]
    rfl

theorem setKeyBytes_eq (privKey : List ℕ) :
    setKeyBytes privKey 32 1 31 0 = beValue (fun j => privKey.getD (j + 1) 0 % 256) 32 := by
  apply setKeyBytes_spec privKey 32 0 0 rfl
  show 0 = 0 * 256 ^ (32 - 0)
  rw [zero_mul]

/-- The integer and the flag returned by `DecodePrivateKey` do not depend on the checksum
service. -/
theorem DecodePrivateKey_checksum_irrelevant (d : List Char → List ℕ)
    (sha sha' : List ℕ → List ℕ) (key : List Char) (c : Bool) :
    (DecodePrivateKey d sha key c).1 = (DecodePrivateKey d sha' key c).1 ∧
      (DecodePrivateKey d sha key c).2.1 = (DecodePrivateKey d sha' key c).2.1 := by
  unfold DecodePrivateKey
  simp only
  split_ifs <;> exact ⟨rfl, rfl⟩

/-- The result of `DecodePrivateKey` on a string starting with `5` that decodes to 37 bytes with
the version byte `0x80`. -/
theorem DecodePrivateKey_5 (d : List Char → List ℕ) (sha : List ℕ → List ℕ) (key : List Char)
    (c : Bool) (h5 : key.getD 0 (Char.ofNat 0) = '5') (hlen : (d key).length = 37)
    (hv : (d key).getD 0 0 = 0x80) :
    DecodePrivateKey d sha key c =
      (beValue (fun j => (d key).getD (j + 1) 0 % 256) 32, false,
        if (sha ((d key).take 33)).getD 0 0 ≠ (d key).getD 33 0 ∨
            (sha ((d key).take 33)).getD 1 0 ≠ (d key).getD 34 0 ∨
            (sha ((d key).take 33)).getD 2 0 ≠ (d key).getD 35 0 ∨
            (sha ((d key).take 33)).getD 3 0 ≠ (d key).getD 36 0 then
          [DecodeMessage.invalidChecksum]
        else []) := by
  unfold DecodePrivateKey
  simp only [h5, hlen, hv, if_true, ne_eq, not_true_eq_false, if_false]
  rw [show SetInt32 0 = 0 from rfl, setKeyBytes_eq]

/-- The result of `DecodePrivateKey` on a string starting with `K` or `L` that decodes to 38
bytes. -/
theorem DecodePrivateKey_KL (d : List Char → List ℕ) (sha : List ℕ → List ℕ) (key : List Char)
    (c : Bool) (hKL : key.getD 0 (Char.ofNat 0) = 'K' ∨ key.getD 0 (Char.ofNat 0) = 'L')
    (hlen : (d key).length = 38) :
    DecodePrivateKey d sha key c =
      (beValue (fun j => (d key).getD (j + 1) 0 % 256) 32, true,
        if (sha ((d key).take 34)).getD 0 0 ≠ (d key).getD 34 0 ∨
            (sha ((d key).take 34)).getD 1 0 ≠ (d key).getD 35 0 ∨
            (sha ((d key).take 34)).getD 2 0 ≠ (d key).getD 36 0 ∨
            (sha ((d key).take 34)).getD 3 0 ≠ (d key).getD 37 0 then
          [DecodeMessage.invalidChecksum]
        else []) := by
  have h5 : key.getD 0 (Char.ofNat 0) ≠ '5' := by
    rcases hKL with h | h <;> rw [h] <;> decide
  unfold DecodePrivateKey
  simp only [h5, hKL, hlen, if_true, ne_eq, not_true_eq_false, if_false]
  rw [show SetInt32 0 = 0 from rfl, setKeyBytes_eq]

end Secp256K1

namespace Secp256K1

open BigInt WeierstrassCurve

/-! ## The half generator, and projective points of the curve -/

theorem halfG_onCurve : OnCurve halfG := by decide!

theorem DoubleDirect_halfG : DoubleDirect halfG = G := by decide!

/-- The reduction of a projective point of the curve is an affine point of the curve. -/
theorem Reduce_onCurve_of_proj {P : Point} (h : P.InField) (hz : P.z ≠ 0)
    (hE : OnCurveProj P) : OnCurve P.Reduce := by
  obtain ⟨x, y, z⟩ := P
  obtain ⟨hx, hy, hz1⟩ := h
  simp only at hx hy hz1 hz
  haveI : Reduced z := ⟨hz1⟩
  have hz' : (z : ZMod prime) ≠ 0 := cast_ne_zero_of_reduced z hz
  have hE' : (y : ZMod prime) * y * z = (x : ZMod prime) ^ 3 + 7 * (z : ZMod prime) ^ 3 := by
    have := (ZMod.natCast_eq_natCast_iff' _ _ prime).2 hE
    push_cast at this
    exact this
  refine ⟨rfl, ModMul_lt _ _, ModMul_lt _ _, ?_⟩
  rw [EC_iff (ModMul_lt _ _) (ModMul_lt _ _), curve_equation_iff]
  simp only [Point.Reduce, cast_ModMul, cast_ModInv_red]
  field_simp
  linear_combination (z : ZMod prime) ^ 2 * hE'

/-- A projective point of the curve represents an element of the group. -/
theorem exists_represents {P : Point} (h : P.InField) (hz : P.z ≠ 0) (hE : OnCurveProj P) :
    ∃ A, Represents P A := by
  obtain ⟨A, hA⟩ := exists_isAffineOf (Reduce_onCurve_of_proj h hz hE)
  exact ⟨A, h, hz, hA⟩

/-- The value `V = X2 * Z1 - X1 * Z2` of `Add` vanishes when the affine abscissas agree. -/
theorem Reduce_x_ne_of_V_ne {P1 P2 : Point} (h1 : P1.InField) (h2 : P2.InField)
    (hz1 : P1.z ≠ 0) (hz2 : P2.z ≠ 0)
    (hV : ModSub (ModMulK1 P2.x P1.z) (ModMulK1 P1.x P2.z) ≠ 0) :
    P1.Reduce.x ≠ P2.Reduce.x := by
  obtain ⟨x1, y1, z1⟩ := P1
  obtain ⟨x2, y2, z2⟩ := P2
  obtain ⟨-, -, h1z⟩ := h1
  obtain ⟨-, -, h2z⟩ := h2
  simp only at h1z h2z hz1 hz2 hV
  haveI : Reduced z1 := ⟨h1z⟩
  haveI : Reduced z2 := ⟨h2z⟩
  have hz1' : (z1 : ZMod prime) ≠ 0 := cast_ne_zero_of_reduced z1 hz1
  have hz2' : (z2 : ZMod prime) ≠ 0 := cast_ne_zero_of_reduced z2 hz2
  intro hx
  apply hV
  have hc := congrArg (Nat.cast : ℕ → ZMod prime) hx
  simp only [Point.Reduce, cast_ModMul, cast_ModInv_red] at hc
  apply natCast_inj_of_reduced
  rw [cast_ModSub_red, cast_ModMulK1, cast_ModMulK1, Nat.cast_zero]
  field_simp at hc
  linear_combination -hc

end Secp256K1

namespace Secp256K1

open BigInt WeierstrassCurve

/-! ## The addition formulas on operands with the same abscissa -/

theorem ModSub_self (a : ℕ) : ModSub a a = 0 := by
  unfold ModSub; simp

theorem ModSub_zero_zero : ModSub 0 0 = 0 := rfl

theorem ModMulK1_zero_left (a : ℕ) : ModMulK1 0 a = 0 := by
  unfold ModMulK1; simp

theorem ModMulK1_zero_right (a : ℕ) : ModMulK1 a 0 = 0 := by
  unfold ModMulK1; simp

theorem ModSquareK1_zero : ModSquareK1 0 = 0 := rfl

theorem ModAdd_zero_zero : ModAdd 0 0 = 0 := rfl

theorem ModSub_zero_right {a : ℕ} : ModSub a 0 = a := by
  unfold ModSub; simp

/-- `Secp256K1::Add` when `V1 == V2`: the result has `x = 0` and `z = 0`, and its ordinate is
`-(U² W) U` with `U = U1 - U2`, `W = Z1 Z2`. -/
theorem Add_of_V_eq {P1 P2 : Point} (hV : ModMulK1 P2.x P1.z = ModMulK1 P1.x P2.z) :
    Secp256K1.Add P1 P2 =
      ⟨0, ModMulK1 (ModSub 0 (ModMulK1
          (ModSquareK1 (ModSub (ModMulK1 P2.y P1.z) (ModMulK1 P1.y P2.z)))
          (ModMulK1 P1.z P2.z)))
        (ModSub (ModMulK1 P2.y P1.z) (ModMulK1 P1.y P2.z)), 0⟩ := by
  simp only [Secp256K1.Add, hV, ModSub_self, ModSquareK1_zero, ModMulK1_zero_left,
    ModMulK1_zero_right, ModAdd_zero_zero, ModSub_zero_right]

/-- `Point::Add` with operands that are not the same triple computes as `Secp256K1::Add`. -/
theorem PointAdd_eq_Add {P1 P2 : Point} (h : P1.equals P2 = false) :
    P1.Add P2 = Secp256K1.Add P1 P2 := by
  unfold Point.Add
  rw [h]
  rfl

/-- `Point::Add` on the same triple is `Point::Double`. -/
theorem PointAdd_of_equals {P1 P2 : Point} (h : P1.equals P2 = true) :
    P1.Add P2 = P1.Double := by
  unfold Point.Add
  rw [h]
  rfl

/-- When `V1 == V2` and `U1 != U2` (and `Z1`, `Z2` are not zero), the ordinate of the result of
`Add` is not zero. -/
theorem Add_y_ne_zero_of_V_eq {P1 P2 : Point} (h1 : P1.InField) (h2 : P2.InField)
    (hz1 : P1.z ≠ 0) (hz2 : P2.z ≠ 0) (hV : ModMulK1 P2.x P1.z = ModMulK1 P1.x P2.z)
    (hU : ModMulK1 P2.y P1.z ≠ ModMulK1 P1.y P2.z) : (Secp256K1.Add P1 P2).y ≠ 0 := by
  rw [Add_of_V_eq hV]
  simp only
  obtain ⟨x1, y1, z1⟩ := P1
  obtain ⟨x2, y2, z2⟩ := P2
  obtain ⟨-, -, h1z⟩ := h1
  obtain ⟨-, -, h2z⟩ := h2
  simp only at h1z h2z hz1 hz2 hU ⊢
  haveI : Reduced z1 := ⟨h1z⟩
  haveI : Reduced z2 := ⟨h2z⟩
  have hz1' : (z1 : ZMod prime) ≠ 0 := cast_ne_zero_of_reduced z1 hz1
  have hz2' : (z2 : ZMod prime) ≠ 0 := cast_ne_zero_of_reduced z2 hz2
  have hu : ((ModSub (ModMulK1 y2 z1) (ModMulK1 y1 z2) : ℕ) : ZMod prime) ≠ 0 := by
    apply cast_ne_zero_of_reduced
    intro h0
    unfold ModSub at h0
    have l1 := ModMulK1_lt y2 z1
    have l2 := ModMulK1_lt y1 z2
    split_ifs at h0 <;> omega
  intro h0
  have hc := congrArg (Nat.cast : ℕ → ZMod prime) h0
  rw [cast_ModMulK1, cast_ModSub_red, cast_ModMulK1, cast_ModSquareK1, cast_ModMulK1,
    Nat.cast_zero, zero_sub] at hc
  rcases mul_eq_zero.1 hc with h | h
  · rw [neg_eq_zero] at h
    rcases mul_eq_zero.1 h with h' | h'
    · rcases mul_eq_zero.1 h' with h'' | h'' <;> exact hu h''
    · rcases mul_eq_zero.1 h' with h'' | h''
      · exact hz1' h''
      · exact hz2' h''
  · exact hu h

/-- When `V1 == V2` and `U1 == U2`, `Secp256K1::Add` returns `(0, 0, 0)`. -/
theorem Add_of_V_eq_U_eq {P1 P2 : Point} (hV : ModMulK1 P2.x P1.z = ModMulK1 P1.x P2.z)
    (hU : ModMulK1 P2.y P1.z = ModMulK1 P1.y P2.z) : Secp256K1.Add P1 P2 = ⟨0, 0, 0⟩ := by
  rw [Add_of_V_eq hV, hU, ModSub_self, ModMulK1_zero_right]

/-- Reducing a point with `z = 0` gives the affine triple `(0, 0, 1)`. -/
theorem Reduce_of_z_zero {P : Point} (hz : P.z = 0) : P.Reduce = ⟨0, 0, 1⟩ := by
  obtain ⟨x, y, z⟩ := P
  simp only at hz
  subst hz
  simp [Point.Reduce, ModInv_zero, ModMul]

end Secp256K1

namespace Secp256K1

open BigInt WeierstrassCurve

/-! ## The calls made by `Init`, and `CheckGTable` -/

theorem ModSub_ne_zero {a b : ℕ} (hb : b < prime) (h : a ≠ b) :
    ModSub a b ≠ 0 := by
  unfold ModSub
  split_ifs <;> omega

theorem ModAdd_self_ne_zero {a : ℕ} (h : a ≠ 0) : ModAdd a a ≠ 0 := by
  have hp : prime % 2 = 1 := by decide
  unfold ModAdd
  split_ifs <;> omega

/-- The traced inner loop computes the table and the point of `InitInner`. -/
theorem InitInnerTrace_fst (i : ℕ) : ∀ (cnt j : ℕ) (t : Table) (N : Point)
    (adds : List (Point × Point)),
    ((InitInnerTrace i cnt j (t, N, adds)).1, (InitInnerTrace i cnt j (t, N, adds)).2.1) =
      InitInner i cnt j (t, N) := by
  intro cnt
  induction cnt with
  | zero => intro j t N adds; rfl
  | succ c ih =>
    intro j t N adds
    unfold InitInnerTrace InitInner
    exact ih _ _ _ _

/-- The traced outer loop computes the table and the point of `InitOuter`. -/
theorem InitOuterTrace_fst : ∀ (cnt i : ℕ) (t : Table) (N : Point)
    (adds : List (Point × Point)) (dbls : List Point),
    ((InitOuterTrace cnt i (t, N, adds, dbls)).1, (InitOuterTrace cnt i (t, N, adds, dbls)).2.1) =
      InitOuter cnt i (t, N) := by
  intro cnt
  induction cnt with
  | zero => intro i t N adds dbls; rfl
  | succ c ih =>
    intro i t N adds dbls
    unfold InitOuterTrace InitOuter
    have h := InitInnerTrace_fst i 254 1 (t.write (i * 256) N) (DoubleDirect N) adds
    simp only
    rw [ih, ← h]

/-- The table of the traced `Init` is `GTable`. -/
theorem InitOuterTrace_table :
    (InitOuterTrace 32 0 (fun _ => ⟨0, 0, 0⟩, G, [], [])).1 = GTable :=
  congrArg Prod.fst (InitOuterTrace_fst 32 0 (fun _ => ⟨0, 0, 0⟩) G [] [])

/-- Every call of `AddDirect` in the inner loop of `Init` has operands with different
abscissas: the value it inverts is not zero. -/
theorem InitInnerTrace_safe {B : curve.toAffine.Point} (hB : HasOrderN B) (i : ℕ) :
    ∀ (cnt j : ℕ) (t : Table) (N : Point) (adds : List (Point × Point)), 1 ≤ j →
      j + cnt ≤ 255 → IsAffineOf (t (i * 256)) B → IsAffineOf N ((j + 1) • B) →
      (∀ c ∈ adds, ModSub c.2.x c.1.x ≠ 0) →
      ∀ c ∈ (InitInnerTrace i cnt j (t, N, adds)).2.2, ModSub c.2.x c.1.x ≠ 0 := by
  intro cnt
  induction cnt with
  | zero =>
    intro j t N adds _ _ _ _ h
    exact h
  | succ c ih =>
    intro j t N adds hj hjc hbase hN hadds
    unfold InitInnerTrace
    have hbase' : (t.write (i * 256 + j) N) (i * 256) = t (i * 256) :=
      Table.write_other t N (by omega)
    simp only [hbase']
    have hord : order > 257 := by decide
    have hne : (j + 1) • B ≠ B := by
      have := hB.nsmul_ne_nsmul (a := 1) (b := j + 1) (by omega) (by omega)
      rw [one_nsmul] at this
      exact Ne.symm this
    have hneg : (j + 1) • B ≠ -B := by
      have := hB.nsmul_ne_neg_nsmul (a := j + 1) (b := 1) (by omega) (by omega)
      rwa [one_nsmul] at this
    have hx : N.x ≠ (t (i * 256)).x := by
      intro hx
      rcases hN.eq_or_eq_neg hbase hx with h | h
      · exact hne h
      · exact hneg h
    have hN' : IsAffineOf (AddDirect N (t (i * 256))) ((j + 1 + 1) • B) := by
      have := AddDirect_spec hN hbase hx
      rwa [← succ_nsmul] at this
    have hb2 : IsAffineOf ((t.write (i * 256 + j) N) (i * 256)) B := by
      rw [hbase']; exact hbase
    apply ih (j + 1) (t.write (i * 256 + j) N) (AddDirect N (t (i * 256))) _ (by omega)
      (by omega) hb2 hN'
    intro c hc
    rcases List.mem_append.1 hc with h | h
    · exact hadds c h
    · rw [List.mem_singleton] at h
      subst h
      exact ModSub_ne_zero hN.2.1 (Ne.symm hx)

/-- Every call of `AddDirect` and of `DoubleDirect` in `Init` inverts a value that is not
zero. -/
theorem InitOuterTrace_safe : ∀ (cnt i : ℕ) (t : Table) (N : Point)
    (adds : List (Point × Point)) (dbls : List Point),
    IsAffineOf N (256 ^ i • Gpoint) →
    (∀ c ∈ adds, ModSub c.2.x c.1.x ≠ 0) → (∀ P ∈ dbls, ModAdd P.y P.y ≠ 0) →
    (∀ c ∈ (InitOuterTrace cnt i (t, N, adds, dbls)).2.2.1, ModSub c.2.x c.1.x ≠ 0) ∧
      (∀ P ∈ (InitOuterTrace cnt i (t, N, adds, dbls)).2.2.2, ModAdd P.y P.y ≠ 0) := by
  intro cnt
  induction cnt with
  | zero =>
    intro i t N adds dbls _ ha hd
    exact ⟨ha, hd⟩
  | succ c ih =>
    intro i t N adds dbls hN ha hd
    unfold InitOuterTrace
    have hB : HasOrderN (256 ^ i • Gpoint) := Gpoint_hasOrderN.nsmul (order_not_dvd_pow i)
    have hbase : IsAffineOf ((t.write (i * 256) N) (i * 256)) (256 ^ i • Gpoint) := by
      rw [Table.write_same]; exact hN
    have hN2 : IsAffineOf (DoubleDirect N) ((1 + 1) • (256 ^ i • Gpoint)) := by
      have := DoubleDirect_spec hN
      rwa [← two_nsmul] at this
    have hrow0 : ∀ k, i * 256 ≤ k → k < i * 256 + 1 →
        IsAffineOf ((t.write (i * 256) N) k) ((k - i * 256 + 1) • (256 ^ i • Gpoint)) := by
      intro k hk1 hk2
      have hk : k = i * 256 := by omega
      subst hk
      rw [Table.write_same, Nat.sub_self, zero_add, one_nsmul]
      exact hN
    obtain ⟨r1, -, -⟩ := InitInner_spec hB i 254 1 (t.write (i * 256) N) (DoubleDirect N)
      le_rfl (by norm_num) hbase hN2 hrow0
    have hfst := InitInnerTrace_fst i 254 1 (t.write (i * 256) N) (DoubleDirect N) adds
    have hN' : IsAffineOf
        (InitInnerTrace i 254 1 (t.write (i * 256) N, DoubleDirect N, adds)).2.1
        (256 ^ (i + 1) • Gpoint) := by
      have e : 256 ^ (i + 1) • Gpoint = (1 + 254 + 1) • (256 ^ i • Gpoint) := by
        rw [pow_succ, mul_nsmul]
      have e2 : (InitInnerTrace i 254 1 (t.write (i * 256) N, DoubleDirect N, adds)).2.1 =
          (InitInner i 254 1 (t.write (i * 256) N, DoubleDirect N)).2 :=
        congrArg Prod.snd hfst
      rw [e, e2]
      exact r1
    have ha' := InitInnerTrace_safe hB i 254 1 (t.write (i * 256) N) (DoubleDirect N) adds
      le_rfl (by norm_num) hbase hN2 ha
    have hd' : ∀ P ∈ dbls ++ [N], ModAdd P.y P.y ≠ 0 := by
      intro P hP
      rcases List.mem_append.1 hP with h | h
      · exact hd P h
      · rw [List.mem_singleton] at h
        subst h
        exact ModAdd_self_ne_zero (y_ne_zero_of_EC hN.2.1 hN.2.2.1 hN.onCurve.2.2.2)
    exact ih (i + 1) _ _ _ _ hN' ha' hd'

/-- The loop of `CheckGTable` on a table whose entries below `256 * 32` all pass `EC` ends with
`i = 256 * 32`. -/
theorem CheckGTableLoop_of_forall (gt : Table) (h : ∀ k, k < 256 * 32 → EC (gt k) = true) :
    ∀ fuel i, i ≤ 256 * 32 → 256 * 32 < i + fuel → CheckGTableLoop gt fuel i = 256 * 32 := by
  intro fuel
  induction fuel with
  | zero => intro i h1 h2; omega
  | succ f ih =>
    intro i h1 h2
    unfold CheckGTableLoop
    by_cases hi : i < 256 * 32
    · rw [if_pos (by simp [hi, h i hi])]
      exact ih (i + 1) (by omega) (by omega)
    · rw [if_neg (by simp [hi])]
      omega

theorem GTable_onCurve (k : ℕ) (hk : k < 8192) : OnCurve (GTable k) :=
  (GTable_spec k hk).onCurve

theorem CheckGTable_true : CheckGTable = true := by
  unfold CheckGTable
  rw [CheckGTableLoop_of_forall GTable (fun k hk => (GTable_onCurve k hk).2.2.2) _ 0
    (by norm_num) (by norm_num)]
  rfl

theorem Init_calls_safe :
    (∀ c ∈ InitAddDirectCalls, ModSub c.2.x c.1.x ≠ 0) ∧
      (∀ P ∈ InitDoubleDirectCalls, ModAdd P.y P.y ≠ 0) := by
  have h0 : IsAffineOf G (256 ^ 0 • Gpoint) := by
    rw [pow_zero, one_nsmul]; exact G_isAffineOf
  exact InitOuterTrace_safe 32 0 (fun _ => ⟨0, 0, 0⟩) G [] [] h0
    (fun c hc => absurd hc (List.not_mem_nil c)) (fun P hP => absurd hP (List.not_mem_nil P))

end Secp256K1

namespace Secp256K1

open BigInt

/-! ## The hash input buffers `KEYBUFFCOMP`, `KEYBUFFUNCOMP`, `KEYBUFFSCRIPT` -/

/-- The bitwise or of a byte shifted to the top of a word and a value below `2 ^ 24`. -/
theorem or_eq_add_24 {a b : ℕ} (ha : a < 2 ^ 24) : a ||| 2 ^ 24 * b = 2 ^ 24 * b + a := by
  rw [Nat.or_comm, Nat.mul_add_lt_is_or ha]

theorem shr_lt (a : ℕ) (h : a < 2 ^ 32) : U32.shr a 8 < 2 ^ 24 := by
  unfold U32.shr
  rw [Nat.shiftRight_eq_div_pow]
  omega

theorem shl_24 (a : ℕ) : U32.shl a 24 = 2 ^ 24 * (a % 2 ^ 8) := by
  unfold U32.shl
  rw [Nat.shiftLeft_eq]
  omega

/-- The word `(w >> 8) | (v << 24)` of the macros, for 32-bit `w`. -/
theorem word_or (w v : ℕ) (hw : w < 2 ^ 32) :
    U32.shr w 8 ||| U32.shl v 24 = (v % 2 ^ 8) * 2 ^ 24 + w / 2 ^ 8 := by
  rw [shl_24, or_eq_add_24 (shr_lt w hw)]
  unfold U32.shr
  rw [Nat.shiftRight_eq_div_pow]
  ring

theorem bits32_lt (a k : ℕ) : bits32 a k < 2 ^ 32 := Nat.mod_lt _ (by norm_num)

/-- The word made of the low byte of the 32-bit word `k + 1` and the three high bytes of the
word `k` is made of the bytes `4k + 4, 4k + 3, 4k + 2, 4k + 1` of the value. -/
theorem word_bytes (a k : ℕ) :
    (bits32 a (k + 1) % 2 ^ 8) * 2 ^ 24 + bits32 a k / 2 ^ 8 =
      BigInt.GetByte a (4 * k + 4) * 2 ^ 24 + BigInt.GetByte a (4 * k + 3) * 2 ^ 16 +
        BigInt.GetByte a (4 * k + 2) * 2 ^ 8 + BigInt.GetByte a (4 * k + 1) := by
  unfold bits32 BigInt.GetByte
  have e0 : (2 : ℕ) ^ (32 * (k + 1)) = 2 ^ (32 * k) * 2 ^ 32 := by
    rw [Nat.mul_succ, pow_add]
  have e256 : ∀ j : ℕ, (256 : ℕ) ^ (4 * k + j) = 2 ^ (32 * k) * 256 ^ j := by
    intro j
    rw [pow_add, pow_mul, pow_mul 2 32 k]
    norm_num
  have e4 : (256 : ℕ) ^ (4 * k + 4) = 2 ^ (32 * k) * 2 ^ 32 := by rw [e256]; norm_num
  have e3 : (256 : ℕ) ^ (4 * k + 3) = 2 ^ (32 * k) * 2 ^ 24 := by rw [e256]; norm_num
  have e2 : (256 : ℕ) ^ (4 * k + 2) = 2 ^ (32 * k) * 2 ^ 16 := by rw [e256]; norm_num
  have e1 : (256 : ℕ) ^ (4 * k + 1) = 2 ^ (32 * k) * 2 ^ 8 := by rw [e256]; norm_num
  rw [e0, e4, e3, e2, e1]
  simp only [← Nat.div_div_eq_div_mul]
  generalize a / 2 ^ (32 * k) = q
  omega

end Secp256K1

namespace Secp256K1

open BigInt

theorem Get32Bytes_eq (a : ℕ) : Get32Bytes a =
    [BigInt.GetByte a 31, BigInt.GetByte a 30, BigInt.GetByte a 29, BigInt.GetByte a 28,
     BigInt.GetByte a 27, BigInt.GetByte a 26, BigInt.GetByte a 25, BigInt.GetByte a 24,
     BigInt.GetByte a 23, BigInt.GetByte a 22, BigInt.GetByte a 21, BigInt.GetByte a 20,
     BigInt.GetByte a 19, BigInt.GetByte a 18, BigInt.GetByte a 17, BigInt.GetByte a 16,
     BigInt.GetByte a 15, BigInt.GetByte a 14, BigInt.GetByte a 13, BigInt.GetByte a 12,
     BigInt.GetByte a 11, BigInt.GetByte a 10, BigInt.GetByte a 9, BigInt.GetByte a 8,
     BigInt.GetByte a 7, BigInt.GetByte a 6, BigInt.GetByte a 5, BigInt.GetByte a 4,
     BigInt.GetByte a 3, BigInt.GetByte a 2, BigInt.GetByte a 1, BigInt.GetByte a 0] := rfl

/-- The words of the padded block of a message of 33 bytes. -/
theorem beWords_pad_33 (c : ℕ) (b : ℕ → ℕ) :
    beWords (sha256Pad [c, b 31, b 30, b 29, b 28, b 27, b 26, b 25, b 24, b 23, b 22, b 21,
      b 20, b 19, b 18, b 17, b 16, b 15, b 14, b 13, b 12, b 11, b 10, b 9, b 8, b 7, b 6, b 5,
      b 4, b 3, b 2, b 1, b 0]) =
    [c * 2 ^ 24 + b 31 * 2 ^ 16 + b 30 * 2 ^ 8 + b 29,
     b 28 * 2 ^ 24 + b 27 * 2 ^ 16 + b 26 * 2 ^ 8 + b 25,
     b 24 * 2 ^ 24 + b 23 * 2 ^ 16 + b 22 * 2 ^ 8 + b 21,
     b 20 * 2 ^ 24 + b 19 * 2 ^ 16 + b 18 * 2 ^ 8 + b 17,
     b 16 * 2 ^ 24 + b 15 * 2 ^ 16 + b 14 * 2 ^ 8 + b 13,
     b 12 * 2 ^ 24 + b 11 * 2 ^ 16 + b 10 * 2 ^ 8 + b 9,
     b 8 * 2 ^ 24 + b 7 * 2 ^ 16 + b 6 * 2 ^ 8 + b 5,
     b 4 * 2 ^ 24 + b 3 * 2 ^ 16 + b 2 * 2 ^ 8 + b 1,
     b 0 * 2 ^ 24 + 0x80 * 2 ^ 16 + 0 * 2 ^ 8 + 0,
     0, 0, 0, 0, 0, 0, 0x108] := by
  simp [sha256Pad, beWords, List.replicate, List.range, List.range.loop]

/-- The words of the padded blocks of a message of 65 bytes. -/
theorem beWords_pad_65 (c : ℕ) (a b : ℕ → ℕ) :
    beWords (sha256Pad [c, a 31, a 30, a 29, a 28, a 27, a 26, a 25, a 24, a 23, a 22, a 21,
      a 20, a 19, a 18, a 17, a 16, a 15, a 14, a 13, a 12, a 11, a 10, a 9, a 8, a 7, a 6, a 5,
      a 4, a 3, a 2, a 1, a 0, b 31, b 30, b 29, b 28, b 27, b 26, b 25, b 24, b 23, b 22, b 21,
      b 20, b 19, b 18, b 17, b 16, b 15, b 14, b 13, b 12, b 11, b 10, b 9, b 8, b 7, b 6, b 5,
      b 4, b 3, b 2, b 1, b 0]) =
    [c * 2 ^ 24 + a 31 * 2 ^ 16 + a 30 * 2 ^ 8 + a 29,
     a 28 * 2 ^ 24 + a 27 * 2 ^ 16 + a 26 * 2 ^ 8 + a 25,
     a 24 * 2 ^ 24 + a 23 * 2 ^ 16 + a 22 * 2 ^ 8 + a 21,
     a 20 * 2 ^ 24 + a 19 * 2 ^ 16 + a 18 * 2 ^ 8 + a 17,
     a 16 * 2 ^ 24 + a 15 * 2 ^ 16 + a 14 * 2 ^ 8 + a 13,
     a 12 * 2 ^ 24 + a 11 * 2 ^ 16 + a 10 * 2 ^ 8 + a 9,
     a 8 * 2 ^ 24 + a 7 * 2 ^ 16 + a 6 * 2 ^ 8 + a 5,
     a 4 * 2 ^ 24 + a 3 * 2 ^ 16 + a 2 * 2 ^ 8 + a 1,
     a 0 * 2 ^ 24 + b 31 * 2 ^ 16 + b 30 * 2 ^ 8 + b 29,
     b 28 * 2 ^ 24 + b 27 * 2 ^ 16 + b 26 * 2 ^ 8 + b 25,
     b 24 * 2 ^ 24 + b 23 * 2 ^ 16 + b 22 * 2 ^ 8 + b 21,
     b 20 * 2 ^ 24 + b 19 * 2 ^ 16 + b 18 * 2 ^ 8 + b 17,
     b 16 * 2 ^ 24 + b 15 * 2 ^ 16 + b 14 * 2 ^ 8 + b 13,
     b 12 * 2 ^ 24 + b 11 * 2 ^ 16 + b 10 * 2 ^ 8 + b 9,
     b 8 * 2 ^ 24 + b 7 * 2 ^ 16 + b 6 * 2 ^ 8 + b 5,
     b 4 * 2 ^ 24 + b 3 * 2 ^ 16 + b 2 * 2 ^ 8 + b 1,
     b 0 * 2 ^ 24 + 0x80 * 2 ^ 16 + 0 * 2 ^ 8 + 0,
     0, 0, 0, 0, 0, 0, 0, 0, 0, 0, 0, 0, 0, 0, 0x208] := by
  simp [sha256Pad, beWords, List.replicate, List.range, List.range.loop]

/-- The word `(bits32[k] >> 8) | (bits32[k + 1] << 24)` of the macros. -/
theorem word_full (a k : ℕ) :
    U32.shr (bits32 a k) 8 ||| U32.shl (bits32 a (k + 1)) 24 =
      BigInt.GetByte a (4 * k + 4) * 2 ^ 24 + BigInt.GetByte a (4 * k + 3) * 2 ^ 16 +
        BigInt.GetByte a (4 * k + 2) * 2 ^ 8 + BigInt.GetByte a (4 * k + 1) := by
  rw [word_or _ _ (bits32_lt a k), word_bytes]

/-- The three high bytes of the 32-bit word `k`. -/
theorem word_top (a k : ℕ) :
    bits32 a k / 2 ^ 8 =
      BigInt.GetByte a (4 * k + 3) * 2 ^ 16 + BigInt.GetByte a (4 * k + 2) * 2 ^ 8 +
        BigInt.GetByte a (4 * k + 1) := by
  have h := word_bytes a k
  have e : bits32 a (k + 1) % 2 ^ 8 = BigInt.GetByte a (4 * k + 4) := by
    unfold bits32 BigInt.GetByte
    have e4 : (256 : ℕ) ^ (4 * k + 4) = 2 ^ (32 * (k + 1)) := by
      rw [Nat.mul_succ, pow_add, pow_add, pow_mul, pow_mul 2 32 k]
      norm_num
    rw [e4]
    generalize a / 2 ^ (32 * (k + 1)) = q
    omega
  rw [e] at h
  omega

/-- The word `(bits32[7] >> 8) | (c << 24)` that starts a buffer, for a byte `c`. -/
theorem word_first (a c : ℕ) (hc : c < 256) :
    U32.shr (bits32 a 7) 8 ||| U32.shl c 24 =
      c * 2 ^ 24 + BigInt.GetByte a 31 * 2 ^ 16 + BigInt.GetByte a 30 * 2 ^ 8 +
        BigInt.GetByte a 29 := by
  rw [word_or _ _ (bits32_lt a 7), word_top a 7, Nat.mod_eq_of_lt (by omega)]
  ring

/-- The word `(hi.bits32[7] >> 8) | (lo.bits32[0] << 24)` that joins two coordinates. -/
theorem word_join (lo hi : ℕ) :
    U32.shr (bits32 hi 7) 8 ||| U32.shl (bits32 lo 0) 24 =
      BigInt.GetByte lo 0 * 2 ^ 24 + BigInt.GetByte hi 31 * 2 ^ 16 +
        BigInt.GetByte hi 30 * 2 ^ 8 + BigInt.GetByte hi 29 := by
  rw [word_or _ _ (bits32_lt hi 7), word_top hi 7]
  have e : bits32 lo 0 % 2 ^ 8 = BigInt.GetByte lo 0 := by
    unfold bits32 BigInt.GetByte
    norm_num
  rw [e]
  ring

/-- The word `0x00800000 | (bits32[0] << 24)` that ends the message. -/
theorem word_last (a : ℕ) :
    0x00800000 ||| U32.shl (bits32 a 0) 24 =
      BigInt.GetByte a 0 * 2 ^ 24 + 0x80 * 2 ^ 16 + 0 * 2 ^ 8 + 0 := by
  rw [shl_24, or_eq_add_24 (by norm_num)]
  have e : bits32 a 0 % 2 ^ 8 = BigInt.GetByte a 0 := by
    unfold bits32 BigInt.GetByte
    norm_num
  rw [e]
  ring

theorem IsOdd_eq_not_IsEven (a : ℕ) : IsOdd a = !IsEven a := by
  unfold IsOdd IsEven
  rcases Nat.mod_two_eq_zero_or_one a with h | h <;> simp [h]

/-- The words of `KEYBUFFCOMP` are the words of the padded compressed serialization. -/
theorem KEYBUFFCOMP_eq (p : Point) :
    KEYBUFFCOMP p = beWords (sha256Pad (GetPublicKey true p)) := by
  have hpfx : (0x2 + (if IsOdd p.y then 1 else 0) : ℕ) = if IsEven p.y then 0x2 else 0x3 := by
    rw [IsOdd_eq_not_IsEven]
    cases IsEven p.y <;> rfl
  have hG : GetPublicKey true p =
      [if IsEven p.y then 0x2 else 0x3] ++ Get32Bytes p.x := rfl
  rw [hG, Get32Bytes_eq, List.singleton_append, beWords_pad_33 _ (BigInt.GetByte p.x)]
  unfold KEYBUFFCOMP
  rw [hpfx, word_first p.x _ (by split_ifs <;> norm_num), word_full p.x 6, word_full p.x 5,
    word_full p.x 4, word_full p.x 3, word_full p.x 2, word_full p.x 1, word_full p.x 0,
    word_last p.x]

/-- The words of `KEYBUFFUNCOMP` are the words of the padded uncompressed serialization. -/
theorem KEYBUFFUNCOMP_eq (p : Point) :
    KEYBUFFUNCOMP p = beWords (sha256Pad (GetPublicKey false p)) := by
  have hG : GetPublicKey false p = [0x4] ++ Get32Bytes p.x ++ Get32Bytes p.y := rfl
  have h0 : U32.shr (bits32 p.x 7) 8 ||| 0x04000000 =
      U32.shr (bits32 p.x 7) 8 ||| U32.shl 4 24 := rfl
  rw [hG, Get32Bytes_eq, Get32Bytes_eq, List.singleton_append]
  simp only [List.cons_append, List.nil_append]
  rw [beWords_pad_65 _ (BigInt.GetByte p.x) (BigInt.GetByte p.y)]
  unfold KEYBUFFUNCOMP
  rw [h0, word_first p.x 4 (by norm_num), word_full p.x 6, word_full p.x 5,
    word_full p.x 4, word_full p.x 3, word_full p.x 2, word_full p.x 1, word_full p.x 0,
    word_join p.x p.y, word_full p.y 6, word_full p.y 5,
    word_full p.y 4, word_full p.y 3, word_full p.y 2, word_full p.y 1, word_full p.y 0,
    word_last p.y]

end Secp256K1

namespace Secp256K1

open BigInt

/-- The bitwise or of a multiple of `2 ^ i` and a value below `2 ^ i` is their sum. -/
theorem or_eq_add_of_dvd {X B : ℕ} (i : ℕ) (hB : B < 2 ^ i) (hX : 2 ^ i ∣ X) :
    X ||| B = X + B := by
  obtain ⟨a, rfl⟩ := hX
  exact (Nat.mul_add_lt_is_or hB a).symm

end Secp256K1

namespace Secp256K1

open BigInt

/-! ## Byte buffers, `GetHash160` and `GetAddress` -/

theorem Buffer.bytes_length (buf : Buffer) (n : ℕ) : (buf.bytes n).length = n := by
  simp [Buffer.bytes]

/-- A copy at or after offset `m` leaves the first `m` bytes. -/
theorem Buffer.bytes_copy_of_le (buf : Buffer) (off : ℕ) (src : List ℕ) (n m : ℕ)
    (h : m ≤ off) : (Buffer.copy buf off src n).bytes m = buf.bytes m := by
  unfold Buffer.bytes
  apply List.map_congr_left
  intro k hk
  rw [List.mem_range] at hk
  unfold Buffer.copy
  rw [if_neg (by omega)]

/-- The bytes of a buffer up to the end of a copy of a whole list. -/
theorem Buffer.bytes_copy_append (buf : Buffer) (off : ℕ) (src : List ℕ) (n : ℕ)
    (hn : src.length = n) :
    (Buffer.copy buf off src n).bytes (off + n) = buf.bytes off ++ src := by
  unfold Buffer.bytes
  rw [List.range_add, List.map_append, List.map_map]
  congr 1
  · apply List.map_congr_left
    intro k hk
    rw [List.mem_range] at hk
    unfold Buffer.copy
    rw [if_neg (by omega)]
  · apply List.ext_getElem
    · simp [hn]
    · intro i h1 h2
      simp only [List.getElem_map, List.getElem_range, Function.comp_apply]
      unfold Buffer.copy
      have h3 : i < n := by simpa using h1
      rw [if_pos (by omega), Nat.add_sub_cancel_left, List.getD_eq_getElem _ _ h2]

theorem Buffer.bytes_zero (buf : Buffer) : buf.bytes 0 = [] := rfl

/-- The bytes of a buffer up to the end `m = off + n` of a copy of a whole list. -/
theorem Buffer.bytes_copy_end (buf : Buffer) (off : ℕ) (src : List ℕ) (n m : ℕ)
    (hn : src.length = n) (hm : m = off + n) :
    (Buffer.copy buf off src n).bytes m = buf.bytes off ++ src := by
  subst hm
  exact Buffer.bytes_copy_append buf off src n hn

/-- Without the out-of-switch case the hash written by `GetHash160` does not depend on the
previous content of the output buffer. -/
theorem GetHash160_hash0 (S : Services) {type : ℕ} (h : type = P2PKH ∨ type = P2SH ∨ type = BECH32)
    (c : Bool) (pk : Point) (h0 h1 : List ℕ) :
    GetHash160 S type c pk h0 = GetHash160 S type c pk h1 := by
  unfold GetHash160
  rcases h with h | h | h <;> subst h <;> simp [P2PKH, P2SH, BECH32]

/-- `GetAddress` on a hash, for the two Base58 types: the 25 bytes `v || h || c`. -/
theorem GetAddress_base58 (S : Services) (type v : ℕ) (c : Bool) (h : List ℕ) (a0 : Buffer)
    (ht : (type = P2PKH ∧ v = 0x00) ∨ (type = P2SH ∧ v = 0x05)) (hlen : h.length = 20)
    (hck : (S.sha256_checksum ([v] ++ h)).length = 4) :
    GetAddress S type c h a0 = S.EncodeBase58 ([v] ++ h ++ S.sha256_checksum ([v] ++ h)) := by
  have e : GetAddress S type c h a0 =
      S.EncodeBase58 ((Buffer.copy (Buffer.copy (Buffer.copy a0 0 [v] 1) 1 h 20) 21
        (S.sha256_checksum ((Buffer.copy (Buffer.copy a0 0 [v] 1) 1 h 20).bytes 21)) 4).bytes
          25) := by
    unfold GetAddress
    rcases ht with ⟨h1, h2⟩ | ⟨h1, h2⟩ <;> subst h1 h2 <;> simp [P2PKH, P2SH, BECH32]
  have e21 : (Buffer.copy (Buffer.copy a0 0 [v] 1) 1 h 20).bytes 21 = [v] ++ h := by
    rw [Buffer.bytes_copy_end _ 1 _ 20 21 hlen rfl, Buffer.bytes_copy_end _ 0 [v] 1 1 rfl rfl,
      Buffer.bytes_zero]
    rfl
  rw [e, e21, Buffer.bytes_copy_end _ 21 _ 4 25 hck rfl, e21]

/-- `GetAddress` on a hash, for `BECH32`. -/
theorem GetAddress_bech32 (S : Services) (c : Bool) (h : List ℕ) (a0 : Buffer)
    (hlen : h.length = 20) :
    GetAddress S BECH32 c h a0 = S.segwit_addr_encode "bc".toList 0 h := by
  unfold GetAddress
  rw [if_pos rfl, List.take_of_length_le (by omega)]

/-- The overload of `GetAddress` on a point agrees with the overload on the hash of the point,
when it does not refuse the key. -/
theorem GetAddressPoint_eq (S : Services) {type : ℕ}
    (ht : type = P2PKH ∨ type = P2SH ∨ type = BECH32) (c : Bool) (pk : Point) (a0 : Buffer)
    (h0 : List ℕ) (hc : type = P2PKH ∨ c = true) :
    GetAddressPoint S type c pk a0 = GetAddress S type c (GetHash160 S type c pk h0) a0 := by
  have n1 : P2PKH ≠ BECH32 := by decide
  have n2 : P2SH ≠ BECH32 := by decide
  have n3 : P2SH ≠ P2PKH := by decide
  have n4 : P2PKH ≠ P2SH := by decide
  rcases ht with h | h | h
  · subst h
    have e : GetAddressPoint S P2PKH c pk a0 = GetAddress S P2PKH c
        (GetHash160 S P2PKH c pk ((Buffer.copy a0 0 [0x00] 1).bytes 21).tail) a0 := by
      unfold GetAddressPoint GetAddress
      simp only [if_neg n1, if_true, n4, false_and, if_false]
    rw [e, GetHash160_hash0 S (Or.inl rfl) c pk _ h0]
  · subst h
    have hc' : c = true := by
      rcases hc with h | h
      · exact absurd h n3
      · exact h
    subst hc'
    have e : GetAddressPoint S P2SH true pk a0 = GetAddress S P2SH true
        (GetHash160 S P2SH true pk ((Buffer.copy a0 0 [0x05] 1).bytes 21).tail) a0 := by
      unfold GetAddressPoint GetAddress
      simp only [if_neg n2, if_neg n3, if_true, Bool.not_true, Bool.false_eq_true, and_false,
        if_false]
    rw [e, GetHash160_hash0 S (Or.inr (Or.inl rfl)) true pk _ h0]
  · subst h
    have hc' : c = true := by
      rcases hc with h | h
      · exact absurd h (Ne.symm n1)
      · exact h
    subst hc'
    have e : GetAddressPoint S BECH32 true pk a0 = GetAddress S BECH32 true
        (GetHash160 S BECH32 true pk []) a0 := by
      unfold GetAddressPoint GetAddress
      simp only [if_true, Bool.not_true, Bool.false_eq_true, if_false]
    rw [e, GetHash160_hash0 S (Or.inr (Or.inr rfl)) true pk _ h0]

end Secp256K1

/-! ## The right shift of `Int.h` -/

namespace BigInt

theorem shiftR_0 (n : ℕ) (d : Limbs) : shiftR n d 0 = __shiftright128 (d 0) (d 1) n := rfl
theorem shiftR_1 (n : ℕ) (d : Limbs) : shiftR n d 1 = __shiftright128 (d 1) (d 2) n := rfl
theorem shiftR_2 (n : ℕ) (d : Limbs) : shiftR n d 2 = __shiftright128 (d 2) (d 3) n := rfl
theorem shiftR_3 (n : ℕ) (d : Limbs) : shiftR n d 3 = __shiftright128 (d 3) (d 4) n := rfl
theorem shiftR_4 (n : ℕ) (d : Limbs) :
    shiftR n d 4 = U64.ofInt64 (U64.sar (U64.toInt64 (d 4)) n) := rfl

theorem two_pow_split {n : ℕ} (hn : n ≤ 64) : 2 ^ 64 = 2 ^ n * 2 ^ (64 - n) := by
  rw [← pow_add]
  congr 1
  omega

/-- The macro `__shiftright128` on the model: the high bits of `a` below the low `n` bits of
`b`.  The counts `1 ≤ n ≤ 63` are those for which the model is the C expression. -/
theorem shiftright128_eq (a b n : ℕ) (ha : a < 2 ^ 64) (hn : n ≤ 64) :
    __shiftright128 a b n = a / 2 ^ n + (b % 2 ^ n) * 2 ^ (64 - n) := by
  unfold __shiftright128 U64.shr U64.shl
  rw [Nat.shiftRight_eq_div_pow, Nat.shiftLeft_eq]
  have hs := two_pow_split hn
  have e : b * 2 ^ (64 - n) % 2 ^ 64 = (b % 2 ^ n) * 2 ^ (64 - n) := by
    rw [hs, Nat.mul_mod_mul_right]
  rw [e, Nat.lor_comm, add_comm]
  apply Secp256K1.or_eq_add_of_dvd (64 - n)
  · rw [Nat.div_lt_iff_lt_mul (Nat.pos_pow_of_pos n (by decide)), mul_comm, ← hs]
    exact ha
  · exact Dvd.intro_left _ rfl

theorem shiftright128_lt (a b n : ℕ) (ha : a < 2 ^ 64) (hn : n ≤ 64) :
    __shiftright128 a b n < 2 ^ 64 := by
  rw [shiftright128_eq a b n ha hn]
  have hs := two_pow_split hn
  have hq : 0 < 2 ^ n := Nat.pos_pow_of_pos n (by decide)
  have h1 : a / 2 ^ n < 2 ^ (64 - n) := by
    rw [Nat.div_lt_iff_lt_mul hq, mul_comm, ← hs]
    exact ha
  have h2 : b % 2 ^ n < 2 ^ n := Nat.mod_lt _ hq
  have h3 : (b % 2 ^ n + 1) * 2 ^ (64 - n) ≤ 2 ^ n * 2 ^ (64 - n) :=
    Nat.mul_le_mul_right _ h2
  rw [hs]
  nlinarith

end BigInt

namespace BigInt

theorem toInt64_emod (a : ℕ) (q : ℤ) (hq : q ∣ 2 ^ 64) : U64.toInt64 a % q = (a : ℤ) % q := by
  unfold U64.toInt64
  split_ifs
  · rfl
  · obtain ⟨k, hk⟩ := hq
    rw [hk, sub_eq_add_neg, ← mul_neg, Int.add_mul_emod_self_left]

theorem toInt64_range (a : ℕ) (ha : a < 2 ^ 64) :
    -(2 ^ 63 : ℤ) ≤ U64.toInt64 a ∧ U64.toInt64 a < 2 ^ 63 := by
  unfold U64.toInt64
  split_ifs with h <;> constructor <;> omega

theorem toInt64_ofInt64 (t : ℤ) (h1 : -(2 ^ 63 : ℤ) ≤ t) (h2 : t < 2 ^ 63) :
    U64.toInt64 (U64.ofInt64 t) = t := by
  unfold U64.toInt64 U64.ofInt64
  have hp : (0 : ℤ) ≤ t % 2 ^ 64 := Int.emod_nonneg _ (by norm_num)
  have hc : ((t % 2 ^ 64).toNat : ℤ) = t % 2 ^ 64 := Int.toNat_of_nonneg hp
  by_cases h0 : 0 ≤ t
  · have e : t % 2 ^ 64 = t := Int.emod_eq_of_lt h0 (by omega)
    rw [e] at hc ⊢
    rw [if_pos (by omega), hc]
  · have e : t % 2 ^ 64 = t + 2 ^ 64 := by
      rw [← Int.add_mul_emod_self (a := t) (b := 1) (c := 2 ^ 64), one_mul]
      exact Int.emod_eq_of_lt (by omega) (by omega)
    rw [e] at hc ⊢
    rw [if_neg (by omega), hc]
    ring

theorem ofInt64_lt (t : ℤ) : U64.ofInt64 t < 2 ^ 64 := by
  unfold U64.ofInt64
  have hp : (0 : ℤ) ≤ t % 2 ^ 64 := Int.emod_nonneg _ (by norm_num)
  have hl : t % 2 ^ 64 < 2 ^ 64 := Int.emod_lt_of_pos _ (by norm_num)
  omega

theorem sar_eq (a : ℤ) (n : ℕ) : U64.sar a n = a / 2 ^ n := by
  unfold U64.sar
  rw [Int.shiftRight_eq_div_pow]
  norm_cast

/-- The arithmetic of a right shift by `n` bits on five limbs in base `q * r`, `q = 2 ^ n`. -/
theorem shift_arith (q r a0 a1 a2 a3 b0 b1 b2 b3 b4 t : ℤ) (hq : 0 < q) (hb0 : 0 ≤ b0)
    (hb0q : b0 < q) :
    ((q * a0 + b0) + (q * a1 + b1) * (q * r) + (q * a2 + b2) * (q * r) ^ 2 +
        (q * a3 + b3) * (q * r) ^ 3 + (q * t + b4) * (q * r) ^ 4) / q =
      (a0 + b1 * r) + (a1 + b2 * r) * (q * r) + (a2 + b3 * r) * (q * r) ^ 2 +
        (a3 + b4 * r) * (q * r) ^ 3 + t * (q * r) ^ 4 := by
  have e : (q * a0 + b0) + (q * a1 + b1) * (q * r) + (q * a2 + b2) * (q * r) ^ 2 +
        (q * a3 + b3) * (q * r) ^ 3 + (q * t + b4) * (q * r) ^ 4 =
      b0 + q * ((a0 + b1 * r) + (a1 + b2 * r) * (q * r) + (a2 + b3 * r) * (q * r) ^ 2 +
        (a3 + b4 * r) * (q * r) ^ 3 + t * (q * r) ^ 4) := by ring
  rw [e, Int.add_mul_ediv_left _ _ hq.ne', Int.ediv_eq_zero_of_lt hb0 hb0q, zero_add]

end BigInt

theorem Limbs.signedValue_eq (d : Limbs) (hd : d.IsU64) :
    d.signedValue = (d 0 : ℤ) + d 1 * 2 ^ 64 + d 2 * (2 ^ 64) ^ 2 + d 3 * (2 ^ 64) ^ 3 +
      U64.toInt64 (d 4) * (2 ^ 64) ^ 4 := by
  have h0 := hd 0 (by decide)
  have h1 := hd 1 (by decide)
  have h2 := hd 2 (by decide)
  have h3 := hd 3 (by decide)
  have h4 := hd 4 (by decide)
  unfold Limbs.signedValue Limbs.value U64.toInt64
  generalize d 0 = x0 at *
  generalize d 1 = x1 at *
  generalize d 2 = x2 at *
  generalize d 3 = x3 at *
  generalize d 4 = x4 at *
  norm_num at *
  split_ifs <;> omega

namespace BigInt

theorem shiftR_IsU64 (d : Limbs) (n : ℕ) (hd : d.IsU64) (h64 : n ≤ 64) : (shiftR n d).IsU64 := by
  intro k hk
  have h0 := hd 0 (by decide)
  have h1 := hd 1 (by decide)
  have h2 := hd 2 (by decide)
  have h3 := hd 3 (by decide)
  interval_cases k
  · rw [shiftR_0]; exact shiftright128_lt _ _ _ h0 h64
  · rw [shiftR_1]; exact shiftright128_lt _ _ _ h1 h64
  · rw [shiftR_2]; exact shiftright128_lt _ _ _ h2 h64
  · rw [shiftR_3]; exact shiftright128_lt _ _ _ h3 h64
  · rw [shiftR_4]; exact ofInt64_lt _

theorem sar_range (a n : ℕ) (ha : a < 2 ^ 64) :
    -(2 ^ 63 : ℤ) ≤ U64.sar (U64.toInt64 a) n ∧ U64.sar (U64.toInt64 a) n < 2 ^ 63 := by
  rw [sar_eq]
  obtain ⟨h1, h2⟩ := toInt64_range a ha
  have hq : (0 : ℤ) < 2 ^ n := by positivity
  have hq1 : (1 : ℤ) ≤ 2 ^ n := by omega
  constructor
  · rw [Int.le_ediv_iff_mul_le hq]
    nlinarith
  · rw [Int.ediv_lt_iff_lt_mul hq]
    nlinarith

/-- The five limbs after `shiftR(n, d)` hold the floor of the signed value divided by `2 ^ n`. -/
theorem shiftR_signedValue (d : Limbs) (n : ℕ) (hd : d.IsU64) (h64 : n ≤ 64) :
    (shiftR n d).signedValue = d.signedValue / 2 ^ n := by
  have h0 := hd 0 (by decide)
  have h1 := hd 1 (by decide)
  have h2 := hd 2 (by decide)
  have h3 := hd 3 (by decide)
  have h4 := hd 4 (by decide)
  rw [Limbs.signedValue_eq _ (shiftR_IsU64 d n hd h64), Limbs.signedValue_eq d hd,
    shiftR_0, shiftR_1, shiftR_2, shiftR_3, shiftR_4,
    shiftright128_eq _ _ _ h0 h64, shiftright128_eq _ _ _ h1 h64,
    shiftright128_eq _ _ _ h2 h64, shiftright128_eq _ _ _ h3 h64,
    toInt64_ofInt64 _ (sar_range _ n h4).1 (sar_range _ n h4).2, sar_eq]
  have hK : (2 : ℤ) ^ 64 = 2 ^ n * 2 ^ (64 - n) := by
    have := two_pow_split h64
    exact_mod_cast this
  have hq : (0 : ℤ) < 2 ^ n := by positivity
  have e0 : (d 0 : ℤ) = 2 ^ n * ((d 0 / 2 ^ n : ℕ) : ℤ) + ((d 0 % 2 ^ n : ℕ) : ℤ) := by
    exact_mod_cast (Nat.div_add_mod (d 0) (2 ^ n)).symm
  have e1 : (d 1 : ℤ) = 2 ^ n * ((d 1 / 2 ^ n : ℕ) : ℤ) + ((d 1 % 2 ^ n : ℕ) : ℤ) := by
    exact_mod_cast (Nat.div_add_mod (d 1) (2 ^ n)).symm
  have e2 : (d 2 : ℤ) = 2 ^ n * ((d 2 / 2 ^ n : ℕ) : ℤ) + ((d 2 % 2 ^ n : ℕ) : ℤ) := by
    exact_mod_cast (Nat.div_add_mod (d 2) (2 ^ n)).symm
  have e3 : (d 3 : ℤ) = 2 ^ n * ((d 3 / 2 ^ n : ℕ) : ℤ) + ((d 3 % 2 ^ n : ℕ) : ℤ) := by
    exact_mod_cast (Nat.div_add_mod (d 3) (2 ^ n)).symm
  have e4 : U64.toInt64 (d 4) =
      2 ^ n * (U64.toInt64 (d 4) / 2 ^ n) + ((d 4 % 2 ^ n : ℕ) : ℤ) := by
    have hm : U64.toInt64 (d 4) % 2 ^ n = ((d 4 % 2 ^ n : ℕ) : ℤ) := by
      rw [toInt64_emod _ _ (Dvd.intro _ hK.symm)]
      norm_cast
    rw [← hm]
    exact (Int.ediv_add_emod _ _).symm
  have hb0 : (0 : ℤ) ≤ ((d 0 % 2 ^ n : ℕ) : ℤ) := Int.natCast_nonneg _
  have hb0q : ((d 0 % 2 ^ n : ℕ) : ℤ) < 2 ^ n := by
    have hq' : 0 < 2 ^ n := Nat.pos_pow_of_pos n (by decide)
    have := Nat.mod_lt (d 0) hq'
    exact_mod_cast this
  have key := shift_arith (2 ^ n) (2 ^ (64 - n)) ((d 0 / 2 ^ n : ℕ) : ℤ) ((d 1 / 2 ^ n : ℕ) : ℤ)
    ((d 2 / 2 ^ n : ℕ) : ℤ) ((d 3 / 2 ^ n : ℕ) : ℤ) ((d 0 % 2 ^ n : ℕ) : ℤ)
    ((d 1 % 2 ^ n : ℕ) : ℤ) ((d 2 % 2 ^ n : ℕ) : ℤ) ((d 3 % 2 ^ n : ℕ) : ℤ)
    ((d 4 % 2 ^ n : ℕ) : ℤ) (U64.toInt64 (d 4) / 2 ^ n) hq hb0 hb0q
  rw [← e0, ← e1, ← e2, ← e3, ← e4, ← hK] at key
  rw [key]
  simp only [Nat.cast_add, Nat.cast_mul, Nat.cast_pow, Nat.cast_ofNat]

/-- The top limb after `shiftR(n, d)`: the old top limb shifted, with the sign bit copied into
the `n` vacated bits. -/
theorem shiftR_top (d : Limbs) (n : ℕ) (h4 : d 4 < 2 ^ 64) (h64 : n ≤ 64) :
    shiftR n d 4 = d 4 / 2 ^ n + (if 2 ^ 63 ≤ d 4 then 2 ^ 64 - 2 ^ (64 - n) else 0) := by
  rw [shiftR_4, sar_eq]
  have hK := two_pow_split h64
  have hq : 0 < 2 ^ n := Nat.pos_pow_of_pos n (by decide)
  have hlt : d 4 / 2 ^ n < 2 ^ (64 - n) := by
    rw [Nat.div_lt_iff_lt_mul hq, mul_comm, ← hK]
    exact h4
  have hr : 2 ^ (64 - n) ≤ 2 ^ 64 := Nat.pow_le_pow_right (by decide) (by omega)
  unfold U64.toInt64 U64.ofInt64
  split_ifs with h h' h'
  · omega
  · rw [add_zero]
    have e : ((d 4 : ℤ) / 2 ^ n) = ((d 4 / 2 ^ n : ℕ) : ℤ) := by norm_cast
    rw [e, Int.emod_eq_of_lt (Int.natCast_nonneg _) (by omega), Int.toNat_natCast]
  · have e : ((d 4 : ℤ) - 2 ^ 64) / 2 ^ n =
        ((d 4 / 2 ^ n : ℕ) : ℤ) - ((2 ^ (64 - n) : ℕ) : ℤ) := by
      have hK' : (2 : ℤ) ^ 64 = 2 ^ n * 2 ^ (64 - n) := by exact_mod_cast hK
      rw [hK', sub_eq_add_neg, ← mul_neg, Int.add_mul_ediv_left _ _ (by positivity)]
      push_cast
      ring
    rw [e]
    generalize d 4 / 2 ^ n = A at *
    generalize 2 ^ (64 - n) = R at *
    have e2 : ((A : ℤ) - (R : ℤ)) % 2 ^ 64 = (A : ℤ) - (R : ℤ) + 2 ^ 64 := by
      rw [← Int.add_mul_emod_self (a := _) (b := 1) (c := 2 ^ 64), one_mul]
      exact Int.emod_eq_of_lt (by omega) (by omega)
    rw [e2]
    omega
  · omega

end BigInt

/-! ## The single-limb multiplications of `Int.h` -/

namespace BigInt

theorem imm_mulRun_dst (x : Limbs) (y : ℕ) (dst : Limbs) :
    (imm_mulRun x y dst).1 0 = (x 0 * y) % 2 ^ 64 := rfl

theorem addcarry_zero (a b : ℕ) :
    _addcarry_u64 0 a b = ((a + b) / 2 ^ 64, (a + b) % 2 ^ 64) := by
  simp [_addcarry_u64]

theorem addcarry_le_one (c a b : ℕ) (ha : a < 2 ^ 64) (hb : b < 2 ^ 64) :
    (_addcarry_u64 c a b).1 ≤ 1 := by
  unfold _addcarry_u64
  by_cases h : c = 0
  · simp only [h, if_true]; omega
  · simp only [h, if_false]; omega

theorem addcarry_spec (c a b : ℕ) (hc : c ≤ 1) :
    (_addcarry_u64 c a b).2 + (_addcarry_u64 c a b).1 * 2 ^ 64 = c + a + b := by
  unfold _addcarry_u64
  by_cases h : c = 0
  · simp only [h, if_true]; omega
  · have h1 : c = 1 := by omega
    simp only [h1]
    norm_num
    omega

theorem umul128_spec (a b : ℕ) : (_umul128 a b).1 + (_umul128 a b).2 * 2 ^ 64 = a * b := by
  unfold _umul128
  exact Nat.mod_add_div' _ _

theorem umul128_fst_lt (a b : ℕ) : (_umul128 a b).1 < 2 ^ 64 :=
  Nat.mod_lt _ (by decide)

theorem umul128_snd_lt (a b : ℕ) (ha : a < 2 ^ 64) (hb : b < 2 ^ 64) :
    (_umul128 a b).2 < 2 ^ 64 - 1 := by
  unfold _umul128
  rw [Nat.div_lt_iff_lt_mul (by decide)]
  have h1 : a ≤ 2 ^ 64 - 1 := by omega
  have h2 : b ≤ 2 ^ 64 - 1 := by omega
  calc a * b ≤ (2 ^ 64 - 1) * (2 ^ 64 - 1) := Nat.mul_le_mul h1 h2
    _ < (2 ^ 64 - 1) * 2 ^ 64 := by decide

end BigInt

namespace BigInt

/-- The exact account of `imm_mul`: the five limbs of `dst`, the word `carry` and the last carry
flag `c` together hold the product. -/
theorem imm_mulRun_spec (x : Limbs) (y : ℕ) (dst : Limbs) (hx : x.IsU64) (hy : y < 2 ^ 64) :
    (imm_mulRun x y dst).1.value +
        ((imm_mulRun x y dst).2.1 + (imm_mulRun x y dst).2.2) * 2 ^ 320 = x.value * y ∧
      (imm_mulRun x y dst).1.IsU64 ∧ (imm_mulRun x y dst).2.1 < 2 ^ 64 ∧
      (imm_mulRun x y dst).2.2 ≤ 1 := by
  have hx0 := hx 0 (by decide)
  have hx1 := hx 1 (by decide)
  have hx2 := hx 2 (by decide)
  have hx3 := hx 3 (by decide)
  have hx4 := hx 4 (by decide)
  have m0 := umul128_spec (x 0) y
  have m1 := umul128_spec (x 1) y
  have m2 := umul128_spec (x 2) y
  have m3 := umul128_spec (x 3) y
  have m4 := umul128_spec (x 4) y
  have l0 := umul128_fst_lt (x 0) y
  have l1 := umul128_fst_lt (x 1) y
  have l2 := umul128_fst_lt (x 2) y
  have l3 := umul128_fst_lt (x 3) y
  have l4 := umul128_fst_lt (x 4) y
  have g0 := umul128_snd_lt (x 0) y hx0 hy
  have g1 := umul128_snd_lt (x 1) y hx1 hy
  have g2 := umul128_snd_lt (x 2) y hx2 hy
  have g3 := umul128_snd_lt (x 3) y hx3 hy
  have g4 := umul128_snd_lt (x 4) y hx4 hy
  have r0 : (imm_mulRun x y dst).1 0 = (_umul128 (x 0) y).1 := rfl
  have r1 : (imm_mulRun x y dst).1 1 =
      (_addcarry_u64 0 (_umul128 (x 1) y).1 (_umul128 (x 0) y).2).2 := rfl
  have r2 : (imm_mulRun x y dst).1 2 =
      (_addcarry_u64 (_addcarry_u64 0 (_umul128 (x 1) y).1 (_umul128 (x 0) y).2).1
        (_umul128 (x 2) y).1 (_umul128 (x 1) y).2).2 := rfl
  have r3 : (imm_mulRun x y dst).1 3 =
      (_addcarry_u64 (_addcarry_u64 (_addcarry_u64 0 (_umul128 (x 1) y).1 (_umul128 (x 0) y).2).1
        (_umul128 (x 2) y).1 (_umul128 (x 1) y).2).1
        (_umul128 (x 3) y).1 (_umul128 (x 2) y).2).2 := rfl
  have r4 : (imm_mulRun x y dst).1 4 =
      (_addcarry_u64 (_addcarry_u64 (_addcarry_u64 (_addcarry_u64 0 (_umul128 (x 1) y).1
        (_umul128 (x 0) y).2).1 (_umul128 (x 2) y).1 (_umul128 (x 1) y).2).1
        (_umul128 (x 3) y).1 (_umul128 (x 2) y).2).1
        (_umul128 (x 4) y).1 (_umul128 (x 3) y).2).2 := rfl
  have rc : (imm_mulRun x y dst).2.1 = (_umul128 (x 4) y).2 := rfl
  have rf : (imm_mulRun x y dst).2.2 =
      (_addcarry_u64 (_addcarry_u64 (_addcarry_u64 (_addcarry_u64 0 (_umul128 (x 1) y).1
        (_umul128 (x 0) y).2).1 (_umul128 (x 2) y).1 (_umul128 (x 1) y).2).1
        (_umul128 (x 3) y).1 (_umul128 (x 2) y).2).1
        (_umul128 (x 4) y).1 (_umul128 (x 3) y).2).1 := rfl
  have c1 := addcarry_le_one 0 _ _ l1 (by omega : (_umul128 (x 0) y).2 < 2 ^ 64)
  have s1 := addcarry_spec 0 (_umul128 (x 1) y).1 (_umul128 (x 0) y).2 (by decide)
  have c2 := addcarry_le_one (_addcarry_u64 0 (_umul128 (x 1) y).1 (_umul128 (x 0) y).2).1 _ _ l2
    (by omega : (_umul128 (x 1) y).2 < 2 ^ 64)
  have s2 := addcarry_spec _ (_umul128 (x 2) y).1 (_umul128 (x 1) y).2 c1
  have c3 := addcarry_le_one (_addcarry_u64 (_addcarry_u64 0 (_umul128 (x 1) y).1
    (_umul128 (x 0) y).2).1 (_umul128 (x 2) y).1 (_umul128 (x 1) y).2).1 _ _ l3
    (by omega : (_umul128 (x 2) y).2 < 2 ^ 64)
  have s3 := addcarry_spec _ (_umul128 (x 3) y).1 (_umul128 (x 2) y).2 c2
  have c4 := addcarry_le_one (_addcarry_u64 (_addcarry_u64 (_addcarry_u64 0 (_umul128 (x 1) y).1
    (_umul128 (x 0) y).2).1 (_umul128 (x 2) y).1 (_umul128 (x 1) y).2).1
    (_umul128 (x 3) y).1 (_umul128 (x 2) y).2).1 _ _ l4
    (by omega : (_umul128 (x 3) y).2 < 2 ^ 64)
  have s4 := addcarry_spec _ (_umul128 (x 4) y).1 (_umul128 (x 3) y).2 c3
  rw [← r1] at s1
  rw [← r2] at s2
  rw [← r3] at s3
  rw [← r4, ← rf] at s4
  rw [← rf] at c4
  rw [← r0] at m0 l0
  rw [← rc] at m4 g4
  have hval : x.value * y = x 0 * y + x 1 * y * 2 ^ 64 + x 2 * y * 2 ^ 128 + x 3 * y * 2 ^ 192 +
      x 4 * y * 2 ^ 256 := by
    unfold Limbs.value
    ring
  refine ⟨?_, ?_, by omega, c4⟩
  · rw [hval]
    unfold Limbs.value
    generalize (imm_mulRun x y dst).1 0 = d0 at *
    generalize (imm_mulRun x y dst).1 1 = d1 at *
    generalize (imm_mulRun x y dst).1 2 = d2 at *
    generalize (imm_mulRun x y dst).1 3 = d3 at *
    generalize (imm_mulRun x y dst).1 4 = d4 at *
    generalize (imm_mulRun x y dst).2.1 = hh at *
    generalize (imm_mulRun x y dst).2.2 = cc at *
    generalize (_addcarry_u64 0 (_umul128 (x 1) y).1 (_umul128 (x 0) y).2).1 = k1 at *
    generalize (_addcarry_u64 k1 (_umul128 (x 2) y).1 (_umul128 (x 1) y).2).1 = k2 at *
    generalize (_addcarry_u64 k2 (_umul128 (x 3) y).1 (_umul128 (x 2) y).2).1 = k3 at *
    generalize (_umul128 (x 0) y).2 = h0 at *
    generalize (_umul128 (x 1) y).1 = u1 at *
    generalize (_umul128 (x 1) y).2 = h1 at *
    generalize (_umul128 (x 2) y).1 = u2 at *
    generalize (_umul128 (x 2) y).2 = h2 at *
    generalize (_umul128 (x 3) y).1 = u3 at *
    generalize (_umul128 (x 3) y).2 = h3 at *
    generalize (_umul128 (x 4) y).1 = u4 at *
    generalize x 0 * y = p0 at *
    generalize x 1 * y = p1 at *
    generalize x 2 * y = p2 at *
    generalize x 3 * y = p3 at *
    generalize x 4 * y = p4 at *
    omega
  · intro k hk
    interval_cases k
    · exact l0
    · rw [r1]; exact Nat.mod_lt _ (by decide)
    · rw [r2]; exact Nat.mod_lt _ (by decide)
    · rw [r3]; exact Nat.mod_lt _ (by decide)
    · rw [r4]; exact Nat.mod_lt _ (by decide)

end BigInt

namespace BigInt

/-- The exact account of `imm_umul`: the five limbs of `dst` hold the product of the low four
limbs of `x` by `y`, and the last `_addcarry_u64` returns no carry. -/
theorem imm_umulRun_spec (x : Limbs) (y : ℕ) (dst : Limbs) (hx : x.IsU64) (hy : y < 2 ^ 64) :
    (imm_umulRun x y dst).1.value =
        (x 0 + x 1 * 2 ^ 64 + x 2 * 2 ^ 128 + x 3 * 2 ^ 192) * y ∧
      (imm_umulRun x y dst).1.IsU64 ∧ (imm_umulRun x y dst).2 = 0 := by
  have hx0 := hx 0 (by decide)
  have hx1 := hx 1 (by decide)
  have hx2 := hx 2 (by decide)
  have hx3 := hx 3 (by decide)
  have m0 := umul128_spec (x 0) y
  have m1 := umul128_spec (x 1) y
  have m2 := umul128_spec (x 2) y
  have m3 := umul128_spec (x 3) y
  have l0 := umul128_fst_lt (x 0) y
  have l1 := umul128_fst_lt (x 1) y
  have l2 := umul128_fst_lt (x 2) y
  have l3 := umul128_fst_lt (x 3) y
  have g0 := umul128_snd_lt (x 0) y hx0 hy
  have g1 := umul128_snd_lt (x 1) y hx1 hy
  have g2 := umul128_snd_lt (x 2) y hx2 hy
  have g3 := umul128_snd_lt (x 3) y hx3 hy
  have r0 : (imm_umulRun x y dst).1 0 = (_umul128 (x 0) y).1 := rfl
  have r1 : (imm_umulRun x y dst).1 1 =
      (_addcarry_u64 0 (_umul128 (x 1) y).1 (_umul128 (x 0) y).2).2 := rfl
  have r2 : (imm_umulRun x y dst).1 2 =
      (_addcarry_u64 (_addcarry_u64 0 (_umul128 (x 1) y).1 (_umul128 (x 0) y).2).1
        (_umul128 (x 2) y).1 (_umul128 (x 1) y).2).2 := rfl
  have r3 : (imm_umulRun x y dst).1 3 =
      (_addcarry_u64 (_addcarry_u64 (_addcarry_u64 0 (_umul128 (x 1) y).1 (_umul128 (x 0) y).2).1
        (_umul128 (x 2) y).1 (_umul128 (x 1) y).2).1
        (_umul128 (x 3) y).1 (_umul128 (x 2) y).2).2 := rfl
  have r4 : (imm_umulRun x y dst).1 4 =
      (_addcarry_u64 (_addcarry_u64 (_addcarry_u64 (_addcarry_u64 0 (_umul128 (x 1) y).1
        (_umul128 (x 0) y).2).1 (_umul128 (x 2) y).1 (_umul128 (x 1) y).2).1
        (_umul128 (x 3) y).1 (_umul128 (x 2) y).2).1
        0 (_umul128 (x 3) y).2).2 := rfl
  have rf : (imm_umulRun x y dst).2 =
      (_addcarry_u64 (_addcarry_u64 (_addcarry_u64 (_addcarry_u64 0 (_umul128 (x 1) y).1
        (_umul128 (x 0) y).2).1 (_umul128 (x 2) y).1 (_umul128 (x 1) y).2).1
        (_umul128 (x 3) y).1 (_umul128 (x 2) y).2).1
        0 (_umul128 (x 3) y).2).1 := rfl
  have c1 := addcarry_le_one 0 _ _ l1 (by omega : (_umul128 (x 0) y).2 < 2 ^ 64)
  have s1 := addcarry_spec 0 (_umul128 (x 1) y).1 (_umul128 (x 0) y).2 (by decide)
  have c2 := addcarry_le_one (_addcarry_u64 0 (_umul128 (x 1) y).1 (_umul128 (x 0) y).2).1 _ _ l2
    (by omega : (_umul128 (x 1) y).2 < 2 ^ 64)
  have s2 := addcarry_spec _ (_umul128 (x 2) y).1 (_umul128 (x 1) y).2 c1
  have c3 := addcarry_le_one (_addcarry_u64 (_addcarry_u64 0 (_umul128 (x 1) y).1
    (_umul128 (x 0) y).2).1 (_umul128 (x 2) y).1 (_umul128 (x 1) y).2).1 _ _ l3
    (by omega : (_umul128 (x 2) y).2 < 2 ^ 64)
  have s3 := addcarry_spec _ (_umul128 (x 3) y).1 (_umul128 (x 2) y).2 c2
  have s4 := addcarry_spec _ 0 (_umul128 (x 3) y).2 c3
  rw [← r1] at s1
  rw [← r2] at s2
  rw [← r3] at s3
  rw [← r4, ← rf] at s4
  rw [← r0] at m0 l0
  have hval : (x 0 + x 1 * 2 ^ 64 + x 2 * 2 ^ 128 + x 3 * 2 ^ 192) * y =
      x 0 * y + x 1 * y * 2 ^ 64 + x 2 * y * 2 ^ 128 + x 3 * y * 2 ^ 192 := by
    ring
  have hf : (imm_umulRun x y dst).2 = 0 := by
    generalize (imm_umulRun x y dst).2 = cc at *
    generalize (imm_umulRun x y dst).1 4 = d4 at *
    generalize (_addcarry_u64 (_addcarry_u64 (_addcarry_u64 0 (_umul128 (x 1) y).1
      (_umul128 (x 0) y).2).1 (_umul128 (x 2) y).1 (_umul128 (x 1) y).2).1
      (_umul128 (x 3) y).1 (_umul128 (x 2) y).2).1 = k3 at *
    generalize (_umul128 (x 3) y).2 = h3 at *
    omega
  refine ⟨?_, ?_, hf⟩
  · rw [hval]
    rw [hf] at s4
    unfold Limbs.value
    generalize (imm_umulRun x y dst).1 0 = d0 at *
    generalize (imm_umulRun x y dst).1 1 = d1 at *
    generalize (imm_umulRun x y dst).1 2 = d2 at *
    generalize (imm_umulRun x y dst).1 3 = d3 at *
    generalize (imm_umulRun x y dst).1 4 = d4 at *
    generalize (_addcarry_u64 0 (_umul128 (x 1) y).1 (_umul128 (x 0) y).2).1 = k1 at *
    generalize (_addcarry_u64 k1 (_umul128 (x 2) y).1 (_umul128 (x 1) y).2).1 = k2 at *
    generalize (_addcarry_u64 k2 (_umul128 (x 3) y).1 (_umul128 (x 2) y).2).1 = k3 at *
    generalize (_umul128 (x 0) y).2 = h0 at *
    generalize (_umul128 (x 1) y).1 = u1 at *
    generalize (_umul128 (x 1) y).2 = h1 at *
    generalize (_umul128 (x 2) y).1 = u2 at *
    generalize (_umul128 (x 2) y).2 = h2 at *
    generalize (_umul128 (x 3) y).1 = u3 at *
    generalize (_umul128 (x 3) y).2 = h3 at *
    generalize x 0 * y = p0 at *
    generalize x 1 * y = p1 at *
    generalize x 2 * y = p2 at *
    generalize x 3 * y = p3 at *
    omega
  · intro k hk
    interval_cases k
    · exact l0
    · rw [r1]; exact Nat.mod_lt _ (by decide)
    · rw [r2]; exact Nat.mod_lt _ (by decide)
    · rw [r3]; exact Nat.mod_lt _ (by decide)
    · rw [r4]; exact Nat.mod_lt _ (by decide)

/-- With a zero top limb the last addition of `imm_mul` cannot carry. -/
theorem imm_mulRun_of_top_zero (x : Limbs) (y : ℕ) (dst : Limbs) (hx : x.IsU64)
    (hy : y < 2 ^ 64) (h4 : x 4 = 0) :
    (imm_mulRun x y dst).2.1 = 0 ∧ (imm_mulRun x y dst).2.2 = 0 := by
  obtain ⟨h1, -, -, -⟩ := imm_mulRun_spec x y dst hx hy
  have hx0 := hx 0 (by decide)
  have hx1 := hx 1 (by decide)
  have hx2 := hx 2 (by decide)
  have hx3 := hx 3 (by decide)
  have hv : x.value < 2 ^ 256 := by
    unfold Limbs.value
    rw [h4]
    omega
  have hp : x.value * y < 2 ^ 256 * 2 ^ 64 := Nat.mul_lt_mul'' hv hy
  have e : (2 : ℕ) ^ 256 * 2 ^ 64 = 2 ^ 320 := by norm_num
  rw [e, ← h1] at hp
  generalize (imm_mulRun x y dst).2.1 = a at *
  generalize (imm_mulRun x y dst).2.2 = b at *
  generalize (imm_mulRun x y dst).1.value = v at *
  omega

end BigInt

/-! ## Neighbouring keys -/

namespace Secp256K1

open BigInt WeierstrassCurve

theorem cast_AddDirect_x (x1 y1 z1 x2 y2 z2 : ℕ) (hx1 : x1 < prime) (hy1 : y1 < prime)
    (hx2 : x2 < prime) :
    ((AddDirect ⟨x1, y1, z1⟩ ⟨x2, y2, z2⟩).x : ZMod prime) =
      (((y2 : ZMod prime) - y1) * ((x2 : ZMod prime) - x1)⁻¹) ^ 2 - x1 - x2 := by
  haveI : Reduced x1 := ⟨hx1⟩
  haveI : Reduced y1 := ⟨hy1⟩
  haveI : Reduced x2 := ⟨hx2⟩
  simp only [AddDirect, cast_ModInv_red, cast_ModMulK1, cast_ModSquareK1, cast_ModSub_red]
  ring

theorem cast_AddDirect_y (x1 y1 z1 x2 y2 z2 : ℕ) (hx1 : x1 < prime) (hy1 : y1 < prime)
    (hx2 : x2 < prime) (hy2 : y2 < prime) :
    ((AddDirect ⟨x1, y1, z1⟩ ⟨x2, y2, z2⟩).y : ZMod prime) =
      ((x2 : ZMod prime) - (AddDirect ⟨x1, y1, z1⟩ ⟨x2, y2, z2⟩).x) *
        (((y2 : ZMod prime) - y1) * ((x2 : ZMod prime) - x1)⁻¹) - y2 := by
  haveI : Reduced x1 := ⟨hx1⟩
  haveI : Reduced y1 := ⟨hy1⟩
  haveI : Reduced x2 := ⟨hx2⟩
  haveI : Reduced y2 := ⟨hy2⟩
  simp only [AddDirect, cast_ModInv_red, cast_ModMulK1, cast_ModSquareK1, cast_ModSub_red]

theorem AddDirect_x_lt (p1 p2 : Point) (h1 : p1.x < prime) (h2 : p2.x < prime) :
    (AddDirect p1 p2).x < prime :=
  ModSub_lt (ModSub_lt (ModSquareK1_lt _) h1) h2

theorem AddDirect_y_lt (p1 p2 : Point) (h2 : p2.y < prime) : (AddDirect p1 p2).y < prime :=
  ModSub_lt (ModMulK1_lt _ _) h2

/-- Subtracting `Q` with the chord formulas after adding it restores the point, on the curve or
not, when neither chord is vertical. -/
theorem SubDirect_AddDirect (x y z gx gy gz : ℕ) (hx : x < prime) (hy : y < prime)
    (hgx : gx < prime) (hgy : gy < prime) (h1 : x ≠ gx)
    (h2 : (AddDirect ⟨x, y, z⟩ ⟨gx, gy, gz⟩).x ≠ gx) :
    SubDirect (AddDirect ⟨x, y, z⟩ ⟨gx, gy, gz⟩) ⟨gx, gy, gz⟩ = ⟨x, y, 1⟩ := by
  have hrx := AddDirect_x_lt ⟨x, y, z⟩ ⟨gx, gy, gz⟩ hx hgx
  have hry := AddDirect_y_lt ⟨x, y, z⟩ ⟨gx, gy, gz⟩ hgy
  have ex := cast_AddDirect_x x y z gx gy gz hx hy hgx
  have ey := cast_AddDirect_y x y z gx gy gz hx hy hgx hgy
  have hd1 : (gx : ZMod prime) - x ≠ 0 :=
    sub_ne_zero.2 (fun h => h1 (eq_of_cast_eq hx hgx h.symm))
  have hd2 : (gx : ZMod prime) - ((AddDirect ⟨x, y, z⟩ ⟨gx, gy, gz⟩).x : ZMod prime) ≠ 0 :=
    sub_ne_zero.2 (fun h => h2 (eq_of_cast_eq hrx hgx h.symm))
  generalize hR : AddDirect ⟨x, y, z⟩ ⟨gx, gy, gz⟩ = R at *
  obtain ⟨rx, ry, rz⟩ := R
  simp only at hrx hry ex ey hd2 h2
  have ex' := cast_AddDirect_x rx ry rz gx (ModNeg gy) gz hrx hry hgx
  have ey' := cast_AddDirect_y rx ry rz gx (ModNeg gy) gz hrx hry hgx (ModNeg_lt _)
  have hs : ((ModNeg gy : ℕ) : ZMod prime) - ry =
      -(((gx : ZMod prime) - rx) * (((gy : ZMod prime) - y) * ((gx : ZMod prime) - x)⁻¹)) := by
    rw [cast_ModNeg, ey]
    ring
  have hslope : (((ModNeg gy : ℕ) : ZMod prime) - ry) * ((gx : ZMod prime) - rx)⁻¹ =
      -(((gy : ZMod prime) - y) * ((gx : ZMod prime) - x)⁻¹) := by
    rw [hs, neg_mul, mul_comm ((gx : ZMod prime) - rx), mul_assoc, mul_inv_cancel₀ hd2, mul_one]
  rw [hslope] at ex' ey'
  have hX : (SubDirect ⟨rx, ry, rz⟩ ⟨gx, gy, gz⟩).x = x := by
    apply eq_of_cast_eq (AddDirect_x_lt _ _ hrx hgx) hx
    show ((AddDirect ⟨rx, ry, rz⟩ ⟨gx, ModNeg gy, gz⟩).x : ZMod prime) = x
    rw [ex', ex]
    ring
  have hY : (SubDirect ⟨rx, ry, rz⟩ ⟨gx, gy, gz⟩).y = y := by
    apply eq_of_cast_eq (AddDirect_y_lt _ _ (ModNeg_lt _)) hy
    show ((AddDirect ⟨rx, ry, rz⟩ ⟨gx, ModNeg gy, gz⟩).y : ZMod prime) = y
    have hX' : ((AddDirect ⟨rx, ry, rz⟩ ⟨gx, ModNeg gy, gz⟩).x : ZMod prime) = x :=
      congrArg (Nat.cast) hX
    rw [ey', hX', cast_ModNeg]
    have e : ((gx : ZMod prime) - x) * -(((gy : ZMod prime) - y) * ((gx : ZMod prime) - x)⁻¹) =
        -((gy : ZMod prime) - y) := by
      rw [mul_neg, mul_comm ((gy : ZMod prime) - y), ← mul_assoc, mul_inv_cancel₀ hd1, one_mul]
    rw [e]
    ring
  have hZ : (SubDirect ⟨rx, ry, rz⟩ ⟨gx, gy, gz⟩).z = 1 := rfl
  have hall : SubDirect ⟨rx, ry, rz⟩ ⟨gx, gy, gz⟩ =
      ⟨(SubDirect ⟨rx, ry, rz⟩ ⟨gx, gy, gz⟩).x, (SubDirect ⟨rx, ry, rz⟩ ⟨gx, gy, gz⟩).y,
        (SubDirect ⟨rx, ry, rz⟩ ⟨gx, gy, gz⟩).z⟩ := rfl
  rw [hall, hX, hY, hZ]

theorem PrevKey_NextKey (P : Point) (hz : P.z = 1) (hx : P.x < prime) (hy : P.y < prime)
    (h1 : P.x ≠ G.x) (h2 : (NextKey P).x ≠ G.x) : PrevKey (NextKey P) = P := by
  obtain ⟨x, y, z⟩ := P
  simp only at hz hx hy h1
  subst hz
  exact SubDirect_AddDirect x y 1 G.x G.y G.z hx hy (by decide) (by decide) h1 h2

end Secp256K1

/-! ## The table reads of `ComputePublicKey` -/

namespace Secp256K1

open BigInt

/-- A subscript read for a nonzero byte `b` of the key at position `i < 32`. -/
theorem tableSubscript_bounds (i b : ℕ) (hi : i < 32) (hb : b ≠ 0) (hb' : b < 256) :
    0 ≤ tableSubscript i b ∧ tableSubscript i b < 8192 ∧ tableSubscript i b % 256 ≠ 255 ∧
      tableSubscript i b = ((256 * i + (b - 1) : ℕ) : ℤ) := by
  unfold tableSubscript
  omega

theorem GetByte_eq_zero_of_dvd (s i : ℕ) (h : 256 ^ (i + 1) ∣ s) : BigInt.GetByte s i = 0 := by
  obtain ⟨m, rfl⟩ := h
  unfold BigInt.GetByte
  rw [pow_succ, mul_assoc, Nat.mul_div_cancel_left _ (Nat.pos_pow_of_pos i (by decide)),
    Nat.mul_mod_right]

theorem GetByte_eq_zero_of_mod (s i : ℕ) (h : s % 256 ^ 32 = 0) (hi : i < 32) :
    BigInt.GetByte s i = 0 := by
  apply GetByte_eq_zero_of_dvd
  exact dvd_trans (pow_dvd_pow 256 (by omega)) (Nat.dvd_of_mod_eq_zero h)

/-- The second loop of `ComputePublicKey` only adds subscripts of nonzero bytes at positions
below 32. -/
theorem addLoopReads_mem (k : ℕ) (P : ℤ → Prop)
    (hP : ∀ i, i < 32 → BigInt.GetByte k i ≠ 0 → P (tableSubscript i (BigInt.GetByte k i))) :
    ∀ (cnt i : ℕ) (reads : List ℤ), i + cnt ≤ 32 → (∀ j ∈ reads, P j) →
      ∀ j ∈ addLoopReads k cnt i reads, P j := by
  intro cnt
  induction cnt with
  | zero =>
    intro i reads _ h
    exact h
  | succ c ih =>
    intro i reads hi h
    unfold addLoopReads
    by_cases hb : BigInt.GetByte k i ≠ 0
    · rw [if_pos hb]
      apply ih (i + 1) _ (by omega)
      intro j hj
      rcases List.mem_append.1 hj with hj | hj
      · exact h j hj
      · rw [List.mem_singleton.1 hj]
        exact hP i (by omega) hb
    · rw [if_neg hb]
      exact ih (i + 1) _ (by omega) h

/-- The table entries passed to `Add2` are those at the subscripts read after the first. -/
theorem addLoop_reads (gt : Table) (k : ℕ) :
    ∀ (cnt i : ℕ) (Q : Point) (calls : List (Point × Point)) (reads : List ℤ), reads ≠ [] →
      calls.map Prod.snd = reads.tail.map (fun j => gt j.toNat) →
      (addLoop gt k cnt i (Q, calls)).2.map Prod.snd =
        (addLoopReads k cnt i reads).tail.map (fun j => gt j.toNat) := by
  intro cnt
  induction cnt with
  | zero =>
    intro i Q calls reads _ h
    exact h
  | succ c ih =>
    intro i Q calls reads hne h
    unfold addLoop addLoopReads
    by_cases hb : BigInt.GetByte k i ≠ 0
    · simp only [if_pos hb]
      apply ih
      · simp
      · rw [List.tail_append_of_ne_nil hne, List.map_append, List.map_append, h]
        rfl
    · simp only [if_neg hb]
      exact ih _ _ _ _ hne h

theorem ComputePublicKeyCalls_reads (k : ℕ) :
    (ComputePublicKeyCalls k).map Prod.snd =
      (ComputePublicKeyReads k).tail.map (fun j => GTable j.toNat) :=
  addLoop_reads GTable k _ _ _ [] _ (List.cons_ne_nil _ _) rfl

/-- The first table entry read by `ComputePublicKey` is the one at the first subscript of the
list. -/
theorem ComputePublicKeyReads_head (k : ℕ) :
    ∃ rest, ComputePublicKeyReads k =
      tableSubscript (searchFirstByte k 32 (0, 0)).1 (searchFirstByte k 32 (0, 0)).2 :: rest ∧
      (tableSubscript (searchFirstByte k 32 (0, 0)).1 (searchFirstByte k 32 (0, 0)).2).toNat =
        tableIndex (searchFirstByte k 32 (0, 0)).1 (searchFirstByte k 32 (0, 0)).2 := by
  have hgen : ∀ (cnt i : ℕ) (reads : List ℤ) (a : ℤ) (l : List ℤ), reads = a :: l →
      ∃ rest, addLoopReads k cnt i reads = a :: rest := by
    intro cnt
    induction cnt with
    | zero =>
      intro i reads a l h
      exact ⟨l, h⟩
    | succ c ih =>
      intro i reads a l h
      unfold addLoopReads
      by_cases hb : BigInt.GetByte k i ≠ 0
      · rw [if_pos hb]
        exact ih _ _ a (l ++ [tableSubscript i (BigInt.GetByte k i)]) (by rw [h]; rfl)
      · rw [if_neg hb]
        exact ih _ _ a l h
  obtain ⟨rest, hr⟩ := hgen (32 - ((searchFirstByte k 32 (0, 0)).1 + 1))
    ((searchFirstByte k 32 (0, 0)).1 + 1)
    [tableSubscript (searchFirstByte k 32 (0, 0)).1 (searchFirstByte k 32 (0, 0)).2] _ [] rfl
  exact ⟨rest, hr, rfl⟩

/-- With a nonzero byte among the low 32 bytes every subscript read is that of a nonzero byte. -/
theorem ComputePublicKeyReads_nonzero (k : ℕ) (h : ∃ i, i < 32 ∧ BigInt.GetByte k i ≠ 0)
    (P : ℤ → Prop)
    (hP : ∀ i, i < 32 → BigInt.GetByte k i ≠ 0 → P (tableSubscript i (BigInt.GetByte k i))) :
    ∀ j ∈ ComputePublicKeyReads k, P j := by
  rcases searchFirstByte_spec k 32 0 0 (Nat.mod_one k) with ⟨h1, h2, h3, -⟩ | ⟨h1, -, -⟩
  · unfold ComputePublicKeyReads
    apply addLoopReads_mem k P hP _ _ _ (by omega)
    intro j hj
    rw [List.mem_singleton.1 hj]
    have e : tableSubscript (searchFirstByte k 32 (0, 0)).1 (searchFirstByte k 32 (0, 0)).2 =
        tableSubscript (searchFirstByte k 32 (0, 0)).1
          (BigInt.GetByte k (searchFirstByte k 32 (0, 0)).1) := by rw [← h3]
    rw [e]
    exact hP _ (by omega) (by rw [← h3]; exact h1)
  · obtain ⟨i, hi, hb⟩ := h
    exact absurd (GetByte_eq_zero_of_mod k i (by simpa using h1) hi) hb

/-- With the low 32 bytes all zero the search loop runs out and only the last slot is read. -/
theorem ComputePublicKey_zero_bytes (k : ℕ) (h : ∀ i, i < 32 → BigInt.GetByte k i = 0) :
    searchFirstByte k 32 (0, 0) = (32, 0) ∧ ComputePublicKeyReads k = [8191] ∧
      ComputePublicKey k = (GTable 8191).Reduce := by
  have hs : searchFirstByte k 32 (0, 0) = (32, 0) := by
    rcases searchFirstByte_spec k 32 0 0 (Nat.mod_one k) with ⟨h1, h2, h3, -⟩ | ⟨-, h2, h3⟩
    · exact absurd (h3.trans (h _ (by omega))) h1
    · exact Prod.ext (by simpa using h2) (h3 (by decide))
  refine ⟨hs, ?_, ?_⟩
  · unfold ComputePublicKeyReads
    rw [hs]
    rfl
  · unfold ComputePublicKey ComputePublicKeyRun
    rw [hs]
    rfl

end Secp256K1

/-! ## The rejections of `DecodePrivateKey` -/

namespace Secp256K1

open BigInt

theorem beValue_congr (f g : ℕ → ℕ) : ∀ n, (∀ j, j < n → f j = g j) → beValue f n = beValue g n := by
  intro n
  induction n with
  | zero => intro _; rfl
  | succ k ih =>
    intro h
    show beValue f k * 256 + f k = beValue g k * 256 + g k
    rw [ih (fun j hj => h j (by omega)), h k (by omega)]

theorem SetInt32_neg_one : SetInt32 (-1) = 0xFFFFFFFF := by decide

theorem SetInt32_zero : SetInt32 0 = 0 := by decide

/-- The string does not start with `5`, `K` or `L`. -/
theorem DecodePrivateKey_notWIF (d : List Char → List ℕ) (sha : List ℕ → List ℕ)
    (key : List Char) (c : Bool) (h5 : key.getD 0 (Char.ofNat 0) ≠ '5')
    (hK : key.getD 0 (Char.ofNat 0) ≠ 'K') (hL : key.getD 0 (Char.ofNat 0) ≠ 'L') :
    DecodePrivateKey d sha key c = (0xFFFFFFFF, c, [DecodeMessage.notWIF]) := by
  unfold DecodePrivateKey
  rw [if_neg h5, if_neg (by rintro (h | h); exact hK h; exact hL h), SetInt32_neg_one]

/-- The string starts with `5` and the payload has not 37 bytes. -/
theorem DecodePrivateKey_size37 (d : List Char → List ℕ) (sha : List ℕ → List ℕ)
    (key : List Char) (c : Bool) (h5 : key.getD 0 (Char.ofNat 0) = '5')
    (hlen : (d key).length ≠ 37) :
    DecodePrivateKey d sha key c = (0xFFFFFFFF, c, [DecodeMessage.sizeNot37]) := by
  unfold DecodePrivateKey
  simp only [if_pos h5, if_pos hlen, SetInt32_neg_one]

/-- The string starts with `5`, the payload has 37 bytes and its first byte is not `0x80`. -/
theorem DecodePrivateKey_version (d : List Char → List ℕ) (sha : List ℕ → List ℕ)
    (key : List Char) (c : Bool) (h5 : key.getD 0 (Char.ofNat 0) = '5')
    (hlen : (d key).length = 37) (hv : (d key).getD 0 0 ≠ 0x80) :
    DecodePrivateKey d sha key c = (0, c, [DecodeMessage.wrongVersion]) := by
  unfold DecodePrivateKey
  simp only [if_pos h5, if_neg (not_not.2 hlen), if_pos hv, SetInt32_zero]

/-- The string starts with `K` or `L` and the payload has not 38 bytes. -/
theorem DecodePrivateKey_size38 (d : List Char → List ℕ) (sha : List ℕ → List ℕ)
    (key : List Char) (c : Bool)
    (hKL : key.getD 0 (Char.ofNat 0) = 'K' ∨ key.getD 0 (Char.ofNat 0) = 'L')
    (hlen : (d key).length ≠ 38) :
    DecodePrivateKey d sha key c = (0xFFFFFFFF, c, [DecodeMessage.sizeNot38]) := by
  have h5 : key.getD 0 (Char.ofNat 0) ≠ '5' := by
    rcases hKL with h | h <;> rw [h] <;> decide
  unfold DecodePrivateKey
  simp only [if_neg h5, if_pos hKL, if_pos hlen, SetInt32_neg_one]

/-- In the `K`/`L` branch the returned integer and flag depend on the bytes 1..32 of the payload
only: neither the version byte nor the byte after the key is looked at. -/
theorem DecodePrivateKey_KL_bytes (d d' : List Char → List ℕ) (sha sha' : List ℕ → List ℕ)
    (key : List Char) (c c' : Bool)
    (hKL : key.getD 0 (Char.ofNat 0) = 'K' ∨ key.getD 0 (Char.ofNat 0) = 'L')
    (hlen : (d key).length = 38) (hlen' : (d' key).length = 38)
    (h : ∀ j, 1 ≤ j → j ≤ 32 → (d key).getD j 0 = (d' key).getD j 0) :
    (DecodePrivateKey d sha key c).1 = (DecodePrivateKey d' sha' key c').1 ∧
      (DecodePrivateKey d sha key c).2.1 = true ∧
      (DecodePrivateKey d' sha' key c').2.1 = true := by
  rw [DecodePrivateKey_KL d sha key c hKL hlen, DecodePrivateKey_KL d' sha' key c' hKL hlen']
  refine ⟨?_, rfl, rfl⟩
  apply beValue_congr
  intro j hj
  show (d key).getD (j + 1) 0 % 256 = (d' key).getD (j + 1) 0 % 256
  rw [h (j + 1) (by omega) (by omega)]

end Secp256K1

/-! ## The service calls of `GetAddress` -/

namespace Secp256K1

open BigInt

/-- The recording computation of the `P2PKH` hash returns the hash of `GetHash160` and adds the
call of one hash of the key and the call of `ripemd160_32`. -/
theorem GetHash160KeyRun_eq (S : Services) (c : Bool) (pk : Point) (h0 : List ℕ)
    (log : List ServiceCall) :
    GetHash160KeyRun S c pk log =
      (GetHash160 S P2PKH c pk h0,
        log ++ [if c then ServiceCall.sha256_33 else ServiceCall.sha256_65,
          ServiceCall.ripemd160_32]) := by
  cases c <;> simp [GetHash160KeyRun, GetHash160, P2PKH, bind, StateT.bind,
    Services.sha256_65Call, Services.sha256_33Call, Services.ripemd160_32Call]

/-- The recording computation of `GetHash160` returns what `GetHash160` returns. -/
theorem GetHash160Run_fst (S : Services) (type : ℕ) (c : Bool) (pk : Point) (h0 : List ℕ)
    (log : List ServiceCall) :
    (GetHash160Run S type c pk h0 log).1 = GetHash160 S type c pk h0 := by
  unfold GetHash160Run
  by_cases h1 : type = P2PKH ∨ type = BECH32
  · rw [if_pos h1, GetHash160KeyRun_eq S c pk h0 log]
    unfold GetHash160
    rw [if_pos h1, if_pos (Or.inl rfl)]
  · rw [if_neg h1]
    by_cases h2 : type = P2SH
    · rw [if_pos h2]
      simp only [bind, StateT.bind, GetHash160KeyRun_eq S c pk h0 log, Services.sha256Call,
        Services.ripemd160_32Call]
      unfold GetHash160
      rw [if_neg h1, if_pos h2, if_pos (Or.inl rfl)]
    · rw [if_neg h2]
      unfold GetHash160
      rw [if_neg h1, if_neg h2]
      rfl

end Secp256K1

namespace Secp256K1

open BigInt

/-- The recording computation of `GetAddress` on a point returns what `GetAddressPoint`
returns, from every list of earlier calls. -/
theorem GetAddressPointRun_fst (S : Services) (type : ℕ) (c : Bool) (pk : Point) (a0 : Buffer)
    (log : List ServiceCall) :
    (GetAddressPointRun S type c pk a0 log).1 = GetAddressPoint S type c pk a0 := by
  unfold GetAddressPointRun GetAddressPoint
  by_cases h1 : type = BECH32
  · rw [if_pos h1, if_pos h1]
    cases c
    · rfl
    · simp only [Bool.not_true, Bool.false_eq_true, if_false, bind, StateT.bind,
        Services.segwit_addr_encodeCall]
      rw [← GetHash160Run_fst S type true pk [] log]
      rfl
  · rw [if_neg h1, if_neg h1]
    by_cases h2 : type = P2SH ∧ (!c) = true
    · rw [if_pos h2, if_pos h2]
      rfl
    · rw [if_neg h2, if_neg h2]
      simp only [bind, StateT.bind, Services.sha256_checksumCall, Services.EncodeBase58Call]
      rw [← GetHash160Run_fst S type c pk _ log]
      rfl

/-- The refused cases return their string and leave the list of calls as it was. -/
theorem GetAddressPointRun_refused (S : Services) (pk : Point) (a0 : Buffer)
    (log : List ServiceCall) :
    GetAddressPointRun S P2SH false pk a0 log = (" P2SH: Only compressed key ".toList, log) ∧
      GetAddressPointRun S BECH32 false pk a0 log =
        (" BECH32: Only compressed key ".toList, log) :=
  ⟨rfl, rfl⟩

/-- The calls of the case `P2PKH`: one hash of the key, `ripemd160_32`, `sha256_checksum`,
`EncodeBase58`. -/
theorem GetAddressPointRun_P2PKH_calls (S : Services) (c : Bool) (pk : Point) (a0 : Buffer)
    (log : List ServiceCall) :
    (GetAddressPointRun S P2PKH c pk a0 log).2 =
      log ++ [if c then ServiceCall.sha256_33 else ServiceCall.sha256_65,
        ServiceCall.ripemd160_32, ServiceCall.sha256_checksum, ServiceCall.EncodeBase58] := by
  have e : ∀ h0, GetHash160Run S P2PKH c pk h0 log = GetHash160KeyRun S c pk log := by
    intro h0
    unfold GetHash160Run
    rw [if_pos (Or.inl rfl)]
  unfold GetAddressPointRun
  have n1 : ¬ P2PKH = BECH32 := by decide
  have n2 : ¬ (P2PKH = P2SH ∧ (!c) = true) := fun h => absurd h.1 (by decide)
  rw [if_neg n1, if_neg n2]
  simp only [bind, StateT.bind, e, GetHash160KeyRun_eq S c pk [] log,
    Services.sha256_checksumCall, Services.EncodeBase58Call]
  simp

/-- The calls of the case `P2SH` with a compressed key: the hash of the key, the hash of the
script, the checksum and the encoding. -/
theorem GetAddressPointRun_P2SH_calls (S : Services) (pk : Point) (a0 : Buffer)
    (log : List ServiceCall) :
    (GetAddressPointRun S P2SH true pk a0 log).2 =
      log ++ [ServiceCall.sha256_33, ServiceCall.ripemd160_32, ServiceCall.sha256,
        ServiceCall.ripemd160_32, ServiceCall.sha256_checksum, ServiceCall.EncodeBase58] := by
  have n1 : ¬ P2SH = BECH32 := by decide
  have n2 : ¬ (P2SH = P2SH ∧ (!true) = true) := fun h => absurd h.2 (by decide)
  have n3 : ¬ (P2SH = P2PKH ∨ P2SH = BECH32) := by decide
  unfold GetAddressPointRun GetHash160Run
  rw [if_neg n1, if_neg n2]
  simp only [bind, StateT.bind, if_neg n3, if_true, GetHash160KeyRun_eq S true pk [] log,
    Services.sha256_checksumCall, Services.EncodeBase58Call, Services.sha256Call,
    Services.ripemd160_32Call]
  simp

end Secp256K1

/-! ## Pairs of characters that `GetByte` accepts -/

namespace CLib

theorem hexDigits_facts : ∀ c ∈ Secp256K1.hexDigits,
    (c.toNat != 0) = true ∧ isspace c = false ∧ (c == '-') = false ∧ (c == '+') = false ∧
      (xdigit c).isSome = true := by
  decide!

/-- A hexadecimal digit followed by a character that is not one (the pairs `0x` and `0X` apart,
the end of the string included) is converted as the digit alone. -/
theorem sscanfX_digit_other : ∀ c0 ∈ Secp256K1.hexDigits, ∀ c1 : Char, xdigit c1 = none →
    ¬ (c0 = '0' ∧ (c1 = 'x' ∨ c1 = 'X')) → sscanfX [c0, c1] = some ((xdigit c0).getD 0) := by
  intro c0 h0 c1 h1 hx
  obtain ⟨e1, e2, e3, e4, e5⟩ := hexDigits_facts c0 h0
  have hv := xdigit_lt c0 h0
  have e6 : (xdigit c1).isSome = false := by rw [h1]; rfl
  have e7 : (c0 == '0' && (c1 == 'x' || c1 == 'X')) = false := by
    rw [Bool.eq_false_iff]
    intro h
    apply hx
    simpa using h
  have hmod : (xdigit c0).getD 0 % 4294967296 = (xdigit c0).getD 0 :=
    Nat.mod_eq_of_lt (by omega)
  unfold sscanfX
  by_cases hn : (c1.toNat != 0) = true
  · simp [List.takeWhile, List.dropWhile, e1, e2, e3, e4, e5, e6, e7, hn, hmod]
  · simp [List.takeWhile, List.dropWhile, e1, e2, e3, e4, e5, e6, hn, hmod]

end CLib

namespace Secp256K1

open BigInt

/-- `GetByte` on a pair made of a hexadecimal digit and a character that is not one (the pairs
`0x` and `0X` apart): the guard on the result of `sscanf` does not fire, and the byte returned is
the value of the digit. -/
theorem GetByte_digit_other (str : List Char) (idx : ℕ)
    (h0 : str.getD (2 * idx) (Char.ofNat 0) ∈ hexDigits)
    (h1 : CLib.xdigit (str.getD (2 * idx + 1) (Char.ofNat 0)) = none)
    (hx : ¬ (str.getD (2 * idx) (Char.ofNat 0) = '0' ∧
      (str.getD (2 * idx + 1) (Char.ofNat 0) = 'x' ∨
        str.getD (2 * idx + 1) (Char.ofNat 0) = 'X'))) :
    GetByte str idx = some ((CLib.xdigit (str.getD (2 * idx) (Char.ofNat 0))).getD 0) := by
  have hv := CLib.xdigit_lt _ h0
  unfold GetByte
  simp only
  rw [CLib.sscanfX_digit_other _ h0 _ h1 hx]
  show some ((CLib.xdigit (str.getD (2 * idx) (Char.ofNat 0))).getD 0 % 256) = _
  rw [Nat.mod_eq_of_lt (by omega)]

/-- The boolean overload on a string of length 130 whose pairs all convert, the first to `4`:
the result is that of the final `EC` test on the numbers the bytes write, whatever the
characters are. -/
theorem ParsePublicKeyHex_of_bytes (str : List Char) (pt : Point) (ic : Bool) (b : ℕ → ℕ)
    (hlen : str.length = 130) (hb : ∀ j, j < 65 → GetByte str j = some (b j)) (h4 : b 0 = 4) :
    ParsePublicKeyHex str pt ic =
      ParsePublicKeyHexEnd
        ⟨beValue (fun j => b (j + 1)) 32, beValue (fun j => b (j + 33)) 32, 0⟩ false := by
  have ht : GetByte str 0 = some 4 := by rw [hb 0 (by decide), h4]
  rw [ParsePublicKeyHex_04 pt ic hlen ht,
    readBytes_spec_zero str 1 (fun j => b (j + 1)) (fun j hj => hb (j + 1) (by omega)),
    readBytes_spec_zero str 33 (fun j => b (j + 33)) (fun j hj => hb (j + 33) (by omega))]
  rfl

end Secp256K1

/-! ## The ordinate of the degenerate addition -/

namespace Secp256K1

open BigInt

/-- The ordinate of the result of `Secp256K1::Add` when `V1 == V2`: in the field it is
`-(U1 - U2)³ Z1 Z2`. -/
theorem Add_y_of_V_eq {P1 P2 : Point} (hV : ModMulK1 P2.x P1.z = ModMulK1 P1.x P2.z) :
    (Secp256K1.Add P1 P2).y < prime ∧
      ((Secp256K1.Add P1 P2).y : ZMod prime) =
        -(((P2.y : ZMod prime) * P1.z - P1.y * P2.z) ^ 3 * ((P1.z : ZMod prime) * P2.z)) := by
  rw [Add_of_V_eq hV]
  refine ⟨ModMulK1_lt _ _, ?_⟩
  simp only [cast_ModMulK1, cast_ModSub_red, cast_ModSquareK1, Nat.cast_zero]
  ring

end Secp256K1

/-! ## The zero key -/

namespace Secp256K1

open BigInt WeierstrassCurve

/-- With a key of value zero the search loop runs out (`i = 32`, `b = 0`), the index is
`256 * 32 - 1`, the second loop does not run, and the last table slot is returned. -/
theorem ComputePublicKey_zero : ComputePublicKey 0 = (GTable 8191).Reduce := rfl

theorem GTable_last : IsAffineOf (GTable 8191) (2 ^ 256 • Gpoint) := by
  have h := GTable_entry (i := 31) (j := 255) (by decide) (by decide)
  have e : 256 * 31 + 255 = 8191 := by decide
  have e2 : (255 + 1) * 256 ^ 31 = 2 ^ 256 := by decide
  rwa [e, e2] at h

theorem ComputePublicKey_zero_isAffineOf : IsAffineOf (ComputePublicKey 0) (2 ^ 256 • Gpoint) := by
  rw [ComputePublicKey_zero,
    Reduce_of_affine GTable_last.1 GTable_last.2.1 GTable_last.2.2.1]
  exact GTable_last

end Secp256K1

/-! ## The claims -/

namespace Secp256K1

open BigInt WeierstrassCurve

/-- C1: after `Init`, for every private key `s` with `1 ≤ s < order`, `ComputePublicKey(s)` is
the affine point (`z = 1`, `x` and `y` in `[0, p)`) of the multiple `s • G` of the generator in
the group of points of the curve. -/
theorem claim_C1_ComputePublicKey (s : ℕ) (h1 : 1 ≤ s) (hs : s < order) :
    IsAffineOf (ComputePublicKey s) (s • Gpoint) :=
  (ComputePublicKey_spec h1 hs).1

/-- C1 at the key of `CheckGenKey`, with the expected public key of that self-test. -/
theorem claim_C1_witness :
    1 ≤ 0x46b9e861b63d3509c88b7817275a30d22d62c8cd8fa6486ddee35ef0d8e0495f ∧
      0x46b9e861b63d3509c88b7817275a30d22d62c8cd8fa6486ddee35ef0d8e0495f < order ∧
      IsAffineOf (ComputePublicKey 0x46b9e861b63d3509c88b7817275a30d22d62c8cd8fa6486ddee35ef0d8e0495f)
        (0x46b9e861b63d3509c88b7817275a30d22d62c8cd8fa6486ddee35ef0d8e0495f • Gpoint) ∧
      ComputePublicKey 0x46b9e861b63d3509c88b7817275a30d22d62c8cd8fa6486ddee35ef0d8e0495f
        = ⟨0x2500e7f3fbddf2842903f544ddc87494ce95029ace4e257d54ba77f2bc1f3a88,
           0x37a9461c4f1c57fecc499753381e772a128a5820a924a2fa05162eb662987a9f, 1⟩ := by
  have h := claim_C1_ComputePublicKey
    0x46b9e861b63d3509c88b7817275a30d22d62c8cd8fa6486ddee35ef0d8e0495f (by decide) (by decide)
  refine ⟨by decide, by decide, h, ?_⟩
  have hm := (MulDirect_spec G_isAffineOf order_nsmul_Gpoint
    (s := 0x46b9e861b63d3509c88b7817275a30d22d62c8cd8fa6486ddee35ef0d8e0495f)
    (by decide) (by decide) Point.Clear).1
  rw [h.point_eq hm]
  decide!

/-- C2: after `Init`, for every `i` in `[0, 32)` and every `j` in `[0, 256)`,
`GTable[256 * i + j]` is the affine point of `(j + 1) * 256 ^ i • G` (the slot `j = 255`
included). -/
theorem claim_C2_GTable (i j : ℕ) (hi : i < 32) (hj : j < 256) :
    IsAffineOf (GTable (256 * i + j)) (((j + 1) * 256 ^ i) • Gpoint) :=
  GTable_entry hi hj

/-- C2 at the last slot `(i, j) = (31, 255)`, which holds `256 ^ 32 • G`. -/
theorem claim_C2_witness :
    31 < 32 ∧ 255 < 256 ∧ IsAffineOf (GTable (256 * 31 + 255)) (((255 + 1) * 256 ^ 31) • Gpoint) :=
  ⟨by decide, by decide, claim_C2_GTable 31 255 (by decide) (by decide)⟩

/-- C3: for every private key `s` in `[1, order)`, every call `Add2(Q, T)` made by
`ComputePublicKey` has an accumulator `Q` with `z ≠ 0` whose affine x-coordinate differs from
the x-coordinate of the table entry `T`, and `V = T.x * Q.z - Q.x` is not zero modulo `p`. -/
theorem claim_C3_Add2_never_degenerate (s : ℕ) (h1 : 1 ≤ s) (hs : s < order) :
    ∀ c ∈ ComputePublicKeyCalls s, Add2Safe c :=
  (ComputePublicKey_spec h1 hs).2

/-- C3 at the key `0x0101`, whose single call is `Add2(GTable[0], GTable[256])`. -/
theorem claim_C3_witness :
    1 ≤ 0x0101 ∧ 0x0101 < order ∧
      ComputePublicKeyCalls 0x0101 = [(GTable 0, GTable 256)] ∧
      Add2Safe (GTable 0, GTable 256) := by
  have hc : ComputePublicKeyCalls 0x0101 = [(GTable 0, GTable 256)] := rfl
  refine ⟨by decide, by decide, hc, ?_⟩
  exact claim_C3_Add2_never_degenerate 0x0101 (by decide) (by decide) _
    (by rw [hc]; exact List.mem_singleton.2 rfl)

/-- C4 fails as stated: for the private key zero `ComputePublicKey` returns the last entry of
the generator table, which is an affine point of the curve, and no error is signalled. -/
theorem claim_C4_counterexample :
    ComputePublicKey 0 = GTable 8191 ∧ OnCurve (ComputePublicKey 0) := by
  refine ⟨?_, ComputePublicKey_zero_isAffineOf.onCurve⟩
  rw [ComputePublicKey_zero,
    Reduce_of_affine GTable_last.1 GTable_last.2.1 GTable_last.2.2.1]

/-- C4, amended: for the private key zero `ComputePublicKey` returns the affine point of
`2 ^ 256 • G`, read from the last table slot `GTable[8191]`; it is the public key of the valid
private key `2 ^ 256 - order`. -/
theorem claim_C4_zero_key :
    IsAffineOf (ComputePublicKey 0) (2 ^ 256 • Gpoint) ∧ ComputePublicKey 0 = GTable 8191 ∧
      1 ≤ 2 ^ 256 - order ∧ 2 ^ 256 - order < order ∧
      ComputePublicKey 0 = ComputePublicKey (2 ^ 256 - order) := by
  have h0 := ComputePublicKey_zero_isAffineOf
  have hk := (ComputePublicKey_spec (s := 2 ^ 256 - order) (by decide) (by decide)).1
  have he : (2 ^ 256 : ℕ) • Gpoint = (2 ^ 256 - order) • Gpoint := by
    have : (2 ^ 256 : ℕ) = (2 ^ 256 - order) + order := by decide
    rw [this, add_nsmul, order_nsmul_Gpoint, add_zero]
    rfl
  refine ⟨h0, ?_, by decide, by decide, ?_⟩
  · rw [ComputePublicKey_zero,
      Reduce_of_affine GTable_last.1 GTable_last.2.1 GTable_last.2.2.1]
  · rw [he] at h0
    exact h0.point_eq hk

/-- C5: for all points `P1`, `P2` with coordinates in `[0, p)`, `z1 ≠ 0`, `z2 ≠ 0`, whose affine
images have different x-coordinates, `Reduce(Add(P1, P2))` equals
`AddDirect(Reduce(P1), Reduce(P2))`. -/
theorem claim_C5_Add_refines_AddDirect (P1 P2 : Point) (h1 : P1.InField) (h2 : P2.InField)
    (hz1 : P1.z ≠ 0) (hz2 : P2.z ≠ 0) (hx : P1.Reduce.x ≠ P2.Reduce.x) :
    (Secp256K1.Add P1 P2).Reduce = AddDirect P1.Reduce P2.Reduce :=
  Reduce_Add_eq_AddDirect h1 h2 hz1 hz2 hx

/-- C5 at `P1 = G`, `P2 = Double(G)` (a projective point with `z ≠ 1`). -/
theorem claim_C5_witness :
    G.InField ∧ (Double G).InField ∧ G.z ≠ 0 ∧ (Double G).z ≠ 0 ∧ (Double G).z ≠ 1 ∧
      G.Reduce.x ≠ (Double G).Reduce.x ∧
      (Secp256K1.Add G (Double G)).Reduce = AddDirect G.Reduce (Double G).Reduce :=
  ⟨by decide!, by decide!, by decide!, by decide!, by decide!, by decide!,
    claim_C5_Add_refines_AddDirect G (Double G) (by decide!) (by decide!) (by decide!)
      (by decide!) (by decide!)⟩

/-- C6: for every point `P` with coordinates in `[0, p)`, `z ≠ 0` and `y ≠ 0`,
`Reduce(Double(P))` equals `DoubleDirect(Reduce(P))`. -/
theorem claim_C6_Double_refines_DoubleDirect (P : Point) (h : P.InField) (hz : P.z ≠ 0)
    (hy : P.y ≠ 0) : (Double P).Reduce = DoubleDirect P.Reduce :=
  Reduce_Double_eq_DoubleDirect h hz hy

/-- C6 at `P = Double(G)` (a projective point with `z ≠ 1`). -/
theorem claim_C6_witness :
    (Double G).InField ∧ (Double G).z ≠ 0 ∧ (Double G).z ≠ 1 ∧ (Double G).y ≠ 0 ∧
      (Double (Double G)).Reduce = DoubleDirect (Double G).Reduce :=
  ⟨by decide!, by decide!, by decide!, by decide!,
    claim_C6_Double_refines_DoubleDirect (Double G) (by decide!) (by decide!) (by decide!)⟩

/-- C7: for every point `p1` with coordinates in `[0, p)` and every point `p2` with `p2.z = 1`,
`Add2(p1, p2)` returns exactly the same triple as `Add(p1, p2)`. -/
theorem claim_C7_Add2_eq_Add (p1 p2 : Point) (h1 : p1.InField) (hz : p2.z = 1) :
    Add2 p1 p2 = Secp256K1.Add p1 p2 :=
  Add2_eq_Add h1 hz

/-- C7 at `p1 = Double(G)` (projective) and `p2 = G` (affine). -/
theorem claim_C7_witness :
    (Double G).InField ∧ G.z = 1 ∧ Add2 (Double G) G = Secp256K1.Add (Double G) G :=
  ⟨by decide!, rfl, claim_C7_Add2_eq_Add (Double G) G (by decide!) rfl⟩

/-- C8: for every affine point `P` of the curve (with `A` its element of the group) and every
scalar `s` with `1 ≤ s < order`, `Secp256K1::MulDirect` and `Point::MulDirect` (`operator*`)
return the affine point of `s • A`, whatever the initial contents `r0` of the accumulator; and
at every call of `Add` in the loop the accumulator and the running power of two have different
x-coordinates. -/
theorem claim_C8_MulDirect (P r0 : Point) (A : curve.toAffine.Point) (hP : IsAffineOf P A)
    (s : ℕ) (h1 : 1 ≤ s) (hs : s < order) :
    IsAffineOf (MulDirect r0 P s) (s • A) ∧ IsAffineOf (Point.MulDirect r0 P s) (s • A) ∧
      (∀ c ∈ MulDirectCalls r0 P s, c.1.Reduce.x ≠ c.2.Reduce.x) ∧
      (∀ c ∈ Point.MulDirectCalls r0 P s, c.1.Reduce.x ≠ c.2.Reduce.x) := by
  obtain ⟨r1, r2, r3, r4⟩ := MulDirect_spec hP (order_nsmul_eq_zero A) h1 hs r0
  refine ⟨r1, ?_, r3, ?_⟩
  · rw [r2]; exact r1
  · rw [r4]; exact r3

/-- C8 at `P = G` and the key of `CheckGenKey`. -/
theorem claim_C8_witness :
    IsAffineOf G Gpoint ∧
      1 ≤ 0x46b9e861b63d3509c88b7817275a30d22d62c8cd8fa6486ddee35ef0d8e0495f ∧
      0x46b9e861b63d3509c88b7817275a30d22d62c8cd8fa6486ddee35ef0d8e0495f < order ∧
      IsAffineOf
        (MulDirect Point.Clear G 0x46b9e861b63d3509c88b7817275a30d22d62c8cd8fa6486ddee35ef0d8e0495f)
        (0x46b9e861b63d3509c88b7817275a30d22d62c8cd8fa6486ddee35ef0d8e0495f • Gpoint) ∧
      MulDirect Point.Clear G 0x46b9e861b63d3509c88b7817275a30d22d62c8cd8fa6486ddee35ef0d8e0495f
        = ⟨0x2500e7f3fbddf2842903f544ddc87494ce95029ace4e257d54ba77f2bc1f3a88,
           0x37a9461c4f1c57fecc499753381e772a128a5820a924a2fa05162eb662987a9f, 1⟩ :=
  ⟨G_isAffineOf, by decide, by decide,
    (claim_C8_MulDirect G Point.Clear Gpoint G_isAffineOf
      0x46b9e861b63d3509c88b7817275a30d22d62c8cd8fa6486ddee35ef0d8e0495f
      (by decide) (by decide)).1, by decide!⟩

/-- C9: for every affine point `P` on the curve, `Point::Add` applied to `P` with argument `P`
yields exactly `Point::Double` of `P`, and after `Reduce` that double equals `MulDirect(P, 2)`
(both `Point::MulDirect`, which is `operator*`, and `Secp256K1::MulDirect`, whatever the initial
contents `r0` of the accumulator) and the affine sum `P.AddDirect(P)` (which is `operator+`). -/
theorem claim_C9_double_eq_add_self (P r0 : Point) (h : OnCurve P) :
    P.Add P = P.Double ∧ P.Double.Reduce = Point.MulDirect r0 P 2 ∧
      P.Double.Reduce = MulDirect r0 P 2 ∧ P.Double.Reduce = P.AddDirect P := by
  obtain ⟨hz, hx, hy, hE⟩ := h
  have heq : P.equals P = true := by simp [Point.equals]
  refine ⟨by simp [Point.Add, heq], ?_, ?_, ?_⟩
  · have hb : GetBitLength 2 = 2 := by decide
    simp [Point.MulDirect, hb, Point.MulDirectLoop, GetBit]
  · have hb : GetBitLength 2 = 2 := by decide
    simp [MulDirect, hb, MulDirectLoop, GetBit, Double_eq_PointDouble]
  · have hz0 : P.z ≠ 0 := by rw [hz]; decide
    have hP : P.InField := ⟨hx, hy, by rw [hz]; decide⟩
    have h6 := Reduce_Double_eq_DoubleDirect hP hz0 (y_ne_zero_of_EC hx hy hE)
    rw [Reduce_of_affine hz hx hy, Double_eq_PointDouble,
      DoubleDirect_eq_PointDoubleDirect] at h6
    simp [Point.AddDirect, heq, h6]

/-- C9 at `P = G`. -/
theorem claim_C9_witness :
    OnCurve G ∧ G.Add G = G.Double ∧ G.Double.Reduce = Point.MulDirect Point.Clear G 2 ∧
      G.Double.Reduce = MulDirect Point.Clear G 2 ∧ G.Double.Reduce = G.AddDirect G :=
  ⟨by decide!, claim_C9_double_eq_add_self G Point.Clear (by decide!)⟩

/-- C10 fails as stated: `G` and `-G` are distinct affine points of the curve, neither is the
point at infinity, and `AddDirect(G, -G)` differs from `AddDirect(-G, G)`. -/
theorem claim_C10_counterexample :
    OnCurve G ∧ OnCurve negG ∧ G ≠ negG ∧ G.isZero = false ∧ negG.isZero = false ∧
      AddDirect G negG ≠ AddDirect negG G := by
  decide!

/-- C10, amended: for all points `P`, `Q` with coordinates in `[0, p)`,
`Reduce(Add(P, Q))` equals `Reduce(Add(Q, P))`; and when their x-coordinates differ,
`AddDirect(P, Q)` equals `AddDirect(Q, P)`. -/
theorem claim_C10_add_comm (P Q : Point) (hP : P.InField) (hQ : Q.InField) :
    (Secp256K1.Add P Q).Reduce = (Secp256K1.Add Q P).Reduce ∧
      (P.x ≠ Q.x → AddDirect P Q = AddDirect Q P) :=
  ⟨Reduce_Add_comm P Q, fun hx => AddDirect_comm hP hQ hx⟩

/-- C10 (amended) at `P = G`, `Q = Double(G)` reduced. -/
theorem claim_C10_witness :
    G.InField ∧ (Double G).Reduce.InField ∧ G.x ≠ (Double G).Reduce.x ∧
      (Secp256K1.Add G (Double G).Reduce).Reduce = (Secp256K1.Add (Double G).Reduce G).Reduce ∧
      AddDirect G (Double G).Reduce = AddDirect (Double G).Reduce G :=
  ⟨by decide!, by decide!, by decide!,
    (claim_C10_add_comm G (Double G).Reduce (by decide!) (by decide!)).1,
    (claim_C10_add_comm G (Double G).Reduce (by decide!) (by decide!)).2 (by decide!)⟩

end Secp256K1

/-! ## The claims C11 to C20 -/

namespace Secp256K1

open BigInt WeierstrassCurve

/-- C11: for every affine point `P` on the curve (`z = 1`, `x` and `y` in `[0, p)`, `EC` true)
and for both values of `c`, the boolean `ParsePublicKeyHex` applied to the string produced by
`GetPublicKeyHex(c, P)` returns true (it does not end the process), leaves `pt` equal to `P` in
`x`, `y` and `z`, and sets `isCompressed = c`, whatever the out-parameters held before. -/
theorem claim_C11_hex_round_trip (P : Point) (h : OnCurve P) (c : Bool) (pt : Point)
    (ic : Bool) : ParsePublicKeyHex (GetPublicKeyHex c P) pt ic = some (true, P, c) := by
  cases c
  · exact Parse_GetPublicKeyHex_full h pt ic
  · exact Parse_GetPublicKeyHex_comp h pt ic

/-- C11 at `P = G`, compressed and uncompressed. -/
theorem claim_C11_witness :
    OnCurve G ∧
      GetPublicKeyHex true G =
        "0279BE667EF9DCBBAC55A06295CE870B07029BFCDB2DCE28D959F2815B16F81798".toList ∧
      ParsePublicKeyHex (GetPublicKeyHex true G) Point.Clear false = some (true, G, true) ∧
      ParsePublicKeyHex (GetPublicKeyHex false G) Point.Clear true = some (true, G, false) :=
  ⟨by decide!, by decide!, claim_C11_hex_round_trip G (by decide!) true Point.Clear false,
    claim_C11_hex_round_trip G (by decide!) false Point.Clear true⟩

/-- C13: whenever the boolean `ParsePublicKeyHex(str, pt, isCompressed)` returns true, `pt` is
affine (`z = 1`) and satisfies `y² = x³ + 7 (mod p)`, and `isCompressed` is true exactly when the
first byte was `02` or `03`; and for every string of 130 hexadecimal digits starting with `04`
whose `(x, y)` (the numbers written by the digits 2..65 and 66..129) does not satisfy the
equation, it returns false (with the rejected coordinates left in `pt`). -/
theorem claim_C13_parse_on_curve (str : List Char) (pt : Point) (ic : Bool) :
    (∀ pt' ic', ParsePublicKeyHex str pt ic = some (true, pt', ic') →
        pt'.z = 1 ∧ (pt'.y * pt'.y) % prime = (pt'.x ^ 3 + 7) % prime ∧
          ∃ t, GetByte str 0 = some t ∧ (ic' = true ↔ t = 2 ∨ t = 3)) ∧
      (str.length = 130 → (∀ c ∈ str, c ∈ hexDigits) → str.take 2 = ['0', '4'] →
        (hexValue ((str.drop 66).take 64) * hexValue ((str.drop 66).take 64)) % prime ≠
          (hexValue ((str.drop 2).take 64) ^ 3 + 7) % prime →
        ParsePublicKeyHex str pt ic =
          some (false, ⟨hexValue ((str.drop 2).take 64), hexValue ((str.drop 66).take 64), 1⟩,
            false)) := by
  constructor
  · intro pt' ic' h
    rcases ParsePublicKeyHex_cases str pt ic with h1 | h1 | ⟨t, x, y, ht, h234, h1⟩
    · rw [h1] at h; cases h
    · rw [h1] at h; cases h
    · rw [h1, ParsePublicKeyHexEnd_eq] at h
      simp only [Option.some.injEq, Prod.mk.injEq] at h
      obtain ⟨hE, hpt, hic⟩ := h
      subst hpt
      refine ⟨rfl, (EC_iff_mod _).1 hE, t, ht, ?_⟩
      rw [← hic]
      rcases h234 with e | e | e <;> subst e <;> simp
  · intro hlen hs h04 hne
    have ht : GetByte str 0 = some 4 := by
      rcases str with _ | ⟨a, _ | ⟨b, rest⟩⟩
      · simp at hlen
      · simp at hlen
      · simp only [List.take_succ_cons, List.take_zero, List.cons.injEq, and_true] at h04
        obtain ⟨ha, hb⟩ := h04
        subst ha hb
        have : CLib.sscanfX ['0', '4'] = some 4 := by decide!
        unfold GetByte
        simp only [Nat.mul_zero, List.getD_cons_zero, Nat.zero_add, List.getD_cons_succ]
        rw [this]
    rw [ParsePublicKeyHex_04 pt ic hlen ht, readBytes_hex hs 1 (by omega),
      readBytes_hex hs 33 (by omega)]
    simp only [Option.some_bind]
    rw [ParsePublicKeyHexEnd_eq]
    have hE : EC ⟨hexValue ((str.drop (2 * 1)).take 64),
        hexValue ((str.drop (2 * 33)).take 64), 1⟩ = false := by
      rw [← Bool.not_eq_true, EC_iff_mod]
      exact hne
    rw [hE]

/-- C13 at the point of `CheckCalcPubKeyFull` (accepted) and at the same string with its last
digit changed (rejected). -/
theorem claim_C13_witness :
    ParsePublicKeyHex "0475249c39f38baa6bf20ab472191292349426dc3652382cdc45f65695946653dc978b2659122fe1df1be132167f27b74e5d4a2f3ecbbbd0b3fbcc2f4983518674".toList Point.Clear true =
        some (true, ⟨0x75249c39f38baa6bf20ab472191292349426dc3652382cdc45f65695946653dc,
          0x978b2659122fe1df1be132167f27b74e5d4a2f3ecbbbd0b3fbcc2f4983518674, 1⟩, false) ∧
      (0x978b2659122fe1df1be132167f27b74e5d4a2f3ecbbbd0b3fbcc2f4983518674 *
          0x978b2659122fe1df1be132167f27b74e5d4a2f3ecbbbd0b3fbcc2f4983518674) % prime =
        (0x75249c39f38baa6bf20ab472191292349426dc3652382cdc45f65695946653dc ^ 3 + 7) % prime ∧
      ParsePublicKeyHex "0475249c39f38baa6bf20ab472191292349426dc3652382cdc45f65695946653dc978b2659122fe1df1be132167f27b74e5d4a2f3ecbbbd0b3fbcc2f4983518675".toList Point.Clear true =
        some (false, ⟨0x75249c39f38baa6bf20ab472191292349426dc3652382cdc45f65695946653dc,
          0x978b2659122fe1df1be132167f27b74e5d4a2f3ecbbbd0b3fbcc2f4983518675, 1⟩, false) :=
  ⟨by decide!,
    ((claim_C13_parse_on_curve "0475249c39f38baa6bf20ab472191292349426dc3652382cdc45f65695946653dc978b2659122fe1df1be132167f27b74e5d4a2f3ecbbbd0b3fbcc2f4983518674".toList Point.Clear true).1
      ⟨0x75249c39f38baa6bf20ab472191292349426dc3652382cdc45f65695946653dc,
        0x978b2659122fe1df1be132167f27b74e5d4a2f3ecbbbd0b3fbcc2f4983518674, 1⟩ false
      (by decide!)).2.1,
    (claim_C13_parse_on_curve "0475249c39f38baa6bf20ab472191292349426dc3652382cdc45f65695946653dc978b2659122fe1df1be132167f27b74e5d4a2f3ecbbbd0b3fbcc2f4983518675".toList Point.Clear true).2
      (by decide!) (by decide!) (by decide!) (by decide!)⟩

/-- C14 fails on the code.  Both strings are the uncompressed form of `G` with one digit pair
changed so that it holds the character `Z`, which is not a hexadecimal digit.  With the pair `0B`
replaced by `ZB`, `sscanf` converts nothing, `GetByte` calls `exit(-1)` and the process ends (the
call does not return false).  With the pair `0B` replaced by `BZ`, `sscanf` converts the digit
`B` alone, the byte read is `0x0B`, and the call returns true with `pt = G`. -/
theorem claim_C14_counterexample :
    ParsePublicKeyHex "0479BE667EF9DCBBAC55A06295CE87ZB07029BFCDB2DCE28D959F2815B16F81798483ADA7726A3C4655DA4FBFC0E1108A8FD17B448A68554199C47D08FFB10D4B8".toList Point.Clear false = none ∧
      ParsePublicKeyHex "0479BE667EF9DCBBAC55A06295CE87BZ07029BFCDB2DCE28D959F2815B16F81798483ADA7726A3C4655DA4FBFC0E1108A8FD17B448A68554199C47D08FFB10D4B8".toList Point.Clear false =
        some (true, G, false) := by
  decide!

/-- C14, what the code does: the boolean `ParsePublicKeyHex` ends the process (`none`) exactly
when one of the pairs of characters it reads is not converted by `sscanf`: the first pair, or one
of the pairs 1..32 of a string of length 66 with first byte `02`/`03`, or one of the pairs 1..64
of a string of length 130 with first byte `04`.  It returns false, with `pt` cleared and
`isCompressed` untouched, for a string shorter than 2 characters, for a first byte other than
`02`, `03`, `04`, and for a length other than 66 (first byte `02`/`03`) or 130 (first byte `04`).
In every case in which it returns, the flag returned is true exactly when the final `pt` has
`z = 1` and passes `EC`.  The guard of `GetByte` misses a pair made of a hexadecimal digit and a
character that is not one (the pairs `0x`, `0X` apart): the byte read is the value of the digit;
and a string of length 130 whose pairs all convert, the first to `4`, is parsed as the numbers
its bytes write, whatever its characters are. -/
theorem claim_C14_parse_errors (str : List Char) (pt : Point) (ic : Bool) :
    (ParsePublicKeyHex str pt ic = none ↔
        2 ≤ str.length ∧ (GetByte str 0 = none ∨
          ((GetByte str 0 = some 2 ∨ GetByte str 0 = some 3) ∧ str.length = 66 ∧
            ∃ j, 1 ≤ j ∧ j < 33 ∧ GetByte str j = none) ∨
          (GetByte str 0 = some 4 ∧ str.length = 130 ∧
            ∃ j, 1 ≤ j ∧ j < 65 ∧ GetByte str j = none))) ∧
      (str.length < 2 → ParsePublicKeyHex str pt ic = some (false, Point.Clear, ic)) ∧
      (∀ t, 2 ≤ str.length → GetByte str 0 = some t →
        (t ≠ 2 ∧ t ≠ 3 ∧ t ≠ 4) ∨ ((t = 2 ∨ t = 3) ∧ str.length ≠ 66) ∨
          (t = 4 ∧ str.length ≠ 130) →
        ParsePublicKeyHex str pt ic = some (false, Point.Clear, ic)) ∧
      (∀ r, ParsePublicKeyHex str pt ic = some r →
        (r.1 = true ↔ r.2.1.z = 1 ∧ EC r.2.1 = true)) ∧
      (∀ idx, str.getD (2 * idx) (Char.ofNat 0) ∈ hexDigits →
        CLib.xdigit (str.getD (2 * idx + 1) (Char.ofNat 0)) = none →
        ¬ (str.getD (2 * idx) (Char.ofNat 0) = '0' ∧
          (str.getD (2 * idx + 1) (Char.ofNat 0) = 'x' ∨
            str.getD (2 * idx + 1) (Char.ofNat 0) = 'X')) →
        GetByte str idx =
          some ((CLib.xdigit (str.getD (2 * idx) (Char.ofNat 0))).getD 0)) ∧
      (∀ b : ℕ → ℕ, str.length = 130 → (∀ j, j < 65 → GetByte str j = some (b j)) → b 0 = 4 →
        ParsePublicKeyHex str pt ic =
          ParsePublicKeyHexEnd
            ⟨beValue (fun j => b (j + 1)) 32, beValue (fun j => b (j + 33)) 32, 0⟩ false) := by
  refine ⟨ParsePublicKeyHex_eq_none_iff str pt ic, ?_, ?_, ?_,
    fun idx h0 h1 hx => GetByte_digit_other str idx h0 h1 hx,
    fun b hlen hb h4 => ParsePublicKeyHex_of_bytes str pt ic b hlen hb h4⟩
  · intro h2
    unfold ParsePublicKeyHex
    by_cases h0 : str.length = 0 <;> simp [h0, h2]
  · intro t h2 ht hc
    have h0 : str.length ≠ 0 := by omega
    have h2' : ¬ str.length < 2 := by omega
    unfold ParsePublicKeyHex
    rcases hc with ⟨t2, t3, t4⟩ | ⟨t23 | t23, hl⟩ | ⟨t4, hl⟩
    · simp [h0, h2', ht, t2, t3, t4]
    · subst t23; simp [h0, h2', ht, hl]
    · subst t23; simp [h0, h2', ht, hl]
    · subst t4; simp [h0, h2', ht, hl]
  · intro r hr
    rcases ParsePublicKeyHex_cases str pt ic with h1 | h1 | ⟨t, x, y, -, -, h1⟩
    · rw [h1] at hr; cases hr
    · rw [h1] at hr
      cases hr
      simp [Point.Clear]
    · rw [h1, ParsePublicKeyHexEnd_eq] at hr
      cases hr
      simp

/-- C14 (what the code does) on the string `GG` (the process ends), on the empty string and on
the string `05` (false is returned), and on the pair `BZ` (read as the byte `0x0B`). -/
theorem claim_C14_witness :
    ParsePublicKeyHex "GG".toList G true = none ∧
      ParsePublicKeyHex [] G true = some (false, Point.Clear, true) ∧
      ParsePublicKeyHex "05".toList G true = some (false, Point.Clear, true) ∧
      GetByte "BZ".toList 0 = some 0x0B :=
  ⟨(claim_C14_parse_errors "GG".toList G true).1.2 ⟨by decide, Or.inl (by decide!)⟩,
    (claim_C14_parse_errors [] G true).2.1 (by decide),
    (claim_C14_parse_errors "05".toList G true).2.2.1 5 (by decide) (by decide!)
      (Or.inl ⟨by decide, by decide, by decide⟩),
    (claim_C14_parse_errors "BZ".toList G true).2.2.2.2.1 0 (by decide) (by decide!)
      (by decide)⟩

/-- C15 fails as stated: the call on the uncompressed form of `G` with the last digit of `y`
changed, entered with `pt = G` and `isCompressed = true`, returns false and leaves the rejected
coordinates in `pt` (with `z = 1`) and `isCompressed = false`. -/
theorem claim_C15_counterexample :
    ParsePublicKeyHex "0479BE667EF9DCBBAC55A06295CE870B07029BFCDB2DCE28D959F2815B16F81798483ADA7726A3C4655DA4FBFC0E1108A8FD17B448A68554199C47D08FFB10D4B9".toList G true =
        some (false, ⟨G.x, G.y + 1, 1⟩, false) ∧
      (⟨G.x, G.y + 1, 1⟩ : Point) ≠ G ∧ EC ⟨G.x, G.y + 1, 1⟩ = false := by
  decide!

/-- C15, amended: the boolean `ParsePublicKeyHex` does not restore its out-parameters.  Whenever
it returns false, either `pt` has been cleared to `(0, 0, 0)` and `isCompressed` is untouched
(the failures on the length and on the first byte), or `pt` holds the rejected coordinates with
`z = 1`, which fail `EC`, and `isCompressed` has been overwritten according to the first byte
(true for `02`/`03`, false for `04`). -/
theorem claim_C15_failed_parse_state (str : List Char) (pt : Point) (ic : Bool) (pt' : Point)
    (ic' : Bool) (h : ParsePublicKeyHex str pt ic = some (false, pt', ic')) :
    (pt' = Point.Clear ∧ ic' = ic) ∨
      (pt'.z = 1 ∧ EC pt' = false ∧
        ∃ t, GetByte str 0 = some t ∧ (t = 2 ∨ t = 3 ∨ t = 4) ∧ ic' = decide (t ≠ 4)) := by
  rcases ParsePublicKeyHex_cases str pt ic with h1 | h1 | ⟨t, x, y, ht, h234, h1⟩
  · rw [h1] at h; cases h
  · rw [h1] at h
    cases h
    exact Or.inl ⟨rfl, rfl⟩
  · rw [h1, ParsePublicKeyHexEnd_eq] at h
    simp only [Option.some.injEq, Prod.mk.injEq] at h
    obtain ⟨hE, hpt, hic⟩ := h
    subst hpt
    exact Or.inr ⟨rfl, hE, t, ht, h234, hic.symm⟩

/-- C15 (amended) on the empty string, entered with `pt = G`: `pt` is cleared. -/
theorem claim_C15_witness :
    ParsePublicKeyHex [] G true = some (false, Point.Clear, true) ∧
      ((Point.Clear = Point.Clear ∧ true = true) ∨
        (Point.Clear.z = 1 ∧ EC Point.Clear = false ∧
          ∃ t, GetByte [] 0 = some t ∧ (t = 2 ∨ t = 3 ∨ t = 4) ∧ true = decide (t ≠ 4))) :=
  ⟨by decide, claim_C15_failed_parse_state [] G true Point.Clear true (by decide)⟩

/-- C16 fails as stated.  The string is the WIF form of the key `0C28...AA1D` with its last
character changed from `J` to `K`; the two services are given by their values on this input:
Base58 decoding yields 37 bytes ending in `50 7A 5B 8E`, and the double SHA-256 of the first 33
bytes starts with `50 7A 5B 8D`.  The checksum differs, and `DecodePrivateKey` returns the 32
payload bytes as the key, sets `*compressed = false` and only prints the warning. -/
theorem claim_C16_counterexample :
    DecodePrivateKey
        (fun _ => [128, 12, 40, 252, 163, 134, 199, 162, 39, 96, 11, 47, 229, 11, 124, 174, 17,
          236, 134, 211, 191, 31, 190, 71, 27, 232, 152, 39, 225, 157, 114, 170, 29, 80, 122, 91,
          142])
        (fun _ => [80, 122, 91, 141])
        "5HueCGU8rMjxEXxiPuD5BDku4MkFqeZyd4dZ1jvhTVqvbTLvyTK".toList true =
      (0x0C28FCA386C7A227600B2FE50B7CAE11EC86D3BF1FBE471BE89827E19D72AA1D, false,
        [DecodeMessage.invalidChecksum]) := by
  decide!

/-- C16, amended: `DecodePrivateKey` does not reject an invalid checksum.  Whatever the two
services return: for a string starting with `5` that decodes to 37 bytes with version byte
`0x80` it returns the number written by the bytes 1..32 of the payload and sets
`*compressed = false`; for a string starting with `K` or `L` that decodes to 38 bytes it returns
that number and sets `*compressed = true`; and the returned integer and the flag are the same for
any other checksum service (a mismatch only adds the warning message). -/
theorem claim_C16_checksum_only_warns (d : List Char → List ℕ) (sha : List ℕ → List ℕ)
    (key : List Char) (c : Bool) :
    (key.getD 0 (Char.ofNat 0) = '5' → (d key).length = 37 → (d key).getD 0 0 = 0x80 →
        (DecodePrivateKey d sha key c).1 = beValue (fun j => (d key).getD (j + 1) 0 % 256) 32 ∧
          (DecodePrivateKey d sha key c).2.1 = false) ∧
      (key.getD 0 (Char.ofNat 0) = 'K' ∨ key.getD 0 (Char.ofNat 0) = 'L' →
        (d key).length = 38 →
        (DecodePrivateKey d sha key c).1 = beValue (fun j => (d key).getD (j + 1) 0 % 256) 32 ∧
          (DecodePrivateKey d sha key c).2.1 = true) ∧
      (∀ sha' : List ℕ → List ℕ,
        (DecodePrivateKey d sha key c).1 = (DecodePrivateKey d sha' key c).1 ∧
          (DecodePrivateKey d sha key c).2.1 = (DecodePrivateKey d sha' key c).2.1) := by
  refine ⟨?_, ?_, fun sha' => DecodePrivateKey_checksum_irrelevant d sha sha' key c⟩
  · intro h5 hlen hv
    rw [DecodePrivateKey_5 d sha key c h5 hlen hv]
    exact ⟨rfl, rfl⟩
  · intro hKL hlen
    rw [DecodePrivateKey_KL d sha key c hKL hlen]
    exact ⟨rfl, rfl⟩

/-- C16 (amended) on the input of the counterexample. -/
theorem claim_C16_witness :
    (DecodePrivateKey
        (fun _ => [128, 12, 40, 252, 163, 134, 199, 162, 39, 96, 11, 47, 229, 11, 124, 174, 17,
          236, 134, 211, 191, 31, 190, 71, 27, 232, 152, 39, 225, 157, 114, 170, 29, 80, 122, 91,
          142])
        (fun _ => [80, 122, 91, 141])
        "5HueCGU8rMjxEXxiPuD5BDku4MkFqeZyd4dZ1jvhTVqvbTLvyTK".toList true).2.1 = false :=
  ((claim_C16_checksum_only_warns
    (fun _ => [128, 12, 40, 252, 163, 134, 199, 162, 39, 96, 11, 47, 229, 11, 124, 174, 17,
      236, 134, 211, 191, 31, 190, 71, 27, 232, 152, 39, 225, 157, 114, 170, 29, 80, 122, 91,
      142])
    (fun _ => [80, 122, 91, 141])
    "5HueCGU8rMjxEXxiPuD5BDku4MkFqeZyd4dZ1jvhTVqvbTLvyTK".toList true).1
    (by decide) (by decide) (by decide)).2

/-- C17: `Reduce` is idempotent: for every point `P` with `z ≠ 0` and coordinates in `[0, p)`,
applying `Reduce` twice gives the same `(x, y, z)` as applying it once, and the result has
`z = 1` (and coordinates in `[0, p)`). -/
theorem claim_C17_Reduce_idempotent (P : Point) :
    P.z ≠ 0 → P.InField → P.Reduce.Reduce = P.Reduce ∧ P.Reduce.z = 1 ∧ P.Reduce.InField := by
  intro _ _
  exact ⟨Reduce_of_affine (Reduce_z P) (Reduce_InField P).1 (Reduce_InField P).2.1, Reduce_z P,
    Reduce_InField P⟩

/-- C17 at the projective point `Double(G)`. -/
theorem claim_C17_witness :
    (Double G).z ≠ 0 ∧ (Double G).z ≠ 1 ∧ (Double G).InField ∧
      (Double G).Reduce.Reduce = (Double G).Reduce ∧ (Double G).Reduce.z = 1 :=
  ⟨by decide!, by decide!, by decide!,
    (claim_C17_Reduce_idempotent (Double G) (by decide!) (by decide!)).1,
    (claim_C17_Reduce_idempotent (Double G) (by decide!) (by decide!)).2.1⟩

/-- C18 fails as stated: `G` is an affine point of the curve, and `AddDirect(G, (0, 0, 0))` is
not `G`, neither through `Point::AddDirect` (`operator+`) nor through `Secp256K1::AddDirect`. -/
theorem claim_C18_counterexample :
    OnCurve G ∧ G.AddDirect Point.Clear ≠ G ∧ AddDirect G Point.Clear ≠ G := by
  decide!

/-- C18, amended: the affine path has no case for the point at infinity.  For every affine point
`P` on the curve, `Point::AddDirect` (`operator+`) and `Secp256K1::AddDirect` apply the chord
formula to `P` and the coordinates `(0, 0)` of the cleared point; both return the same point,
with `z = 1`, whose ordinate differs from the ordinate of `P`, so the result is never `P`. -/
theorem claim_C18_AddDirect_infinity (P : Point) (h : OnCurve P) :
    P.AddDirect Point.Clear = AddDirect P Point.Clear ∧ (AddDirect P Point.Clear).z = 1 ∧
      (AddDirect P Point.Clear).y ≠ P.y ∧ AddDirect P Point.Clear ≠ P ∧
      P.AddDirect Point.Clear ≠ P := by
  have hy := AddDirect_Clear_y_ne h
  have hne : AddDirect P Point.Clear ≠ P := fun e => hy (congrArg Point.y e)
  have e := PointAddDirect_Clear h.1
  exact ⟨e, rfl, hy, hne, by rw [e]; exact hne⟩

/-- C18 (amended) at `P = G`. -/
theorem claim_C18_witness :
    OnCurve G ∧ (AddDirect G Point.Clear).y ≠ G.y ∧ G.AddDirect Point.Clear ≠ G :=
  ⟨by decide!, (claim_C18_AddDirect_infinity G (by decide!)).2.2.1,
    (claim_C18_AddDirect_infinity G (by decide!)).2.2.2.2⟩

/-- C19: the literal `Secp256K1::prime` is congruent to 3 modulo 4, and for every `a` in
`[0, p)` that passes Euler's criterion (`HasSqrt`, i.e. `a^((p-1)/2) = 1 mod p`), the value
`r = a^((p+1)/4) mod p` returned by `ModSqrt` lies in `[0, p)` and satisfies `r² = a (mod p)`. -/
theorem claim_C19_ModSqrt (a : ℕ) (ha : a < prime) (h : HasSqrt a = true) :
    prime % 4 = 3 ∧ a ^ ((prime - 1) / 2) % prime = 1 ∧
      ModSqrt a = a ^ ((prime + 1) / 4) % prime ∧ ModSqrt a < prime ∧
      (ModSqrt a * ModSqrt a) % prime = a :=
  ⟨by decide, (HasSqrt_iff a).1 h, ModExp_eq a _, ModSqrt_lt a, ModSqrt_sq ha h⟩

/-- C19 at `a = G.x³ + 7 mod p`, whose root is `G.y` or its negation. -/
theorem claim_C19_witness :
    HasSqrt (ModAdd (ModMulK1 (ModSquareK1 G.x) G.x) 7) = true ∧
      (ModSqrt (ModAdd (ModMulK1 (ModSquareK1 G.x) G.x) 7) *
        ModSqrt (ModAdd (ModMulK1 (ModSquareK1 G.x) G.x) 7)) % prime =
        ModAdd (ModMulK1 (ModSquareK1 G.x) G.x) 7 :=
  ⟨by decide!,
    (claim_C19_ModSqrt (ModAdd (ModMulK1 (ModSquareK1 G.x) G.x) 7) (by decide!)
      (by decide!)).2.2.2.2⟩

/-- C20: the literal `Secp256K1::prime` equals `2^256 - 2^32 - 977`, so `2^256` is congruent to
`0x1000003D1 = 2^32 + 977` modulo `p`, and for every 512-bit product
`t = t_lo + 2^256 * t_hi` (`t_lo, t_hi < 2^256`), `t` is congruent to
`t_lo + t_hi * (2^32 + 977)` modulo `p`. -/
theorem claim_C20_prime_fold (t_lo t_hi : ℕ) :
    t_lo < 2 ^ 256 → t_hi < 2 ^ 256 →
      prime = 2 ^ 256 - 2 ^ 32 - 977 ∧ 2 ^ 256 % prime = 0x1000003D1 ∧
        0x1000003D1 = 2 ^ 32 + 977 ∧
        (t_lo + 2 ^ 256 * t_hi) % prime = (t_lo + t_hi * (2 ^ 32 + 977)) % prime := by
  intro _ _
  refine ⟨prime_eq, by decide, by decide, ?_⟩
  have h : 2 ^ 256 ≡ 2 ^ 32 + 977 [MOD prime] := by
    show 2 ^ 256 % prime = (2 ^ 32 + 977) % prime
    decide
  have h2 : t_lo + 2 ^ 256 * t_hi ≡ t_lo + t_hi * (2 ^ 32 + 977) [MOD prime] := by
    rw [mul_comm t_hi]
    exact Nat.ModEq.add_left _ (Nat.ModEq.mul_right _ h)
  exact h2

/-- C20 at the square of `2^256 - 1`. -/
theorem claim_C20_witness :
    ((2 ^ 256 - 1) * (2 ^ 256 - 1)) % prime = (1 + (2 ^ 256 - 2) * (2 ^ 32 + 977)) % prime ∧
      (1 + 2 ^ 256 * (2 ^ 256 - 2)) % prime = (1 + (2 ^ 256 - 2) * (2 ^ 32 + 977)) % prime :=
  ⟨by decide, (claim_C20_prime_fold 1 (2 ^ 256 - 2) (by decide) (by decide)).2.2.2⟩

end Secp256K1

/-! ## The claims C21 to C30 -/

namespace Secp256K1

open BigInt WeierstrassCurve

/-- C21: the literal `halfG` is an affine point `Q` of the curve with `2Q = G`: it satisfies
`y² = x³ + 7 (mod p)`, `DoubleDirect(halfG)` is the literal `G` (in `x`, `y` and `z`), and the
element of the group it stands for doubles to the element of `G`. -/
theorem claim_C21_halfG :
    OnCurve halfG ∧ (halfG.y * halfG.y) % prime = (halfG.x ^ 3 + 7) % prime ∧
      DoubleDirect halfG = G ∧ ∃ Q, IsAffineOf halfG Q ∧ 2 • Q = Gpoint := by
  refine ⟨halfG_onCurve, (EC_iff_mod halfG).1 halfG_onCurve.2.2.2, DoubleDirect_halfG, ?_⟩
  obtain ⟨Q, hQ⟩ := exists_isAffineOf halfG_onCurve
  refine ⟨Q, hQ, ?_⟩
  have h := DoubleDirect_spec hQ
  rw [DoubleDirect_halfG] at h
  rw [two_nsmul]
  exact h.unique G_isAffineOf

/-- C22: after `Init`, `CheckGTable` returns true: every entry `GTable[k]`, `0 ≤ k < 8192`, is
affine (`z = 1`, coordinates in `[0, p)`) and passes `EC`; and during the table build every call
`AddDirect(p1, p2)` inverts a nonzero `p2.x - p1.x` and every call `DoubleDirect(p)` inverts a
nonzero `2 p.y` (the traced build computes the table `GTable`). -/
theorem claim_C22_CheckGTable :
    CheckGTable = true ∧ (∀ k, k < 8192 → OnCurve (GTable k)) ∧
      (InitOuterTrace 32 0 (fun _ => ⟨0, 0, 0⟩, G, [], [])).1 = GTable ∧
      (∀ c ∈ InitAddDirectCalls, ModSub c.2.x c.1.x ≠ 0) ∧
      (∀ P ∈ InitDoubleDirectCalls, ModAdd P.y P.y ≠ 0) :=
  ⟨CheckGTable_true, GTable_onCurve, InitOuterTrace_table, Init_calls_safe.1,
    Init_calls_safe.2⟩

/-- C22 at the last entry of the table. -/
theorem claim_C22_witness : 8191 < 8192 ∧ OnCurve (GTable 8191) :=
  ⟨by decide, claim_C22_CheckGTable.2.1 8191 (by decide)⟩

/-- C23: for all points `P1`, `P2` with coordinates in `[0, p)` and `z ≠ 0` that satisfy the
projective curve equation `Y² Z = X³ + 7 Z³ (mod p)`: when their affine abscissas differ,
`Reduce(Add(P1, P2))` passes `EC`; and when `y ≠ 0`, `Reduce(Double(P1))` passes `EC`. -/
theorem claim_C23_projective_on_curve (P1 P2 : Point) (h1 : P1.InField) (h2 : P2.InField)
    (hz1 : P1.z ≠ 0) (hz2 : P2.z ≠ 0) (hE1 : OnCurveProj P1) (hE2 : OnCurveProj P2) :
    (P1.Reduce.x ≠ P2.Reduce.x → EC (Secp256K1.Add P1 P2).Reduce = true) ∧
      (P1.y ≠ 0 → EC (Double P1).Reduce = true) := by
  obtain ⟨A, hA⟩ := exists_represents h1 hz1 hE1
  obtain ⟨B, hB⟩ := exists_represents h2 hz2 hE2
  constructor
  · intro hx
    rw [Reduce_Add_eq_AddDirect h1 h2 hz1 hz2 hx]
    exact (AddDirect_spec hA.2.2 hB.2.2 hx).onCurve.2.2.2
  · intro _
    exact (Double_spec hA).2.2.onCurve.2.2.2

/-- C23 on the operands of `CheckDouble` and `CheckAdd`: both self-tests return true. -/
theorem claim_C23_witness :
    OnCurveProj G ∧ OnCurveProj (Double G) ∧ OnCurveProj (Secp256K1.Add G (Double G)) ∧
      CheckDouble = true ∧ CheckAdd = true :=
  ⟨by decide!, by decide!, by decide!,
    (claim_C23_projective_on_curve G G (by decide!) (by decide!) (by decide!) (by decide!)
      (by decide!) (by decide!)).2 (by decide!),
    (claim_C23_projective_on_curve (Double G) (Secp256K1.Add G (Double G)) (by decide!)
      (by decide!) (by decide!) (by decide!) (by decide!) (by decide!)).1 (by decide!)⟩

/-- C24: for every point `p` with `x, y < 2^256`, the 16 words written by `KEYBUFFCOMP(buff, p)`
are the big-endian 32-bit words of the padded SHA-256 block (one block of 64 bytes) of the 33
bytes that `GetPublicKey(true, p, dst)` writes (the byte `0x02` if `y` is even else `0x03`, then
`x` as 32 bytes, most significant first): the message, the byte `0x80`, zero bytes, and the bit
length `0x108` in the last word. -/
theorem claim_C24_KEYBUFFCOMP (p : Point) :
    p.x < 2 ^ 256 → p.y < 2 ^ 256 →
      KEYBUFFCOMP p = beWords (sha256Pad (GetPublicKey true p)) ∧
        GetPublicKey true p = [if p.y % 2 = 0 then 0x02 else 0x03] ++ Get32Bytes p.x ∧
        (GetPublicKey true p).length = 33 ∧ (sha256Pad (GetPublicKey true p)).length = 64 ∧
        (KEYBUFFCOMP p).getD 15 0 = 0x108 := by
  intro _ _
  have hG : GetPublicKey true p =
      [if p.y % 2 = 0 then 0x02 else 0x03] ++ Get32Bytes p.x := by
    show [if IsEven p.y then 0x2 else 0x3] ++ Get32Bytes p.x = _
    simp [IsEven]
  have hl : (GetPublicKey true p).length = 33 := by
    rw [hG, List.length_append, Get32Bytes_length]; rfl
  refine ⟨KEYBUFFCOMP_eq p, hG, hl, ?_, rfl⟩
  simp [sha256Pad, hl]

/-- C24 at `p = G`. -/
theorem claim_C24_witness :
    KEYBUFFCOMP G =
        [0x0279BE66, 0x7EF9DCBB, 0xAC55A062, 0x95CE870B, 0x07029BFC, 0xDB2DCE28, 0xD959F281,
          0x5B16F817, 0x98800000, 0x00000000, 0x00000000, 0x00000000, 0x00000000, 0x00000000,
          0x00000000, 0x00000108] ∧
      KEYBUFFCOMP G = beWords (sha256Pad (GetPublicKey true G)) :=
  ⟨by decide!, (claim_C24_KEYBUFFCOMP G (by decide!) (by decide!)).1⟩

/-- C25: for every point `p` with `x, y < 2^256`, the 32 words written by
`KEYBUFFUNCOMP(buff, p)` are the big-endian 32-bit words of the padded SHA-256 message (two
blocks of 64 bytes) of the 65 bytes that `GetPublicKey(false, p, dst)` writes (the byte `0x04`,
`x` as 32 bytes, `y` as 32 bytes, most significant first): the message, the byte `0x80`, zero
bytes, and the bit length `0x208` in the last word. -/
theorem claim_C25_KEYBUFFUNCOMP (p : Point) :
    p.x < 2 ^ 256 → p.y < 2 ^ 256 →
      KEYBUFFUNCOMP p = beWords (sha256Pad (GetPublicKey false p)) ∧
        GetPublicKey false p = [0x04] ++ Get32Bytes p.x ++ Get32Bytes p.y ∧
        (GetPublicKey false p).length = 65 ∧ (sha256Pad (GetPublicKey false p)).length = 128 ∧
        (KEYBUFFUNCOMP p).getD 31 0 = 0x208 := by
  intro _ _
  have hl : (GetPublicKey false p).length = 65 := by
    show ([0x4] ++ Get32Bytes p.x ++ Get32Bytes p.y).length = 65
    rw [List.length_append, List.length_append, Get32Bytes_length, Get32Bytes_length]; rfl
  refine ⟨KEYBUFFUNCOMP_eq p, rfl, hl, ?_, rfl⟩
  simp [sha256Pad, hl]

/-- C25 at `p = G`. -/
theorem claim_C25_witness :
    KEYBUFFUNCOMP G =
        [0x0479BE66, 0x7EF9DCBB, 0xAC55A062, 0x95CE870B, 0x07029BFC, 0xDB2DCE28, 0xD959F281,
          0x5B16F817, 0x98483ADA, 0x7726A3C4, 0x655DA4FB, 0xFC0E1108, 0xA8FD17B4, 0x48A68554,
          0x199C47D0, 0x8FFB10D4, 0xB8800000, 0x00000000, 0x00000000, 0x00000000, 0x00000000,
          0x00000000, 0x00000000, 0x00000000, 0x00000000, 0x00000000, 0x00000000, 0x00000000,
          0x00000000, 0x00000000, 0x00000000, 0x00000208] ∧
      KEYBUFFUNCOMP G = beWords (sha256Pad (GetPublicKey false G)) :=
  ⟨by decide!, (claim_C25_KEYBUFFUNCOMP G (by decide!) (by decide!)).1⟩

/-- C27: with the hash and encoding services taken as functions (a hash of 20 bytes, a checksum
service that writes 4 bytes): `GetAddress(P2PKH, compressed, h)` is `EncodeBase58` of the 25
bytes `0x00 || h || c` with `c = sha256_checksum(0x00 || h)`; for `P2SH` the same with the
version byte `0x05`; for `BECH32` it is `segwit_addr_encode` with the human-readable part "bc",
witness version 0 and program `h`; and for these three types the overload on a point returns,
for a compressed key, the string of the overload on the hash
`GetHash160(type, compressed, pubKey)`. -/
theorem claim_C27_GetAddress (S : Services) (c : Bool) (h : List ℕ) (a0 : Buffer)
    (hlen : h.length = 20) (hck : ∀ m, (S.sha256_checksum m).length = 4) :
    GetAddress S P2PKH c h a0 =
        S.EncodeBase58 ([0x00] ++ h ++ S.sha256_checksum ([0x00] ++ h)) ∧
      GetAddress S P2SH c h a0 =
        S.EncodeBase58 ([0x05] ++ h ++ S.sha256_checksum ([0x05] ++ h)) ∧
      GetAddress S BECH32 c h a0 = S.segwit_addr_encode "bc".toList 0 h ∧
      ∀ (type : ℕ) (pk : Point) (h0 : List ℕ), type = P2PKH ∨ type = P2SH ∨ type = BECH32 →
        GetAddressPoint S type true pk a0 =
          GetAddress S type true (GetHash160 S type true pk h0) a0 :=
  ⟨GetAddress_base58 S P2PKH 0x00 c h a0 (Or.inl ⟨rfl, rfl⟩) hlen (hck _),
    GetAddress_base58 S P2SH 0x05 c h a0 (Or.inr ⟨rfl, rfl⟩) hlen (hck _),
    GetAddress_bech32 S c h a0 hlen,
    fun _ pk h0 ht => GetAddressPoint_eq S ht true pk a0 h0 (Or.inr rfl)⟩

/-- C27 with services that return their input tagged: the checksum service returns
`1, 2, 3, 4` and `EncodeBase58` returns the characters with the codes of the bytes. -/
theorem claim_C27_witness :
    GetAddress ⟨id, id, id, fun _ => [1, 2, 3, 4], id, fun l => l.map Char.ofNat,
        fun hrp _ prog => hrp ++ prog.map Char.ofNat⟩ P2SH true
        [65, 66, 67, 68, 69, 70, 71, 72, 73, 74, 75, 76, 77, 78, 79, 80, 81, 82, 83, 84]
        (fun _ => 255) =
      ([0x05] ++ [65, 66, 67, 68, 69, 70, 71, 72, 73, 74, 75, 76, 77, 78, 79, 80, 81, 82, 83,
        84] ++ [1, 2, 3, 4]).map Char.ofNat :=
  (claim_C27_GetAddress ⟨id, id, id, fun _ => [1, 2, 3, 4], id, fun l => l.map Char.ofNat,
      fun hrp _ prog => hrp ++ prog.map Char.ofNat⟩ true
    [65, 66, 67, 68, 69, 70, 71, 72, 73, 74, 75, 76, 77, 78, 79, 80, 81, 82, 83, 84]
    (fun _ => 255) (by decide) (fun _ => rfl)).2.1

/-- C28: for all points `P1`, `P2` with coordinates in `[0, p)`, `z1 ≠ 0` and `z2 ≠ 0`: when
`V = X2 * Z1 - X1 * Z2` is not zero modulo `p`, `Add(P1, P2)` has `z ≠ 0`, and so has
`Add2(P1, P2)` when `z2 = 1` (there `V = X2 * Z1 - X1`); and when `y1 ≠ 0`, `Double(P1)` has
`z ≠ 0`. -/
theorem claim_C28_z_ne_zero (P1 P2 : Point) (h1 : P1.InField) (h2 : P2.InField)
    (hz1 : P1.z ≠ 0) (hz2 : P2.z ≠ 0) :
    (ModSub (ModMulK1 P2.x P1.z) (ModMulK1 P1.x P2.z) ≠ 0 → (Secp256K1.Add P1 P2).z ≠ 0) ∧
      (P2.z = 1 → ModSub (ModMulK1 P2.x P1.z) P1.x ≠ 0 → (Add2 P1 P2).z ≠ 0) ∧
      (P1.y ≠ 0 → (Double P1).z ≠ 0) := by
  refine ⟨?_, ?_, ?_⟩
  · intro hV
    exact Add_z_ne_zero h1 h2 hz1 hz2 (Reduce_x_ne_of_V_ne h1 h2 hz1 hz2 hV)
  · intro hz hV
    rw [Add2_eq_Add h1 hz]
    apply Add_z_ne_zero h1 h2 hz1 hz2
    apply Reduce_x_ne_of_V_ne h1 h2 hz1 hz2
    rw [hz, ModMulK1_one h1.1]
    exact hV
  · intro hy
    exact Double_z_ne_zero h1 hz1 hy

/-- C28 at `P1 = Double(G)` and `P2 = G`. -/
theorem claim_C28_witness :
    (Secp256K1.Add (Double G) G).z ≠ 0 ∧ (Add2 (Double G) G).z ≠ 0 ∧
      (Double (Double G)).z ≠ 0 :=
  ⟨(claim_C28_z_ne_zero (Double G) G (by decide!) (by decide!) (by decide!) (by decide!)).1
      (by decide!),
    (claim_C28_z_ne_zero (Double G) G (by decide!) (by decide!) (by decide!) (by decide!)).2.1
      rfl (by decide!),
    (claim_C28_z_ne_zero (Double G) G (by decide!) (by decide!) (by decide!) (by decide!)).2.2
      (by decide!)⟩

/-- C29 fails on the code: for `G` and `-G` (`V1 == V2`, `U1 != U2`, `y ≠ 0`, `z ≠ 0`) the
result of `Secp256K1::Add` has `x = 0` and `z = 0` but `y ≠ 0`, so `isZero()` is false. -/
theorem claim_C29_counterexample :
    ModMulK1 negG.x G.z = ModMulK1 G.x negG.z ∧ ModMulK1 negG.y G.z ≠ ModMulK1 G.y negG.z ∧
      (Secp256K1.Add G negG).x = 0 ∧ (Secp256K1.Add G negG).z = 0 ∧
      (Secp256K1.Add G negG).y ≠ 0 ∧ (Secp256K1.Add G negG).isZero = false := by
  decide!

/-- C29, what the code does: `Secp256K1::Add` has no branch for `V1 == V2`.  For all points
`P1`, `P2` with coordinates in `[0, p)` and `z ≠ 0`, when `V1 == V2` and `U1 != U2` the result
is `(0, Y, 0)` with `Y ≠ 0`: it has `z = 0` (the point at infinity in projective coordinates),
but `isZero()` is false for it; `isZero()` becomes true only after `Reduce`, which gives
`(0, 0, 1)`.  `Point::Add` returns the same triple.  The ordinate `Y` is the number below `p`
that is `-(U1 - U2)³ Z1 Z2` in the field, with `U1 = Y2 Z1` and `U2 = Y1 Z2`. -/
theorem claim_C29_add_opposite (P1 P2 : Point) (h1 : P1.InField) (h2 : P2.InField)
    (hz1 : P1.z ≠ 0) (hz2 : P2.z ≠ 0) (hV : ModMulK1 P2.x P1.z = ModMulK1 P1.x P2.z)
    (hU : ModMulK1 P2.y P1.z ≠ ModMulK1 P1.y P2.z) :
    (Secp256K1.Add P1 P2).x = 0 ∧ (Secp256K1.Add P1 P2).z = 0 ∧
      (Secp256K1.Add P1 P2).y ≠ 0 ∧ (Secp256K1.Add P1 P2).isZero = false ∧
      (Secp256K1.Add P1 P2).Reduce = ⟨0, 0, 1⟩ ∧
      (Secp256K1.Add P1 P2).Reduce.isZero = true ∧ P1.Add P2 = Secp256K1.Add P1 P2 ∧
      (Secp256K1.Add P1 P2).y < prime ∧
      ((Secp256K1.Add P1 P2).y : ZMod prime) =
        -(((P2.y : ZMod prime) * P1.z - P1.y * P2.z) ^ 3 * ((P1.z : ZMod prime) * P2.z)) := by
  have hy := Add_y_ne_zero_of_V_eq h1 h2 hz1 hz2 hV hU
  have hx : (Secp256K1.Add P1 P2).x = 0 := by rw [Add_of_V_eq hV]
  have hz : (Secp256K1.Add P1 P2).z = 0 := by rw [Add_of_V_eq hV]
  have hR := Reduce_of_z_zero hz
  have hne : P1.equals P2 = false := by
    rw [← Bool.not_eq_true]
    intro he
    simp only [Point.equals, Bool.and_eq_true, beq_iff_eq] at he
    apply hU
    rw [he.1.2, he.2]
  refine ⟨hx, hz, hy, ?_, hR, ?_, PointAdd_eq_Add hne, (Add_y_of_V_eq hV).1,
    (Add_y_of_V_eq hV).2⟩
  · simp [Point.isZero, hx, hy]
  · rw [hR]; rfl

/-- C29 (what the code does) at `P1 = G`, `P2 = -G`. -/
theorem claim_C29_witness :
    (Secp256K1.Add G negG).x = 0 ∧ (Secp256K1.Add G negG).z = 0 ∧
      (Secp256K1.Add G negG).Reduce.isZero = true :=
  ⟨(claim_C29_add_opposite G negG (by decide!) (by decide!) (by decide!) (by decide!)
      (by decide!) (by decide!)).1,
    (claim_C29_add_opposite G negG (by decide!) (by decide!) (by decide!) (by decide!)
      (by decide!) (by decide!)).2.1,
    (claim_C29_add_opposite G negG (by decide!) (by decide!) (by decide!) (by decide!)
      (by decide!) (by decide!)).2.2.2.2.2.1⟩

/-- C30 fails on the code: `Secp256K1::Add(G, G)` (`V1 == V2`, `U1 == U2`) returns `(0, 0, 0)`,
which is not a representation of `Double(G)` (whose `z` is not zero); and `Point::Add` on `G`
and the scaled triple `(2 G.x, 2 G.y, 2)` of the same affine point returns `(0, 0, 0)` too. -/
theorem claim_C30_counterexample :
    Secp256K1.Add G G = ⟨0, 0, 0⟩ ∧ (Double G).z ≠ 0 ∧ (Double G).Reduce ≠ ⟨0, 0, 1⟩ ∧
      (⟨ModDouble G.x, ModDouble G.y, 2⟩ : Point).Reduce = G ∧
      G.Add ⟨ModDouble G.x, ModDouble G.y, 2⟩ = ⟨0, 0, 0⟩ ∧
      Secp256K1.Add G ⟨ModDouble G.x, ModDouble G.y, 2⟩ = ⟨0, 0, 0⟩ := by
  decide!

/-- C30, what the code does: when `V1 == V2` and `U1 == U2`, `Secp256K1::Add` returns the triple
`(0, 0, 0)`; `Point::Add` returns `Point::Double` of the first operand only when the two operands
are the same triple (its `equals` branch), and `(0, 0, 0)` otherwise. -/
theorem claim_C30_add_same_point (P1 P2 : Point)
    (hV : ModMulK1 P2.x P1.z = ModMulK1 P1.x P2.z)
    (hU : ModMulK1 P2.y P1.z = ModMulK1 P1.y P2.z) :
    Secp256K1.Add P1 P2 = ⟨0, 0, 0⟩ ∧ (P1.equals P2 = false → P1.Add P2 = ⟨0, 0, 0⟩) ∧
      (P1.equals P2 = true → P1.Add P2 = P1.Double) := by
  refine ⟨Add_of_V_eq_U_eq hV hU, ?_, PointAdd_of_equals⟩
  intro hne
  rw [PointAdd_eq_Add hne]
  exact Add_of_V_eq_U_eq hV hU

/-- C30 (what the code does) at `P1 = P2 = G`. -/
theorem claim_C30_witness :
    Secp256K1.Add G G = ⟨0, 0, 0⟩ ∧ G.Add G = G.Double :=
  ⟨(claim_C30_add_same_point G G rfl rfl).1,
    (claim_C30_add_same_point G G rfl rfl).2.2 (by decide)⟩

end Secp256K1

/-! ## The claims C31 to C38 -/

namespace Secp256K1

open BigInt WeierstrassCurve

/-- C31: for five limbs below `2 ^ 64` and a shift count `n` with `1 ≤ n ≤ 63`, the limbs after
`shiftR(n, d)` are below `2 ^ 64` and their value as a 320-bit number in two's complement is the
floor of the old signed value divided by `2 ^ n` (the quotient `q` with
`2 ^ n * q ≤ old < 2 ^ n * (q + 1)`); the new top limb is the old one shifted with the sign bit
copied into the `n` vacated bits. -/
theorem claim_C31_shiftR (d : Limbs) (n : ℕ) (hd : d.IsU64) : 1 ≤ n → n ≤ 63 →
    (shiftR n d).IsU64 ∧ (shiftR n d).signedValue = d.signedValue / 2 ^ n ∧
      2 ^ n * (shiftR n d).signedValue ≤ d.signedValue ∧
      d.signedValue < 2 ^ n * ((shiftR n d).signedValue + 1) ∧
      shiftR n d 4 = d 4 / 2 ^ n + (if 2 ^ 63 ≤ d 4 then 2 ^ 64 - 2 ^ (64 - n) else 0) := by
  intro _ h63
  have h64 : n ≤ 64 := by omega
  have hq : (0 : ℤ) < 2 ^ n := by positivity
  refine ⟨shiftR_IsU64 d n hd h64, shiftR_signedValue d n hd h64, ?_, ?_,
    shiftR_top d n (hd 4 (by decide)) h64⟩
  · rw [shiftR_signedValue d n hd h64]
    exact Int.mul_ediv_self_le hq.ne'
  · rw [shiftR_signedValue d n hd h64, mul_add, mul_one]
    exact Int.lt_mul_ediv_self_add hq

/-- C31 at a negative value: the limbs `1, 2, 3, 4, 0x8000000000000005` shifted by 4 bits. -/
theorem claim_C31_witness :
    (shiftR 4 (Limbs.mk5 1 2 3 4 0x8000000000000005)).signedValue =
        (Limbs.mk5 1 2 3 4 0x8000000000000005).signedValue / 2 ^ 4 ∧
      shiftR 4 (Limbs.mk5 1 2 3 4 0x8000000000000005) 4 = 0xF800000000000000 :=
  ⟨(claim_C31_shiftR (Limbs.mk5 1 2 3 4 0x8000000000000005) 4 (by decide) (by decide)
      (by decide)).2.1,
    by decide⟩

/-- C32 fails on the code: for `x = (0, 0, 0, 0xFFFFFFFFFFFFFFFF, 1)` and
`y = 0xFFFFFFFFFFFFFFFF` the addition into `dst[4]` carries, the carry is lost, `imm_mul` stores
`0` in `*carryH`, and `dst + carryH * 2 ^ 320` is `2 ^ 320` less than `x * y`. -/
theorem claim_C32_counterexample :
    (Limbs.mk5 0 0 0 0xFFFFFFFFFFFFFFFF 1).IsU64 ∧
      (imm_mul (Limbs.mk5 0 0 0 0xFFFFFFFFFFFFFFFF 1) 0xFFFFFFFFFFFFFFFF (fun _ => 0)).2 = 0 ∧
      (imm_mulRun (Limbs.mk5 0 0 0 0xFFFFFFFFFFFFFFFF 1) 0xFFFFFFFFFFFFFFFF (fun _ => 0)).2.2
        = 1 ∧
      (imm_mul (Limbs.mk5 0 0 0 0xFFFFFFFFFFFFFFFF 1) 0xFFFFFFFFFFFFFFFF (fun _ => 0)).1.value +
          (imm_mul (Limbs.mk5 0 0 0 0xFFFFFFFFFFFFFFFF 1) 0xFFFFFFFFFFFFFFFF (fun _ => 0)).2 *
            2 ^ 320 + 2 ^ 320 =
        (Limbs.mk5 0 0 0 0xFFFFFFFFFFFFFFFF 1).value * 0xFFFFFFFFFFFFFFFF ∧
      (imm_mul (Limbs.mk5 0 0 0 0xFFFFFFFFFFFFFFFF 1) 0xFFFFFFFFFFFFFFFF (fun _ => 0)).1.value +
          (imm_mul (Limbs.mk5 0 0 0 0xFFFFFFFFFFFFFFFF 1) 0xFFFFFFFFFFFFFFFF (fun _ => 0)).2 *
            2 ^ 320 ≠
        (Limbs.mk5 0 0 0 0xFFFFFFFFFFFFFFFF 1).value * 0xFFFFFFFFFFFFFFFF := by
  decide!

/-- C32, what the code does: for five limbs `x` and a word `y` below `2 ^ 64`, `imm_mul` stores
five limbs below `2 ^ 64` in `dst` and the high word of `x[4] * y` in `*carryH`; the carry `c`
of the last addition (into `dst[4]`) is not added to it, so that
`dst + (carryH + c) * 2 ^ 320 = x * y` with `c ≤ 1`, and `dst + carryH * 2 ^ 320 = x * y` holds
exactly when that addition does not carry; it does not carry when `x[4] = 0`, where `carryH` is
`0`. -/
theorem claim_C32_imm_mul_drops_carry (x : Limbs) (y : ℕ) (dst : Limbs) (hx : x.IsU64)
    (hy : y < 2 ^ 64) :
    (imm_mul x y dst).1.value + ((imm_mul x y dst).2 + (imm_mulRun x y dst).2.2) * 2 ^ 320 =
        x.value * y ∧
      (imm_mul x y dst).1.IsU64 ∧ (imm_mul x y dst).2 < 2 ^ 64 ∧ (imm_mulRun x y dst).2.2 ≤ 1 ∧
      ((imm_mul x y dst).1.value + (imm_mul x y dst).2 * 2 ^ 320 = x.value * y ↔
        (imm_mulRun x y dst).2.2 = 0) ∧
      (x 4 = 0 → (imm_mul x y dst).2 = 0 ∧ (imm_mul x y dst).1.value = x.value * y) := by
  obtain ⟨h1, h2, h3, h4⟩ := imm_mulRun_spec x y dst hx hy
  have e1 : (imm_mul x y dst).1 = (imm_mulRun x y dst).1 := rfl
  have e2 : (imm_mul x y dst).2 = (imm_mulRun x y dst).2.1 := rfl
  rw [e1, e2]
  refine ⟨h1, h2, h3, h4, ?_, ?_⟩
  · rw [← h1]
    generalize (imm_mulRun x y dst).2.2 = c
    generalize (imm_mulRun x y dst).2.1 = a
    generalize (imm_mulRun x y dst).1.value = v
    constructor <;> intro h <;> omega
  · intro h0
    obtain ⟨ha, hc⟩ := imm_mulRun_of_top_zero x y dst hx hy h0
    simp only [ha, hc, add_zero, zero_mul] at h1
    exact ⟨ha, h1⟩

/-- C32 (what the code does) at `x = 2 ^ 256 - 1` (top limb zero) and `y = 0xFFFFFFFFFFFFFFFF`:
the product is exact. -/
theorem claim_C32_witness :
    (imm_mul (Limbs.mk5 0xFFFFFFFFFFFFFFFF 0xFFFFFFFFFFFFFFFF 0xFFFFFFFFFFFFFFFF
        0xFFFFFFFFFFFFFFFF 0) 0xFFFFFFFFFFFFFFFF (fun _ => 0)).1.value =
      (Limbs.mk5 0xFFFFFFFFFFFFFFFF 0xFFFFFFFFFFFFFFFF 0xFFFFFFFFFFFFFFFF
        0xFFFFFFFFFFFFFFFF 0).value * 0xFFFFFFFFFFFFFFFF :=
  ((claim_C32_imm_mul_drops_carry (Limbs.mk5 0xFFFFFFFFFFFFFFFF 0xFFFFFFFFFFFFFFFF
    0xFFFFFFFFFFFFFFFF 0xFFFFFFFFFFFFFFFF 0) 0xFFFFFFFFFFFFFFFF (fun _ => 0) (by decide)
    (by decide)).2.2.2.2.2 rfl).2

/-- C33: for limbs `x` below `2 ^ 64` with `x[4] = 0` and a word `y` below `2 ^ 64`, the five
limbs of `dst` after `imm_umul(x, y, dst)` are below `2 ^ 64` and hold `x * y`, and the last
`_addcarry_u64` (into `dst[4]`) returns no carry. -/
theorem claim_C33_imm_umul (x : Limbs) (y : ℕ) (dst : Limbs) (hx : x.IsU64) (hy : y < 2 ^ 64)
    (h4 : x 4 = 0) :
    (imm_umul x y dst).value = x.value * y ∧ (imm_umul x y dst).IsU64 ∧
      (imm_umulRun x y dst).2 = 0 := by
  obtain ⟨h1, h2, h3⟩ := imm_umulRun_spec x y dst hx hy
  refine ⟨?_, h2, h3⟩
  show (imm_umulRun x y dst).1.value = x.value * y
  rw [h1]
  unfold Limbs.value
  rw [h4, zero_mul, add_zero]

/-- C33 at `x = 2 ^ 256 - 1` and `y = 0xFFFFFFFFFFFFFFFF`, the largest operands. -/
theorem claim_C33_witness :
    (imm_umul (Limbs.mk5 0xFFFFFFFFFFFFFFFF 0xFFFFFFFFFFFFFFFF 0xFFFFFFFFFFFFFFFF
        0xFFFFFFFFFFFFFFFF 0) 0xFFFFFFFFFFFFFFFF (fun _ => 0)).value =
      (2 ^ 256 - 1) * (2 ^ 64 - 1) := by
  have h := (claim_C33_imm_umul (Limbs.mk5 0xFFFFFFFFFFFFFFFF 0xFFFFFFFFFFFFFFFF
    0xFFFFFFFFFFFFFFFF 0xFFFFFFFFFFFFFFFF 0) 0xFFFFFFFFFFFFFFFF (fun _ => 0) (by decide)
    (by decide) rfl).1
  rw [h]
  decide

/-- C34: every subscript of `GTable` that `ComputePublicKey` reads is in `[0, 8192)`.  For a key
with a nonzero byte among its low 32 bytes each subscript is `256 * i + (b - 1)` for a byte
`b = GetByte(i)` with `i < 32` and `1 ≤ b ≤ 255`, so the slot `j = 255` of a row is not read.
For a key whose low 32 bytes are zero the search loop ends with `i = 32`, `b = 0`, the only
subscript read is `8191`, and the function returns `Reduce(GTable[8191])`.  The table entries
passed to `Add2` are those at the subscripts after the first. -/
theorem claim_C34_table_subscripts (k : ℕ) :
    (∀ j ∈ ComputePublicKeyReads k, 0 ≤ j ∧ j < 8192) ∧
      ((∃ i, i < 32 ∧ BigInt.GetByte k i ≠ 0) → ∀ j ∈ ComputePublicKeyReads k,
        ∃ i b, i < 32 ∧ b = BigInt.GetByte k i ∧ 1 ≤ b ∧ b ≤ 255 ∧
          j = ((256 * i + (b - 1) : ℕ) : ℤ) ∧ j % 256 ≠ 255) ∧
      ((∀ i, i < 32 → BigInt.GetByte k i = 0) →
        searchFirstByte k 32 (0, 0) = (32, 0) ∧ ComputePublicKeyReads k = [8191] ∧
          ComputePublicKey k = (GTable 8191).Reduce) ∧
      (ComputePublicKeyCalls k).map Prod.snd =
        (ComputePublicKeyReads k).tail.map (fun j => GTable j.toNat) := by
  have hgood : (∃ i, i < 32 ∧ BigInt.GetByte k i ≠ 0) → ∀ j ∈ ComputePublicKeyReads k,
      ∃ i b, i < 32 ∧ b = BigInt.GetByte k i ∧ 1 ≤ b ∧ b ≤ 255 ∧
        j = ((256 * i + (b - 1) : ℕ) : ℤ) ∧ j % 256 ≠ 255 := by
    intro h
    apply ComputePublicKeyReads_nonzero k h
    intro i hi hb
    have hlt := GetByte_lt k i
    obtain ⟨-, -, h3, h4⟩ := tableSubscript_bounds i _ hi hb hlt
    exact ⟨i, _, hi, rfl, by omega, by omega, h4, h3⟩
  refine ⟨?_, hgood, ComputePublicKey_zero_bytes k, ComputePublicKeyCalls_reads k⟩
  by_cases h : ∃ i, i < 32 ∧ BigInt.GetByte k i ≠ 0
  · intro j hj
    obtain ⟨i, b, hi, -, hb1, hb2, hj', -⟩ := hgood h j hj
    omega
  · have h0 : ∀ i, i < 32 → BigInt.GetByte k i = 0 := by
      intro i hi
      by_contra hne
      exact h ⟨i, hi, hne⟩
    rw [(ComputePublicKey_zero_bytes k h0).2.1]
    intro j hj
    rw [List.mem_singleton.1 hj]
    decide

/-- C34 at the key `0x0300000000` (bytes 0 to 3 zero, byte 4 equal to 3): one subscript,
`256 * 4 + 2`; and at the key `2 ^ 256`, whose low 32 bytes are zero. -/
theorem claim_C34_witness :
    (∀ j ∈ ComputePublicKeyReads 0x0300000000,
        ∃ i b, i < 32 ∧ b = BigInt.GetByte 0x0300000000 i ∧ 1 ≤ b ∧ b ≤ 255 ∧
          j = ((256 * i + (b - 1) : ℕ) : ℤ) ∧ j % 256 ≠ 255) ∧
      ComputePublicKeyReads 0x0300000000 = [1026] ∧
      ComputePublicKeyReads (2 ^ 256) = [8191] :=
  ⟨(claim_C34_table_subscripts 0x0300000000).2.1 ⟨4, by decide, by decide⟩, by decide,
    ((claim_C34_table_subscripts (2 ^ 256)).2.2.1 (by decide)).2.1⟩

/-- C35: `Point::Set(const Point& p)` copies `x` and `y` only: after `q.Set(p)` the receiver
has `x = p.x`, `y = p.y` and its old `z`, and `q.equals(p)` holds afterwards exactly when the old
`q.z` equals `p.z`; the copy constructor and `Set(cx, cy, cz)` copy the three coordinates. -/
theorem claim_C35_Set_keeps_z (q p : Point) :
    (q.Set p).x = p.x ∧ (q.Set p).y = p.y ∧ (q.Set p).z = q.z ∧
      ((q.Set p).equals p = true ↔ q.z = p.z) ∧
      (Point.Copy p).equals p = true ∧ Point.Copy p = p ∧
      (q.SetCoords p.x p.y p.z).equals p = true ∧ q.SetCoords p.x p.y p.z = p := by
  refine ⟨rfl, rfl, rfl, ?_, ?_, rfl, ?_, rfl⟩
  · simp [Point.Set, Point.equals]
  · simp [Point.Copy, Point.equals]
  · simp [Point.SetCoords, Point.equals]

/-- C36: for every point `P` with `z = 1` and coordinates in `[0, p)` (on the curve or not)
whose `x` differs from `G.x` and for which `NextKey(P).x` differs from `G.x`,
`PrevKey(NextKey(P))` is `P` in `x`, `y` and `z`. -/
theorem claim_C36_PrevKey_NextKey (P : Point) (hz : P.z = 1) (hx : P.x < prime)
    (hy : P.y < prime) (h1 : P.x ≠ G.x) (h2 : (NextKey P).x ≠ G.x) :
    PrevKey (NextKey P) = P ∧ (PrevKey (NextKey P)).x = P.x ∧
      (PrevKey (NextKey P)).y = P.y ∧ (PrevKey (NextKey P)).z = P.z := by
  have h := PrevKey_NextKey P hz hx hy h1 h2
  rw [h]
  exact ⟨rfl, rfl, rfl, rfl⟩

/-- C36 at the point `2G` of the curve, and the value of `NextKey(2G)`, the point `3G`. -/
theorem claim_C36_witness :
    PrevKey (NextKey (DoubleDirect G)) = DoubleDirect G ∧
      NextKey (DoubleDirect G) =
        ⟨0xF9308A019258C31049344F85F89D5229B531C845836F99B08601F113BCE036F9,
          0x388F7B0F632DE8140FE337E62A37F3566500A99934C2231B6CB9FD7584B8E672, 1⟩ :=
  ⟨(claim_C36_PrevKey_NextKey (DoubleDirect G) rfl (by decide!) (by decide!) (by decide!)
      (by decide!)).1,
    by decide!⟩

/-- C37: with `compressed = false`, `GetAddress(type, compressed, pubKey)` returns the string
`" P2SH: Only compressed key "` for `P2SH` and `" BECH32: Only compressed key "` for `BECH32`,
whatever the services compute, and it returns them without a call of a service: the body run as
a computation that records every service call (`GetAddressPointRun`, which returns what
`GetAddressPoint` returns for every type, flag and earlier calls) leaves the list of calls as it
was.  For `P2PKH` and both values of `compressed` the same computation calls a hash of the key,
`ripemd160_32`, `sha256_checksum` and `EncodeBase58`, and (with a hash of twenty bytes and a
checksum of four) the string returned is the Base58 string of `00 || hash160 || checksum`. -/
theorem claim_C37_only_compressed (S : Services) (pk : Point) (a0 : Buffer)
    (hrip : ∀ m, (S.ripemd160_32 m).length = 20) (hck : ∀ m, (S.sha256_checksum m).length = 4) :
    GetAddressPoint S P2SH false pk a0 = " P2SH: Only compressed key ".toList ∧
      GetAddressPoint S BECH32 false pk a0 = " BECH32: Only compressed key ".toList ∧
      (∀ log, GetAddressPointRun S P2SH false pk a0 log =
        (" P2SH: Only compressed key ".toList, log)) ∧
      (∀ log, GetAddressPointRun S BECH32 false pk a0 log =
        (" BECH32: Only compressed key ".toList, log)) ∧
      (∀ type c log, (GetAddressPointRun S type c pk a0 log).1 = GetAddressPoint S type c pk a0) ∧
      (∀ log, (GetAddressPointRun S P2SH true pk a0 log).2 =
        log ++ [ServiceCall.sha256_33, ServiceCall.ripemd160_32, ServiceCall.sha256,
          ServiceCall.ripemd160_32, ServiceCall.sha256_checksum, ServiceCall.EncodeBase58]) ∧
      ∀ c : Bool,
        (GetAddressPointRun S P2PKH c pk a0 []).2 =
            [if c then ServiceCall.sha256_33 else ServiceCall.sha256_65,
              ServiceCall.ripemd160_32, ServiceCall.sha256_checksum,
              ServiceCall.EncodeBase58] ∧
          GetAddressPoint S P2PKH c pk a0 =
            S.EncodeBase58 ([0x00] ++ GetHash160 S P2PKH c pk [] ++
              S.sha256_checksum ([0x00] ++ GetHash160 S P2PKH c pk [])) := by
  refine ⟨rfl, rfl, fun log => (GetAddressPointRun_refused S pk a0 log).1,
    fun log => (GetAddressPointRun_refused S pk a0 log).2,
    fun type c log => GetAddressPointRun_fst S type c pk a0 log,
    fun log => GetAddressPointRun_P2SH_calls S pk a0 log,
    fun c => ⟨?_, ?_⟩⟩
  · rw [GetAddressPointRun_P2PKH_calls S c pk a0 [], List.nil_append]
  · rw [GetAddressPoint_eq S (Or.inl rfl) c pk a0 [] (Or.inl rfl)]
    exact GetAddress_base58 S P2PKH 0x00 c _ a0 (Or.inl ⟨rfl, rfl⟩) (hrip _) (hck _)

/-- C37 with services that return fixed bytes and a Base58 service that shows its input: the
refused call returns its string and records no call; the `P2PKH` call on an uncompressed key
returns the 25 bytes. -/
theorem claim_C37_witness :
    GetAddressPointRun ⟨id, id, id, fun _ => [1, 2, 3, 4], fun _ => List.replicate 20 7,
        fun l => l.map Char.ofNat, fun hrp _ prog => hrp ++ prog.map Char.ofNat⟩ P2SH false G
        (fun _ => 255) [] = (" P2SH: Only compressed key ".toList, []) ∧
      GetAddressPoint ⟨id, id, id, fun _ => [1, 2, 3, 4], fun _ => List.replicate 20 7,
        fun l => l.map Char.ofNat, fun hrp _ prog => hrp ++ prog.map Char.ofNat⟩ P2PKH false G
        (fun _ => 255) = ([0x00] ++ List.replicate 20 7 ++ [1, 2, 3, 4]).map Char.ofNat :=
  ⟨(claim_C37_only_compressed ⟨id, id, id, fun _ => [1, 2, 3, 4], fun _ => List.replicate 20 7,
      fun l => l.map Char.ofNat, fun hrp _ prog => hrp ++ prog.map Char.ofNat⟩ G (fun _ => 255)
      (fun _ => rfl) (fun _ => rfl)).2.2.1 [],
    ((claim_C37_only_compressed ⟨id, id, id, fun _ => [1, 2, 3, 4], fun _ => List.replicate 20 7,
      fun l => l.map Char.ofNat, fun hrp _ prog => hrp ++ prog.map Char.ofNat⟩ G (fun _ => 255)
      (fun _ => rfl) (fun _ => rfl)).2.2.2.2.2.2 false).2⟩

/-- C38: `DecodePrivateKey` reports a rejection through the returned integer only.  It returns
`0xFFFFFFFF` (`SetInt32(-1)`, a scalar in `[1, n)`) when the first character is not `5`, `K` or
`L`, and when the payload has not 37 bytes (`5`) or 38 bytes (`K`, `L`); it returns `0` when the
version byte is not `0x80` in the `5` branch; on these paths `*compressed` keeps its value.  In
the `K`/`L` branch the returned integer and flag depend on the bytes 1..32 of the payload only
(neither the version byte nor the byte after the key is tested). -/
theorem claim_C38_rejection_values (d : List Char → List ℕ) (sha : List ℕ → List ℕ)
    (key : List Char) (c : Bool) :
    (key.getD 0 (Char.ofNat 0) ≠ '5' → key.getD 0 (Char.ofNat 0) ≠ 'K' →
        key.getD 0 (Char.ofNat 0) ≠ 'L' →
        DecodePrivateKey d sha key c = (0xFFFFFFFF, c, [DecodeMessage.notWIF])) ∧
      (key.getD 0 (Char.ofNat 0) = '5' → (d key).length ≠ 37 →
        DecodePrivateKey d sha key c = (0xFFFFFFFF, c, [DecodeMessage.sizeNot37])) ∧
      (key.getD 0 (Char.ofNat 0) = 'K' ∨ key.getD 0 (Char.ofNat 0) = 'L' →
        (d key).length ≠ 38 →
        DecodePrivateKey d sha key c = (0xFFFFFFFF, c, [DecodeMessage.sizeNot38])) ∧
      (key.getD 0 (Char.ofNat 0) = '5' → (d key).length = 37 → (d key).getD 0 0 ≠ 0x80 →
        DecodePrivateKey d sha key c = (0, c, [DecodeMessage.wrongVersion])) ∧
      SetInt32 (-1) = 0xFFFFFFFF ∧ 1 ≤ 0xFFFFFFFF ∧ 0xFFFFFFFF < order ∧
      (key.getD 0 (Char.ofNat 0) = 'K' ∨ key.getD 0 (Char.ofNat 0) = 'L' →
        (d key).length = 38 →
        ∀ (d' : List Char → List ℕ) (sha' : List ℕ → List ℕ) (c' : Bool),
          (d' key).length = 38 →
          (∀ j, 1 ≤ j → j ≤ 32 → (d key).getD j 0 = (d' key).getD j 0) →
          (DecodePrivateKey d sha key c).1 = (DecodePrivateKey d' sha' key c').1 ∧
            (DecodePrivateKey d sha key c).2.1 = true ∧
            (DecodePrivateKey d' sha' key c').2.1 = true) :=
  ⟨DecodePrivateKey_notWIF d sha key c, DecodePrivateKey_size37 d sha key c,
    DecodePrivateKey_size38 d sha key c, DecodePrivateKey_version d sha key c,
    SetInt32_neg_one, by decide, by decide,
    fun hKL hlen d' sha' c' hlen' h =>
      DecodePrivateKey_KL_bytes d d' sha sha' key c c' hKL hlen hlen' h⟩

/-- C38 at the string `"xyz"` (not a WIF string), which is rejected with `0xFFFFFFFF`, and at a
payload of 37 bytes with version `0x80`, key bytes `00 .. 00 FF FF FF FF` and a matching
checksum, which is accepted with the same integer. -/
theorem claim_C38_witness :
    DecodePrivateKey (fun _ => []) (fun _ => [0, 0, 0, 0]) "xyz".toList true =
        (0xFFFFFFFF, true, [DecodeMessage.notWIF]) ∧
      DecodePrivateKey
        (fun _ => [0x80] ++ List.replicate 28 0 ++ [255, 255, 255, 255] ++ [9, 9, 9, 9])
        (fun _ => [9, 9, 9, 9]) "5".toList true = (0xFFFFFFFF, false, []) :=
  ⟨(claim_C38_rejection_values (fun _ => []) (fun _ => [0, 0, 0, 0]) "xyz".toList true).1
      (by decide) (by decide) (by decide),
    by decide!⟩

end Secp256K1
